import Mathlib

/-!
# tree_search.h: unranking a chess position from an index

A shallow embedding of `src/FcknFinalJessLol/tree_search.h`.

* `uint64_t` values are natural numbers below `2 ^ 64`; every `+`, `-` and `<<` of the
  source on them is written with an explicit `% 2 ^ 64`.
* `mpz_t` values are natural numbers (the index is never negative).
* `int` values are integers; where the source mixes `int` and `uint32_t` the conversions are
  written out with `toU32` / `toI32`.
* `exit(1)`, a failed `assert`, a read past the end of `children` and a division by zero all
  end the process; they are the `Fatal` outcomes of `Except Fatal`.
-/

namespace TreeSearch

/-! ## Fatal outcomes -/

/-- The ways in which the process ends without a result. -/
inductive Fatal where
  /-- A failed `assert(...)`. -/
  | assertion
  /-- The child scan of `point_root_to_matching_child` ran past the last child. -/
  | scan_past_last_child
  /-- The branch `printf("Couldn't place chessmen\n"); exit(1);`. -/
  | couldnt_place_chessmen
  /-- The branch `printf("Couldn't get permutation index\n"); exit(1);`. -/
  | couldnt_get_permutation_index
  /-- The branch `printf("Error switching on num_fixed_rooks\n"); exit(1);`. -/
  | error_switching_on_num_fixed_rooks
  /-- A division whose divisor is zero (`mpz_fdiv_qr_ui` or `/`). -/
  | division_by_zero
  /-- The navigation helper `navigate` was given too few steps. -/
  | out_of_steps
  deriving DecidableEq, Repr

deriving instance DecidableEq for Except

/-! ## Machine words -/

/-- The number of values of a `uint64_t`. -/
def U64 : Nat := 2 ^ 64

/-- Number of set bits among the low `w` bits of `x`. -/
def popcnt_bits : Nat → Nat → Nat
  | 0, _ => 0
  | w + 1, x => x % 2 + popcnt_bits w (x / 2)

/-- The intrinsic `_mm_popcnt_u64`: number of set bits of a 64-bit word. -/
def _mm_popcnt_u64 (x : Nat) : Nat := popcnt_bits 64 x

/-- Deposit of the low bits of `src` into the set bits of `mask`, over the low `w` bits. -/
def pdep_bits : Nat → Nat → Nat → Nat
  | 0, _, _ => 0
  | w + 1, src, mask =>
    if mask % 2 = 1 then src % 2 + 2 * pdep_bits w (src / 2) (mask / 2)
    else 2 * pdep_bits w src (mask / 2)

/-- The intrinsic `_pdep_u64`: the i-th lowest bit of `src` goes to the i-th lowest set bit of
`mask`; all other bits of the result are zero. -/
def _pdep_u64 (src mask : Nat) : Nat := pdep_bits 64 src mask

/-- Bitwise complement `~x` of a 64-bit word. -/
def not64 (x : Nat) : Nat := 2 ^ 64 - 1 - x % 2 ^ 64

/-! ## Combinatorial placement (lines 99-122) -/

/-- The `for` loop of `place_chessmen_relative_to_free_squares` (lines 108-119).
`todo` is the number of iterations left, `num_free_squares - (num_chessmen - 1) - i`;
`self` is the function itself at `num_chessmen - 1`, used for the recursive call.
Leaving the loop reaches `exit(1)`. -/
def place_loop (binomials : Nat → Nat → Nat) (self : Nat → Nat → Except Fatal Nat)
    (num_chessmen num_free_squares : Nat) : Nat → Nat → Nat → Except Fatal Nat
  | 0, _, _ => .error .couldnt_place_chessmen
  | todo + 1, i, index =>
    if index < binomials (num_free_squares - 1 - i) (num_chessmen - 1) then
      match self (num_free_squares - 1 - i) index with
      | .error e => .error e
      | .ok r =>
        let further_chessmen := (r * 2 ^ (i + 1)) % 2 ^ 64
        .ok ((2 ^ i + further_chessmen) % 2 ^ 64)
    else
      place_loop binomials self num_chessmen num_free_squares todo (i + 1)
        (index - binomials (num_free_squares - 1 - i) (num_chessmen - 1))

/-- The function `place_chessmen_relative_to_free_squares(num_chessmen, num_free_squares, index)`.
The table `binomials` of `tree_common.h` is a parameter. -/
def place_chessmen_relative_to_free_squares (binomials : Nat → Nat → Nat) :
    Nat → Nat → Nat → Except Fatal Nat
  | 0, _, _ => .ok 0
  | k + 1, num_free_squares, index =>
    place_loop binomials (place_chessmen_relative_to_free_squares binomials k) (k + 1)
      num_free_squares (num_free_squares - k) 0 index

/-- Proof device: the Pascal-rule recursion that the loop of
`place_chessmen_relative_to_free_squares` unfolds to. The lowest slot takes a chessman when
the rank is below `C(m, k)`; otherwise the rank drops by `C(m, k)` and the slot stays free. -/
def unrank : Nat → Nat → Nat → Option Nat
  | 0, _, _ => some 0
  | _ + 1, 0, _ => none
  | k + 1, m + 1, r =>
    if r < Nat.choose m k then (unrank k m r).map (fun q => 2 * q + 1)
    else (unrank (k + 1) m (r - Nat.choose m k)).map (fun q => 2 * q)

/-- An `Option` read as an outcome of the placement. -/
def placed_or_fatal : Option Nat → Except Fatal Nat
  | some p => .ok p
  | none => .error .couldnt_place_chessmen

/-! ## Tree navigation (lines 33-47) -/

/-- The struct `position_node` of `tree_common.h`, as far as this file uses it:
`num_positions` (an `mpz_t`) and the array `children`; `num_children` is its length. -/
inductive position_node where
  | mk (num_positions : Nat) (children : List position_node)

/-- The field `num_positions`. -/
def position_node.num_positions : position_node → Nat
  | .mk np _ => np

/-- The field `children`. -/
def position_node.children : position_node → List position_node
  | .mk _ cs => cs

/-- The field `num_children`. -/
def position_node.num_children (n : position_node) : Nat := n.children.length

/-- The `for` loop of `point_root_to_matching_child` (lines 36-41). The first argument is the
part of `children` from position `i` on, so that its head is `children[i]`. The source reads
`children[i]` without a bound check; reading past the last child is a fatal outcome (the
assertion of line 42 is what it would fail). Returns `(i, index, children[i])`. -/
def scan_children : List position_node → Nat → Nat → Except Fatal (Nat × Nat × position_node)
  | [], _, _ => .error .scan_past_last_child
  | c :: rest, i, index =>
    if index ≥ c.num_positions then scan_children rest (i + 1) (index - c.num_positions)
    else .ok (i, index, c)

/-- The function `point_root_to_matching_child(&root, index)`: the new `*root`, the new value
of `index`, and the returned ordinal. -/
def point_root_to_matching_child (root : position_node) (index : Nat) :
    Except Fatal (position_node × Nat × Nat) :=
  match scan_children root.children 0 index with
  | .error e => .error e
  | .ok (i, index', child) =>
    if i < root.num_children then .ok (child, index', i) else .error .assertion

/-- Sum of the `num_positions` of a list of nodes. -/
def sum_positions (cs : List position_node) : Nat := (cs.map position_node.num_positions).sum

/-- Sum of the sizes of the children `0 .. c-1` of a node. -/
def predecessor_sum (root : position_node) (c : Nat) : Nat := sum_positions (root.children.take c)

mutual
/-- The sum-of-children property of the decision tree: a leaf has `num_positions = 1`, an
internal node has the sum of its children's `num_positions`, at every node of the tree. -/
def position_node.sums_ok : position_node → Bool
  | .mk np cs => (if cs.isEmpty then np == 1 else np == sum_positions cs) && all_sums_ok cs
/-- Every node of the list has the sum-of-children property. -/
def all_sums_ok : List position_node → Bool
  | [] => true
  | c :: rest => c.sums_ok && all_sums_ok rest
end

mutual
/-- Number of levels below a node. -/
def position_node.height : position_node → Nat
  | .mk _ cs => heights cs
/-- One more than the largest height in a list (zero for the empty list). -/
def heights : List position_node → Nat
  | [] => 0
  | c :: rest => max (c.height + 1) (heights rest)
end

/-- Repeated `point_root_to_matching_child` from a node down to a leaf, at most `steps` times.
Returns the pairs `(cursor, index)` met on the way, the starting pair first. -/
def navigate : Nat → position_node → Nat → Except Fatal (List (position_node × Nat))
  | steps, root, index =>
    if root.children.isEmpty then .ok [(root, index)]
    else
      match steps with
      | 0 => .error .out_of_steps
      | steps + 1 =>
        match point_root_to_matching_child root index with
        | .error e => .error e
        | .ok (child, index', _) =>
          match navigate steps child index' with
          | .error e => .error e
          | .ok visited => .ok ((root, index) :: visited)

/-! ## Classification (lines 15-24, 250-313) -/

/-- Modelled from the spec: the macro `THREE_FACTORIAL` of a header that is not in `src/`; the
spec lists the divisors as 1, 2, 6, 24, 4, 2, 6, 2. -/
def THREE_FACTORIAL : Int := 6

/-- Modelled from the spec: the macro `FOUR_FACTORIAL` of a header that is not in `src/`; the
spec lists the divisors as 1, 2, 6, 24, 4, 2, 6, 2. -/
def FOUR_FACTORIAL : Int := 24

/-- The array `FUNDAMENTAL_SET_DIVISORS` (lines 23-24). -/
def FUNDAMENTAL_SET_DIVISORS : List Int :=
  [1, 2, THREE_FACTORIAL, FOUR_FACTORIAL, 2 * 2, 2, THREE_FACTORIAL, 2]

/-- The function `get_fundamentalSet_index(nfp)` (lines 250-313). -/
def get_fundamentalSet_index (nfp : Fin 4 → Int) : Nat :=
  if nfp 1 = nfp 0 then
    if nfp 2 = nfp 1 then
      if nfp 3 = nfp 2 then 3 else 2
    else
      if nfp 3 = nfp 2 then 4 else 1
  else
    if nfp 2 = nfp 1 then
      if nfp 3 = nfp 2 then 6 else 5
    else
      if nfp 3 = nfp 2 then 7 else 0

/-- Number of permutations of the four positions that leave the vector unchanged. -/
def stabilizer_size (v : Fin 4 → Int) : Nat :=
  (Finset.univ.filter (fun σ : Equiv.Perm (Fin 4) => ∀ i, v (σ i) = v i)).card

/-- Number of positions of the vector that hold the value `x`. -/
def multiplicity_of (v : Fin 4 → Int) (x : Int) : Nat :=
  (Finset.univ.filter (fun i : Fin 4 => v i = x)).card

/-- Product of the factorials of the multiplicities of the distinct entries of the vector. -/
def multiplicity_factorials (v : Fin 4 → Int) : Nat :=
  (Finset.univ.image v).prod (fun x => (multiplicity_of v x).factorial)

/-- The representative of an equality pattern of a non-increasing vector: the entry drops by
one wherever two neighbours differ. -/
def pattern_vector (e₁ e₂ e₃ : Bool) : Fin 4 → Int :=
  ![3, 3 - (if e₁ then 0 else 1), 3 - (if e₁ then 0 else 1) - (if e₂ then 0 else 1),
    3 - (if e₁ then 0 else 1) - (if e₂ then 0 else 1) - (if e₃ then 0 else 1)]

/-! ## Permutation index decomposition (lines 196-248) -/

/-- Conversion of an integer value to `uint32_t`: reduction modulo `2 ^ 32`. -/
def toU32 (x : Int) : Nat := (x % 2 ^ 32).toNat

/-- Conversion of an integer value to a 32-bit `int`: the two's complement reading of its low
32 bits. -/
def toI32 (x : Int) : Int := (x + 2 ^ 31) % 2 ^ 32 - 2 ^ 31

/-- Modelled from the spec: the helper `min3` of a header that is not in `src/`; the spec
reads it as the minimum of its three arguments. -/
def min3 (a b c : Int) : Int := min a (min b c)

/-- The struct `permutation_indices` (lines 28-31): `indices[0]` and `indices[1]`. -/
structure permutation_indices where
  indices : Int × Int
  deriving DecidableEq, Repr

/-- The expression `FUNDAMENTAL_SET_DIVISORS[fundamentalSet_indices[s]]`. A class outside
`0 .. 7` reads past the table; it is given the value 0 here and excluded by hypothesis
wherever it would matter. -/
def divisor (fundamentalSet_indices : Fin 2 → Nat) (s : Fin 2) : Int :=
  FUNDAMENTAL_SET_DIVISORS.getD (fundamentalSet_indices s) 0

/-- The expression `cost_boundaries[s][t] / FUNDAMENTAL_SET_DIVISORS[fundamentalSet_indices[s]]`
(C division: truncation toward zero). -/
def boundary (cost_boundaries : Fin 2 → Nat → Int) (fundamentalSet_indices : Fin 2 → Nat)
    (s : Fin 2) (t : Nat) : Int :=
  (cost_boundaries s t).tdiv (divisor fundamentalSet_indices s)

/-- The inner `for` loop of `get_permutation_index` (lines 214-244) for a fixed `i` and `p0`.
`todo` is the number of iterations left, `max_addn_cost1 + 1 - j`. The result is `Sum.inl pi`
when the loop returns `pi` from the function, and `Sum.inr index` when the loop ends and
leaves `index`. All `int` arithmetic that could leave the `int` range wraps. -/
def get_permutation_index_inner (cost_boundaries : Fin 2 → Nat → Int)
    (fundamentalSet_indices : Fin 2 → Nat) (i : Nat) (p0 : Int) :
    Nat → Nat → Nat → Except Fatal (permutation_indices ⊕ Nat)
  | 0, _, index => .ok (.inr index)
  | todo + 1, j, index =>
    let p1 := boundary cost_boundaries fundamentalSet_indices 1 j
    if p1 = -1 then .error .assertion
    else
      let p1 := if j > 0 then
          toI32 (p1 - boundary cost_boundaries fundamentalSet_indices 1 (j - 1))
        else p1
      let d := toI32 ((index : Int) - toU32 (toI32 (p0 * p1)))
      if d < 0 then
        if toU32 p1 = 0 then .error .division_by_zero
        else
          let offset0 := toI32 ((index / toU32 p1 : Nat) : Int)
          let indices0 := if i > 0 then
              toI32 (offset0 + boundary cost_boundaries fundamentalSet_indices 0 (i - 1))
            else offset0
          let indices1 := toI32 ((index : Int) - toU32 (toI32 (offset0 * p1)))
          let indices1 := if j > 0 then
              toI32 (indices1 + boundary cost_boundaries fundamentalSet_indices 1 (j - 1))
            else indices1
          .ok (.inl ⟨(indices0, indices1)⟩)
      else
        get_permutation_index_inner cost_boundaries fundamentalSet_indices i p0 todo (j + 1)
          (toU32 d)

/-- The outer `for` loop of `get_permutation_index` (lines 204-245). `todo` is the number of
iterations left, `max_addn_cost0 + 1 - i`. Leaving the loop reaches `exit(1)`. -/
def get_permutation_index_outer (MAX_UNIQUE_COSTS : Nat) (pawn_slack : Fin 2 → Int)
    (chessmen_slack : Int) (cost_boundaries : Fin 2 → Nat → Int)
    (fundamentalSet_indices : Fin 2 → Nat) :
    Nat → Nat → Nat → Except Fatal permutation_indices
  | 0, _, _ => .error .couldnt_get_permutation_index
  | todo + 1, i, index =>
    let p0 := boundary cost_boundaries fundamentalSet_indices 0 i
    if p0 = -1 then .error .assertion
    else
      let p0 := if i > 0 then
          toI32 (p0 - boundary cost_boundaries fundamentalSet_indices 0 (i - 1))
        else p0
      let max_addn_cost1 := min3 (pawn_slack 1) (chessmen_slack - i) (MAX_UNIQUE_COSTS - 1)
      match get_permutation_index_inner cost_boundaries fundamentalSet_indices i p0
          (max_addn_cost1 + 1).toNat 0 index with
      | .error e => .error e
      | .ok (.inl pi) => .ok pi
      | .ok (.inr index') =>
        get_permutation_index_outer MAX_UNIQUE_COSTS pawn_slack chessmen_slack cost_boundaries
          fundamentalSet_indices todo (i + 1) index'

/-- The function `get_permutation_index(pawn_slack, chessmen_slack, cost_boundaries,
fundamentalSet_indices, index)`; `index` is a `uint32_t`. The constant `MAX_UNIQUE_COSTS` of
a header that is not in `src/` is a parameter. -/
def get_permutation_index (MAX_UNIQUE_COSTS : Nat) (pawn_slack : Fin 2 → Int)
    (chessmen_slack : Int) (cost_boundaries : Fin 2 → Nat → Int)
    (fundamentalSet_indices : Fin 2 → Nat) (index : Nat) : Except Fatal permutation_indices :=
  let max_addn_cost0 := min3 (pawn_slack 0) chessmen_slack (MAX_UNIQUE_COSTS - 1)
  get_permutation_index_outer MAX_UNIQUE_COSTS pawn_slack chessmen_slack cost_boundaries
    fundamentalSet_indices (max_addn_cost0 + 1).toNat 0 index

/-! ### The quantities of the decomposition contract -/

/-- The lower end `Bs(t-1)` of the interval of cost `t`, with `Bs(-1) = 0`. -/
def boundary_before (cost_boundaries : Fin 2 → Nat → Int) (fundamentalSet_indices : Fin 2 → Nat)
    (s : Fin 2) (t : Nat) : Int :=
  if t > 0 then boundary cost_boundaries fundamentalSet_indices s (t - 1) else 0

/-- The per-cost permutation count `ps(t) = Bs(t) - Bs(t-1)`. -/
def perm_count (cost_boundaries : Fin 2 → Nat → Int) (fundamentalSet_indices : Fin 2 → Nat)
    (s : Fin 2) (t : Nat) : Int :=
  boundary cost_boundaries fundamentalSet_indices s t
    - boundary_before cost_boundaries fundamentalSet_indices s t

/-- Number of values of `i` that the outer loop visits. -/
def outer_count (MAX_UNIQUE_COSTS : Nat) (pawn_slack : Fin 2 → Int) (chessmen_slack : Int) :
    Nat :=
  (min3 (pawn_slack 0) chessmen_slack (MAX_UNIQUE_COSTS - 1) + 1).toNat

/-- Number of values of `j` that the inner loop visits for a given `i`. -/
def inner_count (MAX_UNIQUE_COSTS : Nat) (pawn_slack : Fin 2 → Int) (chessmen_slack : Int)
    (i : Nat) : Nat :=
  (min3 (pawn_slack 1) (chessmen_slack - i) (MAX_UNIQUE_COSTS - 1) + 1).toNat

/-- The cost pair `(i, j)` is visited by the loops. -/
def visited (MAX_UNIQUE_COSTS : Nat) (pawn_slack : Fin 2 → Int) (chessmen_slack : Int)
    (i j : Nat) : Prop :=
  i < outer_count MAX_UNIQUE_COSTS pawn_slack chessmen_slack ∧
    j < inner_count MAX_UNIQUE_COSTS pawn_slack chessmen_slack i

/-- The product `p0(i) * p1(j)`. -/
def cell_size (cost_boundaries : Fin 2 → Nat → Int) (fundamentalSet_indices : Fin 2 → Nat)
    (i j : Nat) : Int :=
  perm_count cost_boundaries fundamentalSet_indices 0 i
    * perm_count cost_boundaries fundamentalSet_indices 1 j

/-- The sum of `p0(i) * p1(j)` over the first `n` values of `j`, for a given `i`. -/
def row_total (cost_boundaries : Fin 2 → Nat → Int) (fundamentalSet_indices : Fin 2 → Nat)
    (i n : Nat) : Int :=
  ((List.range n).map (cell_size cost_boundaries fundamentalSet_indices i)).sum

/-- The sum of `p0(i) * p1(j)` over the visited pairs with `i` among the first `n` values. -/
def rows_total (MAX_UNIQUE_COSTS : Nat) (pawn_slack : Fin 2 → Int) (chessmen_slack : Int)
    (cost_boundaries : Fin 2 → Nat → Int) (fundamentalSet_indices : Fin 2 → Nat) (n : Nat) :
    Int :=
  ((List.range n).map (fun i => row_total cost_boundaries fundamentalSet_indices i
    (inner_count MAX_UNIQUE_COSTS pawn_slack chessmen_slack i))).sum

/-- The sum `total` of `p0(i) * p1(j)` over all visited cost pairs. -/
def total (MAX_UNIQUE_COSTS : Nat) (pawn_slack : Fin 2 → Int) (chessmen_slack : Int)
    (cost_boundaries : Fin 2 → Nat → Int) (fundamentalSet_indices : Fin 2 → Nat) : Int :=
  rows_total MAX_UNIQUE_COSTS pawn_slack chessmen_slack cost_boundaries fundamentalSet_indices
    (outer_count MAX_UNIQUE_COSTS pawn_slack chessmen_slack)

/-- The pair `(a, b)` lies in the rectangle `[B0(i-1), B0(i)) x [B1(j-1), B1(j))`. -/
def in_rectangle (cost_boundaries : Fin 2 → Nat → Int) (fundamentalSet_indices : Fin 2 → Nat)
    (i j : Nat) (ab : Int × Int) : Prop :=
  boundary_before cost_boundaries fundamentalSet_indices 0 i ≤ ab.1 ∧
    ab.1 < boundary cost_boundaries fundamentalSet_indices 0 i ∧
    boundary_before cost_boundaries fundamentalSet_indices 1 j ≤ ab.2 ∧
    ab.2 < boundary cost_boundaries fundamentalSet_indices 1 j

/-- The cost-boundary arrays hold `int` values that are non-negative and non-decreasing over
the `MAX_UNIQUE_COSTS` entries of each array. -/
def boundaries_ok (MAX_UNIQUE_COSTS : Nat) (cost_boundaries : Fin 2 → Nat → Int) : Prop :=
  ∀ s : Fin 2, ∀ t, t < MAX_UNIQUE_COSTS →
    0 ≤ cost_boundaries s t ∧ cost_boundaries s t < 2 ^ 31 ∧
      (0 < t → cost_boundaries s (t - 1) ≤ cost_boundaries s t)

instance (MAX_UNIQUE_COSTS : Nat) (cost_boundaries : Fin 2 → Nat → Int) :
    Decidable (boundaries_ok MAX_UNIQUE_COSTS cost_boundaries) := by
  unfold boundaries_ok; infer_instance

instance (MAX_UNIQUE_COSTS : Nat) (pawn_slack : Fin 2 → Int) (chessmen_slack : Int)
    (i j : Nat) : Decidable (visited MAX_UNIQUE_COSTS pawn_slack chessmen_slack i j) := by
  unfold visited; infer_instance

instance (cost_boundaries : Fin 2 → Nat → Int) (fundamentalSet_indices : Fin 2 → Nat)
    (i j : Nat) (ab : Int × Int) :
    Decidable (in_rectangle cost_boundaries fundamentalSet_indices i j ab) := by
  unfold in_rectangle; infer_instance

/-- The pair that the rank `r` within the cell of the cost pair `(i, j)` stands for: the
quotient and remainder of `r` by `p1(j)`, offset by the lower ends of the two intervals. -/
def cell_pair (cost_boundaries : Fin 2 → Nat → Int) (fundamentalSet_indices : Fin 2 → Nat)
    (i j : Nat) (r : Int) : Int × Int :=
  (r / perm_count cost_boundaries fundamentalSet_indices 1 j
      + boundary_before cost_boundaries fundamentalSet_indices 0 i,
    r % perm_count cost_boundaries fundamentalSet_indices 1 j
      + boundary_before cost_boundaries fundamentalSet_indices 1 j)

/-- Two cost-boundary arrays of two entries each, `{1, 2147483647}`: non-negative,
non-decreasing `int` values. -/
def wide_boundaries : Fin 2 → Nat → Int := fun _ t => if t = 0 then 1 else 2147483647

/-- Two cost-boundary arrays whose entries are all 1. -/
def unit_boundaries : Fin 2 → Nat → Int := fun _ _ => 1

/-! ## The board and the position

The headers `chess.h`, `prom_slack.h` and `tree_common.h` are not in `src/`. What this file
uses of them is either modelled from the spec (marked so) or collected as the fields of
`headers`, a parameter of every function that needs them. -/

/-- Modelled from the spec: the constant `BOARD_SIDE_LENGTH` of `chess.h`; a bitboard is a
64-bit word with one bit per square of the 8 x 8 board. -/
def BOARD_SIDE_LENGTH : Nat := 8

/-- Modelled from the spec: the constant `NUM_SQUARES` of `chess.h`; a bitboard is a 64-bit
word with one bit per square. -/
def NUM_SQUARES : Nat := 64

/-- Modelled from the spec: the constant `NUM_SIDES` of `chess.h`; the position has 2 sides. -/
def NUM_SIDES : Nat := 2

/-- Modelled from the spec: the constant `NUM_PIECE_TYPES_LESS_KING` of `chess.h`; each side
has 4 non-king piece types. -/
def NUM_PIECE_TYPES_LESS_KING : Nat := 4

/-- The 64-bit sum `a + b`. -/
def add64 (a b : Nat) : Nat := (a + b) % 2 ^ 64

/-- The 64-bit difference `a - b`. -/
def sub64 (a b : Nat) : Nat := (a + (2 ^ 64 - b % 2 ^ 64)) % 2 ^ 64

/-- The 64-bit shift `x << k`. -/
def shl64 (x k : Nat) : Nat := (x * 2 ^ k) % 2 ^ 64

/-- The 64-bit shift `x >> k`. -/
def shr64 (x k : Nat) : Nat := x / 2 ^ k

/-- The macro `EDGE_ROWS_MASK` (lines 12-13), in `unsigned long` arithmetic:
`-1 - ((1UL << (7 * BOARD_SIDE_LENGTH)) - 1) + ((1UL << BOARD_SIDE_LENGTH) - 1)`. -/
def EDGE_ROWS_MASK : Nat :=
  add64 (sub64 (2 ^ 64 - 1) (sub64 (shl64 1 (7 * BOARD_SIDE_LENGTH)) 1))
    (sub64 (shl64 1 BOARD_SIDE_LENGTH) 1)

/-- Modelled from the spec: the helper `rcb(row, column)` of `chess.h`, the bitboard with the
one square of that row and column set; bit 0 is the first square of the first row. -/
def rcb (row column : Nat) : Nat := shl64 1 (row * BOARD_SIDE_LENGTH + column)

/-- The rows `r .. 7` of a bitboard moved to the rows `7 - r .. 0`. -/
def mirror_rows (x : Nat) : Nat → Nat
  | 0 => 0
  | todo + 1 =>
    (x / 2 ^ (BOARD_SIDE_LENGTH * (7 - todo)) % 2 ^ BOARD_SIDE_LENGTH)
        * 2 ^ (BOARD_SIDE_LENGTH * todo)
      + mirror_rows x todo

/-- Modelled from the spec: the helper `rotate_bitboard_across_central_rows` of `chess.h`,
which mirrors a bitboard across the central rows: row `r` goes to row `7 - r`. -/
def rotate_bitboard_across_central_rows (x : Nat) : Nat := mirror_rows x 8

/-- One element of `position.sides` as far as this file uses it: the bitboards `pawns`,
`pieces[...]` and `_fr`. -/
structure side where
  pawns : Nat
  pieces : Nat → Nat
  _fr : Nat

/-- The struct `position` of `chess.h` as far as this file uses it. -/
structure position where
  sides : Fin 2 → side
  enpassant : Nat
  fixed_rooks : Nat
  side0isBlack : Bool
  side0toMove : Bool

/-- The value `{ 0 }` of a `position`. -/
def position.zero : position :=
  ⟨fun _ => ⟨0, fun _ => 0, 0⟩, 0, 0, false, false⟩

/-- The assignment `p.sides[i].pawns = x`. -/
def position.set_pawns (p : position) (i : Fin 2) (x : Nat) : position :=
  { p with sides := Function.update p.sides i { p.sides i with pawns := x } }

/-- The assignment `p.sides[i].pieces[j] = x`. -/
def position.set_piece (p : position) (i : Fin 2) (j : Nat) (x : Nat) : position :=
  { p with sides := (Function.update p.sides i
      { p.sides i with pieces := Function.update (p.sides i).pieces j x }) }

/-- The assignment `p.sides[i]._fr = x`. -/
def position.set_fr (p : position) (i : Fin 2) (x : Nat) : position :=
  { p with sides := Function.update p.sides i { p.sides i with _fr := x } }

/-- The struct `slack` of `prom_slack.h`: `pawn_slack[2]` and `chessmen_slack[2]`. -/
structure slack where
  pawn_slack : Fin 2 → Int
  chessmen_slack : Fin 2 → Int

/-- The constants, tables and functions of the headers that are not in `src/`. -/
structure headers where
  /-- The table `binomials[n][k]`. -/
  binomials : Nat → Nat → Nat
  NO_ENPASSANT : Nat
  ENPASSANT_EDGE_AND_RIGHT : Nat
  ENPASSANT_LEFT_LESS_EDGE : Nat
  ENPASSANT_EDGE_AND_RIGHT_VARIATIONS : Nat
  ENPASSANT_LEFT_LESS_EDGE_VARIATIONS : Nat
  ENPASSANT_ROW_0INDEX : Nat
  KING_HOME_COLUMN_0INDEX : Nat
  ONE_FIXED_ROOK_VARIATIONS : Nat
  NO_CASTLING_RIGHTS : Nat
  CASTLING_RIGHTS_ONE_SIDE : Nat
  CASTLING_RIGHTS_BOTH_SIDES : Nat
  MAX_UNIQUE_COSTS : Nat
  ROOK : Nat
  QUEEN : Nat
  KING : Nat
  /-- The table `BASE_PIECES[scenario][piece type]` (declared at line 26, filled elsewhere). -/
  BASE_PIECES : Nat → Nat → Int
  /-- The table `coveredSet_index[..][..][..][..]`. -/
  coveredSet_index : Nat → Nat → Nat → Nat → Nat
  /-- The table `fr_coveredSetIndex_permAddnCost_numPerms[nfr][covered set]`, an array. -/
  fr_coveredSetIndex_permAddnCost_numPerms : Nat → Nat → Nat → Int
  /-- The table `fr_coveredSetIndex_fundamentalSetIndex_combIndex_comb[nfr][covered set]
  [fundamental set][local index]`, an array of four piece-type ordinals. -/
  fr_coveredSetIndex_fundamentalSetIndex_combIndex_comb : Nat → Nat → Nat → Int → Nat → Int
  /-- The function `promotion_slack(num_pawns, total_base_capturable_pieces, promotions)`. -/
  promotion_slack : (Fin 2 → Int) → (Fin 2 → Int) → (Fin 2 → Int) → slack

/-- The local variables that the passes share through pointers: the tree cursor `root`, the
`index` and `occupied_squares`. The field `trace` is not in the source: it records, for every
`+=` executed on a bitboard or on `occupied_squares`, the left operand before the addition and
the right operand, latest first. -/
structure decode_state where
  root : position_node
  index : Nat
  occupied_squares : Nat
  trace : List (Nat × Nat)

/-- The call `mpz_fdiv_qr_ui(index, rem, index, d)`: the new index and the remainder. A zero
divisor ends the process. -/
def fdiv_qr_ui (index d : Nat) : Except Fatal (Nat × Nat) :=
  if d = 0 then .error .division_by_zero else .ok (index / d, index % d)

/-! ## The passes (lines 49-97, 124-194) -/

/-- The function `pass_enpassant(&root, index, p, occupied_squares)`: the new shared state,
the new position, and the returned `unoccupiable_adjacent`. -/
def pass_enpassant (h : headers) (s : decode_state) (p : position) :
    Except Fatal (decode_state × position × Nat) :=
  let unoccupiable_adjacent := 0
  match point_root_to_matching_child s.root s.index with
  | .error e => .error e
  | .ok (root, index, enpassant_case) =>
    let branch : Except Fatal (Nat × position) :=
      if enpassant_case = h.ENPASSANT_EDGE_AND_RIGHT then
        match fdiv_qr_ui index h.ENPASSANT_EDGE_AND_RIGHT_VARIATIONS with
        | .error e => .error e
        | .ok (index, remui) =>
          if remui ≠ h.ENPASSANT_EDGE_AND_RIGHT_VARIATIONS - 1 then
            let enpassant := shl64 1 ((h.ENPASSANT_ROW_0INDEX + 1) * BOARD_SIDE_LENGTH - 1)
            .ok (index, ({ p with enpassant := enpassant }).set_pawns 1 (shr64 enpassant 1))
          else
            let enpassant := shl64 1 (h.ENPASSANT_ROW_0INDEX * BOARD_SIDE_LENGTH + remui)
            .ok (index, ({ p with enpassant := enpassant }).set_pawns 1 (shr64 enpassant 1))
      else if enpassant_case = h.ENPASSANT_LEFT_LESS_EDGE then
        match fdiv_qr_ui index h.ENPASSANT_LEFT_LESS_EDGE_VARIATIONS with
        | .error e => .error e
        | .ok (index, remui) =>
          let enpassant := shl64 1 (h.ENPASSANT_ROW_0INDEX * BOARD_SIDE_LENGTH + 1 + remui)
          .ok (index, ({ p with enpassant := enpassant }).set_pawns 1 (shl64 enpassant 1))
      else if enpassant_case ≠ h.NO_ENPASSANT then .error .assertion
      else .ok (index, p)
    match branch with
    | .error e => .error e
    | .ok (index, p) =>
      let p := p.set_pawns 0 p.enpassant
      let occupied_squares :=
        add64 (add64 (p.sides 0).pawns (p.sides 1).pawns) unoccupiable_adjacent
      if enpassant_case ≠ h.NO_ENPASSANT then
        let shadow := add64 (shr64 p.enpassant BOARD_SIDE_LENGTH)
          (shr64 p.enpassant (2 * BOARD_SIDE_LENGTH))
        .ok (⟨root, index, add64 occupied_squares shadow,
          (occupied_squares, shadow) :: s.trace⟩, p, unoccupiable_adjacent)
      else
        .ok (⟨root, index, occupied_squares, s.trace⟩, p, unoccupiable_adjacent)

/-- The function `pass_generic(&root, index, occupied_squares, bitboard)`: the new shared
state, the new value of `*bitboard`, and the returned `num_chessmen`. -/
def pass_generic (h : headers) (s : decode_state) (bitboard : Nat) :
    Except Fatal (decode_state × Nat × Nat) :=
  match point_root_to_matching_child s.root s.index with
  | .error e => .error e
  | .ok (root, index, num_chessmen) =>
    if num_chessmen = 0 then .ok (⟨root, index, s.occupied_squares, s.trace⟩, bitboard, 0)
    else
      let num_free_squares := NUM_SQUARES - _mm_popcnt_u64 s.occupied_squares
      match fdiv_qr_ui index (h.binomials num_free_squares num_chessmen) with
      | .error e => .error e
      | .ok (index, rem) =>
        match place_chessmen_relative_to_free_squares h.binomials num_chessmen
            num_free_squares (rem % 2 ^ 64) with
        | .error e => .error e
        | .ok pattern =>
          let chessmen := _pdep_u64 pattern (not64 s.occupied_squares)
          .ok (⟨root, index, add64 s.occupied_squares chessmen,
            (s.occupied_squares, chessmen) :: (bitboard, chessmen) :: s.trace⟩,
            add64 bitboard chessmen, num_chessmen)

/-- The `switch` of `pass_fixed_rooks_and_kings` (lines 160-173): the new index and the value
of `fixed_rooks`. -/
def fixed_rooks_switch (h : headers) (num_fixed_rooks index : Nat) : Except Fatal (Nat × Nat) :=
  if num_fixed_rooks = h.NO_CASTLING_RIGHTS then .ok (index, 0)
  else if num_fixed_rooks = h.CASTLING_RIGHTS_ONE_SIDE then
    match fdiv_qr_ui index h.ONE_FIXED_ROOK_VARIATIONS with
    | .error e => .error e
    | .ok (index, remui) => .ok (index, shl64 1 ((BOARD_SIDE_LENGTH - 1) * remui))
  else if num_fixed_rooks = h.CASTLING_RIGHTS_BOTH_SIDES then
    .ok (index, add64 1 (shl64 1 (BOARD_SIDE_LENGTH - 1)))
  else .error .error_switching_on_num_fixed_rooks

/-- The function `pass_fixed_rooks_and_kings(&root, index, p, occupied_squares, side)`: the
new shared state, the new position, and the returned `num_fixed_rooks`. -/
def pass_fixed_rooks_and_kings (h : headers) (s : decode_state) (p : position) (side : Fin 2) :
    Except Fatal (decode_state × position × Nat) :=
  match point_root_to_matching_child s.root s.index with
  | .error e => .error e
  | .ok (root, index, num_fixed_rooks) =>
    match fixed_rooks_switch h num_fixed_rooks index with
    | .error e => .error e
    | .ok (index, fixed_rooks) =>
      let king := if num_fixed_rooks > 0 then rcb 0 h.KING_HOME_COLUMN_0INDEX else 0
      let fixed_rooks := if num_fixed_rooks > 0 ∧ side = 1 then
          rotate_bitboard_across_central_rows fixed_rooks else fixed_rooks
      let king := if num_fixed_rooks > 0 ∧ side = 1 then
          rotate_bitboard_across_central_rows king else king
      let p' := p.set_fr side fixed_rooks
      let p' := { p' with fixed_rooks := add64 p'.fixed_rooks fixed_rooks }
      let p' := p'.set_piece side h.KING king
      .ok (⟨root, index, add64 s.occupied_squares (add64 fixed_rooks king),
        (s.occupied_squares, add64 fixed_rooks king) :: (p.fixed_rooks, fixed_rooks)
          :: s.trace⟩, p', num_fixed_rooks)

/-! ## The decode (lines 316-486) -/

/-- The local variables of `retrieve_position_from_rng` that live across its stages. -/
structure locals where
  s : decode_state
  p : position
  equal_num_pawns : Bool
  nfr : Fin 2 → Nat
  num_non_fixed_pieces_less_king : Fin 2 → Nat → Int
  num_non_fixed_base_pieces_less_king : Fin 2 → Nat → Int
  promotions : Fin 2 → Int

/-- The assignment `a[i][j] = x` on a two-dimensional `int` array. -/
def set2 (a : Fin 2 → Nat → Int) (i : Fin 2) (j : Nat) (x : Int) : Fin 2 → Nat → Int :=
  Function.update a i (Function.update (a i) j x)

/-- The tie-breaks of lines 341-348 and 353-360: when the condition holds, one more bit of
the index decides `side0toMove`. -/
def tie_break (applies : Prop) [Decidable applies] (index : Nat) (p : position) :
    Except Fatal (Nat × position) :=
  if applies then
    match fdiv_qr_ui index 2 with
    | .error e => .error e
    | .ok (index, rem) => .ok (index, if rem ≠ 0 then { p with side0toMove := true } else p)
  else .ok (index, p)

/-- Lines 318-349: the colour bit, the en-passant pass, the two pawn passes between the two
adjustments of `occupied_squares` by `EDGE_ROWS_MASK`, and the first tie-break. -/
def decode_pawns (h : headers) (root : position_node) (index : Nat) : Except Fatal locals := do
  let p := position.zero
  let (index, rem) ← fdiv_qr_ui index 2
  let p := if rem ≠ 0 then { p with side0isBlack := true } else p
  let s : decode_state := ⟨root, index, 0, []⟩
  let (s, p, tmp_unoccupiable_enpassant_adjacent) ← pass_enpassant h s p
  let s : decode_state := ⟨s.root, s.index, add64 s.occupied_squares EDGE_ROWS_MASK,
    (s.occupied_squares, EDGE_ROWS_MASK) :: s.trace⟩
  let (s, bitboard, _) ← pass_generic h s (p.sides 1).pawns
  let p := p.set_pawns 1 bitboard
  let s : decode_state := ⟨s.root, s.index,
    sub64 s.occupied_squares tmp_unoccupiable_enpassant_adjacent, s.trace⟩
  let (s, bitboard, _) ← pass_generic h s (p.sides 0).pawns
  let p := p.set_pawns 0 bitboard
  let equal_num_pawns :=
    decide (_mm_popcnt_u64 (p.sides 0).pawns = _mm_popcnt_u64 (p.sides 1).pawns)
  let (index, p) ← tie_break (p.enpassant = 0 ∧ equal_num_pawns = false) s.index p
  let s : decode_state := ⟨s.root, index, sub64 s.occupied_squares EDGE_ROWS_MASK, s.trace⟩
  pure ⟨s, p, equal_num_pawns, fun _ => 0, fun _ _ => 0, fun _ _ => 0, fun _ => 0⟩

/-- Lines 350-360: the two fixed-rook passes and the second tie-break. -/
def decode_fixed_rooks (h : headers) (l : locals) : Except Fatal locals := do
  let (s, p, nfr0) ← pass_fixed_rooks_and_kings h l.s l.p 0
  let (s, p, nfr1) ← pass_fixed_rooks_and_kings h s p 1
  let (index, p) ←
    tie_break (p.enpassant = 0 ∧ l.equal_num_pawns = true ∧ nfr0 ≠ nfr1) s.index p
  pure { l with s := ⟨s.root, index, s.occupied_squares, s.trace⟩, p := p,
                nfr := fun i => if i = 0 then nfr0 else nfr1 }

/-- The inner `for` loop of lines 367-382 for side `i`, from piece type `j` on; `todo` is the
number of piece types left, `NUM_PIECE_TYPES_LESS_KING - j`. -/
def decode_pieces_of_side (h : headers) (i : Fin 2) : Nat → Nat → locals → Except Fatal locals
  | 0, _, l => .ok l
  | todo + 1, j, l =>
    match pass_generic h l.s ((l.p.sides i).pieces j) with
    | .error e => .error e
    | .ok (s, bitboard, n) =>
      let base := h.BASE_PIECES (l.nfr i) j
      let d : Int := (n : Int) - base
      let l : locals :=
        { l with
          s := s
          p := l.p.set_piece i j bitboard
          num_non_fixed_pieces_less_king := set2 l.num_non_fixed_pieces_less_king i j n
          num_non_fixed_base_pieces_less_king :=
            set2 l.num_non_fixed_base_pieces_less_king i j (if d > 0 then base else n)
          promotions :=
            if d > 0 then Function.update l.promotions i (l.promotions i + d)
            else l.promotions }
      if n = 0 then .ok l else decode_pieces_of_side h i todo (j + 1) l

/-- Lines 362-383: the generic piece passes of both sides. -/
def decode_pieces (h : headers) (l : locals) : Except Fatal locals := do
  let l ← decode_pieces_of_side h 0 NUM_PIECE_TYPES_LESS_KING 0 l
  decode_pieces_of_side h 1 NUM_PIECE_TYPES_LESS_KING 0 l

/-- The body of the loop of lines 385-396 for side `i`. -/
def decode_king (h : headers) (i : Fin 2) (l : locals) : Except Fatal locals :=
  if l.nfr i = h.NO_CASTLING_RIGHTS then do
    let num_free_squares := NUM_SQUARES - _mm_popcnt_u64 l.s.occupied_squares
    let (index, rem) ← fdiv_qr_ui l.s.index num_free_squares
    let pattern ← place_chessmen_relative_to_free_squares h.binomials 1 num_free_squares
      (rem % 2 ^ 64)
    let king := _pdep_u64 pattern (not64 l.s.occupied_squares)
    pure { l with
      p := l.p.set_piece i h.KING king
      s := ⟨l.s.root, index, add64 l.s.occupied_squares king,
        (l.s.occupied_squares, king) :: l.s.trace⟩ }
  else pure l

/-- Lines 385-396: the king of each side that has no fixed rook. -/
def decode_kings (h : headers) (l : locals) : Except Fatal locals := do
  let l ← decode_king h 0 l
  decode_king h 1 l

/-- Lines 455-470 for one side: `pieces[j] = pieces_tmp[permutation[j]]` for the four
non-king piece types, where `pieces_tmp` is the copy of the four bitboards made before. -/
def permute_side (sd : side) (permutation : Nat → Int) : side :=
  { sd with pieces := (fun j =>
      if j < NUM_PIECE_TYPES_LESS_KING then
        (if (permutation j).toNat < NUM_PIECE_TYPES_LESS_KING then
          sd.pieces (permutation j).toNat else 0)
      else sd.pieces j) }

/-- Lines 474-479 for one side: the exchange of `pieces[ROOK]` and `pieces[QUEEN]`. -/
def swap_rook_queen (h : headers) (sd : side) : side :=
  { sd with pieces :=
      (Function.update (Function.update sd.pieces h.ROOK (sd.pieces h.QUEEN)) h.QUEEN
        (sd.pieces h.ROOK)) }

/-- Lines 455-470: the permutation of the four non-king bitboards of both sides. -/
def permute_sides (permutations : Fin 2 → Nat → Int) (sides : Fin 2 → side) : Fin 2 → side :=
  fun i => permute_side (sides i) (permutations i)

/-- Lines 472-480: the exchange of rook and queen for each side that has both rooks fixed. -/
def swap_sides (h : headers) (nfr : Fin 2 → Nat) (sides : Fin 2 → side) : Fin 2 → side :=
  fun i => if nfr i = h.CASTLING_RIGHTS_BOTH_SIDES then swap_rook_queen h (sides i) else sides i

/-- Lines 482-483: `p.sides[i].pieces[ROOK] += p.sides[i]._fr` for both sides. -/
def add_fixed_rooks (h : headers) (sides : Fin 2 → side) : Fin 2 → side :=
  fun i =>
    { sides i with pieces :=
        (Function.update (sides i).pieces h.ROOK
          (add64 ((sides i).pieces h.ROOK) (sides i)._fr)) }

/-- What the decode leaves: the position `p` that is returned, and, for reference, the final
`occupied_squares`, the `trace` of the additions and the two looked-up `permutations`. -/
structure decode_result where
  p : position
  occupied_squares : Nat
  trace : List (Nat × Nat)
  permutations : Fin 2 → Nat → Int

/-- Lines 399-453: the classification of both sides, the decomposition of the rest of the
index, the look-up of the two permutations and the two assertions on them. -/
def lookup_permutations (h : headers) (l : locals) : Except Fatal (Fin 2 → Nat → Int) :=
  let num_pawns : Fin 2 → Int := fun i => (_mm_popcnt_u64 (l.p.sides i).pawns : Int)
  let total_base_capturable_pieces : Fin 2 → Int := fun i =>
    (l.nfr i : Int)
      + ((List.range NUM_PIECE_TYPES_LESS_KING).map
          (l.num_non_fixed_base_pieces_less_king i)).sum
  let covered_sets : Fin 2 → Nat → Int := fun i j =>
    if l.num_non_fixed_pieces_less_king i j > 2 then 2
    else l.num_non_fixed_pieces_less_king i j
  let coveredSet_indices : Fin 2 → Nat := fun i =>
    h.coveredSet_index (covered_sets i 0).toNat (covered_sets i 1).toNat
      (covered_sets i 2).toNat (covered_sets i 3).toNat
  let fundamentalSet_indices : Fin 2 → Nat := fun i =>
    get_fundamentalSet_index (fun j : Fin 4 => l.num_non_fixed_pieces_less_king i j)
  let cost_boundary_indices : Fin 2 → Nat → Int := fun i =>
    h.fr_coveredSetIndex_permAddnCost_numPerms (l.nfr i) (coveredSet_indices i)
  let prom_slack := h.promotion_slack num_pawns total_base_capturable_pieces l.promotions
  match get_permutation_index h.MAX_UNIQUE_COSTS prom_slack.pawn_slack
      (min (prom_slack.chessmen_slack 0) (prom_slack.chessmen_slack 1))
      cost_boundary_indices fundamentalSet_indices (l.s.index % 2 ^ 32) with
  | .error e => .error e
  | .ok pi =>
    let permutations : Fin 2 → Nat → Int := fun i =>
      h.fr_coveredSetIndex_fundamentalSetIndex_combIndex_comb (l.nfr i) (coveredSet_indices i)
        (fundamentalSet_indices i) (if i = 0 then pi.indices.1 else pi.indices.2)
    if permutations 0 0 = -1 then .error .assertion
    else if permutations 1 0 = -1 then .error .assertion
    else .ok permutations

/-- Lines 399-485: permutation recovery, the rook and queen exchange and the addition of the
fixed rooks. -/
def decode_closing (h : headers) (l : locals) : Except Fatal decode_result :=
  match lookup_permutations h l with
  | .error e => .error e
  | .ok permutations =>
    let sides₁ := permute_sides permutations l.p.sides
    let sides₂ := swap_sides h l.nfr sides₁
    .ok ⟨{ l.p with sides := add_fixed_rooks h sides₂ }, l.s.occupied_squares,
      ((sides₂ 1).pieces h.ROOK, (sides₂ 1)._fr)
        :: ((sides₂ 0).pieces h.ROOK, (sides₂ 0)._fr) :: l.s.trace,
      permutations⟩

/-- The whole of `retrieve_position_from_rng` with the reference data kept. -/
def decode (h : headers) (root : position_node) (index : Nat) : Except Fatal decode_result := do
  let l ← decode_pawns h root index
  let l ← decode_fixed_rooks h l
  let l ← decode_pieces h l
  let l ← decode_kings h l
  decode_closing h l

/-- The function `retrieve_position_from_rng(root, index)`. -/
def retrieve_position_from_rng (h : headers) (root : position_node) (index : Nat) :
    Except Fatal position :=
  match decode h root index with
  | .error e => .error e
  | .ok r => .ok r.p

/-- The outcome is a result. -/
def returns {α : Type} : Except Fatal α → Bool
  | .ok _ => true
  | .error _ => false

/-! ### The quantities of the occupancy contract -/

/-- The bitboards of a position: per side the pawns, the four non-king piece types, the king,
and the side-local fixed-rook mask. -/
inductive slot where
  | pawns (i : Fin 2)
  | piece (i : Fin 2) (j : Fin 4)
  | king (i : Fin 2)
  | fr (i : Fin 2)
  deriving DecidableEq

/-- The bitboard of the position that a slot names. -/
def board (h : headers) (p : position) : slot → Nat
  | .pawns i => (p.sides i).pawns
  | .piece i j => (p.sides i).pieces j
  | .king i => (p.sides i).pieces h.KING
  | .fr i => (p.sides i)._fr

/-- The slot is one of the twelve bitboards of the returned position (pawns, four non-king
piece types and king, for both sides). -/
def slot.is_bitboard : slot → Bool
  | .fr _ => false
  | _ => true

/-- Every recorded addition has disjoint operands. -/
def trace_ok (trace : List (Nat × Nat)) : Prop := ∀ x, x ∈ trace → x.1 &&& x.2 = 0

/-- The entry of the permutation table is a permutation of {0, 1, 2, 3}. -/
def is_permutation (permutation : Nat → Int) : Prop :=
  (∀ j, j < 4 → 0 ≤ permutation j ∧ permutation j < 4) ∧
    (∀ j, j < 4 → ∀ k, k < 4 → permutation j = permutation k → j = k)

instance (permutation : Nat → Int) : Decidable (is_permutation permutation) := by
  unfold is_permutation; infer_instance

/-- What the passes keep true of the position and `occupied_squares`: every bitboard lies
within the occupied squares, no two bitboards share a square, and the combined fixed-rook mask
lies within the occupied squares. -/
def invariant (h : headers) (p : position) (occupied_squares : Nat) : Prop :=
  occupied_squares < 2 ^ 64 ∧
    (∀ s, board h p s &&& occupied_squares = board h p s) ∧
    (∀ s t, s ≠ t → board h p s &&& board h p t = 0) ∧
    p.fixed_rooks &&& occupied_squares = p.fixed_rooks

/-- The values of the header constants that the board layout needs: the en-passant row and
the variation counts keep the en-passant pawn pair and its shadow inside the rows 1 to 6, the
king's home column is not a corner, a single fixed rook has at most two places, the two
en-passant classes differ from the class without en passant, the scenarios with fixed rooks
have a positive ordinal (the count of fixed rooks), and the piece ordinals `ROOK` and `QUEEN`
are among the four non-king ones while `KING` is not. -/
def layout_ok (h : headers) : Prop :=
  3 ≤ h.ENPASSANT_ROW_0INDEX ∧ h.ENPASSANT_ROW_0INDEX ≤ 6 ∧
    h.ENPASSANT_EDGE_AND_RIGHT_VARIATIONS ≤ 8 ∧ h.ENPASSANT_LEFT_LESS_EDGE_VARIATIONS ≤ 6 ∧
    1 ≤ h.KING_HOME_COLUMN_0INDEX ∧ h.KING_HOME_COLUMN_0INDEX ≤ 6 ∧
    h.ONE_FIXED_ROOK_VARIATIONS ≤ 2 ∧
    h.ENPASSANT_EDGE_AND_RIGHT ≠ h.NO_ENPASSANT ∧
    h.ENPASSANT_LEFT_LESS_EDGE ≠ h.NO_ENPASSANT ∧
    0 < h.CASTLING_RIGHTS_ONE_SIDE ∧ 0 < h.CASTLING_RIGHTS_BOTH_SIDES ∧
    h.ROOK < 4 ∧ h.QUEEN < 4 ∧ 4 ≤ h.KING

/-- The squares of the home row of a side: row 0 for side 0, row 7 for side 1. -/
def home_row (side : Fin 2) : Nat := if side = 0 then 0xFF else 0xFF00000000000000

/-- What the en-passant pass needs of the en-passant pawn `enpassant` and the capturing pawn
`pawn`: the two squares and the two shadow squares are four different squares off the edge
rows. -/
def enpassant_squares_ok (enpassant pawn : Nat) : Prop :=
  enpassant &&& pawn = 0 ∧
    add64 (add64 enpassant pawn) 0
      &&& add64 (shr64 enpassant BOARD_SIDE_LENGTH) (shr64 enpassant (2 * BOARD_SIDE_LENGTH))
      = 0 ∧
    enpassant &&& add64 (add64 (add64 enpassant pawn) 0)
      (add64 (shr64 enpassant BOARD_SIDE_LENGTH) (shr64 enpassant (2 * BOARD_SIDE_LENGTH)))
      = enpassant ∧
    pawn &&& add64 (add64 (add64 enpassant pawn) 0)
      (add64 (shr64 enpassant BOARD_SIDE_LENGTH) (shr64 enpassant (2 * BOARD_SIDE_LENGTH)))
      = pawn ∧
    add64 (add64 (add64 enpassant pawn) 0)
      (add64 (shr64 enpassant BOARD_SIDE_LENGTH) (shr64 enpassant (2 * BOARD_SIDE_LENGTH)))
      &&& EDGE_ROWS_MASK = 0

instance (enpassant pawn : Nat) : Decidable (enpassant_squares_ok enpassant pawn) := by
  unfold enpassant_squares_ok; infer_instance

/-- What the fixed-rook pass needs of the masks `fixed_rooks` and `king` of a side: they are
disjoint and lie on the home row of the side. -/
def home_squares_ok (side : Fin 2) (fixed_rooks king : Nat) : Prop :=
  fixed_rooks &&& king = 0 ∧ fixed_rooks &&& home_row side = fixed_rooks ∧
    king &&& home_row side = king

instance (side : Fin 2) (fixed_rooks king : Nat) :
    Decidable (home_squares_ok side fixed_rooks king) := by
  unfold home_squares_ok; infer_instance

instance (h : headers) : Decidable (layout_ok h) := by
  unfold layout_ok; infer_instance

/-- The ordinal whose bitboard the exchange of rook and queen moves to ordinal `j`. -/
def swapped (h : headers) (applies : Prop) [Decidable applies] (j : Nat) : Nat :=
  if applies then (if j = h.QUEEN then h.ROOK else if j = h.ROOK then h.QUEEN else j) else j

/-- The slot whose bitboard, before the relabelling of lines 455-480, is the bitboard of the
given slot after it. -/
def relabel_source (h : headers) (nfr : Fin 2 → Nat) (permutations : Fin 2 → Nat → Int) :
    slot → slot
  | .piece i j =>
    .piece i ⟨(permutations i
      (swapped h (nfr i = h.CASTLING_RIGHTS_BOTH_SIDES) j)).toNat % 4,
      Nat.mod_lt _ (by norm_num)⟩
  | s => s

/-- The squares that lines 482-483 add to the bitboard of a slot: the side's fixed rooks for
the rook bitboard, none for any other. -/
def added_fixed_rooks (h : headers) (p : position) : slot → Nat
  | .piece i j => if (j : Nat) = h.ROOK then (p.sides i)._fr else 0
  | _ => 0

/-! ### A small instance for the decode -/

/-- An instance of the headers: the usual board constants, a permutation table that holds the
identity everywhere and cost boundaries that are 24 everywhere. -/
def example_headers : headers where
  binomials := Nat.choose
  NO_ENPASSANT := 0
  ENPASSANT_EDGE_AND_RIGHT := 1
  ENPASSANT_LEFT_LESS_EDGE := 2
  ENPASSANT_EDGE_AND_RIGHT_VARIATIONS := 8
  ENPASSANT_LEFT_LESS_EDGE_VARIATIONS := 6
  ENPASSANT_ROW_0INDEX := 3
  KING_HOME_COLUMN_0INDEX := 4
  ONE_FIXED_ROOK_VARIATIONS := 2
  NO_CASTLING_RIGHTS := 0
  CASTLING_RIGHTS_ONE_SIDE := 1
  CASTLING_RIGHTS_BOTH_SIDES := 2
  MAX_UNIQUE_COSTS := 4
  ROOK := 3
  QUEEN := 2
  KING := 4
  BASE_PIECES := fun _ _ => 2
  coveredSet_index := fun _ _ _ _ => 0
  fr_coveredSetIndex_permAddnCost_numPerms := fun _ _ _ => 24
  fr_coveredSetIndex_fundamentalSetIndex_combIndex_comb := fun _ _ _ _ j => (j : Int)
  promotion_slack := fun _ _ _ => ⟨fun _ => 0, fun _ => 0⟩

/-- The node whose child number `c` is `child`, the children before it being empty. -/
def via (c : Nat) (child : position_node) : position_node :=
  .mk child.num_positions (List.replicate c (.mk 0 []) ++ [child])

/-- A decision tree with one path: en-passant class 1, one more pawn for side 1, none for
side 0, no fixed rook for side 0, two for side 1, one piece of the first type for side 0 and
none for side 1. -/
def example_tree : position_node :=
  via 1 (via 1 (via 0 (via 0 (via 2 (via 1 (via 0 (via 0 (.mk 1000000 []))))))))

/-- The value of an outcome, or the given value when there is none. -/
def value_or {α : Type} (d : α) : Except Fatal α → α
  | .ok a => a
  | .error _ => d

/-- An empty `decode_result`. -/
def decode_result.zero : decode_result := ⟨position.zero, 0, [], fun _ _ => 0⟩

/-! ### A record of the occupancy at the calls of the passes

The functions of this section are the placement stages of the decode with one more result,
which is not in the source: the list of the values that `occupied_squares` has at the calls of
the passes (`pass_generic` at lines 336, 339 and 370, `pass_fixed_rooks_and_kings` at lines 351
and 352, and the king placement of lines 389-394), in the order of the calls. -/

/-- The shadow squares of an en-passant pawn, the right operand of the `+=` of lines 90-91:
the two squares behind the pawn. -/
def shadow_squares (enpassant : Nat) : Nat :=
  add64 (shr64 enpassant BOARD_SIDE_LENGTH) (shr64 enpassant (2 * BOARD_SIDE_LENGTH))

/-- The stage `decode_pawns` (lines 318-349) with the record of `occupied_squares` at the
calls of the two pawn passes: the pass for side 1 (line 336) first, the pass for side 0
(line 339) second. -/
def decode_pawns_logged (h : headers) (root : position_node) (index : Nat) :
    Except Fatal (locals × List Nat) := do
  let p := position.zero
  let (index, rem) ← fdiv_qr_ui index 2
  let p := if rem ≠ 0 then { p with side0isBlack := true } else p
  let s : decode_state := ⟨root, index, 0, []⟩
  let (s, p, tmp_unoccupiable_enpassant_adjacent) ← pass_enpassant h s p
  let s : decode_state := ⟨s.root, s.index, add64 s.occupied_squares EDGE_ROWS_MASK,
    (s.occupied_squares, EDGE_ROWS_MASK) :: s.trace⟩
  let at_first_pawn_pass := s.occupied_squares
  let (s, bitboard, _) ← pass_generic h s (p.sides 1).pawns
  let p := p.set_pawns 1 bitboard
  let s : decode_state := ⟨s.root, s.index,
    sub64 s.occupied_squares tmp_unoccupiable_enpassant_adjacent, s.trace⟩
  let at_second_pawn_pass := s.occupied_squares
  let (s, bitboard, _) ← pass_generic h s (p.sides 0).pawns
  let p := p.set_pawns 0 bitboard
  let equal_num_pawns :=
    decide (_mm_popcnt_u64 (p.sides 0).pawns = _mm_popcnt_u64 (p.sides 1).pawns)
  let (index, p) ← tie_break (p.enpassant = 0 ∧ equal_num_pawns = false) s.index p
  let s : decode_state := ⟨s.root, index, sub64 s.occupied_squares EDGE_ROWS_MASK, s.trace⟩
  pure (⟨s, p, equal_num_pawns, fun _ => 0, fun _ _ => 0, fun _ _ => 0, fun _ => 0⟩,
    [at_first_pawn_pass, at_second_pawn_pass])

/-- The stage `decode_fixed_rooks` (lines 350-360) with the record of `occupied_squares` at
the calls of the two fixed-rook passes. -/
def decode_fixed_rooks_logged (h : headers) (l : locals) : Except Fatal (locals × List Nat) := do
  let (s, p, nfr0) ← pass_fixed_rooks_and_kings h l.s l.p 0
  let at_second_pass := s.occupied_squares
  let (s, p, nfr1) ← pass_fixed_rooks_and_kings h s p 1
  let (index, p) ←
    tie_break (p.enpassant = 0 ∧ l.equal_num_pawns = true ∧ nfr0 ≠ nfr1) s.index p
  pure ({ l with s := ⟨s.root, index, s.occupied_squares, s.trace⟩, p := p,
                 nfr := fun i => if i = 0 then nfr0 else nfr1 },
    [l.s.occupied_squares, at_second_pass])

/-- The loop `decode_pieces_of_side` (lines 367-382) with the record of `occupied_squares` at
each call of the generic pass. -/
def decode_pieces_of_side_logged (h : headers) (i : Fin 2) :
    Nat → Nat → locals → Except Fatal (locals × List Nat)
  | 0, _, l => .ok (l, [])
  | todo + 1, j, l =>
    match pass_generic h l.s ((l.p.sides i).pieces j) with
    | .error e => .error e
    | .ok (s, bitboard, n) =>
      let base := h.BASE_PIECES (l.nfr i) j
      let d : Int := (n : Int) - base
      let l' : locals :=
        { l with
          s := s
          p := l.p.set_piece i j bitboard
          num_non_fixed_pieces_less_king := set2 l.num_non_fixed_pieces_less_king i j n
          num_non_fixed_base_pieces_less_king :=
            set2 l.num_non_fixed_base_pieces_less_king i j (if d > 0 then base else n)
          promotions :=
            if d > 0 then Function.update l.promotions i (l.promotions i + d)
            else l.promotions }
      if n = 0 then .ok (l', [l.s.occupied_squares])
      else
        match decode_pieces_of_side_logged h i todo (j + 1) l' with
        | .error e => .error e
        | .ok (l'', log) => .ok (l'', l.s.occupied_squares :: log)

/-- The stage `decode_pieces` (lines 362-383) with the record of `occupied_squares` at each
call of the generic pass. -/
def decode_pieces_logged (h : headers) (l : locals) : Except Fatal (locals × List Nat) := do
  let (l, log₀) ← decode_pieces_of_side_logged h 0 NUM_PIECE_TYPES_LESS_KING 0 l
  let (l, log₁) ← decode_pieces_of_side_logged h 1 NUM_PIECE_TYPES_LESS_KING 0 l
  pure (l, log₀ ++ log₁)

/-- The step `decode_king` (lines 387-395) with the record of `occupied_squares` at the
placement of the king, when there is one. -/
def decode_king_logged (h : headers) (i : Fin 2) (l : locals) :
    Except Fatal (locals × List Nat) :=
  if l.nfr i = h.NO_CASTLING_RIGHTS then do
    let num_free_squares := NUM_SQUARES - _mm_popcnt_u64 l.s.occupied_squares
    let (index, rem) ← fdiv_qr_ui l.s.index num_free_squares
    let pattern ← place_chessmen_relative_to_free_squares h.binomials 1 num_free_squares
      (rem % 2 ^ 64)
    let king := _pdep_u64 pattern (not64 l.s.occupied_squares)
    pure ({ l with
      p := l.p.set_piece i h.KING king
      s := ⟨l.s.root, index, add64 l.s.occupied_squares king,
        (l.s.occupied_squares, king) :: l.s.trace⟩ }, [l.s.occupied_squares])
  else pure (l, [])

/-- The stage `decode_kings` (lines 385-396) with the record of `occupied_squares` at each
king placement. -/
def decode_kings_logged (h : headers) (l : locals) : Except Fatal (locals × List Nat) := do
  let (l, log₀) ← decode_king_logged h 0 l
  let (l, log₁) ← decode_king_logged h 1 l
  pure (l, log₀ ++ log₁)

/-- The whole decode with the record of `occupied_squares` at the calls of the passes: the
two pawn passes first, every later pass after them. -/
def decode_logged (h : headers) (root : position_node) (index : Nat) :
    Except Fatal (decode_result × List Nat) := do
  let (l, pawn_passes) ← decode_pawns_logged h root index
  let (l, fixed_rook_passes) ← decode_fixed_rooks_logged h l
  let (l, piece_passes) ← decode_pieces_logged h l
  let (l, king_placements) ← decode_kings_logged h l
  let r ← decode_closing h l
  pure (r, pawn_passes ++ (fixed_rook_passes ++ (piece_passes ++ king_placements)))

/-! ### The two tie-breaks -/

/-- Lines 318-339: the colour bit, the en-passant pass and the two pawn passes; the shared
state and the position in which line 340 is reached. -/
def decode_pawn_passes (h : headers) (root : position_node) (index : Nat) :
    Except Fatal (decode_state × position) := do
  let p := position.zero
  let (index, rem) ← fdiv_qr_ui index 2
  let p := if rem ≠ 0 then { p with side0isBlack := true } else p
  let s : decode_state := ⟨root, index, 0, []⟩
  let (s, p, tmp_unoccupiable_enpassant_adjacent) ← pass_enpassant h s p
  let s : decode_state := ⟨s.root, s.index, add64 s.occupied_squares EDGE_ROWS_MASK,
    (s.occupied_squares, EDGE_ROWS_MASK) :: s.trace⟩
  let (s, bitboard, _) ← pass_generic h s (p.sides 1).pawns
  let p := p.set_pawns 1 bitboard
  let s : decode_state := ⟨s.root, s.index,
    sub64 s.occupied_squares tmp_unoccupiable_enpassant_adjacent, s.trace⟩
  let (s, bitboard, _) ← pass_generic h s (p.sides 0).pawns
  let p := p.set_pawns 0 bitboard
  pure (s, p)

/-- Lines 340-349: `equal_num_pawns`, the first tie-break and the second adjustment of
`occupied_squares` by `EDGE_ROWS_MASK`. -/
def first_tie_break (s : decode_state) (p : position) : Except Fatal locals := do
  let equal_num_pawns :=
    decide (_mm_popcnt_u64 (p.sides 0).pawns = _mm_popcnt_u64 (p.sides 1).pawns)
  let (index, p) ← tie_break (p.enpassant = 0 ∧ equal_num_pawns = false) s.index p
  let s : decode_state := ⟨s.root, index, sub64 s.occupied_squares EDGE_ROWS_MASK, s.trace⟩
  pure ⟨s, p, equal_num_pawns, fun _ => 0, fun _ _ => 0, fun _ _ => 0, fun _ => 0⟩

/-- Lines 350-352: the two fixed-rook passes; the shared state and the position in which line
353 is reached, and the two returned counts `nfr[0]`, `nfr[1]`. -/
def decode_fixed_rook_passes (h : headers) (l : locals) :
    Except Fatal (decode_state × position × Nat × Nat) := do
  let (s, p, nfr0) ← pass_fixed_rooks_and_kings h l.s l.p 0
  let (s, p, nfr1) ← pass_fixed_rooks_and_kings h s p 1
  pure (s, p, nfr0, nfr1)

/-- Lines 353-360: the second tie-break. -/
def second_tie_break (l : locals) (s : decode_state) (p : position) (nfr0 nfr1 : Nat) :
    Except Fatal locals := do
  let (index, p) ←
    tie_break (p.enpassant = 0 ∧ l.equal_num_pawns = true ∧ nfr0 ≠ nfr1) s.index p
  pure { l with s := ⟨s.root, index, s.occupied_squares, s.trace⟩, p := p,
                nfr := fun i => if i = 0 then nfr0 else nfr1 }

/-- There is no en-passant pawn and the two sides have different numbers of pawns. -/
def pawn_counts_break_tie (p : position) : Prop :=
  p.enpassant = 0 ∧ _mm_popcnt_u64 (p.sides 0).pawns ≠ _mm_popcnt_u64 (p.sides 1).pawns

/-- There is no en-passant pawn, the two sides have the same number of pawns and different
numbers of fixed rooks. -/
def fixed_rook_counts_break_tie (p : position) (nfr0 nfr1 : Nat) : Prop :=
  p.enpassant = 0 ∧ _mm_popcnt_u64 (p.sides 0).pawns = _mm_popcnt_u64 (p.sides 1).pawns ∧
    nfr0 ≠ nfr1

instance (p : position) : Decidable (pawn_counts_break_tie p) := by
  unfold pawn_counts_break_tie; infer_instance

instance (p : position) (nfr0 nfr1 : Nat) :
    Decidable (fixed_rook_counts_break_tie p nfr0 nfr1) := by
  unfold fixed_rook_counts_break_tie; infer_instance

/-! ### The free squares -/

/-- The position of the `i`-th set bit of `mask` among its low `w` bits, counting the set bits
from the least significant one and from 0; none when there are not that many. -/
def nth_set_bit : Nat → Nat → Nat → Option Nat
  | 0, _, _ => none
  | w + 1, mask, i =>
    if mask % 2 = 1 then
      match i with
      | 0 => some 0
      | i + 1 => (nth_set_bit w (mask / 2) i).map (fun q => q + 1)
    else (nth_set_bit w (mask / 2) i).map (fun q => q + 1)

/-- The `i`-th free square: the position of the `i`-th unset bit of the 64-bit occupancy
mask, counting from the least significant bit and from 0. -/
def nth_free_square (occupied_squares i : Nat) : Option Nat :=
  nth_set_bit 64 (not64 occupied_squares) i

/-- The increasing list of the positions of the set bits of `x` among its low `w` bits. -/
def bit_positions (w x : Nat) : List Nat := (List.range w).filter (fun i => x.testBit i)

/-! ### The closing stages -/

/-- Lines 318-396: the placement stages of the decode; what they leave are the provisional
bitboards. -/
def decode_placement (h : headers) (root : position_node) (index : Nat) :
    Except Fatal locals := do
  let l ← decode_pawns h root index
  let l ← decode_fixed_rooks h l
  let l ← decode_pieces h l
  decode_kings h l

/-- The union of the four non-king bitboards of a side. -/
def non_king_squares (sd : side) : Nat :=
  sd.pieces 0 ||| sd.pieces 1 ||| sd.pieces 2 ||| sd.pieces 3

/-! ### The piece passes -/

/-- The assignments of one turn of the loop of lines 367-382, for side `i` and piece type `j`,
after the call of `pass_generic` has left the shared state `s`, the bitboard `bitboard` and
the count `n`: the body of `decode_pieces_of_side` between the call and the test of line 378. -/
def piece_turn (h : headers) (i : Fin 2) (j : Nat) (l : locals) (s : decode_state)
    (bitboard n : Nat) : locals :=
  { l with
    s := s
    p := l.p.set_piece i j bitboard
    num_non_fixed_pieces_less_king := set2 l.num_non_fixed_pieces_less_king i j n
    num_non_fixed_base_pieces_less_king :=
      set2 l.num_non_fixed_base_pieces_less_king i j
        (if (n : Int) - h.BASE_PIECES (l.nfr i) j > 0 then h.BASE_PIECES (l.nfr i) j else n)
    promotions :=
      if (n : Int) - h.BASE_PIECES (l.nfr i) j > 0 then
        Function.update l.promotions i (l.promotions i + ((n : Int) - h.BASE_PIECES (l.nfr i) j))
      else l.promotions }

/-- A decision tree with one path: en-passant class 1, one more pawn for side 1, one more
pawn for side 0, no fixed rook and no piece for either side. -/
def shadow_tree : position_node :=
  via 1 (via 1 (via 1 (via 0 (via 0 (via 0 (via 0 (.mk 1000000 [])))))))

/-- Two cost-boundary arrays of three entries: {2, 6, 10} for side 0 and {3, 9, 12} for
side 1. -/
def example_boundaries : Fin 2 → Nat → Int :=
  fun s t => if s = 0 then [2, 6, 10].getD t 0 else [3, 9, 12].getD t 0

/-- A decision tree with one path: no en passant, no pawn, no fixed rook, three pieces of the
first type and one of the second for side 0, no piece for side 1. -/
def promotion_tree : position_node :=
  via 0 (via 0 (via 0 (via 0 (via 0 (via 3 (via 1 (via 0 (via 0 (.mk 1000000000 [])))))))))

/-- Empty `locals`. -/
def locals.zero : locals :=
  ⟨⟨.mk 0 [], 0, 0, []⟩, position.zero, false, fun _ => 0, fun _ _ => 0, fun _ _ => 0,
    fun _ => 0⟩

/-- The example headers with a permutation table that holds the rotation `j ↦ (j + 1) % 4`
everywhere. -/
def rotated_headers : headers :=
  { example_headers with
    fr_coveredSetIndex_fundamentalSetIndex_combIndex_comb :=
      fun _ _ _ _ j => (((j + 1) % 4 : Nat) : Int) }

/-- The value of `decode_logged`, or an empty one when there is none. -/
def logged_or_zero (x : Except Fatal (decode_result × List Nat)) : decode_result × List Nat :=
  value_or (decode_result.zero, []) x

/-! ## Bit counting -/

theorem popcnt_bits_double (w q : Nat) : popcnt_bits (w + 1) (2 * q) = popcnt_bits w q := by
  have h1 : 2 * q % 2 = 0 := by omega
  have h2 : 2 * q / 2 = q := by omega
  simp [popcnt_bits, h1, h2]

theorem popcnt_bits_double_succ (w q : Nat) :
    popcnt_bits (w + 1) (2 * q + 1) = popcnt_bits w q + 1 := by
  have h1 : (2 * q + 1) % 2 = 1 := by omega
  have h2 : (2 * q + 1) / 2 = q := by omega
  simp [popcnt_bits, h1, h2]
  omega

theorem popcnt_bits_zero (w : Nat) : popcnt_bits w 0 = 0 := by
  induction w with
  | zero => rfl
  | succ w ih => simp [popcnt_bits, ih]

theorem popcnt_bits_le (w x : Nat) : popcnt_bits w x ≤ w := by
  induction w generalizing x with
  | zero => simp [popcnt_bits]
  | succ w ih =>
    have := ih (x / 2)
    simp only [popcnt_bits]
    omega

/-- Bits above the value's width do not count. -/
theorem popcnt_bits_of_lt (m : Nat) : ∀ (w p : Nat), p < 2 ^ m → m ≤ w →
    popcnt_bits w p = popcnt_bits m p := by
  induction m with
  | zero =>
    intro w p hp _
    have : p = 0 := by simpa using hp
    subst this
    simp [popcnt_bits_zero]
  | succ m ih =>
    intro w p hp hw
    obtain ⟨w, rfl⟩ : ∃ v, w = v + 1 := ⟨w - 1, by omega⟩
    have hp2 : p / 2 < 2 ^ m := by
      rw [pow_succ] at hp
      omega
    simp only [popcnt_bits]
    rw [ih w (p / 2) hp2 (by omega)]

/-! ## The Pascal-rule recursion -/

theorem unrank_none_of_lt (k : Nat) : ∀ (m r : Nat), m < k → unrank k m r = none := by
  intro m
  induction m with
  | zero =>
    intro r h
    obtain ⟨k, rfl⟩ : ∃ j, k = j + 1 := ⟨k - 1, by omega⟩
    rfl
  | succ m ih =>
    intro r h
    obtain ⟨k, rfl⟩ : ∃ j, k = j + 1 := ⟨k - 1, by omega⟩
    have hc : Nat.choose m k = 0 := Nat.choose_eq_zero_of_lt (by omega)
    simp [unrank, hc, ih r (by omega)]

theorem unrank_some_of_lt : ∀ (k m r : Nat), r < Nat.choose m k →
    ∃ p, unrank k m r = some p ∧ p < 2 ^ m ∧ popcnt_bits m p = k := by
  intro k m
  induction m generalizing k with
  | zero =>
    intro r h
    cases k with
    | zero => exact ⟨0, rfl, by simp, rfl⟩
    | succ k => simp at h
  | succ m ih =>
    intro r h
    cases k with
    | zero => exact ⟨0, rfl, by positivity, popcnt_bits_zero _⟩
    | succ k =>
      rw [Nat.choose_succ_succ'] at h
      by_cases hr : r < Nat.choose m k
      · obtain ⟨q, hq, hlt, hpc⟩ := ih k r hr
        refine ⟨2 * q + 1, by simp [unrank, hr, hq], ?_, ?_⟩
        · rw [pow_succ]; omega
        · rw [popcnt_bits_double_succ, hpc]
      · obtain ⟨q, hq, hlt, hpc⟩ := ih (k + 1) (r - Nat.choose m k) (by omega)
        refine ⟨2 * q, by simp [unrank, hr, hq], ?_, ?_⟩
        · rw [pow_succ]; omega
        · rw [popcnt_bits_double, hpc]

theorem unrank_none_of_ge : ∀ (k m r : Nat), Nat.choose m (k + 1) ≤ r →
    unrank (k + 1) m r = none := by
  intro k m
  induction m generalizing k with
  | zero => intro r _; rfl
  | succ m ih =>
    intro r h
    rw [Nat.choose_succ_succ'] at h
    have hr : ¬ r < Nat.choose m k := by omega
    simp [unrank, hr, ih k (r - Nat.choose m k) (by omega)]

theorem unrank_lt_of_some (k m r p : Nat) (h : unrank k m r = some p) : p < 2 ^ m := by
  cases k with
  | zero =>
    have : p = 0 := by
      cases m <;> simp [unrank] at h <;> omega
    subst this
    positivity
  | succ k =>
    by_cases hr : r < Nat.choose m (k + 1)
    · obtain ⟨q, hq, hlt, _⟩ := unrank_some_of_lt (k + 1) m r hr
      rw [hq] at h
      cases h
      exact hlt
    · rw [unrank_none_of_ge k m r (by omega)] at h
      cases h

theorem unrank_inj : ∀ (k m r₁ r₂ : Nat), r₁ < Nat.choose m k → r₂ < Nat.choose m k →
    unrank k m r₁ = unrank k m r₂ → r₁ = r₂ := by
  intro k m
  induction m generalizing k with
  | zero =>
    intro r₁ r₂ h₁ h₂ _
    cases k with
    | zero => simp at h₁ h₂; omega
    | succ k => simp at h₁
  | succ m ih =>
    intro r₁ r₂ h₁ h₂ he
    cases k with
    | zero => simp at h₁ h₂; omega
    | succ k =>
      rw [Nat.choose_succ_succ'] at h₁ h₂
      by_cases c₁ : r₁ < Nat.choose m k <;> by_cases c₂ : r₂ < Nat.choose m k
      · obtain ⟨q₁, e₁, _, _⟩ := unrank_some_of_lt k m r₁ c₁
        obtain ⟨q₂, e₂, _, _⟩ := unrank_some_of_lt k m r₂ c₂
        simp [unrank, c₁, c₂, e₁, e₂] at he
        exact ih k r₁ r₂ c₁ c₂ (by rw [e₁, e₂, he])
      · obtain ⟨q₁, e₁, _, _⟩ := unrank_some_of_lt k m r₁ c₁
        obtain ⟨q₂, e₂, _, _⟩ := unrank_some_of_lt (k + 1) m (r₂ - Nat.choose m k) (by omega)
        simp [unrank, c₁, c₂, e₁, e₂] at he
        omega
      · obtain ⟨q₁, e₁, _, _⟩ := unrank_some_of_lt (k + 1) m (r₁ - Nat.choose m k) (by omega)
        obtain ⟨q₂, e₂, _, _⟩ := unrank_some_of_lt k m r₂ c₂
        simp [unrank, c₁, c₂, e₁, e₂] at he
        omega
      · obtain ⟨q₁, e₁, _, _⟩ := unrank_some_of_lt (k + 1) m (r₁ - Nat.choose m k) (by omega)
        obtain ⟨q₂, e₂, _, _⟩ := unrank_some_of_lt (k + 1) m (r₂ - Nat.choose m k) (by omega)
        simp [unrank, c₁, c₂, e₁, e₂] at he
        have := ih (k + 1) (r₁ - Nat.choose m k) (r₂ - Nat.choose m k) (by omega) (by omega)
          (by rw [e₁, e₂, he])
        omega

theorem unrank_surj : ∀ (k m p : Nat), p < 2 ^ m → popcnt_bits m p = k →
    ∃ r, r < Nat.choose m k ∧ unrank k m r = some p := by
  intro k m
  induction m generalizing k with
  | zero =>
    intro p hp hk
    have : p = 0 := by simpa using hp
    subst this
    simp [popcnt_bits] at hk
    subst hk
    exact ⟨0, by simp, rfl⟩
  | succ m ih =>
    intro p hp hk
    have hp2 : p / 2 < 2 ^ m := by
      rw [pow_succ] at hp
      omega
    simp only [popcnt_bits] at hk
    rcases Nat.mod_two_eq_zero_or_one p with h0 | h1
    · -- the lowest slot is free
      rw [h0, Nat.zero_add] at hk
      cases k with
      | zero =>
        have hp0 : p = 0 := by
          by_contra hne
          obtain ⟨r, hr, he⟩ := ih 0 (p / 2) hp2 hk
          have h00 : unrank 0 m r = some 0 := by cases m <;> rfl
          rw [h00] at he
          have h2 : p / 2 = 0 := (Option.some.inj he).symm
          omega
        subst hp0
        exact ⟨0, by simp, rfl⟩
      | succ k =>
        obtain ⟨r, hr, he⟩ := ih (k + 1) (p / 2) hp2 hk
        refine ⟨r + Nat.choose m k, by rw [Nat.choose_succ_succ']; omega, ?_⟩
        have hnot : ¬ r + Nat.choose m k < Nat.choose m k := by omega
        simp only [unrank, hnot, if_false, Nat.add_sub_cancel, he, Option.map_some']
        congr 1
        omega
    · -- the lowest slot holds a chessman
      rw [h1] at hk
      cases k with
      | zero => omega
      | succ k =>
        obtain ⟨r, hr, he⟩ := ih k (p / 2) hp2 (by omega)
        refine ⟨r, by rw [Nat.choose_succ_succ']; omega, ?_⟩
        simp only [unrank, hr, if_true, he, Option.map_some']
        congr 1
        omega

/-! ## The loop of `place_chessmen_relative_to_free_squares` -/

/-- In range, the loop makes exactly one recursive call, with an in-range rank; whatever the
callee `self` is. -/
theorem place_loop_call (binomials : Nat → Nat → Nat) (self : Nat → Nat → Except Fatal Nat)
    (k n : Nat) (hb : ∀ m, m ≤ n → binomials m k = Nat.choose m k) :
    ∀ (todo i index : Nat), i + todo = n - k → index < Nat.choose (n - i) (k + 1) →
      ∃ j r, i ≤ j ∧ j + k < n ∧ r < Nat.choose (n - 1 - j) k ∧
        place_loop binomials self (k + 1) n todo i index =
          (match self (n - 1 - j) r with
           | .error e => .error e
           | .ok q => .ok ((2 ^ j + (q * 2 ^ (j + 1)) % 2 ^ 64) % 2 ^ 64)) := by
  intro todo
  induction todo with
  | zero =>
    intro i index hi hlt
    have : Nat.choose (n - i) (k + 1) = 0 := Nat.choose_eq_zero_of_lt (by omega)
    omega
  | succ todo ih =>
    intro i index hi hlt
    have hm : n - i = (n - 1 - i) + 1 := by omega
    rw [hm, Nat.choose_succ_succ'] at hlt
    have hbk : binomials (n - 1 - i) (k + 1 - 1) = Nat.choose (n - 1 - i) k := by
      rw [Nat.add_sub_cancel]; exact hb _ (by omega)
    by_cases hr : index < Nat.choose (n - 1 - i) k
    · refine ⟨i, index, le_refl _, by omega, hr, ?_⟩
      simp only [place_loop, hbk, hr, if_true]
    · have hstep := ih (i + 1) (index - Nat.choose (n - 1 - i) k) (by omega)
        (by rw [show n - (i + 1) = n - 1 - i by omega]; omega)
      obtain ⟨j, r, hij, hjn, hrj, he⟩ := hstep
      refine ⟨j, r, by omega, hjn, hrj, ?_⟩
      simp only [place_loop, hbk, hr, if_false]
      exact he

/-- Out of range, the loop runs to its end and reaches the fatal branch. -/
theorem place_loop_fatal (binomials : Nat → Nat → Nat) (self : Nat → Nat → Except Fatal Nat)
    (k n : Nat) (hb : ∀ m, m ≤ n → binomials m k = Nat.choose m k) :
    ∀ (todo i index : Nat), i + todo = n - k → Nat.choose (n - i) (k + 1) ≤ index →
      place_loop binomials self (k + 1) n todo i index = .error .couldnt_place_chessmen := by
  intro todo
  induction todo with
  | zero => intro i index _ _; rfl
  | succ todo ih =>
    intro i index hi hge
    have hm : n - i = (n - 1 - i) + 1 := by omega
    rw [hm, Nat.choose_succ_succ'] at hge
    have hbk : binomials (n - 1 - i) (k + 1 - 1) = Nat.choose (n - 1 - i) k := by
      rw [Nat.add_sub_cancel]; exact hb _ (by omega)
    have hr : ¬ index < Nat.choose (n - 1 - i) k := by omega
    simp only [place_loop, hbk, hr, if_false]
    exact ih (i + 1) (index - Nat.choose (n - 1 - i) k) (by omega)
      (by rw [show n - (i + 1) = n - 1 - i by omega]; omega)

/-- In range the function returns; out of range (with at least one chessman) it is fatal. -/
theorem place_outcome (binomials : Nat → Nat → Nat) :
    ∀ (k n : Nat), (∀ m j, m ≤ n → j ≤ k → binomials m j = Nat.choose m j) → ∀ (r : Nat),
      (r < Nat.choose n k → ∃ p, place_chessmen_relative_to_free_squares binomials k n r = .ok p) ∧
      (1 ≤ k → Nat.choose n k ≤ r →
        place_chessmen_relative_to_free_squares binomials k n r
          = .error .couldnt_place_chessmen) := by
  intro k
  induction k with
  | zero =>
    intro n _ r
    exact ⟨fun _ => ⟨0, rfl⟩, fun h => absurd h (by omega)⟩
  | succ k ih =>
    intro n hb r
    have hbk : ∀ m, m ≤ n → binomials m k = Nat.choose m k := fun m hm => hb m k hm (by omega)
    constructor
    · intro hr
      obtain ⟨j, r', _, hjn, hr', he⟩ :=
        place_loop_call binomials (place_chessmen_relative_to_free_squares binomials k) k n hbk
          (n - k) 0 r (by omega) (by simpa using hr)
      obtain ⟨q, hq⟩ := (ih (n - 1 - j)
        (fun m j' hm hj => hb m j' (by omega) (by omega)) r').1 hr'
      rw [hq] at he
      exact ⟨_, he⟩
    · intro _ hge
      exact place_loop_fatal binomials _ k n hbk (n - k) 0 r (by omega) (by simpa using hge)

/-! ## The loop computes the Pascal-rule recursion -/

theorem placed_or_fatal_map_pow (o : Option Nat) :
    placed_or_fatal (o.map (fun q => q * 2 ^ 0)) = placed_or_fatal o := by
  cases o <;> simp [placed_or_fatal]

theorem place_loop_eq (binomials : Nat → Nat → Nat) (self : Nat → Nat → Except Fatal Nat)
    (k n : Nat) (hn : n ≤ 64) (hb : ∀ m, m ≤ n → binomials m k = Nat.choose m k)
    (hself : ∀ m r, m ≤ n → self m r = placed_or_fatal (unrank k m r)) :
    ∀ (todo i index : Nat), i + todo = n - k →
      place_loop binomials self (k + 1) n todo i index =
        placed_or_fatal ((unrank (k + 1) (n - i) index).map (fun q => q * 2 ^ i)) := by
  intro todo
  induction todo with
  | zero =>
    intro i index hi
    rw [unrank_none_of_lt (k + 1) (n - i) index (by omega)]
    rfl
  | succ todo ih =>
    intro i index hi
    have hm : n - i = (n - 1 - i) + 1 := by omega
    have hbk : binomials (n - 1 - i) (k + 1 - 1) = Nat.choose (n - 1 - i) k := by
      rw [Nat.add_sub_cancel]; exact hb _ (by omega)
    rw [hm]
    by_cases hr : index < Nat.choose (n - 1 - i) k
    · simp only [place_loop, hbk, hr, if_true, unrank, hself (n - 1 - i) index (by omega)]
      cases hq : unrank k (n - 1 - i) index with
      | none => simp [placed_or_fatal]
      | some q =>
        have hlt := unrank_lt_of_some k (n - 1 - i) index q hq
        have hpow : (2 : Nat) ^ (n - 1 - i) * 2 ^ (i + 1) = 2 ^ n := by
          rw [← pow_add]; congr 1; omega
        have h64 : (2 : Nat) ^ n ≤ 2 ^ 64 := Nat.pow_le_pow_right (by norm_num) hn
        have hpos : 0 < (2 : Nat) ^ (i + 1) := by positivity
        have h1 : q * 2 ^ (i + 1) + 2 ^ (i + 1) ≤ 2 ^ n := by
          have : (q + 1) * 2 ^ (i + 1) ≤ 2 ^ (n - 1 - i) * 2 ^ (i + 1) :=
            Nat.mul_le_mul_right _ (by omega)
          rw [hpow] at this
          linarith [this, Nat.succ_mul q (2 ^ (i + 1))]
        have h2 : (2 : Nat) ^ (i + 1) = 2 * 2 ^ i := by rw [pow_succ]; ring
        have hpi : 0 < (2 : Nat) ^ i := by positivity
        simp only [placed_or_fatal, Option.map_some']
        rw [Nat.mod_eq_of_lt (by omega), Nat.mod_eq_of_lt (by omega)]
        congr 1
        rw [h2]; ring
    · simp only [place_loop, hbk, hr, if_false, unrank]
      rw [ih (i + 1) (index - Nat.choose (n - 1 - i) k) (by omega),
        show n - (i + 1) = n - 1 - i by omega]
      cases unrank (k + 1) (n - 1 - i) (index - Nat.choose (n - 1 - i) k) with
      | none => rfl
      | some q =>
        simp only [placed_or_fatal, Option.map_some']
        congr 1
        rw [pow_succ]; ring

/-- On a board of at most 64 free squares the function is the Pascal-rule recursion. -/
theorem place_eq_unrank (binomials : Nat → Nat → Nat) :
    ∀ (k n : Nat), n ≤ 64 → (∀ m j, m ≤ n → j ≤ k → binomials m j = Nat.choose m j) →
      ∀ (r : Nat), place_chessmen_relative_to_free_squares binomials k n r
        = placed_or_fatal (unrank k n r) := by
  intro k
  induction k with
  | zero =>
    intro n _ _ r
    cases n <;> rfl
  | succ k ih =>
    intro n hn hb r
    have hbk : ∀ m, m ≤ n → binomials m k = Nat.choose m k := fun m hm => hb m k hm (by omega)
    have hself : ∀ m r, m ≤ n →
        place_chessmen_relative_to_free_squares binomials k m r
          = placed_or_fatal (unrank k m r) :=
      fun m r hm => ih m (by omega) (fun m' j hm' hj => hb m' j (by omega) (by omega)) r
    have h := place_loop_eq binomials _ k n hn hbk hself (n - k) 0 r (by omega)
    rw [Nat.sub_zero, placed_or_fatal_map_pow] at h
    exact h

/-! ## The child scan -/

theorem sum_positions_cons (c : position_node) (cs : List position_node) :
    sum_positions (c :: cs) = c.num_positions + sum_positions cs := by
  simp [sum_positions]

theorem sum_positions_nil : sum_positions [] = 0 := rfl

theorem sum_positions_take_le (cs : List position_node) (c : Nat) :
    sum_positions (cs.take c) ≤ sum_positions cs := by
  induction cs generalizing c with
  | nil => simp
  | cons a cs ih =>
    cases c with
    | zero => simp [sum_positions_nil]
    | succ c =>
      rw [List.take_succ_cons, sum_positions_cons, sum_positions_cons]
      have := ih c
      omega

theorem sum_positions_take_succ (cs : List position_node) (c : Nat) (child : position_node)
    (h : cs[c]? = some child) :
    sum_positions (cs.take (c + 1)) = sum_positions (cs.take c) + child.num_positions := by
  induction cs generalizing c with
  | nil => simp at h
  | cons a cs ih =>
    cases c with
    | zero =>
      simp at h
      subst h
      simp [sum_positions]
    | succ c =>
      simp at h
      rw [List.take_succ_cons, sum_positions_cons, List.take_succ_cons, sum_positions_cons,
        ih c h]
      omega

theorem sum_positions_take_mono (cs : List position_node) (a b : Nat) (h : a ≤ b) :
    sum_positions (cs.take a) ≤ sum_positions (cs.take b) := by
  have : cs.take a = (cs.take b).take a := by
    rw [List.take_take, Nat.min_eq_left h]
  rw [this]
  exact sum_positions_take_le _ _

/-- In range the scan stops at the child whose interval holds the index. -/
theorem scan_children_ok : ∀ (cs : List position_node) (i index : Nat),
    index < sum_positions cs →
      ∃ c child, cs[c]? = some child ∧
        scan_children cs i index = .ok (i + c, index - sum_positions (cs.take c), child) ∧
        sum_positions (cs.take c) ≤ index ∧
        index < sum_positions (cs.take c) + child.num_positions := by
  intro cs
  induction cs with
  | nil => intro i index h; simp [sum_positions_nil] at h
  | cons a cs ih =>
    intro i index h
    rw [sum_positions_cons] at h
    by_cases hge : index ≥ a.num_positions
    · obtain ⟨c, child, hget, hscan, hle, hlt⟩ := ih (i + 1) (index - a.num_positions) (by omega)
      refine ⟨c + 1, child, by simpa using hget, ?_, ?_, ?_⟩
      · simp only [scan_children, hge, if_true, hscan, List.take_succ_cons, sum_positions_cons]
        congr 2
        · omega
        · congr 1; omega
      · rw [List.take_succ_cons, sum_positions_cons]; omega
      · rw [List.take_succ_cons, sum_positions_cons]; omega
    · refine ⟨0, a, by simp, ?_, by simp [sum_positions_nil], ?_⟩
      · simp [scan_children, hge, sum_positions_nil]
      · simp only [List.take_zero, sum_positions_nil]; omega

/-- Out of range the scan runs past the last child. -/
theorem scan_children_fatal : ∀ (cs : List position_node) (i index : Nat),
    sum_positions cs ≤ index → scan_children cs i index = .error .scan_past_last_child := by
  intro cs
  induction cs with
  | nil => intro i index _; rfl
  | cons a cs ih =>
    intro i index h
    rw [sum_positions_cons] at h
    have hge : index ≥ a.num_positions := by omega
    simp only [scan_children, hge, if_true]
    exact ih (i + 1) (index - a.num_positions) (by omega)

theorem getElem?_lt_length {α : Type} (l : List α) (c : Nat) (x : α) (h : l[c]? = some x) :
    c < l.length := by
  by_contra hn
  rw [List.getElem?_eq_none (by omega)] at h
  cases h

theorem point_root_ok (root : position_node) (index : Nat)
    (h : index < sum_positions root.children) :
    ∃ c child, root.children[c]? = some child ∧
      point_root_to_matching_child root index
        = .ok (child, index - predecessor_sum root c, c) ∧
      predecessor_sum root c ≤ index ∧
      index < predecessor_sum root c + child.num_positions := by
  obtain ⟨c, child, hget, hscan, hle, hlt⟩ := scan_children_ok root.children 0 index h
  refine ⟨c, child, hget, ?_, hle, hlt⟩
  have hc : c < root.num_children := getElem?_lt_length _ _ _ hget
  simp only [point_root_to_matching_child, hscan, Nat.zero_add, hc, if_true, predecessor_sum]

theorem point_root_fatal (root : position_node) (index : Nat)
    (h : sum_positions root.children ≤ index) :
    point_root_to_matching_child root index = .error .scan_past_last_child := by
  simp only [point_root_to_matching_child, scan_children_fatal root.children 0 index h]

/-! ## Trees with the sum-of-children property -/

theorem sums_ok_of_mem : ∀ (cs : List position_node), all_sums_ok cs = true →
    ∀ c, c ∈ cs → c.sums_ok = true := by
  intro cs
  induction cs with
  | nil => intro _ c hc; cases hc
  | cons a cs ih =>
    intro h c hc
    simp only [all_sums_ok, Bool.and_eq_true] at h
    rcases List.mem_cons.1 hc with rfl | hmem
    · exact h.1
    · exact ih h.2 c hmem

theorem height_lt_of_mem : ∀ (cs : List position_node) (c : position_node), c ∈ cs →
    c.height + 1 ≤ heights cs := by
  intro cs
  induction cs with
  | nil => intro c hc; cases hc
  | cons a cs ih =>
    intro c hc
    simp only [heights]
    rcases List.mem_cons.1 hc with rfl | hmem
    · exact le_max_left _ _
    · exact le_trans (ih c hmem) (le_max_right _ _)

theorem sums_ok_leaf (np : Nat) (h : (position_node.mk np []).sums_ok = true) : np = 1 := by
  simpa [position_node.sums_ok, all_sums_ok] using h

theorem sums_ok_node (root : position_node) (h : root.sums_ok = true) :
    (root.children = [] → root.num_positions = 1) ∧
    (root.children ≠ [] → root.num_positions = sum_positions root.children) ∧
    (∀ c, c ∈ root.children → c.sums_ok = true ∧ c.height + 1 ≤ root.height) := by
  cases root with
  | mk np cs =>
    simp only [position_node.sums_ok, Bool.and_eq_true] at h
    refine ⟨?_, ?_, ?_⟩
    · intro he
      simp only [position_node.children] at he
      subst he
      simpa using h.1
    · intro hne
      simp only [position_node.children] at hne
      have : cs.isEmpty = false := by
        cases cs with
        | nil => exact absurd rfl hne
        | cons _ _ => rfl
      simpa [this, position_node.num_positions, position_node.children] using h.1
    · intro c hc
      simp only [position_node.children] at hc
      exact ⟨sums_ok_of_mem cs h.2 c hc, by
        simpa [position_node.height] using height_lt_of_mem cs c hc⟩

theorem navigate_ok : ∀ (steps : Nat) (root : position_node) (index : Nat),
    root.sums_ok = true → index < root.num_positions → root.height ≤ steps →
      ∃ visited leaf, navigate steps root index = .ok visited ∧
        (∀ x, x ∈ visited → x.2 < x.1.num_positions) ∧
        visited.getLast? = some (leaf, 0) ∧ leaf.children = [] := by
  intro steps
  induction steps with
  | zero =>
    intro root index hs hi hh
    obtain ⟨hleaf, hnode, hch⟩ := sums_ok_node root hs
    have hempty : root.children = [] := by
      by_contra hne
      obtain ⟨c, hc⟩ := List.exists_mem_of_ne_nil _ hne
      have := (hch c hc).2
      omega
    have h1 := hleaf hempty
    refine ⟨[(root, index)], root, ?_, ?_, ?_, hempty⟩
    · unfold navigate; simp [hempty]
    · intro x hx
      simp only [List.mem_singleton] at hx
      subst hx
      exact hi
    · have : index = 0 := by omega
      simp [this]
  | succ steps ih =>
    intro root index hs hi hh
    obtain ⟨hleaf, hnode, hch⟩ := sums_ok_node root hs
    by_cases hempty : root.children = []
    · have h1 := hleaf hempty
      refine ⟨[(root, index)], root, ?_, ?_, ?_, hempty⟩
      · unfold navigate; simp [hempty]
      · intro x hx
        simp only [List.mem_singleton] at hx
        subst hx
        exact hi
      · have : index = 0 := by omega
        simp [this]
    · have hsum := hnode hempty
      obtain ⟨c, child, hget, hpoint, hle, hlt⟩ := point_root_ok root index (by omega)
      have hmem : child ∈ root.children := List.getElem?_mem hget
      obtain ⟨hcs, hch'⟩ := hch child hmem
      obtain ⟨visited, leaf, hnav, hall, hlast, hl⟩ :=
        ih child (index - predecessor_sum root c) hcs (by omega) (by omega)
      have hne : root.children.isEmpty = false := by
        cases hcc : root.children with
        | nil => exact absurd hcc hempty
        | cons _ _ => rfl
      refine ⟨(root, index) :: visited, leaf, ?_, ?_, ?_, hl⟩
      · rw [navigate]
        simp only [hne, hpoint, hnav]
        rfl
      · intro x hx
        rcases List.mem_cons.1 hx with rfl | hx'
        · exact hi
        · exact hall x hx'
      · cases visited with
        | nil => simp at hlast
        | cons v vs => simpa [List.getLast?_cons_cons] using hlast

/-! ## The fundamental-set class -/

/-- Vectors with the same equality pattern have the same stabilizer. -/
theorem stabilizer_size_congr (v w : Fin 4 → Int) (h : ∀ i j, v i = v j ↔ w i = w j) :
    stabilizer_size v = stabilizer_size w := by
  unfold stabilizer_size
  congr 1
  apply Finset.filter_congr
  intro σ _
  exact forall_congr' (fun i => h (σ i) i)

/-- Vectors with the same equality pattern have the same multiplicities. -/
theorem multiplicity_factorials_congr (v w : Fin 4 → Int)
    (h : ∀ i j, v i = v j ↔ w i = w j) :
    multiplicity_factorials v = multiplicity_factorials w := by
  unfold multiplicity_factorials
  have hm : ∀ i, multiplicity_of v (v i) = multiplicity_of w (w i) := by
    intro i
    unfold multiplicity_of
    congr 1
    apply Finset.filter_congr
    intro j _
    exact h j i
  refine Finset.prod_bij' (fun x _ => if hx : ∃ i, v i = x then w hx.choose else 0)
    (fun y _ => if hy : ∃ i, w i = y then v hy.choose else 0) ?_ ?_ ?_ ?_ ?_
  · intro x hx
    obtain ⟨i, _, rfl⟩ := Finset.mem_image.1 hx
    have hex : ∃ j, v j = v i := ⟨i, rfl⟩
    simp only [hex, dif_pos]
    exact Finset.mem_image.2 ⟨_, Finset.mem_univ _, rfl⟩
  · intro y hy
    obtain ⟨i, _, rfl⟩ := Finset.mem_image.1 hy
    have hex : ∃ j, w j = w i := ⟨i, rfl⟩
    simp only [hex, dif_pos]
    exact Finset.mem_image.2 ⟨_, Finset.mem_univ _, rfl⟩
  · intro x hx
    obtain ⟨i, _, rfl⟩ := Finset.mem_image.1 hx
    have hex : ∃ j, v j = v i := ⟨i, rfl⟩
    have h1 : w hex.choose = w i := (h _ _).1 hex.choose_spec
    have hex2 : ∃ j, w j = w hex.choose := ⟨_, rfl⟩
    simp only [hex, dif_pos, hex2]
    have h2 : w hex2.choose = w i := hex2.choose_spec.trans h1
    exact (h _ _).2 h2
  · intro y hy
    obtain ⟨i, _, rfl⟩ := Finset.mem_image.1 hy
    have hex : ∃ j, w j = w i := ⟨i, rfl⟩
    have h1 : v hex.choose = v i := (h _ _).2 hex.choose_spec
    have hex2 : ∃ j, v j = v hex.choose := ⟨_, rfl⟩
    simp only [hex, dif_pos, hex2]
    have h2 : v hex2.choose = v i := hex2.choose_spec.trans h1
    exact (h _ _).1 h2
  · intro x hx
    obtain ⟨i, _, rfl⟩ := Finset.mem_image.1 hx
    have hex : ∃ j, v j = v i := ⟨i, rfl⟩
    simp only [hex, dif_pos]
    have h1 : w hex.choose = w i := (h _ _).1 hex.choose_spec
    rw [h1, hm i]

theorem pattern_vector_iff (v : Fin 4 → Int) (h : v 0 ≥ v 1 ∧ v 1 ≥ v 2 ∧ v 2 ≥ v 3) :
    ∀ i j, v i = v j ↔
      pattern_vector (decide (v 1 = v 0)) (decide (v 2 = v 1)) (decide (v 3 = v 2)) i
        = pattern_vector (decide (v 1 = v 0)) (decide (v 2 = v 1)) (decide (v 3 = v 2)) j := by
  obtain ⟨h₁, h₂, h₃⟩ := h
  intro i j
  by_cases e₁ : v 1 = v 0 <;> by_cases e₂ : v 2 = v 1 <;> by_cases e₃ : v 3 = v 2 <;>
    fin_cases i <;> fin_cases j <;>
    simp [pattern_vector, e₁, e₂, e₃] <;> omega

theorem pattern_vector_class (e₁ e₂ e₃ : Bool) :
    FUNDAMENTAL_SET_DIVISORS[get_fundamentalSet_index (pattern_vector e₁ e₂ e₃)]?
        = some (stabilizer_size (pattern_vector e₁ e₂ e₃) : Int) ∧
      stabilizer_size (pattern_vector e₁ e₂ e₃)
        = multiplicity_factorials (pattern_vector e₁ e₂ e₃) := by
  cases e₁ <;> cases e₂ <;> cases e₃ <;> decide

theorem fundamentalSet_index_congr (v : Fin 4 → Int) :
    get_fundamentalSet_index v =
      get_fundamentalSet_index
        (pattern_vector (decide (v 1 = v 0)) (decide (v 2 = v 1)) (decide (v 3 = v 2))) := by
  by_cases e₁ : v 1 = v 0 <;> by_cases e₂ : v 2 = v 1 <;> by_cases e₃ : v 3 = v 2 <;>
    simp [get_fundamentalSet_index, pattern_vector, e₁, e₂, e₃]

/-! ## 32-bit conversions -/

theorem toI32_of_range (x : Int) (h₁ : -2 ^ 31 ≤ x) (h₂ : x < 2 ^ 31) : toI32 x = x := by
  unfold toI32
  omega

theorem toU32_of_range (x : Int) (h₁ : 0 ≤ x) (h₂ : x < 2 ^ 32) : (toU32 x : Int) = x := by
  unfold toU32
  omega

/-- The comparison `d < 0` of the source, when nothing wraps. -/
theorem toI32_sub (index : Nat) (c : Int) (hi : index < 2 ^ 31) (h₁ : 0 ≤ c)
    (h₂ : c < 2 ^ 31) : toI32 ((index : Int) - toU32 (toI32 c)) = (index : Int) - c := by
  rw [toI32_of_range c (by omega) h₂, toU32_of_range c h₁ (by omega)]
  exact toI32_of_range _ (by omega) (by omega)

/-! ## Boundaries -/

section
variable (MAX_UNIQUE_COSTS : Nat) (pawn_slack : Fin 2 → Int) (chessmen_slack : Int)
  (cost_boundaries : Fin 2 → Nat → Int) (fundamentalSet_indices : Fin 2 → Nat)

theorem divisor_pos (s : Fin 2) (h : fundamentalSet_indices s < 8) :
    0 < divisor fundamentalSet_indices s := by
  unfold divisor
  generalize fundamentalSet_indices s = c at h
  interval_cases c <;> decide

theorem boundary_eq_ediv (s : Fin 2) (t : Nat) (h : fundamentalSet_indices s < 8)
    (hc : 0 ≤ cost_boundaries s t) :
    boundary cost_boundaries fundamentalSet_indices s t
      = cost_boundaries s t / divisor fundamentalSet_indices s := by
  unfold boundary
  exact Int.tdiv_eq_ediv hc (le_of_lt (divisor_pos fundamentalSet_indices s h))

theorem boundary_range (hfs : ∀ s, fundamentalSet_indices s < 8)
    (hok : boundaries_ok MAX_UNIQUE_COSTS cost_boundaries) (s : Fin 2) (t : Nat)
    (ht : t < MAX_UNIQUE_COSTS) :
    0 ≤ boundary cost_boundaries fundamentalSet_indices s t ∧
      boundary cost_boundaries fundamentalSet_indices s t < 2 ^ 31 := by
  obtain ⟨h0, h1, _⟩ := hok s t ht
  have hd := divisor_pos fundamentalSet_indices s (hfs s)
  rw [boundary_eq_ediv cost_boundaries fundamentalSet_indices s t (hfs s) h0]
  refine ⟨Int.ediv_nonneg h0 (le_of_lt hd), ?_⟩
  exact lt_of_le_of_lt (Int.ediv_le_self _ h0) h1

theorem boundary_step (hfs : ∀ s, fundamentalSet_indices s < 8)
    (hok : boundaries_ok MAX_UNIQUE_COSTS cost_boundaries) (s : Fin 2) (t : Nat)
    (ht : t + 1 < MAX_UNIQUE_COSTS) :
    boundary cost_boundaries fundamentalSet_indices s t
      ≤ boundary cost_boundaries fundamentalSet_indices s (t + 1) := by
  obtain ⟨h0, _, _⟩ := hok s t (by omega)
  obtain ⟨h0', _, hm⟩ := hok s (t + 1) ht
  have hd := divisor_pos fundamentalSet_indices s (hfs s)
  rw [boundary_eq_ediv cost_boundaries fundamentalSet_indices s t (hfs s) h0,
    boundary_eq_ediv cost_boundaries fundamentalSet_indices s (t + 1) (hfs s) h0']
  exact Int.ediv_le_ediv hd (by simpa using hm (by omega))

theorem boundary_mono (hfs : ∀ s, fundamentalSet_indices s < 8)
    (hok : boundaries_ok MAX_UNIQUE_COSTS cost_boundaries) (s : Fin 2) (a b : Nat)
    (hab : a ≤ b) (hb : b < MAX_UNIQUE_COSTS) :
    boundary cost_boundaries fundamentalSet_indices s a
      ≤ boundary cost_boundaries fundamentalSet_indices s b := by
  induction b with
  | zero =>
    have : a = 0 := by omega
    subst this
    exact le_refl _
  | succ b ih =>
    rcases Nat.eq_or_lt_of_le hab with rfl | hlt
    · exact le_refl _
    · exact le_trans (ih (by omega) (by omega))
        (boundary_step MAX_UNIQUE_COSTS cost_boundaries fundamentalSet_indices hfs hok s b hb)

theorem boundary_before_range (hfs : ∀ s, fundamentalSet_indices s < 8)
    (hok : boundaries_ok MAX_UNIQUE_COSTS cost_boundaries) (s : Fin 2) (t : Nat)
    (ht : t < MAX_UNIQUE_COSTS) :
    0 ≤ boundary_before cost_boundaries fundamentalSet_indices s t ∧
      boundary_before cost_boundaries fundamentalSet_indices s t
        ≤ boundary cost_boundaries fundamentalSet_indices s t := by
  unfold boundary_before
  by_cases h : t > 0
  · simp only [h, if_true]
    refine ⟨(boundary_range MAX_UNIQUE_COSTS cost_boundaries fundamentalSet_indices hfs hok s
      (t - 1) (by omega)).1, ?_⟩
    exact boundary_mono MAX_UNIQUE_COSTS cost_boundaries fundamentalSet_indices hfs hok s
      (t - 1) t (by omega) ht
  · simp only [h, if_false]
    exact ⟨le_refl _, (boundary_range MAX_UNIQUE_COSTS cost_boundaries fundamentalSet_indices
      hfs hok s t ht).1⟩

theorem perm_count_range (hfs : ∀ s, fundamentalSet_indices s < 8)
    (hok : boundaries_ok MAX_UNIQUE_COSTS cost_boundaries) (s : Fin 2) (t : Nat)
    (ht : t < MAX_UNIQUE_COSTS) :
    0 ≤ perm_count cost_boundaries fundamentalSet_indices s t ∧
      perm_count cost_boundaries fundamentalSet_indices s t < 2 ^ 31 := by
  have h1 := boundary_before_range MAX_UNIQUE_COSTS cost_boundaries fundamentalSet_indices hfs
    hok s t ht
  have h2 := boundary_range MAX_UNIQUE_COSTS cost_boundaries fundamentalSet_indices hfs hok s
    t ht
  unfold perm_count
  omega

theorem outer_count_le : outer_count MAX_UNIQUE_COSTS pawn_slack chessmen_slack
    ≤ MAX_UNIQUE_COSTS := by
  unfold outer_count min3
  omega

theorem inner_count_le (i : Nat) : inner_count MAX_UNIQUE_COSTS pawn_slack chessmen_slack i
    ≤ MAX_UNIQUE_COSTS := by
  unfold inner_count min3
  omega

theorem cell_size_nonneg (hfs : ∀ s, fundamentalSet_indices s < 8)
    (hok : boundaries_ok MAX_UNIQUE_COSTS cost_boundaries) (i j : Nat)
    (hi : i < MAX_UNIQUE_COSTS) (hj : j < MAX_UNIQUE_COSTS) :
    0 ≤ cell_size cost_boundaries fundamentalSet_indices i j := by
  unfold cell_size
  exact mul_nonneg
    (perm_count_range MAX_UNIQUE_COSTS cost_boundaries fundamentalSet_indices hfs hok 0 i hi).1
    (perm_count_range MAX_UNIQUE_COSTS cost_boundaries fundamentalSet_indices hfs hok 1 j hj).1

/-! ## Running totals -/

theorem row_total_zero (i : Nat) : row_total cost_boundaries fundamentalSet_indices i 0 = 0 :=
  rfl

theorem row_total_succ (i n : Nat) :
    row_total cost_boundaries fundamentalSet_indices i (n + 1)
      = row_total cost_boundaries fundamentalSet_indices i n
        + cell_size cost_boundaries fundamentalSet_indices i n := by
  simp [row_total, List.range_succ]

theorem rows_total_zero :
    rows_total MAX_UNIQUE_COSTS pawn_slack chessmen_slack cost_boundaries
      fundamentalSet_indices 0 = 0 := rfl

theorem rows_total_succ (n : Nat) :
    rows_total MAX_UNIQUE_COSTS pawn_slack chessmen_slack cost_boundaries
        fundamentalSet_indices (n + 1)
      = rows_total MAX_UNIQUE_COSTS pawn_slack chessmen_slack cost_boundaries
          fundamentalSet_indices n
        + row_total cost_boundaries fundamentalSet_indices n
          (inner_count MAX_UNIQUE_COSTS pawn_slack chessmen_slack n) := by
  simp [rows_total, List.range_succ]

theorem row_total_mono (hfs : ∀ s, fundamentalSet_indices s < 8)
    (hok : boundaries_ok MAX_UNIQUE_COSTS cost_boundaries) (i : Nat)
    (hi : i < MAX_UNIQUE_COSTS) (a b : Nat) (hab : a ≤ b) (hb : b ≤ MAX_UNIQUE_COSTS) :
    row_total cost_boundaries fundamentalSet_indices i a
      ≤ row_total cost_boundaries fundamentalSet_indices i b := by
  induction b with
  | zero =>
    have : a = 0 := by omega
    subst this
    exact le_refl _
  | succ b ih =>
    rcases Nat.eq_or_lt_of_le hab with rfl | hlt
    · exact le_refl _
    · have h1 := ih (by omega) (by omega)
      have h2 := cell_size_nonneg MAX_UNIQUE_COSTS cost_boundaries fundamentalSet_indices hfs
        hok i b hi (by omega)
      rw [row_total_succ]
      omega

theorem rows_total_mono (hfs : ∀ s, fundamentalSet_indices s < 8)
    (hok : boundaries_ok MAX_UNIQUE_COSTS cost_boundaries) (a b : Nat) (hab : a ≤ b)
    (hb : b ≤ MAX_UNIQUE_COSTS) :
    rows_total MAX_UNIQUE_COSTS pawn_slack chessmen_slack cost_boundaries
        fundamentalSet_indices a
      ≤ rows_total MAX_UNIQUE_COSTS pawn_slack chessmen_slack cost_boundaries
        fundamentalSet_indices b := by
  induction b with
  | zero =>
    have : a = 0 := by omega
    subst this
    exact le_refl _
  | succ b ih =>
    rcases Nat.eq_or_lt_of_le hab with rfl | hlt
    · exact le_refl _
    · have h1 := ih (by omega) (by omega)
      have h2 := row_total_mono MAX_UNIQUE_COSTS cost_boundaries fundamentalSet_indices hfs
        hok b (by omega) 0 (inner_count MAX_UNIQUE_COSTS pawn_slack chessmen_slack b)
        (Nat.zero_le _) (inner_count_le MAX_UNIQUE_COSTS pawn_slack chessmen_slack b)
      rw [row_total_zero] at h2
      rw [rows_total_succ]
      omega

/-- A visited cell is no larger than the total. -/
theorem cell_size_le_total (hfs : ∀ s, fundamentalSet_indices s < 8)
    (hok : boundaries_ok MAX_UNIQUE_COSTS cost_boundaries) (i j : Nat)
    (hv : visited MAX_UNIQUE_COSTS pawn_slack chessmen_slack i j) :
    cell_size cost_boundaries fundamentalSet_indices i j
      ≤ total MAX_UNIQUE_COSTS pawn_slack chessmen_slack cost_boundaries
        fundamentalSet_indices := by
  obtain ⟨hi, hj⟩ := hv
  have hoc := outer_count_le MAX_UNIQUE_COSTS pawn_slack chessmen_slack
  have hic := inner_count_le MAX_UNIQUE_COSTS pawn_slack chessmen_slack i
  have h1 := row_total_mono MAX_UNIQUE_COSTS cost_boundaries fundamentalSet_indices hfs hok i
    (by omega) (j + 1) (inner_count MAX_UNIQUE_COSTS pawn_slack chessmen_slack i) (by omega) hic
  have h2 := row_total_mono MAX_UNIQUE_COSTS cost_boundaries fundamentalSet_indices hfs hok i
    (by omega) 0 j (Nat.zero_le _) (by omega)
  have h3 := rows_total_mono MAX_UNIQUE_COSTS pawn_slack chessmen_slack cost_boundaries
    fundamentalSet_indices hfs hok (i + 1)
    (outer_count MAX_UNIQUE_COSTS pawn_slack chessmen_slack) (by omega) hoc
  have h4 := rows_total_mono MAX_UNIQUE_COSTS pawn_slack chessmen_slack cost_boundaries
    fundamentalSet_indices hfs hok 0 i (Nat.zero_le _) (by omega)
  rw [rows_total_zero] at h4
  rw [row_total_zero] at h2
  rw [row_total_succ] at h1
  rw [rows_total_succ] at h3
  unfold total
  omega

end

/-- A value below the last of a chain of running totals lies in one of its steps. -/
theorem exists_step (F : Nat → Int) (x : Int) : ∀ (N : Nat), F 0 ≤ x → x < F N →
    ∃ n, n < N ∧ F n ≤ x ∧ x < F (n + 1) := by
  intro N
  induction N with
  | zero => intro h0 hN; omega
  | succ N ih =>
    intro h0 hN
    by_cases h : x < F N
    · obtain ⟨n, hn, h1, h2⟩ := ih h0 h
      exact ⟨n, by omega, h1, h2⟩
    · exact ⟨N, by omega, by omega, hN⟩

section
variable (MAX_UNIQUE_COSTS : Nat) (pawn_slack : Fin 2 → Int) (chessmen_slack : Int)
  (cost_boundaries : Fin 2 → Nat → Int) (fundamentalSet_indices : Fin 2 → Nat)

/-- The value of the local `p0` / `p1` of the source after the conditional subtraction. -/
theorem local_count_eq (hfs : ∀ s, fundamentalSet_indices s < 8)
    (hok : boundaries_ok MAX_UNIQUE_COSTS cost_boundaries) (s : Fin 2) (t : Nat)
    (ht : t < MAX_UNIQUE_COSTS) :
    (if t > 0 then
        toI32 (boundary cost_boundaries fundamentalSet_indices s t
          - boundary cost_boundaries fundamentalSet_indices s (t - 1))
      else boundary cost_boundaries fundamentalSet_indices s t)
      = perm_count cost_boundaries fundamentalSet_indices s t := by
  have h1 := boundary_before_range MAX_UNIQUE_COSTS cost_boundaries fundamentalSet_indices hfs
    hok s t ht
  have h2 := boundary_range MAX_UNIQUE_COSTS cost_boundaries fundamentalSet_indices hfs hok s
    t ht
  unfold perm_count
  unfold boundary_before at h1 ⊢
  by_cases h : t > 0
  · simp only [h, if_true] at h1 ⊢
    exact toI32_of_range _ (by omega) (by omega)
  · simp only [h, if_false]
    omega

/-- One iteration of the inner loop when nothing wraps. -/
theorem inner_step (hfs : ∀ s, fundamentalSet_indices s < 8)
    (hok : boundaries_ok MAX_UNIQUE_COSTS cost_boundaries) (i j : Nat)
    (hi : i < MAX_UNIQUE_COSTS) (hj : j < MAX_UNIQUE_COSTS) (todo index : Nat)
    (hidx : index < 2 ^ 31)
    (hsz : cell_size cost_boundaries fundamentalSet_indices i j < 2 ^ 31) :
    get_permutation_index_inner cost_boundaries fundamentalSet_indices i
        (perm_count cost_boundaries fundamentalSet_indices 0 i) (todo + 1) j index
      = if (index : Int) < cell_size cost_boundaries fundamentalSet_indices i j then
          .ok (.inl ⟨cell_pair cost_boundaries fundamentalSet_indices i j index⟩)
        else
          get_permutation_index_inner cost_boundaries fundamentalSet_indices i
            (perm_count cost_boundaries fundamentalSet_indices 0 i) todo (j + 1)
            (index - (cell_size cost_boundaries fundamentalSet_indices i j).toNat) := by
  have hB := boundary_range MAX_UNIQUE_COSTS cost_boundaries fundamentalSet_indices hfs hok 1
    j hj
  have hne : ¬ boundary cost_boundaries fundamentalSet_indices 1 j = -1 := by omega
  have hp1 := local_count_eq MAX_UNIQUE_COSTS cost_boundaries fundamentalSet_indices hfs hok 1
    j hj
  have hc0 := perm_count_range MAX_UNIQUE_COSTS cost_boundaries fundamentalSet_indices hfs hok
    0 i hi
  have hc1 := perm_count_range MAX_UNIQUE_COSTS cost_boundaries fundamentalSet_indices hfs hok
    1 j hj
  have hnn := cell_size_nonneg MAX_UNIQUE_COSTS cost_boundaries fundamentalSet_indices hfs hok
    i j hi hj
  have hd := toI32_sub index (cell_size cost_boundaries fundamentalSet_indices i j) hidx hnn hsz
  rw [get_permutation_index_inner]
  simp only [hne, if_false, hp1]
  have hcs : perm_count cost_boundaries fundamentalSet_indices 0 i
      * perm_count cost_boundaries fundamentalSet_indices 1 j
      = cell_size cost_boundaries fundamentalSet_indices i j := rfl
  rw [hcs, hd]
  by_cases hlt : (index : Int) < cell_size cost_boundaries fundamentalSet_indices i j
  · have hP1pos : 0 < perm_count cost_boundaries fundamentalSet_indices 1 j := by
      rcases lt_or_eq_of_le hc1.1 with h | h
      · exact h
      · rw [← hcs, ← h, mul_zero] at hlt
        omega
    have hU := toU32_of_range _ hc1.1 (by omega : perm_count cost_boundaries
      fundamentalSet_indices 1 j < 2 ^ 32)
    have hUne : ¬ toU32 (perm_count cost_boundaries fundamentalSet_indices 1 j) = 0 := by
      intro h0
      rw [h0] at hU
      simp at hU
      omega
    have hq : ((index / toU32 (perm_count cost_boundaries fundamentalSet_indices 1 j) : Nat)
        : Int) = (index : Int) / perm_count cost_boundaries fundamentalSet_indices 1 j := by
      rw [Int.ofNat_ediv, hU]
    have hq0 : 0 ≤ (index : Int) / perm_count cost_boundaries fundamentalSet_indices 1 j :=
      Int.ediv_nonneg (by omega) hc1.1
    have hq1 : (index : Int) / perm_count cost_boundaries fundamentalSet_indices 1 j
        ≤ index := Int.ediv_le_self _ (by omega)
    have hq2 : (index : Int) / perm_count cost_boundaries fundamentalSet_indices 1 j
        < perm_count cost_boundaries fundamentalSet_indices 0 i :=
      Int.ediv_lt_of_lt_mul hP1pos (by rw [hcs]; exact hlt)
    have hq3 : (index : Int) / perm_count cost_boundaries fundamentalSet_indices 1 j
        * perm_count cost_boundaries fundamentalSet_indices 1 j ≤ index :=
      Int.ediv_mul_le _ (by omega)
    have hq4 : 0 ≤ (index : Int) / perm_count cost_boundaries fundamentalSet_indices 1 j
        * perm_count cost_boundaries fundamentalSet_indices 1 j :=
      mul_nonneg hq0 hc1.1
    have hmod : (index : Int) - (index : Int)
        / perm_count cost_boundaries fundamentalSet_indices 1 j
        * perm_count cost_boundaries fundamentalSet_indices 1 j
        = (index : Int) % perm_count cost_boundaries fundamentalSet_indices 1 j := by
      rw [Int.emod_def, mul_comm]
    have hm1 := Int.emod_lt_of_pos (index : Int) hP1pos
    have hm0 := Int.emod_nonneg (index : Int) (ne_of_gt hP1pos)
    have hb0 := boundary_before_range MAX_UNIQUE_COSTS cost_boundaries fundamentalSet_indices
      hfs hok 0 i hi
    have hb1 := boundary_before_range MAX_UNIQUE_COSTS cost_boundaries fundamentalSet_indices
      hfs hok 1 j hj
    have hB0 := boundary_range MAX_UNIQUE_COSTS cost_boundaries fundamentalSet_indices hfs hok
      0 i hi
    have hpc0 : perm_count cost_boundaries fundamentalSet_indices 0 i
        = boundary cost_boundaries fundamentalSet_indices 0 i
          - boundary_before cost_boundaries fundamentalSet_indices 0 i := rfl
    have hpc1 : perm_count cost_boundaries fundamentalSet_indices 1 j
        = boundary cost_boundaries fundamentalSet_indices 1 j
          - boundary_before cost_boundaries fundamentalSet_indices 1 j := rfl
    have hqI := toI32_of_range
      ((index : Int) / perm_count cost_boundaries fundamentalSet_indices 1 j)
      (by omega) (by omega)
    rw [if_pos (by omega), if_neg hUne, if_pos hlt, hq, hqI,
      toI32_sub index _ hidx hq4 (by omega), hmod]
    congr 3
    unfold cell_pair
    congr 1
    · by_cases h : i > 0
      · have hbb : boundary_before cost_boundaries fundamentalSet_indices 0 i
            = boundary cost_boundaries fundamentalSet_indices 0 (i - 1) := if_pos h
        simp only [h, if_true]
        rw [hbb]
        exact toI32_of_range _ (by omega) (by omega)
      · have hbb : boundary_before cost_boundaries fundamentalSet_indices 0 i = 0 := if_neg h
        simp only [h, if_false]
        omega
    · by_cases h : j > 0
      · have hbb : boundary_before cost_boundaries fundamentalSet_indices 1 j
            = boundary cost_boundaries fundamentalSet_indices 1 (j - 1) := if_pos h
        simp only [h, if_true]
        rw [hbb]
        exact toI32_of_range _ (by omega) (by omega)
      · have hbb : boundary_before cost_boundaries fundamentalSet_indices 1 j = 0 := if_neg h
        simp only [h, if_false]
        omega
  · rw [if_neg (by omega), if_neg hlt]
    congr 1
    unfold toU32
    omega

end

section
variable (MAX_UNIQUE_COSTS : Nat) (pawn_slack : Fin 2 → Int) (chessmen_slack : Int)
  (cost_boundaries : Fin 2 → Nat → Int) (fundamentalSet_indices : Fin 2 → Nat)

/-- The inner loop when nothing wraps: it either passes the whole row or resolves the rank in
the cell that holds it. -/
theorem inner_spec (hfs : ∀ s, fundamentalSet_indices s < 8)
    (hok : boundaries_ok MAX_UNIQUE_COSTS cost_boundaries) (i : Nat)
    (hi : i < MAX_UNIQUE_COSTS) :
    ∀ (todo j index : Nat), j + todo ≤ MAX_UNIQUE_COSTS →
      (∀ t, j ≤ t → t < j + todo →
        cell_size cost_boundaries fundamentalSet_indices i t < 2 ^ 31) →
      index < 2 ^ 31 →
      (row_total cost_boundaries fundamentalSet_indices i (j + todo)
          - row_total cost_boundaries fundamentalSet_indices i j ≤ index →
        get_permutation_index_inner cost_boundaries fundamentalSet_indices i
            (perm_count cost_boundaries fundamentalSet_indices 0 i) todo j index
          = .ok (.inr (index - (row_total cost_boundaries fundamentalSet_indices i (j + todo)
              - row_total cost_boundaries fundamentalSet_indices i j).toNat))) ∧
      (∀ (j' : Nat) (r : Int), j ≤ j' → j' < j + todo → 0 ≤ r →
        r < cell_size cost_boundaries fundamentalSet_indices i j' →
        (index : Int) = row_total cost_boundaries fundamentalSet_indices i j'
          - row_total cost_boundaries fundamentalSet_indices i j + r →
        get_permutation_index_inner cost_boundaries fundamentalSet_indices i
            (perm_count cost_boundaries fundamentalSet_indices 0 i) todo j index
          = .ok (.inl ⟨cell_pair cost_boundaries fundamentalSet_indices i j' r⟩)) := by
  intro todo
  induction todo with
  | zero =>
    intro j index _ _ _
    refine ⟨?_, ?_⟩
    · intro _
      simp [get_permutation_index_inner]
    · intro j' r h1 h2
      omega
  | succ todo ih =>
    intro j index hj hsz hidx
    have hcs := hsz j (le_refl _) (by omega)
    have hnn := cell_size_nonneg MAX_UNIQUE_COSTS cost_boundaries fundamentalSet_indices hfs
      hok i j hi (by omega)
    have hstep := inner_step MAX_UNIQUE_COSTS cost_boundaries fundamentalSet_indices hfs hok i
      j hi (by omega) todo index hidx hcs
    have hsucc := row_total_succ cost_boundaries fundamentalSet_indices i j
    have hih := ih (j + 1)
      (index - (cell_size cost_boundaries fundamentalSet_indices i j).toNat) (by omega)
      (fun t h1 h2 => hsz t (by omega) (by omega)) (by omega)
    have hjt : j + 1 + todo = j + (todo + 1) := by omega
    rw [hjt] at hih
    refine ⟨?_, ?_⟩
    · intro hge
      have hm := row_total_mono MAX_UNIQUE_COSTS cost_boundaries fundamentalSet_indices hfs hok
        i hi (j + 1) (j + (todo + 1)) (by omega) hj
      rw [hstep, if_neg (by omega), hih.1 (by omega)]
      congr 2
      omega
    · intro j' r h1 h2 hr0 hr hidx'
      rcases Nat.eq_or_lt_of_le h1 with rfl | hlt
      · have : (index : Int) = r := by omega
        rw [hstep, if_pos (by omega), this]
      · have hm := row_total_mono MAX_UNIQUE_COSTS cost_boundaries fundamentalSet_indices hfs
          hok i hi (j + 1) j' (by omega) (by omega)
        rw [hstep, if_neg (by omega)]
        exact hih.2 j' r (by omega) h2 hr0 hr (by omega)

/-- One iteration of the outer loop, up to the inner loop. -/
theorem outer_step (hfs : ∀ s, fundamentalSet_indices s < 8)
    (hok : boundaries_ok MAX_UNIQUE_COSTS cost_boundaries) (i : Nat)
    (hi : i < MAX_UNIQUE_COSTS) (todo index : Nat) :
    get_permutation_index_outer MAX_UNIQUE_COSTS pawn_slack chessmen_slack cost_boundaries
        fundamentalSet_indices (todo + 1) i index
      = match get_permutation_index_inner cost_boundaries fundamentalSet_indices i
          (perm_count cost_boundaries fundamentalSet_indices 0 i)
          (inner_count MAX_UNIQUE_COSTS pawn_slack chessmen_slack i) 0 index with
        | .error e => .error e
        | .ok (.inl pi) => .ok pi
        | .ok (.inr index') =>
          get_permutation_index_outer MAX_UNIQUE_COSTS pawn_slack chessmen_slack
            cost_boundaries fundamentalSet_indices todo (i + 1) index' := by
  have hB := boundary_range MAX_UNIQUE_COSTS cost_boundaries fundamentalSet_indices hfs hok 0
    i hi
  have hne : ¬ boundary cost_boundaries fundamentalSet_indices 0 i = -1 := by omega
  have hp0 := local_count_eq MAX_UNIQUE_COSTS cost_boundaries fundamentalSet_indices hfs hok 0
    i hi
  rw [get_permutation_index_outer]
  simp only [hne, if_false, hp0]
  rfl

/-- The outer loop when nothing wraps: it either runs to its end, which is fatal, or resolves
the rank in the cell that holds it. -/
theorem outer_spec (hfs : ∀ s, fundamentalSet_indices s < 8)
    (hok : boundaries_ok MAX_UNIQUE_COSTS cost_boundaries) :
    ∀ (todo i index : Nat),
      i + todo ≤ outer_count MAX_UNIQUE_COSTS pawn_slack chessmen_slack →
      (∀ i' j', i ≤ i' → i' < i + todo →
        j' < inner_count MAX_UNIQUE_COSTS pawn_slack chessmen_slack i' →
        cell_size cost_boundaries fundamentalSet_indices i' j' < 2 ^ 31) →
      index < 2 ^ 31 →
      (rows_total MAX_UNIQUE_COSTS pawn_slack chessmen_slack cost_boundaries
            fundamentalSet_indices (i + todo)
          - rows_total MAX_UNIQUE_COSTS pawn_slack chessmen_slack cost_boundaries
            fundamentalSet_indices i ≤ index →
        get_permutation_index_outer MAX_UNIQUE_COSTS pawn_slack chessmen_slack cost_boundaries
            fundamentalSet_indices todo i index = .error .couldnt_get_permutation_index) ∧
      (∀ (i' j' : Nat) (r : Int), i ≤ i' → i' < i + todo →
        j' < inner_count MAX_UNIQUE_COSTS pawn_slack chessmen_slack i' → 0 ≤ r →
        r < cell_size cost_boundaries fundamentalSet_indices i' j' →
        (index : Int) = rows_total MAX_UNIQUE_COSTS pawn_slack chessmen_slack cost_boundaries
            fundamentalSet_indices i'
          - rows_total MAX_UNIQUE_COSTS pawn_slack chessmen_slack cost_boundaries
            fundamentalSet_indices i
          + row_total cost_boundaries fundamentalSet_indices i' j' + r →
        get_permutation_index_outer MAX_UNIQUE_COSTS pawn_slack chessmen_slack cost_boundaries
            fundamentalSet_indices todo i index
          = .ok ⟨cell_pair cost_boundaries fundamentalSet_indices i' j' r⟩) := by
  have hoc := outer_count_le MAX_UNIQUE_COSTS pawn_slack chessmen_slack
  intro todo
  induction todo with
  | zero =>
    intro i index _ _ _
    refine ⟨fun _ => rfl, ?_⟩
    intro i' j' r h1 h2
    omega
  | succ todo ih =>
    intro i index hi hsz hidx
    have hiM : i < MAX_UNIQUE_COSTS := by omega
    have hic := inner_count_le MAX_UNIQUE_COSTS pawn_slack chessmen_slack i
    have hstep := outer_step MAX_UNIQUE_COSTS pawn_slack chessmen_slack cost_boundaries
      fundamentalSet_indices hfs hok i hiM todo index
    have hin := inner_spec MAX_UNIQUE_COSTS cost_boundaries fundamentalSet_indices hfs hok i
      hiM (inner_count MAX_UNIQUE_COSTS pawn_slack chessmen_slack i) 0 index (by omega)
      (fun t _ h2 => hsz i t (le_refl _) (by omega) (by omega)) hidx
    rw [Nat.zero_add, row_total_zero, sub_zero] at hin
    have hsucc := rows_total_succ MAX_UNIQUE_COSTS pawn_slack chessmen_slack cost_boundaries
      fundamentalSet_indices i
    have hrow0 := row_total_mono MAX_UNIQUE_COSTS cost_boundaries fundamentalSet_indices hfs
      hok i hiM 0 (inner_count MAX_UNIQUE_COSTS pawn_slack chessmen_slack i) (Nat.zero_le _) hic
    rw [row_total_zero] at hrow0
    have hih := ih (i + 1)
      (index - (row_total cost_boundaries fundamentalSet_indices i
        (inner_count MAX_UNIQUE_COSTS pawn_slack chessmen_slack i)).toNat) (by omega)
      (fun i' j' h1 h2 h3 => hsz i' j' (by omega) (by omega) h3) (by omega)
    have hjt : i + 1 + todo = i + (todo + 1) := by omega
    rw [hjt] at hih
    refine ⟨?_, ?_⟩
    · intro hge
      have hm := rows_total_mono MAX_UNIQUE_COSTS pawn_slack chessmen_slack cost_boundaries
        fundamentalSet_indices hfs hok (i + 1) (i + (todo + 1)) (by omega) (by omega)
      rw [hstep, hin.1 (by omega)]
      exact hih.1 (by omega)
    · intro i' j' r h1 h2 hj' hr0 hr hidx'
      rcases Nat.eq_or_lt_of_le h1 with rfl | hlt
      · rw [hstep, hin.2 j' r (Nat.zero_le _) (by omega) hr0 hr (by
          omega)]
      · have hm := rows_total_mono MAX_UNIQUE_COSTS pawn_slack chessmen_slack cost_boundaries
          fundamentalSet_indices hfs hok (i + 1) i' (by omega) (by omega)
        have hrow := row_total_mono MAX_UNIQUE_COSTS cost_boundaries fundamentalSet_indices hfs
          hok i' (by omega) 0 j' (Nat.zero_le _)
          (le_trans (le_of_lt hj')
            (inner_count_le MAX_UNIQUE_COSTS pawn_slack chessmen_slack i'))
        rw [row_total_zero] at hrow
        rw [hstep, hin.1 (by omega)]
        exact hih.2 i' j' r (by omega) h2 hj' hr0 hr (by omega)

end

section
variable (MAX_UNIQUE_COSTS : Nat) (pawn_slack : Fin 2 → Int) (chessmen_slack : Int)
  (cost_boundaries : Fin 2 → Nat → Int) (fundamentalSet_indices : Fin 2 → Nat)

theorem visited_lt (i j : Nat) (hv : visited MAX_UNIQUE_COSTS pawn_slack chessmen_slack i j) :
    i < MAX_UNIQUE_COSTS ∧ j < MAX_UNIQUE_COSTS := by
  have h1 := outer_count_le MAX_UNIQUE_COSTS pawn_slack chessmen_slack
  have h2 := inner_count_le MAX_UNIQUE_COSTS pawn_slack chessmen_slack i
  obtain ⟨h3, h4⟩ := hv
  omega

/-- A rank within a cell stands for a pair of the cell's rectangle. -/
theorem cell_pair_in_rectangle (i j : Nat) (r : Int)
    (h1 : 0 ≤ perm_count cost_boundaries fundamentalSet_indices 1 j) (hr0 : 0 ≤ r)
    (hr : r < cell_size cost_boundaries fundamentalSet_indices i j) :
    in_rectangle cost_boundaries fundamentalSet_indices i j
      (cell_pair cost_boundaries fundamentalSet_indices i j r) := by
  have hP1pos : 0 < perm_count cost_boundaries fundamentalSet_indices 1 j := by
    rcases lt_or_eq_of_le h1 with h | h
    · exact h
    · unfold cell_size at hr
      rw [← h, mul_zero] at hr
      omega
  have hq0 := Int.ediv_nonneg hr0 h1
  have hq2 : r / perm_count cost_boundaries fundamentalSet_indices 1 j
      < perm_count cost_boundaries fundamentalSet_indices 0 i :=
    Int.ediv_lt_of_lt_mul hP1pos hr
  have hm1 := Int.emod_lt_of_pos r hP1pos
  have hm0 := Int.emod_nonneg r (ne_of_gt hP1pos)
  have hpc0 : perm_count cost_boundaries fundamentalSet_indices 0 i
      = boundary cost_boundaries fundamentalSet_indices 0 i
        - boundary_before cost_boundaries fundamentalSet_indices 0 i := rfl
  have hpc1 : perm_count cost_boundaries fundamentalSet_indices 1 j
      = boundary cost_boundaries fundamentalSet_indices 1 j
        - boundary_before cost_boundaries fundamentalSet_indices 1 j := rfl
  unfold in_rectangle cell_pair
  simp only
  omega

/-- The intervals of two different costs do not meet. -/
theorem interval_disjoint (hfs : ∀ s, fundamentalSet_indices s < 8)
    (hok : boundaries_ok MAX_UNIQUE_COSTS cost_boundaries) (s : Fin 2) (t₁ t₂ : Nat)
    (h₁ : t₁ < MAX_UNIQUE_COSTS) (h₂ : t₂ < MAX_UNIQUE_COSTS) (a : Int)
    (ha₁ : boundary_before cost_boundaries fundamentalSet_indices s t₁ ≤ a ∧
      a < boundary cost_boundaries fundamentalSet_indices s t₁)
    (ha₂ : boundary_before cost_boundaries fundamentalSet_indices s t₂ ≤ a ∧
      a < boundary cost_boundaries fundamentalSet_indices s t₂) : t₁ = t₂ := by
  have key : ∀ u v : Nat, u < v → v < MAX_UNIQUE_COSTS →
      boundary cost_boundaries fundamentalSet_indices s u
        ≤ boundary_before cost_boundaries fundamentalSet_indices s v := by
    intro u v huv hv
    have hbb : boundary_before cost_boundaries fundamentalSet_indices s v
        = boundary cost_boundaries fundamentalSet_indices s (v - 1) := if_pos (by omega)
    rw [hbb]
    exact boundary_mono MAX_UNIQUE_COSTS cost_boundaries fundamentalSet_indices hfs hok s u
      (v - 1) (by omega) (by omega)
  rcases Nat.lt_trichotomy t₁ t₂ with h | h | h
  · have := key t₁ t₂ h h₂
    omega
  · exact h
  · have := key t₂ t₁ h h₁
    omega

/-- Within a cell, different ranks stand for different pairs. -/
theorem cell_pair_inj (i j : Nat) (r₁ r₂ : Int)
    (h : cell_pair cost_boundaries fundamentalSet_indices i j r₁
      = cell_pair cost_boundaries fundamentalSet_indices i j r₂) : r₁ = r₂ := by
  unfold cell_pair at h
  simp only [Prod.mk.injEq, add_left_inj] at h
  rw [← Int.ediv_add_emod r₁ (perm_count cost_boundaries fundamentalSet_indices 1 j),
    ← Int.ediv_add_emod r₂ (perm_count cost_boundaries fundamentalSet_indices 1 j), h.1, h.2]

/-- Every pair of a rectangle is the pair of a rank within the cell. -/
theorem cell_pair_surj (i j : Nat) (ab : Int × Int)
    (h : in_rectangle cost_boundaries fundamentalSet_indices i j ab) :
    ∃ r : Int, 0 ≤ r ∧ r < cell_size cost_boundaries fundamentalSet_indices i j ∧
      cell_pair cost_boundaries fundamentalSet_indices i j r = ab := by
  obtain ⟨h1, h2, h3, h4⟩ := h
  have hpc0 : perm_count cost_boundaries fundamentalSet_indices 0 i
      = boundary cost_boundaries fundamentalSet_indices 0 i
        - boundary_before cost_boundaries fundamentalSet_indices 0 i := rfl
  have hpc1 : perm_count cost_boundaries fundamentalSet_indices 1 j
      = boundary cost_boundaries fundamentalSet_indices 1 j
        - boundary_before cost_boundaries fundamentalSet_indices 1 j := rfl
  have hP1pos : 0 < perm_count cost_boundaries fundamentalSet_indices 1 j := by omega
  refine ⟨(ab.1 - boundary_before cost_boundaries fundamentalSet_indices 0 i)
      * perm_count cost_boundaries fundamentalSet_indices 1 j
    + (ab.2 - boundary_before cost_boundaries fundamentalSet_indices 1 j), ?_, ?_, ?_⟩
  · have := mul_nonneg (by omega : 0 ≤ ab.1
        - boundary_before cost_boundaries fundamentalSet_indices 0 i) (le_of_lt hP1pos)
    omega
  · unfold cell_size
    have : (ab.1 - boundary_before cost_boundaries fundamentalSet_indices 0 i + 1)
        * perm_count cost_boundaries fundamentalSet_indices 1 j
        ≤ perm_count cost_boundaries fundamentalSet_indices 0 i
          * perm_count cost_boundaries fundamentalSet_indices 1 j :=
      mul_le_mul_of_nonneg_right (by omega) (le_of_lt hP1pos)
    rw [add_mul, one_mul] at this
    omega
  · unfold cell_pair
    have hdiv : ((ab.1 - boundary_before cost_boundaries fundamentalSet_indices 0 i)
        * perm_count cost_boundaries fundamentalSet_indices 1 j
      + (ab.2 - boundary_before cost_boundaries fundamentalSet_indices 1 j))
        / perm_count cost_boundaries fundamentalSet_indices 1 j
        = ab.1 - boundary_before cost_boundaries fundamentalSet_indices 0 i := by
      rw [add_comm, Int.add_mul_ediv_right _ _ (ne_of_gt hP1pos),
        Int.ediv_eq_zero_of_lt (by omega) (by omega)]
      omega
    have hmod : ((ab.1 - boundary_before cost_boundaries fundamentalSet_indices 0 i)
        * perm_count cost_boundaries fundamentalSet_indices 1 j
      + (ab.2 - boundary_before cost_boundaries fundamentalSet_indices 1 j))
        % perm_count cost_boundaries fundamentalSet_indices 1 j
        = ab.2 - boundary_before cost_boundaries fundamentalSet_indices 1 j := by
      rw [add_comm, Int.add_mul_emod_self, Int.emod_eq_of_lt (by omega) (by omega)]
    rw [hdiv, hmod]
    ext <;> simp

/-- A rank within a visited cell is resolved to the pair it stands for. -/
theorem get_permutation_index_of_cell (hfs : ∀ s, fundamentalSet_indices s < 8)
    (hok : boundaries_ok MAX_UNIQUE_COSTS cost_boundaries)
    (htot : total MAX_UNIQUE_COSTS pawn_slack chessmen_slack cost_boundaries
      fundamentalSet_indices < 2 ^ 31)
    (i j : Nat) (r : Int) (rank : Nat)
    (hv : visited MAX_UNIQUE_COSTS pawn_slack chessmen_slack i j) (hr0 : 0 ≤ r)
    (hr : r < cell_size cost_boundaries fundamentalSet_indices i j)
    (hrank : (rank : Int) = rows_total MAX_UNIQUE_COSTS pawn_slack chessmen_slack
        cost_boundaries fundamentalSet_indices i
      + row_total cost_boundaries fundamentalSet_indices i j + r) :
    (rank : Int) < total MAX_UNIQUE_COSTS pawn_slack chessmen_slack cost_boundaries
        fundamentalSet_indices ∧
      get_permutation_index MAX_UNIQUE_COSTS pawn_slack chessmen_slack cost_boundaries
        fundamentalSet_indices rank
        = .ok ⟨cell_pair cost_boundaries fundamentalSet_indices i j r⟩ := by
  obtain ⟨hi, hj⟩ := hv
  have hoc := outer_count_le MAX_UNIQUE_COSTS pawn_slack chessmen_slack
  have hic := inner_count_le MAX_UNIQUE_COSTS pawn_slack chessmen_slack i
  have h1 := row_total_mono MAX_UNIQUE_COSTS cost_boundaries fundamentalSet_indices hfs hok i
    (by omega) (j + 1) (inner_count MAX_UNIQUE_COSTS pawn_slack chessmen_slack i) (by omega) hic
  have h3 := rows_total_mono MAX_UNIQUE_COSTS pawn_slack chessmen_slack cost_boundaries
    fundamentalSet_indices hfs hok (i + 1)
    (outer_count MAX_UNIQUE_COSTS pawn_slack chessmen_slack) (by omega) hoc
  rw [row_total_succ] at h1
  rw [rows_total_succ] at h3
  have hlt : (rank : Int) < total MAX_UNIQUE_COSTS pawn_slack chessmen_slack cost_boundaries
      fundamentalSet_indices := by
    unfold total
    omega
  refine ⟨hlt, ?_⟩
  have hsp := outer_spec MAX_UNIQUE_COSTS pawn_slack chessmen_slack cost_boundaries
    fundamentalSet_indices hfs hok (outer_count MAX_UNIQUE_COSTS pawn_slack chessmen_slack) 0
    rank (by omega)
    (fun i' j' _ h2 h3 => lt_of_le_of_lt
      (cell_size_le_total MAX_UNIQUE_COSTS pawn_slack chessmen_slack cost_boundaries
        fundamentalSet_indices hfs hok i' j' ⟨by omega, h3⟩) htot)
    (by omega)
  unfold get_permutation_index
  exact hsp.2 i j r (Nat.zero_le _) (by omega) hj hr0 hr (by
    rw [rows_total_zero]; omega)

/-- Every rank below the total lies in a visited cell. -/
theorem exists_cell (rank : Nat)
    (hlt : (rank : Int) < total MAX_UNIQUE_COSTS pawn_slack chessmen_slack cost_boundaries
      fundamentalSet_indices) :
    ∃ (i j : Nat) (r : Int), visited MAX_UNIQUE_COSTS pawn_slack chessmen_slack i j ∧
      0 ≤ r ∧ r < cell_size cost_boundaries fundamentalSet_indices i j ∧
      (rank : Int) = rows_total MAX_UNIQUE_COSTS pawn_slack chessmen_slack cost_boundaries
          fundamentalSet_indices i
        + row_total cost_boundaries fundamentalSet_indices i j + r := by
  obtain ⟨i, hi, h1, h2⟩ := exists_step
    (rows_total MAX_UNIQUE_COSTS pawn_slack chessmen_slack cost_boundaries
      fundamentalSet_indices) rank
    (outer_count MAX_UNIQUE_COSTS pawn_slack chessmen_slack)
    (by rw [rows_total_zero]; omega) hlt
  rw [rows_total_succ] at h2
  obtain ⟨j, hj, h3, h4⟩ := exists_step
    (row_total cost_boundaries fundamentalSet_indices i)
    ((rank : Int) - rows_total MAX_UNIQUE_COSTS pawn_slack chessmen_slack cost_boundaries
      fundamentalSet_indices i)
    (inner_count MAX_UNIQUE_COSTS pawn_slack chessmen_slack i)
    (by rw [row_total_zero]; omega) (by omega)
  rw [row_total_succ] at h4
  exact ⟨i, j, (rank : Int) - rows_total MAX_UNIQUE_COSTS pawn_slack chessmen_slack
      cost_boundaries fundamentalSet_indices i
    - row_total cost_boundaries fundamentalSet_indices i j, ⟨hi, hj⟩, by omega, by omega,
    by omega⟩

end

/-! ## Bitboards as sets of squares -/

theorem and_eq_zero_iff_testBit (a b : Nat) :
    a &&& b = 0 ↔ ∀ i, ¬ (a.testBit i = true ∧ b.testBit i = true) := by
  constructor
  · intro h i ⟨ha, hb⟩
    have := congrArg (fun x => x.testBit i) h
    simp [ha, hb] at this
  · intro h
    apply Nat.eq_of_testBit_eq
    intro i
    have := h i
    cases ha : a.testBit i <;> cases hb : b.testBit i <;> simp_all

theorem and_eq_left_iff_testBit (a b : Nat) :
    a &&& b = a ↔ ∀ i, a.testBit i = true → b.testBit i = true := by
  constructor
  · intro h i ha
    have := congrArg (fun x => x.testBit i) h
    simpa [ha] using this
  · intro h
    apply Nat.eq_of_testBit_eq
    intro i
    have := h i
    cases ha : a.testBit i <;> cases hb : b.testBit i <;> simp_all

/-- The sum of two disjoint bitboards is their union. -/
theorem add_eq_or_of_disjoint : ∀ (a b : Nat), a &&& b = 0 → a + b = a ||| b := by
  intro a
  induction a using Nat.strong_induction_on with
  | _ a ih =>
    intro b h
    by_cases ha : a = 0
    · subst ha; simp
    · have hdiv : a / 2 &&& b / 2 = 0 := by
        rw [← Nat.and_div_two, h]
      have hmod : ¬ (a % 2 = 1 ∧ b % 2 = 1) := by
        intro hc
        have := Nat.and_mod_two_eq_one.2 hc
        rw [h] at this
        simp at this
      have hrec := ih (a / 2) (by omega) (b / 2) hdiv
      have h1 : (a ||| b) / 2 = a / 2 ||| b / 2 := Nat.or_div_two
      have h2 : (a ||| b) % 2 = 1 ↔ a % 2 = 1 ∨ b % 2 = 1 := Nat.or_mod_two_eq_one
      omega

theorem or_and_eq_zero (a b c : Nat) :
    (a ||| b) &&& c = 0 ↔ a &&& c = 0 ∧ b &&& c = 0 := by
  simp only [and_eq_zero_iff_testBit, Nat.testBit_or, Bool.or_eq_true]
  constructor
  · intro h
    exact ⟨fun i hi => h i ⟨Or.inl hi.1, hi.2⟩, fun i hi => h i ⟨Or.inr hi.1, hi.2⟩⟩
  · rintro ⟨h1, h2⟩ i ⟨hab | hab, hc⟩
    · exact h1 i ⟨hab, hc⟩
    · exact h2 i ⟨hab, hc⟩

theorem and_or_eq_zero (a b c : Nat) :
    c &&& (a ||| b) = 0 ↔ c &&& a = 0 ∧ c &&& b = 0 := by
  rw [Nat.and_comm, or_and_eq_zero, Nat.and_comm a, Nat.and_comm b]

theorem lt_of_and_eq_left (a b : Nat) (h : a &&& b = a) (hb : b < 2 ^ 64) : a < 2 ^ 64 := by
  rw [← h]
  exact Nat.and_lt_two_pow a hb

/-- A subset of a bitboard is disjoint from whatever the bitboard is disjoint from. -/
theorem disjoint_of_subset (a b c : Nat) (hab : a &&& b = a) (hbc : b &&& c = 0) :
    a &&& c = 0 := by
  rw [and_eq_left_iff_testBit] at hab
  rw [and_eq_zero_iff_testBit] at hbc ⊢
  exact fun i hi => hbc i ⟨hab i hi.1, hi.2⟩

theorem subset_or_left (a b m : Nat) (hab : a &&& b = a) : a &&& (b ||| m) = a := by
  rw [and_eq_left_iff_testBit] at hab ⊢
  intro i hi
  simp [hab i hi]

theorem subset_or_right (b m : Nat) : m &&& (b ||| m) = m := by
  rw [and_eq_left_iff_testBit]
  intro i hi
  simp [hi]

theorem subset_trans (a b c : Nat) (hab : a &&& b = a) (hbc : b &&& c = b) : a &&& c = a := by
  rw [and_eq_left_iff_testBit] at hab hbc ⊢
  exact fun i hi => hbc i (hab i hi)

/-- The 64-bit sum of two disjoint bitboards is their union. -/
theorem add64_eq_or (a b : Nat) (ha : a < 2 ^ 64) (hb : b < 2 ^ 64) (h : a &&& b = 0) :
    add64 a b = a ||| b := by
  unfold add64
  rw [add_eq_or_of_disjoint a b h]
  exact Nat.mod_eq_of_lt (Nat.or_lt_two_pow ha hb)

theorem add64_lt (a b : Nat) : add64 a b < 2 ^ 64 := Nat.mod_lt _ (by norm_num)

/-- The 64-bit difference of a bitboard and a subset of it: what is left is disjoint from the
subset and makes up the bitboard together with it. -/
theorem sub64_of_subset (a e : Nat) (ha : a < 2 ^ 64) (he : e &&& a = e) :
    sub64 a e &&& e = 0 ∧ sub64 a e ||| e = a ∧ sub64 a e < 2 ^ 64 ∧
      sub64 a e &&& a = sub64 a e := by
  have hxe : (a ^^^ e) &&& e = 0 := by
    have he' := (and_eq_left_iff_testBit e a).1 he
    rw [and_eq_zero_iff_testBit]
    intro i
    have := he' i
    simp only [Nat.testBit_xor]
    cases ha' : a.testBit i <;> cases he'' : e.testBit i <;> simp_all
  have hor : (a ^^^ e) ||| e = a := by
    rw [and_eq_left_iff_testBit] at he
    apply Nat.eq_of_testBit_eq
    intro i
    have := he i
    simp only [Nat.testBit_or, Nat.testBit_xor]
    cases ha' : a.testBit i <;> cases he' : e.testBit i <;> simp_all
  have hsum : (a ^^^ e) + e = a := by
    rw [add_eq_or_of_disjoint _ _ hxe, hor]
  have hle : e ≤ a := by omega
  have hsub : sub64 a e = a ^^^ e := by
    unfold sub64
    have he64 : e < 2 ^ 64 := by omega
    rw [Nat.mod_eq_of_lt he64]
    have : a + (2 ^ 64 - e) = (a ^^^ e) + 2 ^ 64 := by omega
    rw [this, Nat.add_mod_right]
    exact Nat.mod_eq_of_lt (by omega)
  rw [hsub]
  refine ⟨hxe, hor, by omega, ?_⟩
  rw [and_eq_left_iff_testBit]
  intro i hi
  have := congrArg (fun x => x.testBit i) hor
  simp only [Nat.testBit_or] at this
  rw [hi] at this
  simpa using this.symm

theorem sub64_zero (a : Nat) (ha : a < 2 ^ 64) : sub64 a 0 = a := by
  unfold sub64
  omega

/-- The complement of a 64-bit word is disjoint from it. -/
theorem and_not64 (a : Nat) (ha : a < 2 ^ 64) : a &&& not64 a = 0 := by
  rw [and_eq_zero_iff_testBit]
  intro i ⟨h1, h2⟩
  unfold not64 at h2
  rw [Nat.mod_eq_of_lt ha] at h2
  have h3 : 2 ^ 64 - 1 - a = 2 ^ 64 - (a + 1) := by omega
  rw [h3, Nat.testBit_two_pow_sub_succ ha] at h2
  simp [h1] at h2

/-! ## The deposit -/

theorem and_step (a b : Nat) :
    a &&& b = 0 ↔ ¬ (a % 2 = 1 ∧ b % 2 = 1) ∧ a / 2 &&& b / 2 = 0 := by
  constructor
  · intro h
    refine ⟨?_, by rw [← Nat.and_div_two, h]⟩
    intro hc
    have := Nat.and_mod_two_eq_one.2 hc
    rw [h] at this
    simp at this
  · rintro ⟨h1, h2⟩
    have hd : (a &&& b) / 2 = 0 := by rw [Nat.and_div_two, h2]
    have hm : ¬ (a &&& b) % 2 = 1 := fun hc => h1 (Nat.and_mod_two_eq_one.1 hc)
    omega

/-- The deposit sets no bit outside the mask. -/
theorem pdep_bits_disjoint : ∀ (w src mask c : Nat), c &&& mask = 0 →
    c &&& pdep_bits w src mask = 0 := by
  intro w
  induction w with
  | zero => intro src mask c _; simp [pdep_bits]
  | succ w ih =>
    intro src mask c h
    rw [and_step] at h
    rw [and_step]
    simp only [pdep_bits]
    by_cases hm : mask % 2 = 1
    · simp only [hm, if_true]
      have h1 : (src % 2 + 2 * pdep_bits w (src / 2) (mask / 2)) / 2
          = pdep_bits w (src / 2) (mask / 2) := by omega
      rw [h1]
      exact ⟨fun hc => h.1 ⟨hc.1, hm⟩, ih _ _ _ h.2⟩
    · simp only [hm, if_false]
      have h1 : (2 * pdep_bits w src (mask / 2)) / 2 = pdep_bits w src (mask / 2) := by omega
      rw [h1]
      exact ⟨fun hc => by omega, ih _ _ _ h.2⟩

theorem pdep_bits_lt : ∀ (w src mask : Nat), pdep_bits w src mask < 2 ^ w := by
  intro w
  induction w with
  | zero => intro src mask; simp [pdep_bits]
  | succ w ih =>
    intro src mask
    simp only [pdep_bits]
    have h1 := ih (src / 2) (mask / 2)
    have h2 := ih src (mask / 2)
    rw [pow_succ]
    split <;> omega

/-- What `_pdep_u64` deposits into the free squares is disjoint from the occupied ones. -/
theorem pdep_disjoint_occupied (pattern occ : Nat) (hocc : occ < 2 ^ 64) :
    _pdep_u64 pattern (not64 occ) &&& occ = 0 ∧ _pdep_u64 pattern (not64 occ) < 2 ^ 64 := by
  refine ⟨?_, pdep_bits_lt 64 _ _⟩
  rw [Nat.and_comm]
  exact pdep_bits_disjoint 64 pattern (not64 occ) occ (and_not64 occ hocc)

/-! ## The placement passes keep the squares apart -/

theorem trace_ok_cons (a b : Nat) (tr : List (Nat × Nat)) (h : a &&& b = 0)
    (htr : trace_ok tr) : trace_ok ((a, b) :: tr) := by
  intro x hx
  rcases List.mem_cons.1 hx with rfl | hx'
  · exact h
  · exact htr x hx'

theorem trace_ok_nil : trace_ok [] := by
  intro x hx
  cases hx

/-- Replacing one bitboard by a part of its union with newly placed squares keeps the
invariant. -/
theorem invariant_update (h : headers) (p p' : position) (occ m : Nat) (s₀ : slot)
    (hinv : invariant h p occ) (hm : m < 2 ^ 64) (hd : m &&& occ = 0)
    (hs₀ : board h p' s₀ &&& (board h p s₀ ||| m) = board h p' s₀)
    (hother : ∀ t, t ≠ s₀ → board h p' t = board h p t)
    (hfr : p'.fixed_rooks &&& (p.fixed_rooks ||| m) = p'.fixed_rooks) :
    invariant h p' (occ ||| m) := by
  obtain ⟨hocc, hsub, hdis, hfx⟩ := hinv
  have hnew : ∀ t, t ≠ s₀ → board h p t &&& (board h p s₀ ||| m) = 0 := by
    intro t ht
    rw [and_or_eq_zero]
    refine ⟨hdis t s₀ ht, ?_⟩
    have := disjoint_of_subset _ _ m (hsub t) (by rw [Nat.and_comm]; exact hd)
    exact this
  have hunion : (board h p s₀ ||| m) &&& (occ ||| m) = board h p s₀ ||| m := by
    have h1 := (and_eq_left_iff_testBit _ _).1 (hsub s₀)
    rw [and_eq_left_iff_testBit]
    intro i hi
    simp only [Nat.testBit_or, Bool.or_eq_true] at hi ⊢
    rcases hi with hi | hi
    · exact Or.inl (h1 i hi)
    · exact Or.inr hi
  refine ⟨Nat.or_lt_two_pow hocc hm, ?_, ?_, ?_⟩
  · intro s
    by_cases hs : s = s₀
    · subst hs
      exact subset_trans _ _ _ hs₀ hunion
    · rw [hother s hs]
      exact subset_or_left _ _ _ (hsub s)
  · intro s t hst
    by_cases hs : s = s₀
    · subst hs
      rw [hother t (Ne.symm hst)]
      have := hnew t (Ne.symm hst)
      rw [Nat.and_comm] at this
      exact disjoint_of_subset _ _ _ hs₀ this
    · by_cases ht : t = s₀
      · subst ht
        rw [hother s hs, Nat.and_comm]
        have := hnew s hs
        rw [Nat.and_comm] at this
        exact disjoint_of_subset _ _ _ hs₀ this
      · rw [hother s hs, hother t ht]
        exact hdis s t hst
  · have h1 := (and_eq_left_iff_testBit _ _).1 hfx
    have h2 := (and_eq_left_iff_testBit _ _).1 hfr
    rw [and_eq_left_iff_testBit]
    intro i hi
    have := h2 i hi
    simp only [Nat.testBit_or, Bool.or_eq_true] at this ⊢
    rcases this with hi' | hi'
    · exact Or.inl (h1 i hi')
    · exact Or.inr hi'

/-- What `pass_generic` places is disjoint from the occupied squares, and both of its
additions are unions. -/
theorem pass_generic_spec (h : headers) (s s' : decode_state) (bb bb' n : Nat)
    (hp : pass_generic h s bb = .ok (s', bb', n)) (hocc : s.occupied_squares < 2 ^ 64)
    (hbb : bb &&& s.occupied_squares = bb) (htr : trace_ok s.trace) :
    ∃ m, m < 2 ^ 64 ∧ m &&& s.occupied_squares = 0 ∧
      s'.occupied_squares = s.occupied_squares ||| m ∧ bb' = bb ||| m ∧
      trace_ok s'.trace := by
  unfold pass_generic at hp
  cases hpt : point_root_to_matching_child s.root s.index with
  | error e => rw [hpt] at hp; cases hp
  | ok v =>
    obtain ⟨root, index, nc⟩ := v
    rw [hpt] at hp
    simp only at hp
    by_cases hn : nc = 0
    · simp only [hn, if_true] at hp
      have := Except.ok.inj hp
      simp only [Prod.mk.injEq] at this
      obtain ⟨rfl, rfl, _⟩ := this
      exact ⟨0, by norm_num, by simp, by simp, by simp, htr⟩
    · simp only [hn, if_false] at hp
      cases hdv : fdiv_qr_ui index
          (h.binomials (NUM_SQUARES - _mm_popcnt_u64 s.occupied_squares) nc) with
      | error e => rw [hdv] at hp; cases hp
      | ok qr =>
        obtain ⟨q, r⟩ := qr
        rw [hdv] at hp
        simp only at hp
        cases hpl : place_chessmen_relative_to_free_squares h.binomials nc
            (NUM_SQUARES - _mm_popcnt_u64 s.occupied_squares) (r % 2 ^ 64) with
        | error e => rw [hpl] at hp; cases hp
        | ok pattern =>
          rw [hpl] at hp
          simp only at hp
          have := Except.ok.inj hp
          simp only [Prod.mk.injEq] at this
          obtain ⟨rfl, rfl, _⟩ := this
          obtain ⟨hdis, hlt⟩ := pdep_disjoint_occupied pattern s.occupied_squares hocc
          have hdis' : s.occupied_squares &&& _pdep_u64 pattern (not64 s.occupied_squares) = 0 := by
            rw [Nat.and_comm]; exact hdis
          have hbbd : bb &&& _pdep_u64 pattern (not64 s.occupied_squares) = 0 :=
            disjoint_of_subset _ _ _ hbb hdis'
          refine ⟨_, hlt, hdis, add64_eq_or _ _ hocc hlt hdis',
            add64_eq_or _ _ (lt_of_and_eq_left _ _ hbb hocc) hlt hbbd, ?_⟩
          exact trace_ok_cons _ _ _ hdis' (trace_ok_cons _ _ _ hbbd htr)

/-! ## Assignments to the fields of the position -/

theorem board_set_pawns (h : headers) (p : position) (i : Fin 2) (x : Nat) (t : slot) :
    board h (p.set_pawns i x) t = if t = .pawns i then x else board h p t := by
  cases t with
  | pawns k =>
    by_cases hk : k = i
    · subst hk; simp [board, position.set_pawns]
    · simp [board, position.set_pawns, Function.update_noteq hk, hk]
  | piece k j =>
    by_cases hk : k = i
    · subst hk; simp [board, position.set_pawns]
    · simp [board, position.set_pawns, Function.update_noteq hk]
  | king k =>
    by_cases hk : k = i
    · subst hk; simp [board, position.set_pawns]
    · simp [board, position.set_pawns, Function.update_noteq hk]
  | fr k =>
    by_cases hk : k = i
    · subst hk; simp [board, position.set_pawns]
    · simp [board, position.set_pawns, Function.update_noteq hk]

theorem board_set_fr (h : headers) (p : position) (i : Fin 2) (x : Nat) (t : slot) :
    board h (p.set_fr i x) t = if t = .fr i then x else board h p t := by
  cases t with
  | pawns k =>
    by_cases hk : k = i
    · subst hk; simp [board, position.set_fr]
    · simp [board, position.set_fr, Function.update_noteq hk]
  | piece k j =>
    by_cases hk : k = i
    · subst hk; simp [board, position.set_fr]
    · simp [board, position.set_fr, Function.update_noteq hk]
  | king k =>
    by_cases hk : k = i
    · subst hk; simp [board, position.set_fr]
    · simp [board, position.set_fr, Function.update_noteq hk]
  | fr k =>
    by_cases hk : k = i
    · subst hk; simp [board, position.set_fr]
    · simp [board, position.set_fr, Function.update_noteq hk, hk]

theorem board_set_piece (h : headers) (hK : 4 ≤ h.KING) (p : position) (i : Fin 2) (j : Fin 4)
    (x : Nat) (t : slot) :
    board h (p.set_piece i j x) t = if t = .piece i j then x else board h p t := by
  have hjK : h.KING ≠ (j : Nat) := by omega
  cases t with
  | pawns k =>
    by_cases hk : k = i
    · subst hk; simp [board, position.set_piece]
    · simp [board, position.set_piece, Function.update_noteq hk]
  | piece k j' =>
    by_cases hk : k = i
    · subst hk
      by_cases hj : j' = j
      · subst hj; simp [board, position.set_piece]
      · have hj' : (j' : Nat) ≠ (j : Nat) := fun hc => hj (Fin.ext hc)
        simp [board, position.set_piece, Function.update_noteq hj', hj]
    · simp [board, position.set_piece, Function.update_noteq hk, hk]
  | king k =>
    by_cases hk : k = i
    · subst hk; simp [board, position.set_piece, Function.update_noteq hjK]
    · simp [board, position.set_piece, Function.update_noteq hk]
  | fr k =>
    by_cases hk : k = i
    · subst hk; simp [board, position.set_piece]
    · simp [board, position.set_piece, Function.update_noteq hk]

theorem board_set_king (h : headers) (hK : 4 ≤ h.KING) (p : position) (i : Fin 2)
    (x : Nat) (t : slot) :
    board h (p.set_piece i h.KING x) t = if t = .king i then x else board h p t := by
  cases t with
  | pawns k =>
    by_cases hk : k = i
    · subst hk; simp [board, position.set_piece]
    · simp [board, position.set_piece, Function.update_noteq hk]
  | piece k j =>
    have hjK : (j : Nat) ≠ h.KING := by omega
    by_cases hk : k = i
    · subst hk; simp [board, position.set_piece, Function.update_noteq hjK]
    · simp [board, position.set_piece, Function.update_noteq hk]
  | king k =>
    by_cases hk : k = i
    · subst hk; simp [board, position.set_piece]
    · simp [board, position.set_piece, Function.update_noteq hk, hk]
  | fr k =>
    by_cases hk : k = i
    · subst hk; simp [board, position.set_piece]
    · simp [board, position.set_piece, Function.update_noteq hk]

/-- The invariant reads the position only through its bitboards and its combined fixed-rook
mask. -/
theorem invariant_congr (h : headers) (p p' : position) (occ : Nat)
    (hb : ∀ t, board h p' t = board h p t) (hf : p'.fixed_rooks = p.fixed_rooks)
    (hinv : invariant h p occ) : invariant h p' occ := by
  obtain ⟨h1, h2, h3, h4⟩ := hinv
  refine ⟨h1, ?_, ?_, ?_⟩
  · intro s; rw [hb s]; exact h2 s
  · intro s t hst; rw [hb s, hb t]; exact h3 s t hst
  · rw [hf]; exact h4

/-- The invariant for a position whose bitboards are all empty. -/
theorem invariant_zero (h : headers) (p : position) (hb : ∀ t, board h p t = 0)
    (hf : p.fixed_rooks = 0) : invariant h p 0 := by
  refine ⟨by norm_num, ?_, ?_, ?_⟩
  · intro s; rw [hb s]; simp
  · intro s t _; rw [hb s]; simp
  · rw [hf]; simp

theorem sub64_or (o e : Nat) (ho : o < 2 ^ 64) (he : e < 2 ^ 64) (hd : o &&& e = 0) :
    sub64 (o ||| e) e = o := by
  rw [← add_eq_or_of_disjoint o e hd]
  have := Nat.or_lt_two_pow ho he
  rw [← add_eq_or_of_disjoint o e hd] at this
  unfold sub64
  omega

/-! ## The squares of the en-passant pass and of the fixed-rook pass -/

theorem enpassant_right_ok (row c : Nat) (h1 : 3 ≤ row) (h2 : row ≤ 6) (hc : c ≤ 7) :
    enpassant_squares_ok (shl64 1 (row * BOARD_SIDE_LENGTH + c))
      (shr64 (shl64 1 (row * BOARD_SIDE_LENGTH + c)) 1) := by
  interval_cases row <;> interval_cases c <;> decide

theorem enpassant_edge_ok (row : Nat) (h1 : 3 ≤ row) (h2 : row ≤ 6) :
    enpassant_squares_ok (shl64 1 ((row + 1) * BOARD_SIDE_LENGTH - 1))
      (shr64 (shl64 1 ((row + 1) * BOARD_SIDE_LENGTH - 1)) 1) := by
  interval_cases row <;> decide

theorem enpassant_left_ok (row c : Nat) (h1 : 3 ≤ row) (h2 : row ≤ 6) (hc : c ≤ 5) :
    enpassant_squares_ok (shl64 1 (row * BOARD_SIDE_LENGTH + 1 + c))
      (shl64 (shl64 1 (row * BOARD_SIDE_LENGTH + 1 + c)) 1) := by
  interval_cases row <;> interval_cases c <;> decide

theorem home_squares_one (kc rem : Nat) (h1 : 1 ≤ kc) (h2 : kc ≤ 6)
    (hr : rem ≤ 1) :
    home_squares_ok 0 (shl64 1 ((BOARD_SIDE_LENGTH - 1) * rem)) (rcb 0 kc) ∧
    home_squares_ok 1
      (rotate_bitboard_across_central_rows (shl64 1 ((BOARD_SIDE_LENGTH - 1) * rem)))
      (rotate_bitboard_across_central_rows (rcb 0 kc)) := by
  interval_cases kc <;> interval_cases rem <;> decide

theorem home_squares_both (kc : Nat) (h1 : 1 ≤ kc) (h2 : kc ≤ 6) :
    home_squares_ok 0 (add64 1 (shl64 1 (BOARD_SIDE_LENGTH - 1))) (rcb 0 kc) ∧
    home_squares_ok 1
      (rotate_bitboard_across_central_rows (add64 1 (shl64 1 (BOARD_SIDE_LENGTH - 1))))
      (rotate_bitboard_across_central_rows (rcb 0 kc)) := by
  interval_cases kc <;> decide

theorem home_squares_none (kc : Nat) (h1 : 1 ≤ kc) (h2 : kc ≤ 6) :
    home_squares_ok 0 0 (rcb 0 kc) ∧
    home_squares_ok 1 (rotate_bitboard_across_central_rows 0)
      (rotate_bitboard_across_central_rows (rcb 0 kc)) := by
  interval_cases kc <;> decide

theorem home_squares_empty (side : Fin 2) : home_squares_ok side 0 0 := by
  unfold home_squares_ok
  simp

/-- The invariant for a position whose only occupied bitboards are the two pawn bitboards. -/
theorem invariant_two_pawns (h : headers) (p : position) (e pw occ : Nat)
    (hb : ∀ t, board h p t = if t = .pawns 0 then e else if t = .pawns 1 then pw else 0)
    (hf : p.fixed_rooks = 0) (hd : e &&& pw = 0) (he : e &&& occ = e) (hpw : pw &&& occ = pw)
    (hocc : occ < 2 ^ 64) : invariant h p occ := by
  refine ⟨hocc, ?_, ?_, ?_⟩
  · intro s
    rw [hb s]
    split
    · exact he
    · split
      · exact hpw
      · simp
  · intro s t hst
    rw [hb s, hb t]
    by_cases hs0 : s = .pawns 0
    · subst hs0
      have ht0 : ¬ t = .pawns 0 := fun hc => hst hc.symm
      simp only [if_true, ht0, if_false]
      split
      · exact hd
      · simp
    · simp only [hs0, if_false]
      by_cases hs1 : s = .pawns 1
      · subst hs1
        have ht1 : ¬ t = .pawns 1 := fun hc => hst hc.symm
        simp only [if_true, ht1, if_false]
        split
        · rw [Nat.and_comm]; exact hd
        · simp
      · simp [hs1]
  · rw [hf]; simp

theorem fdiv_qr_ui_ok (index d q r : Nat) (h : fdiv_qr_ui index d = .ok (q, r)) :
    0 < d ∧ q = index / d ∧ r = index % d ∧ r < d := by
  unfold fdiv_qr_ui at h
  by_cases hd : d = 0
  · simp [hd] at h
  · simp only [hd, if_false] at h
    have := Except.ok.inj h
    simp only [Prod.mk.injEq] at this
    obtain ⟨rfl, rfl⟩ := this
    exact ⟨by omega, rfl, rfl, Nat.mod_lt _ (by omega)⟩

/-- The en-passant pass, run on a position without any bitboard set, leaves the invariant,
keeps the edge rows free and returns no unoccupiable square. -/
theorem pass_enpassant_spec (h : headers) (s s' : decode_state) (p p' : position) (tmp : Nat)
    (hp : pass_enpassant h s p = .ok (s', p', tmp)) (hl : layout_ok h)
    (hb : ∀ t, board h p t = 0) (hf : p.fixed_rooks = 0) (he : p.enpassant = 0)
    (htr : trace_ok s.trace) :
    tmp = 0 ∧ invariant h p' s'.occupied_squares ∧
      s'.occupied_squares &&& EDGE_ROWS_MASK = 0 ∧ trace_ok s'.trace := by
  obtain ⟨hr1, hr2, hv1, hv2, _, _, _, hne1, hne2, _⟩ := hl
  -- the two pawn bitboards after the pass, from the branch taken
  have key : ∀ (index : Nat) (q : position) (e pw : Nat) (root : position_node),
      q = ({ p with enpassant := e }).set_pawns 1 pw → enpassant_squares_ok e pw →
      invariant h (q.set_pawns 0 q.enpassant)
          (add64 (add64 (add64 ((q.set_pawns 0 q.enpassant).sides 0).pawns
            ((q.set_pawns 0 q.enpassant).sides 1).pawns) 0)
            (add64 (shr64 (q.set_pawns 0 q.enpassant).enpassant BOARD_SIDE_LENGTH)
              (shr64 (q.set_pawns 0 q.enpassant).enpassant (2 * BOARD_SIDE_LENGTH)))) ∧
        add64 (add64 (add64 ((q.set_pawns 0 q.enpassant).sides 0).pawns
            ((q.set_pawns 0 q.enpassant).sides 1).pawns) 0)
            (add64 (shr64 (q.set_pawns 0 q.enpassant).enpassant BOARD_SIDE_LENGTH)
              (shr64 (q.set_pawns 0 q.enpassant).enpassant (2 * BOARD_SIDE_LENGTH)))
          &&& EDGE_ROWS_MASK = 0 ∧
        add64 (add64 ((q.set_pawns 0 q.enpassant).sides 0).pawns
            ((q.set_pawns 0 q.enpassant).sides 1).pawns) 0
          &&& add64 (shr64 (q.set_pawns 0 q.enpassant).enpassant BOARD_SIDE_LENGTH)
              (shr64 (q.set_pawns 0 q.enpassant).enpassant (2 * BOARD_SIDE_LENGTH)) = 0 := by
    intro index q e pw root hq hok
    obtain ⟨k1, k2, k3, k4, k5⟩ := hok
    have hqe : q.enpassant = e := by rw [hq]; rfl
    have h0 : ((q.set_pawns 0 q.enpassant).sides 0).pawns = e := by
      rw [hqe]; simp [position.set_pawns]
    have h1 : ((q.set_pawns 0 q.enpassant).sides 1).pawns = pw := by
      rw [hq]; simp [position.set_pawns]
    have h2 : (q.set_pawns 0 q.enpassant).enpassant = e := by rw [hq]; rfl
    rw [h0, h1, h2]
    refine ⟨?_, k5, k2⟩
    apply invariant_two_pawns h _ e pw _ _ _ k1 k3 k4 (add64_lt _ _)
    · intro t
      rw [board_set_pawns, hqe]
      by_cases ht0 : t = .pawns 0
      · simp [ht0]
      · simp only [ht0, if_false]
        rw [hq, board_set_pawns]
        by_cases ht1 : t = .pawns 1
        · simp [ht1]
        · simp only [ht1, if_false]
          have := hb t
          cases t <;> exact this
    · rw [hq]; exact hf
  unfold pass_enpassant at hp
  cases hpt : point_root_to_matching_child s.root s.index with
  | error e => rw [hpt] at hp; cases hp
  | ok v =>
    obtain ⟨root, index, ec⟩ := v
    rw [hpt] at hp
    simp only at hp
    by_cases hc1 : ec = h.ENPASSANT_EDGE_AND_RIGHT
    · subst hc1
      simp only [if_true] at hp
      cases hdv : fdiv_qr_ui index h.ENPASSANT_EDGE_AND_RIGHT_VARIATIONS with
      | error e => rw [hdv] at hp; cases hp
      | ok qr =>
        obtain ⟨q, r⟩ := qr
        obtain ⟨hd0, _, _, hrlt⟩ := fdiv_qr_ui_ok _ _ _ _ hdv
        rw [hdv] at hp
        simp only at hp
        by_cases hrem : r ≠ h.ENPASSANT_EDGE_AND_RIGHT_VARIATIONS - 1
        · rw [if_pos hrem] at hp
          simp only [if_pos hne1] at hp
          have := Except.ok.inj hp
          simp only [Prod.mk.injEq] at this
          obtain ⟨rfl, rfl, rfl⟩ := this
          obtain ⟨k1, k2, k3⟩ := key q _ _ _ root rfl
            (enpassant_edge_ok h.ENPASSANT_ROW_0INDEX hr1 hr2)
          exact ⟨rfl, k1, k2, trace_ok_cons _ _ _ k3 htr⟩
        · rw [if_neg hrem] at hp
          simp only [if_pos hne1] at hp
          have := Except.ok.inj hp
          simp only [Prod.mk.injEq] at this
          obtain ⟨rfl, rfl, rfl⟩ := this
          obtain ⟨k1, k2, k3⟩ := key q _ _ _ root rfl
            (enpassant_right_ok h.ENPASSANT_ROW_0INDEX r hr1 hr2 (by omega))
          exact ⟨rfl, k1, k2, trace_ok_cons _ _ _ k3 htr⟩
    · simp only [hc1, if_false] at hp
      by_cases hc2 : ec = h.ENPASSANT_LEFT_LESS_EDGE
      · subst hc2
        simp only [if_true] at hp
        cases hdv : fdiv_qr_ui index h.ENPASSANT_LEFT_LESS_EDGE_VARIATIONS with
        | error e => rw [hdv] at hp; cases hp
        | ok qr =>
          obtain ⟨q, r⟩ := qr
          obtain ⟨hd0, _, _, hrlt⟩ := fdiv_qr_ui_ok _ _ _ _ hdv
          rw [hdv] at hp
          simp only [if_pos hne2] at hp
          have := Except.ok.inj hp
          simp only [Prod.mk.injEq] at this
          obtain ⟨rfl, rfl, rfl⟩ := this
          obtain ⟨k1, k2, k3⟩ := key q _ _ _ root rfl
            (enpassant_left_ok h.ENPASSANT_ROW_0INDEX r hr1 hr2 (by omega))
          exact ⟨rfl, k1, k2, trace_ok_cons _ _ _ k3 htr⟩
      · simp only [hc2, if_false] at hp
        by_cases hc3 : ec ≠ h.NO_ENPASSANT
        · rw [if_pos hc3] at hp
          cases hp
        · rw [if_neg hc3] at hp
          simp only [if_neg hc3] at hp
          have := Except.ok.inj hp
          simp only [Prod.mk.injEq] at this
          obtain ⟨rfl, rfl, rfl⟩ := this
          have hp0 : ∀ i, (p.sides i).pawns = 0 := fun i => hb (.pawns i)
          have hz : add64 (add64 ((p.set_pawns 0 p.enpassant).sides 0).pawns
              ((p.set_pawns 0 p.enpassant).sides 1).pawns) 0 = 0 := by
            have h0 : ((p.set_pawns 0 p.enpassant).sides 0).pawns = 0 := by
              rw [he]; simp [position.set_pawns]
            have h1 : ((p.set_pawns 0 p.enpassant).sides 1).pawns = 0 := by
              simp [position.set_pawns, hp0 1]
            rw [h0, h1]
            decide
          simp only [hz]
          refine ⟨trivial, ?_, by simp, htr⟩
          apply invariant_zero
          · intro t
            rw [board_set_pawns, he]
            split
            · rfl
            · exact hb t
          · exact hf

/-! ## The fixed-rook pass -/

theorem home_row_lt (side : Fin 2) : home_row side < 2 ^ 64 := by
  fin_cases side <;> decide

theorem home_row_disjoint : home_row 0 &&& home_row 1 = 0 := by decide

theorem home_row_subset_edge (side : Fin 2) :
    home_row side &&& EDGE_ROWS_MASK = home_row side := by
  fin_cases side <;> decide

theorem board_with_fixed_rooks (h : headers) (p : position) (x : Nat) (t : slot) :
    board h { p with fixed_rooks := x } t = board h p t := by
  cases t <;> rfl

/-- The assignments at the end of `pass_fixed_rooks_and_kings`, for masks on the home row of
the side while that row is still free. -/
theorem fixed_rooks_update (h : headers) (hK : 4 ≤ h.KING) (p : position) (side : Fin 2)
    (occ fr king : Nat) (hok : home_squares_ok side fr king) (hinv : invariant h p occ)
    (hrow : occ &&& home_row side = 0) :
    invariant h
        (({ p.set_fr side fr with
            fixed_rooks := add64 (p.set_fr side fr).fixed_rooks fr }).set_piece side h.KING king)
        (add64 occ (add64 fr king)) ∧
      add64 occ (add64 fr king) = occ ||| (fr ||| king) ∧
      (fr ||| king) &&& home_row side = fr ||| king ∧
      occ &&& add64 fr king = 0 ∧ p.fixed_rooks &&& fr = 0 := by
  obtain ⟨hfk, hfrow, hkrow⟩ := hok
  have hocc := hinv.1
  have hrlt := home_row_lt side
  have hfr64 : fr < 2 ^ 64 := lt_of_and_eq_left _ _ hfrow hrlt
  have hk64 : king < 2 ^ 64 := lt_of_and_eq_left _ _ hkrow hrlt
  have hrow' : home_row side &&& occ = 0 := by rw [Nat.and_comm]; exact hrow
  have hfocc : fr &&& occ = 0 := disjoint_of_subset _ _ _ hfrow hrow'
  have hkocc : king &&& occ = 0 := disjoint_of_subset _ _ _ hkrow hrow'
  have hfxd : p.fixed_rooks &&& fr = 0 :=
    disjoint_of_subset _ _ _ hinv.2.2.2 (by rw [Nat.and_comm]; exact hfocc)
  have hfx64 : p.fixed_rooks < 2 ^ 64 := lt_of_and_eq_left _ _ hinv.2.2.2 hocc
  have hadd : add64 fr king = fr ||| king := add64_eq_or _ _ hfr64 hk64 hfk
  have hdis : occ &&& (fr ||| king) = 0 := by
    rw [and_or_eq_zero]
    exact ⟨by rw [Nat.and_comm]; exact hfocc, by rw [Nat.and_comm]; exact hkocc⟩
  have hsum : add64 occ (add64 fr king) = occ ||| (fr ||| king) := by
    rw [hadd]
    exact add64_eq_or _ _ hocc (Nat.or_lt_two_pow hfr64 hk64) hdis
  have hsubrow : (fr ||| king) &&& home_row side = fr ||| king := by
    have h1 := (and_eq_left_iff_testBit _ _).1 hfrow
    have h2 := (and_eq_left_iff_testBit _ _).1 hkrow
    rw [and_eq_left_iff_testBit]
    intro i hi
    simp only [Nat.testBit_or, Bool.or_eq_true] at hi
    rcases hi with hi | hi
    · exact h1 i hi
    · exact h2 i hi
  refine ⟨?_, hsum, hsubrow, by rw [hadd]; exact hdis, hfxd⟩
  -- first the side-local and the combined fixed-rook masks
  have hstep1 : invariant h
      { p.set_fr side fr with fixed_rooks := add64 (p.set_fr side fr).fixed_rooks fr }
      (occ ||| fr) := by
    apply invariant_update h p _ occ fr (.fr side) hinv hfr64 hfocc
    · rw [board_with_fixed_rooks, board_set_fr]
      simp only [if_true]
      exact subset_or_right _ _
    · intro t ht
      rw [board_with_fixed_rooks, board_set_fr]
      simp only [ht, if_false]
    · have : (p.set_fr side fr).fixed_rooks = p.fixed_rooks := rfl
      simp only [this]
      rw [add64_eq_or _ _ hfx64 hfr64 hfxd]
      exact Nat.and_self _
  -- then the king
  have hk2 : king &&& (occ ||| fr) = 0 := by
    rw [and_or_eq_zero]
    exact ⟨hkocc, by rw [Nat.and_comm]; exact hfk⟩
  have hstep2 := invariant_update h _
    (({ p.set_fr side fr with
        fixed_rooks := add64 (p.set_fr side fr).fixed_rooks fr }).set_piece side h.KING king)
    (occ ||| fr) king (.king side) hstep1 hk64 hk2
    (by
      rw [board_set_king h hK]
      simp only [if_true]
      exact subset_or_right _ _)
    (by
      intro t ht
      rw [board_set_king h hK]
      simp only [ht, if_false])
    (by
      have : (({ p.set_fr side fr with
          fixed_rooks := add64 (p.set_fr side fr).fixed_rooks fr }).set_piece side h.KING
            king).fixed_rooks
          = ({ p.set_fr side fr with
            fixed_rooks := add64 (p.set_fr side fr).fixed_rooks fr }).fixed_rooks := rfl
      rw [this]
      exact subset_or_left _ _ _ (Nat.and_self _))
  rw [hsum, ← Nat.or_assoc]
  exact hstep2

/-- The masks of the fixed-rook pass lie on the home row of the side, apart from each other. -/
theorem home_squares_of_switch (h : headers) (hl : layout_ok h) (side : Fin 2)
    (nfr index index' fr : Nat)
    (hsw : fixed_rooks_switch h nfr index = .ok (index', fr)) :
    home_squares_ok side
      (if nfr > 0 ∧ side = 1 then rotate_bitboard_across_central_rows fr else fr)
      (if nfr > 0 ∧ side = 1 then
        rotate_bitboard_across_central_rows
          (if nfr > 0 then rcb 0 h.KING_HOME_COLUMN_0INDEX else 0)
       else (if nfr > 0 then rcb 0 h.KING_HOME_COLUMN_0INDEX else 0)) := by
  obtain ⟨_, _, _, _, hk1, hk2, hv, _, _, hone, hboth, _⟩ := hl
  unfold fixed_rooks_switch at hsw
  by_cases hc0 : nfr = h.NO_CASTLING_RIGHTS
  · rw [if_pos hc0] at hsw
    have := Except.ok.inj hsw
    simp only [Prod.mk.injEq] at this
    obtain ⟨_, rfl⟩ := this
    have hn := home_squares_none h.KING_HOME_COLUMN_0INDEX hk1 hk2
    by_cases hpos : nfr > 0
    · fin_cases side
      · simpa [hpos] using hn.1
      · simpa [hpos] using hn.2
    · simp only [hpos, false_and, if_false]
      exact home_squares_empty side
  · rw [if_neg hc0] at hsw
    by_cases hc1 : nfr = h.CASTLING_RIGHTS_ONE_SIDE
    · rw [if_pos hc1] at hsw
      have hpos : nfr > 0 := by omega
      cases hdv : fdiv_qr_ui index h.ONE_FIXED_ROOK_VARIATIONS with
      | error e => rw [hdv] at hsw; cases hsw
      | ok qr =>
        obtain ⟨q, r⟩ := qr
        obtain ⟨_, _, _, hrlt⟩ := fdiv_qr_ui_ok _ _ _ _ hdv
        rw [hdv] at hsw
        have := Except.ok.inj hsw
        simp only [Prod.mk.injEq] at this
        obtain ⟨_, rfl⟩ := this
        have hn := home_squares_one h.KING_HOME_COLUMN_0INDEX r hk1 hk2 (by omega)
        fin_cases side
        · simpa [hpos] using hn.1
        · simpa [hpos] using hn.2
    · rw [if_neg hc1] at hsw
      by_cases hc2 : nfr = h.CASTLING_RIGHTS_BOTH_SIDES
      · rw [if_pos hc2] at hsw
        have hpos : nfr > 0 := by omega
        have := Except.ok.inj hsw
        simp only [Prod.mk.injEq] at this
        obtain ⟨_, rfl⟩ := this
        have hn := home_squares_both h.KING_HOME_COLUMN_0INDEX hk1 hk2
        fin_cases side
        · simpa [hpos] using hn.1
        · simpa [hpos] using hn.2
      · rw [if_neg hc2] at hsw
        cases hsw

/-- The fixed-rook pass of a side places its masks on the side's home row, which must still be
free, and keeps the invariant; it leaves the pawns alone. -/
theorem pass_fixed_rooks_spec (h : headers) (s s' : decode_state) (p p' : position)
    (side : Fin 2) (nfr : Nat)
    (hp : pass_fixed_rooks_and_kings h s p side = .ok (s', p', nfr)) (hl : layout_ok h)
    (hinv : invariant h p s.occupied_squares)
    (hrow : s.occupied_squares &&& home_row side = 0) (htr : trace_ok s.trace) :
    ∃ m, m &&& home_row side = m ∧ s'.occupied_squares = s.occupied_squares ||| m ∧
      invariant h p' s'.occupied_squares ∧ trace_ok s'.trace ∧
      (∀ k, (p'.sides k).pawns = (p.sides k).pawns) ∧ p'.enpassant = p.enpassant := by
  have hK : 4 ≤ h.KING := hl.2.2.2.2.2.2.2.2.2.2.2.2.2
  unfold pass_fixed_rooks_and_kings at hp
  cases hpt : point_root_to_matching_child s.root s.index with
  | error e => rw [hpt] at hp; cases hp
  | ok v =>
    obtain ⟨root, index, n⟩ := v
    rw [hpt] at hp
    simp only at hp
    cases hsw : fixed_rooks_switch h n index with
    | error e => rw [hsw] at hp; cases hp
    | ok w =>
      obtain ⟨index', fr⟩ := w
      rw [hsw] at hp
      simp only at hp
      have := Except.ok.inj hp
      simp only [Prod.mk.injEq] at this
      obtain ⟨rfl, rfl, rfl⟩ := this
      have hok := home_squares_of_switch h hl side n index index' fr hsw
      obtain ⟨k1, k2, k3, k4, k5⟩ := fixed_rooks_update h hK p side s.occupied_squares _ _ hok
        hinv hrow
      refine ⟨_, k3, k2, k1, ?_, ?_, rfl⟩
      · exact trace_ok_cons _ _ _ k4 (trace_ok_cons _ _ _ k5 htr)
      · intro k
        simp only [position.set_piece, position.set_fr]
        by_cases hk : k = side
        · subst hk; simp
        · simp [Function.update_noteq hk]

/-! ## The stages of the decode -/

theorem except_bind_ok {α β : Type} (x : Except Fatal α) (f : α → Except Fatal β) (r : β)
    (h : (x >>= f) = .ok r) : ∃ a, x = .ok a ∧ f a = .ok r := by
  cases x with
  | error e => cases h
  | ok a => exact ⟨a, rfl, h⟩

/-- A generic pass on the bitboard of a slot, while the squares `e` are marked occupied on top
of the squares `o` that the bitboards account for. -/
theorem pass_generic_slot (h : headers) (s s' : decode_state) (bb' n : Nat)
    (p p' : position) (t₀ : slot) (o e : Nat)
    (hp : pass_generic h s (board h p t₀) = .ok (s', bb', n))
    (hinv : invariant h p o) (hocc : s.occupied_squares = o ||| e) (he : e < 2 ^ 64)
    (hoe : o &&& e = 0) (htr : trace_ok s.trace)
    (hp' : ∀ t, board h p' t = if t = t₀ then bb' else board h p t)
    (hf : p'.fixed_rooks = p.fixed_rooks) :
    ∃ o', invariant h p' o' ∧ s'.occupied_squares = o' ||| e ∧ o' &&& e = 0 ∧
      trace_ok s'.trace := by
  have ho := hinv.1
  have hsub : board h p t₀ &&& s.occupied_squares = board h p t₀ := by
    rw [hocc]
    exact subset_or_left _ _ _ (hinv.2.1 t₀)
  obtain ⟨m, hm, hd, hocc', hbb, htr'⟩ := pass_generic_spec h s s' _ bb' n hp
    (by rw [hocc]; exact Nat.or_lt_two_pow ho he) hsub htr
  rw [hocc, and_or_eq_zero] at hd
  refine ⟨o ||| m, ?_, ?_, ?_, htr'⟩
  · apply invariant_update h p p' o m t₀ hinv hm hd.1
    · rw [hp' t₀, if_pos rfl, hbb]
      exact Nat.and_self _
    · intro t ht
      rw [hp' t, if_neg ht]
    · rw [hf]
      exact subset_or_left _ _ _ (Nat.and_self _)
  · rw [hocc', hocc]
    apply Nat.eq_of_testBit_eq
    intro i
    simp only [Nat.testBit_or]
    cases o.testBit i <;> cases e.testBit i <;> cases m.testBit i <;> rfl
  · rw [or_and_eq_zero]
    exact ⟨hoe, hd.2⟩

theorem edge_rows_lt : EDGE_ROWS_MASK < 2 ^ 64 := by decide

theorem board_zero (h : headers) (t : slot) : board h position.zero t = 0 := by
  cases t <;> rfl

theorem board_with_black (h : headers) (p : position) (b : Bool) (t : slot) :
    board h { p with side0isBlack := b } t = board h p t := by
  cases t <;> rfl

theorem board_with_move (h : headers) (p : position) (b : Bool) (t : slot) :
    board h { p with side0toMove := b } t = board h p t := by
  cases t <;> rfl

theorem tie_break_spec (h : headers) (applies : Prop) [Decidable applies] (index : Nat)
    (p : position) (index' : Nat) (p' : position)
    (hp : tie_break applies index p = .ok (index', p')) :
    (∀ t, board h p' t = board h p t) ∧ p'.fixed_rooks = p.fixed_rooks ∧
      p'.sides = p.sides ∧ p'.enpassant = p.enpassant := by
  unfold tie_break at hp
  by_cases ha : applies
  · rw [if_pos ha] at hp
    cases hdv : fdiv_qr_ui index 2 with
    | error e => rw [hdv] at hp; cases hp
    | ok qr =>
      obtain ⟨q, r⟩ := qr
      rw [hdv] at hp
      have := Except.ok.inj hp
      simp only [Prod.mk.injEq] at this
      obtain ⟨_, rfl⟩ := this
      by_cases hr : r ≠ 0
      · rw [if_pos hr]
        exact ⟨board_with_move h p true, rfl, rfl, rfl⟩
      · rw [if_neg hr]
        exact ⟨fun _ => rfl, rfl, rfl, rfl⟩
  · rw [if_neg ha] at hp
    have := Except.ok.inj hp
    simp only [Prod.mk.injEq] at this
    obtain ⟨_, rfl⟩ := this
    exact ⟨fun _ => rfl, rfl, rfl, rfl⟩

/-- After the pawn stage the invariant holds, the edge rows are free, and every recorded
addition had disjoint operands. -/
theorem decode_pawns_spec (h : headers) (root : position_node) (index : Nat) (l : locals)
    (hp : decode_pawns h root index = .ok l) (hl : layout_ok h) :
    invariant h l.p l.s.occupied_squares ∧ l.s.occupied_squares &&& EDGE_ROWS_MASK = 0 ∧
      trace_ok l.s.trace := by
  unfold decode_pawns at hp
  obtain ⟨⟨q, r⟩, h1, hp⟩ := except_bind_ok _ _ _ hp
  simp only at hp
  obtain ⟨⟨s1, p1, tmp⟩, h2, hp⟩ := except_bind_ok _ _ _ hp
  simp only at hp
  obtain ⟨⟨s3, bb1, n1⟩, h3, hp⟩ := except_bind_ok _ _ _ hp
  simp only at hp
  obtain ⟨⟨s5, bb2, n2⟩, h4, hp⟩ := except_bind_ok _ _ _ hp
  simp only at hp
  obtain ⟨⟨index', p4⟩, h5, hp⟩ := except_bind_ok _ _ _ hp
  simp only at hp
  have hl' := Except.ok.inj hp
  subst hl'
  simp only
  -- the en-passant pass
  obtain ⟨htmp, hinv1, hedge1, htr1⟩ := pass_enpassant_spec h _ s1 _ p1 tmp h2 hl
    (by
      intro t
      by_cases hr : r ≠ 0
      · rw [if_pos hr]; exact board_zero h t
      · rw [if_neg hr]; exact board_zero h t)
    (by
      by_cases hr : r ≠ 0
      · rw [if_pos hr]; rfl
      · rw [if_neg hr]; rfl)
    (by
      by_cases hr : r ≠ 0
      · rw [if_pos hr]; rfl
      · rw [if_neg hr]; rfl)
    trace_ok_nil
  subst htmp
  have hE := edge_rows_lt
  -- the pawns of side 1, the edge rows marked occupied
  obtain ⟨o2, hinv2, hocc2, hedge2, htr2⟩ := pass_generic_slot h _ s3 bb1 n1 p1
    (p1.set_pawns 1 bb1) (.pawns 1) s1.occupied_squares EDGE_ROWS_MASK h3 hinv1
    (add64_eq_or _ _ hinv1.1 hE hedge1) hE hedge1
    (trace_ok_cons _ _ _ hedge1 htr1) (board_set_pawns h p1 1 bb1) rfl
  -- the pawns of side 0
  have hs3 : sub64 s3.occupied_squares 0 = o2 ||| EDGE_ROWS_MASK := by
    rw [sub64_zero _ (by rw [hocc2]; exact Nat.or_lt_two_pow hinv2.1 hE), hocc2]
  obtain ⟨o3, hinv3, hocc3, hedge3, htr3⟩ := pass_generic_slot h _ s5 bb2 n2
    (p1.set_pawns 1 bb1) ((p1.set_pawns 1 bb1).set_pawns 0 bb2) (.pawns 0) o2 EDGE_ROWS_MASK
    h4 hinv2 hs3 hE hedge2 htr2 (board_set_pawns h _ 0 bb2) rfl
  -- the tie-break and the release of the edge rows
  obtain ⟨hb4, hf4, _, _⟩ := tie_break_spec h _ _ _ index' p4 h5
  rw [hocc3, sub64_or o3 EDGE_ROWS_MASK hinv3.1 hE hedge3]
  exact ⟨invariant_congr h _ p4 o3 hb4 hf4 hinv3, hedge3, htr3⟩

/-- The fixed-rook stage keeps the invariant and leaves the pawns alone. -/
theorem decode_fixed_rooks_spec (h : headers) (l l' : locals)
    (hp : decode_fixed_rooks h l = .ok l') (hl : layout_ok h)
    (hinv : invariant h l.p l.s.occupied_squares)
    (hedge : l.s.occupied_squares &&& EDGE_ROWS_MASK = 0) (htr : trace_ok l.s.trace) :
    invariant h l'.p l'.s.occupied_squares ∧ trace_ok l'.s.trace ∧
      (∀ k, (l'.p.sides k).pawns = (l.p.sides k).pawns) := by
  unfold decode_fixed_rooks at hp
  obtain ⟨⟨s1, p1, nfr0⟩, h1, hp⟩ := except_bind_ok _ _ _ hp
  simp only at hp
  obtain ⟨⟨s2, p2, nfr1⟩, h2, hp⟩ := except_bind_ok _ _ _ hp
  simp only at hp
  obtain ⟨⟨index', p3⟩, h3, hp⟩ := except_bind_ok _ _ _ hp
  simp only at hp
  have hl' := Except.ok.inj hp
  subst hl'
  simp only
  have hrow : ∀ side, l.s.occupied_squares &&& home_row side = 0 := by
    intro side
    rw [Nat.and_comm]
    exact disjoint_of_subset _ _ _ (home_row_subset_edge side)
      (by rw [Nat.and_comm]; exact hedge)
  obtain ⟨m0, hm0, hocc1, hinv1, htr1, hpw1, _⟩ :=
    pass_fixed_rooks_spec h l.s s1 l.p p1 0 nfr0 h1 hl hinv (hrow 0) htr
  have hrow1 : s1.occupied_squares &&& home_row 1 = 0 := by
    rw [hocc1, or_and_eq_zero]
    exact ⟨hrow 1, disjoint_of_subset _ _ _ hm0 home_row_disjoint⟩
  obtain ⟨m1, hm1, hocc2, hinv2, htr2, hpw2, _⟩ :=
    pass_fixed_rooks_spec h s1 s2 p1 p2 1 nfr1 h2 hl hinv1 hrow1 htr1
  obtain ⟨hb3, hf3, hs3, _⟩ := tie_break_spec h _ _ _ index' p3 h3
  refine ⟨invariant_congr h _ p3 _ hb3 hf3 hinv2, htr2, ?_⟩
  intro k
  rw [hs3, hpw2 k, hpw1 k]

/-- The generic piece passes of one side keep the invariant and leave the pawns alone. -/
theorem decode_pieces_of_side_spec (h : headers) (hl : layout_ok h) (i : Fin 2) :
    ∀ (todo j : Nat) (l l' : locals), j + todo = 4 →
      decode_pieces_of_side h i todo j l = .ok l' →
      invariant h l.p l.s.occupied_squares → trace_ok l.s.trace →
      invariant h l'.p l'.s.occupied_squares ∧ trace_ok l'.s.trace ∧
        (∀ k, (l'.p.sides k).pawns = (l.p.sides k).pawns) := by
  have hK : 4 ≤ h.KING := hl.2.2.2.2.2.2.2.2.2.2.2.2.2
  intro todo
  induction todo with
  | zero =>
    intro j l l' _ hp hinv htr
    have := Except.ok.inj hp
    subst this
    exact ⟨hinv, htr, fun _ => rfl⟩
  | succ todo ih =>
    intro j l l' hj hp hinv htr
    have hj4 : j < 4 := by omega
    rw [decode_pieces_of_side] at hp
    cases hpg : pass_generic h l.s ((l.p.sides i).pieces j) with
    | error e => rw [hpg] at hp; cases hp
    | ok v =>
      obtain ⟨s1, bb, n⟩ := v
      rw [hpg] at hp
      simp only at hp
      obtain ⟨o', hinv1, hocc1, _, htr1⟩ := pass_generic_slot h l.s s1 bb n l.p
        (l.p.set_piece i j bb) (.piece i ⟨j, hj4⟩) l.s.occupied_squares 0 hpg hinv
        (Nat.or_zero _).symm (by norm_num) (Nat.and_zero _) htr
        (board_set_piece h hK l.p i ⟨j, hj4⟩ bb) rfl
      rw [Nat.or_zero] at hocc1
      rw [← hocc1] at hinv1
      have hpw : ∀ k, ((l.p.set_piece i j bb).sides k).pawns = (l.p.sides k).pawns := by
        intro k
        simp only [position.set_piece]
        by_cases hk : k = i
        · subst hk; simp
        · simp [Function.update_noteq hk]
      by_cases hn : n = 0
      · rw [if_pos hn] at hp
        have := Except.ok.inj hp
        subst this
        exact ⟨hinv1, htr1, hpw⟩
      · rw [if_neg hn] at hp
        obtain ⟨k1, k2, k3⟩ := ih (j + 1) _ l' (by omega) hp hinv1 htr1
        exact ⟨k1, k2, fun k => by rw [k3 k]; exact hpw k⟩

theorem decode_pieces_spec (h : headers) (hl : layout_ok h) (l l' : locals)
    (hp : decode_pieces h l = .ok l')
    (hinv : invariant h l.p l.s.occupied_squares) (htr : trace_ok l.s.trace) :
    invariant h l'.p l'.s.occupied_squares ∧ trace_ok l'.s.trace ∧
      (∀ k, (l'.p.sides k).pawns = (l.p.sides k).pawns) := by
  unfold decode_pieces at hp
  obtain ⟨l1, h1, hp⟩ := except_bind_ok _ _ _ hp
  obtain ⟨a1, a2, a3⟩ := decode_pieces_of_side_spec h hl 0 _ _ l l1 rfl h1 hinv htr
  obtain ⟨b1, b2, b3⟩ := decode_pieces_of_side_spec h hl 1 _ _ l1 l' rfl hp a1 a2
  exact ⟨b1, b2, fun k => by rw [b3 k, a3 k]⟩

/-- The king placement of one side keeps the invariant and leaves the pawns alone. -/
theorem decode_king_spec (h : headers) (hl : layout_ok h) (i : Fin 2) (l l' : locals)
    (hp : decode_king h i l = .ok l')
    (hinv : invariant h l.p l.s.occupied_squares) (htr : trace_ok l.s.trace) :
    invariant h l'.p l'.s.occupied_squares ∧ trace_ok l'.s.trace ∧
      (∀ k, (l'.p.sides k).pawns = (l.p.sides k).pawns) := by
  have hK : 4 ≤ h.KING := hl.2.2.2.2.2.2.2.2.2.2.2.2.2
  unfold decode_king at hp
  by_cases hn : l.nfr i = h.NO_CASTLING_RIGHTS
  · rw [if_pos hn] at hp
    obtain ⟨⟨q, r⟩, h1, hp⟩ := except_bind_ok _ _ _ hp
    simp only at hp
    obtain ⟨pattern, h2, hp⟩ := except_bind_ok _ _ _ hp
    have := Except.ok.inj hp
    subst this
    simp only
    obtain ⟨hdis, hlt⟩ := pdep_disjoint_occupied pattern l.s.occupied_squares hinv.1
    have hdis' : l.s.occupied_squares &&& _pdep_u64 pattern (not64 l.s.occupied_squares) = 0 := by
      rw [Nat.and_comm]; exact hdis
    rw [add64_eq_or _ _ hinv.1 hlt hdis']
    refine ⟨?_, trace_ok_cons _ _ _ hdis' htr, ?_⟩
    · apply invariant_update h l.p _ _ _ (.king i) hinv hlt hdis
      · rw [board_set_king h hK]
        simp only [if_true]
        exact subset_or_right _ _
      · intro t ht
        rw [board_set_king h hK]
        simp only [ht, if_false]
      · exact subset_or_left _ _ _ (Nat.and_self _)
    · intro k
      simp only [position.set_piece]
      by_cases hk : k = i
      · subst hk; simp
      · simp [Function.update_noteq hk]
  · rw [if_neg hn] at hp
    have := Except.ok.inj hp
    subst this
    exact ⟨hinv, htr, fun _ => rfl⟩

theorem decode_kings_spec (h : headers) (hl : layout_ok h) (l l' : locals)
    (hp : decode_kings h l = .ok l')
    (hinv : invariant h l.p l.s.occupied_squares) (htr : trace_ok l.s.trace) :
    invariant h l'.p l'.s.occupied_squares ∧ trace_ok l'.s.trace ∧
      (∀ k, (l'.p.sides k).pawns = (l.p.sides k).pawns) := by
  unfold decode_kings at hp
  obtain ⟨l1, h1, hp⟩ := except_bind_ok _ _ _ hp
  obtain ⟨a1, a2, a3⟩ := decode_king_spec h hl 0 l l1 h1 hinv htr
  obtain ⟨b1, b2, b3⟩ := decode_king_spec h hl 1 l1 l' hp a1 a2
  exact ⟨b1, b2, fun k => by rw [b3 k, a3 k]⟩

/-! ## The closing stage -/

/-- Relabelling the bitboards through an injective map of slots keeps the invariant. -/
theorem invariant_of_injective (h : headers) (p p' : position) (occ : Nat) (σ : slot → slot)
    (hσ : ∀ s t, σ s = σ t → s = t) (hb : ∀ t, board h p' t = board h p (σ t))
    (hf : p'.fixed_rooks = p.fixed_rooks) (hinv : invariant h p occ) : invariant h p' occ := by
  obtain ⟨h1, h2, h3, h4⟩ := hinv
  refine ⟨h1, ?_, ?_, ?_⟩
  · intro s; rw [hb s]; exact h2 _
  · intro s t hst
    rw [hb s, hb t]
    exact h3 _ _ (fun hc => hst (hσ s t hc))
  · rw [hf]; exact h4

theorem swapped_lt (h : headers) (hR : h.ROOK < 4) (hQ : h.QUEEN < 4) (applies : Prop)
    [Decidable applies] (j : Nat) (hj : j < 4) : swapped h applies j < 4 := by
  unfold swapped
  split
  · split
    · exact hR
    · split
      · exact hQ
      · exact hj
  · exact hj

theorem swapped_inj (h : headers) (applies : Prop) [Decidable applies] (j k : Nat)
    (hjk : swapped h applies j = swapped h applies k) : j = k := by
  unfold swapped at hjk
  split_ifs at hjk <;> omega

theorem relabel_source_inj (h : headers) (hR : h.ROOK < 4) (hQ : h.QUEEN < 4)
    (nfr : Fin 2 → Nat) (permutations : Fin 2 → Nat → Int)
    (hperm : ∀ i, is_permutation (permutations i)) :
    ∀ s t, relabel_source h nfr permutations s = relabel_source h nfr permutations t → s = t := by
  intro s t hst
  cases s with
  | piece i j =>
    cases t with
    | piece i' j' =>
      simp only [relabel_source, slot.piece.injEq] at hst
      obtain ⟨rfl, hj⟩ := hst
      have hj' := congrArg Fin.val hj
      simp only at hj'
      have hs1 := swapped_lt h hR hQ (nfr i = h.CASTLING_RIGHTS_BOTH_SIDES) j j.isLt
      have hs2 := swapped_lt h hR hQ (nfr i = h.CASTLING_RIGHTS_BOTH_SIDES) j' j'.isLt
      have hp1 := (hperm i).1 _ hs1
      have hp2 := (hperm i).1 _ hs2
      have heq : permutations i (swapped h (nfr i = h.CASTLING_RIGHTS_BOTH_SIDES) j)
          = permutations i (swapped h (nfr i = h.CASTLING_RIGHTS_BOTH_SIDES) j') := by
        omega
      have := (hperm i).2 _ hs1 _ hs2 heq
      have := swapped_inj h _ _ _ this
      congr 1
      exact Fin.ext this
    | pawns _ => simp [relabel_source] at hst
    | king _ => simp [relabel_source] at hst
    | fr _ => simp [relabel_source] at hst
  | pawns i => cases t <;> simp_all [relabel_source]
  | king i => cases t <;> simp_all [relabel_source]
  | fr i => cases t <;> simp_all [relabel_source]

/-- The bitboards after the relabelling of lines 455-480 are the bitboards before it. -/
theorem board_relabelled (h : headers) (hl : layout_ok h) (p : position) (nfr : Fin 2 → Nat)
    (permutations : Fin 2 → Nat → Int) (hperm : ∀ i, is_permutation (permutations i))
    (t : slot) :
    board h { p with sides := swap_sides h nfr (permute_sides permutations p.sides) } t
      = board h p (relabel_source h nfr permutations t) := by
  obtain ⟨_, _, _, _, _, _, _, _, _, _, _, hR, hQ, hK⟩ := hl
  have hperm4 : ∀ (i : Fin 2) (j : Nat), j < 4 →
      (permute_side (p.sides i) (permutations i)).pieces j
        = (p.sides i).pieces (permutations i j).toNat := by
    intro i j hj
    have := (hperm i).1 j hj
    have h4 : (permutations i j).toNat < NUM_PIECE_TYPES_LESS_KING := by
      unfold NUM_PIECE_TYPES_LESS_KING; omega
    have hj4 : j < NUM_PIECE_TYPES_LESS_KING := hj
    simp only [permute_side, hj4, h4, if_true]
  cases t with
  | pawns i =>
    simp only [board, relabel_source, swap_sides, permute_sides]
    split <;> rfl
  | fr i =>
    simp only [board, relabel_source, swap_sides, permute_sides]
    split <;> rfl
  | king i =>
    have hK4 : ¬ h.KING < NUM_PIECE_TYPES_LESS_KING := by
      unfold NUM_PIECE_TYPES_LESS_KING; omega
    have hKR : h.KING ≠ h.ROOK := by omega
    have hKQ : h.KING ≠ h.QUEEN := by omega
    simp only [board, relabel_source, swap_sides, permute_sides]
    split
    · simp only [swap_rook_queen, Function.update_noteq hKQ, Function.update_noteq hKR,
        permute_side, hK4, if_false]
    · simp only [permute_side, hK4, if_false]
  | piece i j =>
    have hj := j.isLt
    have hs := swapped_lt h hR hQ (nfr i = h.CASTLING_RIGHTS_BOTH_SIDES) j hj
    have hp := (hperm i).1 _ hs
    have hmod : (permutations i (swapped h (nfr i = h.CASTLING_RIGHTS_BOTH_SIDES) j)).toNat % 4
        = (permutations i (swapped h (nfr i = h.CASTLING_RIGHTS_BOTH_SIDES) j)).toNat := by
      omega
    simp only [board, relabel_source, swap_sides, permute_sides, hmod]
    by_cases hn : nfr i = h.CASTLING_RIGHTS_BOTH_SIDES
    · simp only [hn, if_true, swap_rook_queen, swapped, Function.update_apply]
      by_cases hjQ : (j : Nat) = h.QUEEN
      · simp only [hjQ, if_true]
        exact hperm4 i h.ROOK hR
      · simp only [hjQ, if_false]
        by_cases hjR : (j : Nat) = h.ROOK
        · simp only [hjR, if_true]
          exact hperm4 i h.QUEEN hQ
        · simp only [hjR, if_false]
          exact hperm4 i j hj
    · simp only [hn, if_false, swapped]
      exact hperm4 i j hj

theorem board_add_fixed_rooks (h : headers) (hl : layout_ok h) (p : position) (occ : Nat)
    (hinv : invariant h p occ) (s : slot) (hs : s.is_bitboard = true) :
    board h { p with sides := add_fixed_rooks h p.sides } s
      = board h p s ||| added_fixed_rooks h p s := by
  obtain ⟨_, _, _, _, _, _, _, _, _, _, _, hR, hQ, hK⟩ := hl
  cases s with
  | pawns i => simp [board, add_fixed_rooks, added_fixed_rooks]
  | king i =>
    have hKR : h.KING ≠ h.ROOK := by omega
    simp [board, add_fixed_rooks, added_fixed_rooks, Function.update_apply, hKR]
  | fr i => cases hs
  | piece i j =>
    simp only [board, add_fixed_rooks, added_fixed_rooks, Function.update_apply]
    by_cases hj : (j : Nat) = h.ROOK
    · simp only [hj, if_true]
      have hd : board h p (.piece i j) &&& board h p (.fr i) = 0 :=
        hinv.2.2.1 _ _ (by simp)
      have h1 := lt_of_and_eq_left _ _ (hinv.2.1 (.piece i j)) hinv.1
      have h2 := lt_of_and_eq_left _ _ (hinv.2.1 (.fr i)) hinv.1
      simp only [board, hj] at hd h1 h2
      exact add64_eq_or _ _ h1 h2 hd
    · simp only [hj, if_false]
      simp

/-- After the fixed rooks are added to the rook bitboards, the twelve bitboards are still
pairwise disjoint. -/
theorem add_fixed_rooks_disjoint (h : headers) (hl : layout_ok h) (p : position) (occ : Nat)
    (hinv : invariant h p occ) (s t : slot) (hst : s ≠ t) (hs : s.is_bitboard = true)
    (ht : t.is_bitboard = true) :
    board h { p with sides := add_fixed_rooks h p.sides } s
      &&& board h { p with sides := add_fixed_rooks h p.sides } t = 0 := by
  rw [board_add_fixed_rooks h hl p occ hinv s hs, board_add_fixed_rooks h hl p occ hinv t ht]
  have hdis := hinv.2.2.1
  have hA : ∀ (u v : slot), u.is_bitboard = true →
      board h p u &&& added_fixed_rooks h p v = 0 := by
    intro u v hu
    cases v with
    | piece i j =>
      simp only [added_fixed_rooks]
      split
      · have : u ≠ .fr i := by
          intro hc; subst hc; cases hu
        exact hdis u (.fr i) this
      · simp
    | pawns i => simp [added_fixed_rooks]
    | king i => simp [added_fixed_rooks]
    | fr i => simp [added_fixed_rooks]
  have hF : added_fixed_rooks h p s &&& added_fixed_rooks h p t = 0 := by
    cases s with
    | piece i j =>
      cases t with
      | piece i' j' =>
        simp only [added_fixed_rooks]
        by_cases hj : (j : Nat) = h.ROOK
        · by_cases hj' : (j' : Nat) = h.ROOK
          · simp only [hj, hj', if_true]
            have hjj : j = j' := Fin.ext (by omega)
            have hii : i ≠ i' := by
              intro hc
              subst hc
              subst hjj
              exact hst rfl
            exact hdis (.fr i) (.fr i') (by simp [hii])
          · simp [hj']
        · simp [hj]
      | pawns i' => simp [added_fixed_rooks]
      | king i' => simp [added_fixed_rooks]
      | fr i' => simp [added_fixed_rooks]
    | pawns i => simp [added_fixed_rooks]
    | king i => simp [added_fixed_rooks]
    | fr i => simp [added_fixed_rooks]
  rw [or_and_eq_zero, and_or_eq_zero, and_or_eq_zero]
  refine ⟨⟨hdis s t hst, hA s t hs⟩, ?_, hF⟩
  rw [Nat.and_comm]
  exact hA t s ht

/-- The closing stage leaves twelve pairwise disjoint bitboards when the looked-up entries of
the permutation table are permutations; its two additions have disjoint operands; and it
leaves the pawns alone. -/
theorem decode_closing_spec (h : headers) (hl : layout_ok h) (l : locals) (r : decode_result)
    (hp : decode_closing h l = .ok r) (hinv : invariant h l.p l.s.occupied_squares)
    (htr : trace_ok l.s.trace) (hperm : ∀ i, is_permutation (r.permutations i)) :
    (∀ s t, s ≠ t → s.is_bitboard = true → t.is_bitboard = true →
        board h r.p s &&& board h r.p t = 0) ∧
      trace_ok r.trace ∧ (∀ k, (r.p.sides k).pawns = (l.p.sides k).pawns) := by
  obtain ⟨_, _, _, _, _, _, _, _, _, _, _, hR, hQ, hK⟩ := id hl
  unfold decode_closing at hp
  cases hlk : lookup_permutations h l with
  | error e => rw [hlk] at hp; cases hp
  | ok permutations =>
    rw [hlk] at hp
    simp only at hp
    have hr := Except.ok.inj hp
    subst hr
    simp only at hperm ⊢
    have hinv2 := invariant_of_injective h l.p
      { l.p with sides := swap_sides h l.nfr (permute_sides permutations l.p.sides) }
      l.s.occupied_squares (relabel_source h l.nfr permutations)
      (relabel_source_inj h hR hQ l.nfr permutations hperm)
      (board_relabelled h hl l.p l.nfr permutations hperm) rfl hinv
    refine ⟨?_, ?_, ?_⟩
    · intro s t hst hs ht
      exact add_fixed_rooks_disjoint h hl _ _ hinv2 s t hst hs ht
    · have hR4 : h.ROOK < 4 := hR
      have h0 := hinv2.2.2.1 (.piece 0 ⟨h.ROOK, hR4⟩) (.fr 0) (by simp)
      have h1 := hinv2.2.2.1 (.piece 1 ⟨h.ROOK, hR4⟩) (.fr 1) (by simp)
      exact trace_ok_cons _ _ _ h1 (trace_ok_cons _ _ _ h0 htr)
    · intro k
      simp only [add_fixed_rooks, swap_sides, permute_sides]
      split <;> rfl

/-- C1: with the true binomial coefficients in the table and 0 ≤ k ≤ n ≤ 64, every rank
r < C(n,k) yields a pattern with exactly k set bits, all at positions below n; distinct ranks
yield distinct patterns; and every pattern below 2^n with k set bits is yielded by some rank
below C(n,k). -/
theorem place_chessmen_bijection (binomials : Nat → Nat → Nat) (k n : Nat)
    (hkn : k ≤ n) (hn : n ≤ 64)
    (hb : ∀ m j, m ≤ 64 → j ≤ 64 → binomials m j = Nat.choose m j) :
    (∀ r, r < Nat.choose n k →
      ∃ p, place_chessmen_relative_to_free_squares binomials k n r = .ok p ∧
        _mm_popcnt_u64 p = k ∧ p < 2 ^ n ∧ ∀ i, p.testBit i = true → i < n) ∧
    (∀ r₁ r₂, r₁ < Nat.choose n k → r₂ < Nat.choose n k →
      place_chessmen_relative_to_free_squares binomials k n r₁
        = place_chessmen_relative_to_free_squares binomials k n r₂ → r₁ = r₂) ∧
    (∀ p, p < 2 ^ n → _mm_popcnt_u64 p = k →
      ∃ r, r < Nat.choose n k ∧
        place_chessmen_relative_to_free_squares binomials k n r = .ok p) := by
  have hb' : ∀ m j, m ≤ n → j ≤ k → binomials m j = Nat.choose m j :=
    fun m j hm hj => hb m j (by omega) (by omega)
  have heq := place_eq_unrank binomials k n hn hb'
  refine ⟨?_, ?_, ?_⟩
  · intro r hr
    obtain ⟨p, hp, hlt, hpc⟩ := unrank_some_of_lt k n r hr
    refine ⟨p, by rw [heq, hp]; rfl, ?_, hlt, ?_⟩
    · unfold _mm_popcnt_u64
      rw [popcnt_bits_of_lt n 64 p hlt hn, hpc]
    · intro i hi
      by_contra hge
      have : p < 2 ^ i := lt_of_lt_of_le hlt (Nat.pow_le_pow_right (by norm_num) (by omega))
      rw [Nat.testBit_lt_two_pow this] at hi
      cases hi
  · intro r₁ r₂ h₁ h₂ he
    obtain ⟨p₁, hp₁, _, _⟩ := unrank_some_of_lt k n r₁ h₁
    obtain ⟨p₂, hp₂, _, _⟩ := unrank_some_of_lt k n r₂ h₂
    rw [heq, heq, hp₁, hp₂] at he
    have hpp : p₁ = p₂ := by
      simp only [placed_or_fatal] at he
      exact Except.ok.inj he
    exact unrank_inj k n r₁ r₂ h₁ h₂ (by rw [hp₁, hp₂, hpp])
  · intro p hp hpc
    unfold _mm_popcnt_u64 at hpc
    rw [popcnt_bits_of_lt n 64 p hp hn] at hpc
    obtain ⟨r, hr, he⟩ := unrank_surj k n p hp hpc
    exact ⟨r, hr, by rw [heq, he]; rfl⟩

/-- C1, witness: k = 2, n = 5 with the table of true binomial coefficients; the ten ranks
0..9 give ten distinct patterns. -/
theorem place_chessmen_bijection_witness :
    ((∀ r, r < Nat.choose 5 2 →
      ∃ p, place_chessmen_relative_to_free_squares Nat.choose 2 5 r = .ok p ∧
        _mm_popcnt_u64 p = 2 ∧ p < 2 ^ 5 ∧ ∀ i, p.testBit i = true → i < 5) ∧
    (∀ r₁ r₂, r₁ < Nat.choose 5 2 → r₂ < Nat.choose 5 2 →
      place_chessmen_relative_to_free_squares Nat.choose 2 5 r₁
        = place_chessmen_relative_to_free_squares Nat.choose 2 5 r₂ → r₁ = r₂) ∧
    (∀ p, p < 2 ^ 5 → _mm_popcnt_u64 p = 2 →
      ∃ r, r < Nat.choose 5 2 ∧
        place_chessmen_relative_to_free_squares Nat.choose 2 5 r = .ok p)) ∧
    (List.range 10).map (place_chessmen_relative_to_free_squares Nat.choose 2 5)
      = [.ok 3, .ok 5, .ok 9, .ok 17, .ok 6, .ok 10, .ok 18, .ok 12, .ok 20, .ok 24] ∧
    ((List.range 10).map (place_chessmen_relative_to_free_squares Nat.choose 2 5)).Nodup :=
  ⟨place_chessmen_bijection Nat.choose 2 5 (by decide) (by decide) (fun _ _ _ _ => rfl),
    by decide, by decide⟩

/-- C5: with the true binomial coefficients in the table, the call ends in the fatal
"Couldn't place chessmen" branch (its own or that of a recursive call) exactly when k ≥ 1 and
r ≥ C(n,k); in range it returns a pattern, and its loop makes its recursive call with a rank
that is again in range, whatever the callee; k = 0 returns the empty pattern for every r. -/
theorem place_chessmen_fatal_iff (binomials : Nat → Nat → Nat) (k n r : Nat)
    (hb : ∀ m j, m ≤ n → j ≤ k → binomials m j = Nat.choose m j) :
    (place_chessmen_relative_to_free_squares binomials k n r = .error .couldnt_place_chessmen
      ↔ (1 ≤ k ∧ Nat.choose n k ≤ r)) ∧
    (r < Nat.choose n k →
      ∃ p, place_chessmen_relative_to_free_squares binomials k n r = .ok p) ∧
    (1 ≤ k → r < Nat.choose n k → ∀ self : Nat → Nat → Except Fatal Nat,
      ∃ j r', j + k ≤ n ∧ r' < Nat.choose (n - 1 - j) (k - 1) ∧
        place_loop binomials self k n (n - (k - 1)) 0 r =
          (match self (n - 1 - j) r' with
           | .error e => .error e
           | .ok q => .ok ((2 ^ j + (q * 2 ^ (j + 1)) % 2 ^ 64) % 2 ^ 64))) ∧
    (∀ r', place_chessmen_relative_to_free_squares binomials 0 n r' = .ok 0) := by
  have hout := place_outcome binomials k n hb r
  refine ⟨⟨?_, fun h => hout.2 h.1 h.2⟩, hout.1, ?_, fun _ => rfl⟩
  · intro herr
    constructor
    · cases k with
      | zero => cases herr
      | succ k => omega
    · by_contra hlt
      obtain ⟨p, hp⟩ := hout.1 (by omega)
      rw [hp] at herr
      cases herr
  · intro hk hr self
    obtain ⟨k, rfl⟩ : ∃ j, k = j + 1 := ⟨k - 1, by omega⟩
    obtain ⟨j, r', _, hjn, hr', he⟩ :=
      place_loop_call binomials self k n (fun m hm => hb m k hm (by omega)) (n - k) 0 r
        (by omega) (by simpa using hr)
    exact ⟨j, r', by omega, by simpa using hr', by simpa using he⟩

/-- C5, witness: k = 2, n = 5, r = 10 = C(5,2), the first rank out of range. -/
theorem place_chessmen_fatal_iff_witness :
    (place_chessmen_relative_to_free_squares Nat.choose 2 5 10 = .error .couldnt_place_chessmen
      ↔ (1 ≤ 2 ∧ Nat.choose 5 2 ≤ 10)) ∧
    (10 < Nat.choose 5 2 →
      ∃ p, place_chessmen_relative_to_free_squares Nat.choose 2 5 10 = .ok p) ∧
    (1 ≤ 2 → 10 < Nat.choose 5 2 → ∀ self : Nat → Nat → Except Fatal Nat,
      ∃ j r', j + 2 ≤ 5 ∧ r' < Nat.choose (5 - 1 - j) (2 - 1) ∧
        place_loop Nat.choose self 2 5 (5 - (2 - 1)) 0 10 =
          (match self (5 - 1 - j) r' with
           | .error e => .error e
           | .ok q => .ok ((2 ^ j + (q * 2 ^ (j + 1)) % 2 ^ 64) % 2 ^ 64))) ∧
    (∀ r', place_chessmen_relative_to_free_squares Nat.choose 0 5 r' = .ok 0) :=
  place_chessmen_fatal_iff Nat.choose 2 5 10 (fun _ _ _ _ => rfl)

/-- C2: for an index below the sum of the children's sizes, the call returns the ordinal c of
the child whose interval [predecessor sum, predecessor sum + size) holds the index, no earlier
child's interval holds it, the index left is the original one minus the predecessor sum, the
cursor is child c, the residual index is below that child's size, and that size is not 0. -/
theorem point_root_selects_matching_child (root : position_node) (index : Nat)
    (h : index < sum_positions root.children) :
    ∃ c child, root.children[c]? = some child ∧
      point_root_to_matching_child root index
        = .ok (child, index - predecessor_sum root c, c) ∧
      predecessor_sum root c ≤ index ∧
      index < predecessor_sum root c + child.num_positions ∧
      (∀ c', c' < c → ¬ (predecessor_sum root c' ≤ index ∧
        index < predecessor_sum root (c' + 1))) ∧
      index - predecessor_sum root c < child.num_positions ∧
      child.num_positions ≠ 0 := by
  obtain ⟨c, child, hget, hpoint, hle, hlt⟩ := point_root_ok root index h
  refine ⟨c, child, hget, hpoint, hle, hlt, ?_, by omega, by omega⟩
  intro c' hc' hcon
  have := sum_positions_take_mono root.children (c' + 1) c (by omega)
  unfold predecessor_sum at hcon hle
  omega

/-- C2, witness: a node with children of sizes 2, 0, 3 and index 3: child 2 is selected (the
empty child 1 is skipped) and the index left is 1. -/
theorem point_root_selects_matching_child_witness :
    ∃ c child,
      (position_node.mk 5 [.mk 2 [], .mk 0 [], .mk 3 []]).children[c]? = some child ∧
      point_root_to_matching_child (.mk 5 [.mk 2 [], .mk 0 [], .mk 3 []]) 3
        = .ok (child, 3 - predecessor_sum (.mk 5 [.mk 2 [], .mk 0 [], .mk 3 []]) c, c) ∧
      predecessor_sum (.mk 5 [.mk 2 [], .mk 0 [], .mk 3 []]) c ≤ 3 ∧
      3 < predecessor_sum (.mk 5 [.mk 2 [], .mk 0 [], .mk 3 []]) c + child.num_positions ∧
      (∀ c', c' < c → ¬ (predecessor_sum (.mk 5 [.mk 2 [], .mk 0 [], .mk 3 []]) c' ≤ 3 ∧
        3 < predecessor_sum (.mk 5 [.mk 2 [], .mk 0 [], .mk 3 []]) (c' + 1))) ∧
      3 - predecessor_sum (.mk 5 [.mk 2 [], .mk 0 [], .mk 3 []]) c < child.num_positions ∧
      child.num_positions ≠ 0 :=
  point_root_selects_matching_child (.mk 5 [.mk 2 [], .mk 0 [], .mk 3 []]) 3 (by decide)

/-- C4: for a non-increasing vector of four counts, the divisor stored for its class is the
number of permutations of the four positions that leave the vector unchanged, which is the
product of the factorials of the multiplicities of its entries. -/
theorem fundamentalSet_divisor_is_stabilizer (v : Fin 4 → Int)
    (h : v 0 ≥ v 1 ∧ v 1 ≥ v 2 ∧ v 2 ≥ v 3) :
    FUNDAMENTAL_SET_DIVISORS[get_fundamentalSet_index v]? = some (stabilizer_size v : Int) ∧
      stabilizer_size v = multiplicity_factorials v := by
  have hiff := pattern_vector_iff v h
  have hc := pattern_vector_class (decide (v 1 = v 0)) (decide (v 2 = v 1)) (decide (v 3 = v 2))
  rw [fundamentalSet_index_congr v, stabilizer_size_congr v _ hiff,
    multiplicity_factorials_congr v _ hiff]
  exact hc

/-- C4, witness: (3,3,3,3) is class 3 with divisor 24, (3,3,2,1) is class 1 with divisor 2,
(3,2,2,2) is class 6 with divisor 6. -/
theorem fundamentalSet_divisor_is_stabilizer_witness :
    (FUNDAMENTAL_SET_DIVISORS[get_fundamentalSet_index ![3, 3, 2, 1]]?
        = some (stabilizer_size ![3, 3, 2, 1] : Int) ∧
      stabilizer_size ![3, 3, 2, 1] = multiplicity_factorials ![3, 3, 2, 1]) ∧
    (get_fundamentalSet_index ![3, 3, 3, 3] = 3 ∧ FUNDAMENTAL_SET_DIVISORS[3]? = some 24 ∧
      stabilizer_size ![3, 3, 3, 3] = 24) ∧
    (get_fundamentalSet_index ![3, 3, 2, 1] = 1 ∧ FUNDAMENTAL_SET_DIVISORS[1]? = some 2 ∧
      stabilizer_size ![3, 3, 2, 1] = 2) ∧
    (get_fundamentalSet_index ![3, 2, 2, 2] = 6 ∧ FUNDAMENTAL_SET_DIVISORS[6]? = some 6 ∧
      stabilizer_size ![3, 2, 2, 2] = 6) :=
  ⟨fundamentalSet_divisor_is_stabilizer ![3, 3, 2, 1] (by decide),
    by decide, by decide, by decide⟩

/-- C6: the call returns a child, at an ordinal strictly below num_children, exactly when the
index is below the sum of the children's sizes; otherwise the scan runs past the last child
and the call ends in that failure. -/
theorem point_root_in_bounds_iff (root : position_node) (index : Nat) :
    ((∃ child index' c, point_root_to_matching_child root index = .ok (child, index', c) ∧
        c < root.num_children) ↔ index < sum_positions root.children) ∧
    (∀ child index' c, point_root_to_matching_child root index = .ok (child, index', c) →
        c < root.num_children ∧ root.children[c]? = some child) ∧
    (sum_positions root.children ≤ index →
        point_root_to_matching_child root index = .error .scan_past_last_child) := by
  refine ⟨⟨?_, ?_⟩, ?_, point_root_fatal root index⟩
  · rintro ⟨child, index', c, hp, _⟩
    by_contra hge
    rw [point_root_fatal root index (by omega)] at hp
    cases hp
  · intro hlt
    obtain ⟨c, child, hget, hpoint, _, _⟩ := point_root_ok root index hlt
    exact ⟨child, _, c, hpoint, getElem?_lt_length _ _ _ hget⟩
  · intro child index' c hp
    by_cases hlt : index < sum_positions root.children
    · obtain ⟨c₀, child₀, hget, hpoint, _, _⟩ := point_root_ok root index hlt
      rw [hpoint] at hp
      have hinj := Except.ok.inj hp
      simp only [Prod.mk.injEq] at hinj
      obtain ⟨rfl, _, rfl⟩ := hinj
      exact ⟨getElem?_lt_length _ _ _ hget, hget⟩
    · rw [point_root_fatal root index (by omega)] at hp
      cases hp

/-- C8: in a tree with the sum-of-children property (leaves of size 1), from any index below
the root's size, repeated navigation (given at least as many steps as the tree is high) ends
at a leaf, every pair (cursor, index) on the way has index < cursor.num_positions, and the
index at the leaf is 0. -/
theorem navigate_consumes_index (root : position_node) (index steps : Nat)
    (hs : root.sums_ok = true) (hi : index < root.num_positions) (hh : root.height ≤ steps) :
    ∃ visited leaf, navigate steps root index = .ok visited ∧
      (∀ x, x ∈ visited → x.2 < x.1.num_positions) ∧
      visited.getLast? = some (leaf, 0) ∧ leaf.children = [] :=
  navigate_ok steps root index hs hi hh

/-- C8, witness: a two-level tree of size 3, index 2, two steps. -/
theorem navigate_consumes_index_witness :
    ∃ visited leaf,
      navigate 2 (.mk 3 [.mk 1 [], .mk 2 [.mk 1 [], .mk 1 []]]) 2 = .ok visited ∧
      (∀ x, x ∈ visited → x.2 < x.1.num_positions) ∧
      visited.getLast? = some (leaf, 0) ∧ leaf.children = [] :=
  navigate_consumes_index (.mk 3 [.mk 1 [], .mk 2 [.mk 1 [], .mk 1 []]]) 2 2
    (by decide) (by decide) (by decide)

/-- C3 fails as stated: with the two-entry boundary arrays {1, 2147483647} on both sides (class
0, divisor 1, slack bounds 1), the visited cells sum to 4294967293, and the rank 2147483649,
which is below that total, is resolved to the pair (-2147483647, 0), which lies in no
rectangle: the signed 32-bit difference `d` is negative already in the first cell. -/
theorem permutation_index_image_counterexample :
    boundaries_ok 2 wide_boundaries ∧
    ((2147483649 : Nat) : Int) < total 2 ![1, 1] 1 wide_boundaries ![0, 0] ∧
    get_permutation_index 2 ![1, 1] 1 wide_boundaries ![0, 0] 2147483649
      = .ok ⟨(-2147483647, 0)⟩ ∧
    ¬ ∃ i j, visited 2 ![1, 1] 1 i j ∧
      in_rectangle wide_boundaries ![0, 0] i j (-2147483647, 0) := by
  refine ⟨by decide, by decide, by decide, ?_⟩
  rintro ⟨i, j, ⟨hi, hj⟩, hrect⟩
  have hi2 : i < 2 := hi
  interval_cases i
  · have hj2 : j < 2 := hj
    interval_cases j <;> revert hrect <;> decide
  · have hj2 : j < 1 := hj
    interval_cases j
    revert hrect
    decide

/-- C3, amended: for classes in 0..7 and boundary arrays of non-negative, non-decreasing `int`
values whose visited cells sum to a total below 2^31, every rank below the total is resolved
to a pair of the rectangle of a visited cost pair, two different ranks below the total never
give the same pair, and every pair of the rectangle of a visited cost pair is given by a rank
below the total. -/
theorem permutation_index_bijection (MAX_UNIQUE_COSTS : Nat) (pawn_slack : Fin 2 → Int)
    (chessmen_slack : Int) (cost_boundaries : Fin 2 → Nat → Int)
    (fundamentalSet_indices : Fin 2 → Nat)
    (hfs : ∀ s, fundamentalSet_indices s < 8)
    (hok : boundaries_ok MAX_UNIQUE_COSTS cost_boundaries)
    (htot : total MAX_UNIQUE_COSTS pawn_slack chessmen_slack cost_boundaries
      fundamentalSet_indices < 2 ^ 31) :
    (∀ rank : Nat, (rank : Int) < total MAX_UNIQUE_COSTS pawn_slack chessmen_slack
        cost_boundaries fundamentalSet_indices →
      ∃ i j ab, visited MAX_UNIQUE_COSTS pawn_slack chessmen_slack i j ∧
        get_permutation_index MAX_UNIQUE_COSTS pawn_slack chessmen_slack cost_boundaries
          fundamentalSet_indices rank = .ok ⟨ab⟩ ∧
        in_rectangle cost_boundaries fundamentalSet_indices i j ab) ∧
    (∀ rank₁ rank₂ : Nat,
      (rank₁ : Int) < total MAX_UNIQUE_COSTS pawn_slack chessmen_slack cost_boundaries
        fundamentalSet_indices →
      (rank₂ : Int) < total MAX_UNIQUE_COSTS pawn_slack chessmen_slack cost_boundaries
        fundamentalSet_indices →
      get_permutation_index MAX_UNIQUE_COSTS pawn_slack chessmen_slack cost_boundaries
          fundamentalSet_indices rank₁
        = get_permutation_index MAX_UNIQUE_COSTS pawn_slack chessmen_slack cost_boundaries
          fundamentalSet_indices rank₂ → rank₁ = rank₂) ∧
    (∀ i j ab, visited MAX_UNIQUE_COSTS pawn_slack chessmen_slack i j →
      in_rectangle cost_boundaries fundamentalSet_indices i j ab →
      ∃ rank : Nat, (rank : Int) < total MAX_UNIQUE_COSTS pawn_slack chessmen_slack
          cost_boundaries fundamentalSet_indices ∧
        get_permutation_index MAX_UNIQUE_COSTS pawn_slack chessmen_slack cost_boundaries
          fundamentalSet_indices rank = .ok ⟨ab⟩) := by
  have hres : ∀ rank : Nat, (rank : Int) < total MAX_UNIQUE_COSTS pawn_slack chessmen_slack
      cost_boundaries fundamentalSet_indices →
      ∃ (i j : Nat) (r : Int), visited MAX_UNIQUE_COSTS pawn_slack chessmen_slack i j ∧
        0 ≤ r ∧ r < cell_size cost_boundaries fundamentalSet_indices i j ∧
        (rank : Int) = rows_total MAX_UNIQUE_COSTS pawn_slack chessmen_slack cost_boundaries
            fundamentalSet_indices i
          + row_total cost_boundaries fundamentalSet_indices i j + r ∧
        get_permutation_index MAX_UNIQUE_COSTS pawn_slack chessmen_slack cost_boundaries
          fundamentalSet_indices rank
          = .ok ⟨cell_pair cost_boundaries fundamentalSet_indices i j r⟩ ∧
        in_rectangle cost_boundaries fundamentalSet_indices i j
          (cell_pair cost_boundaries fundamentalSet_indices i j r) := by
    intro rank hlt
    obtain ⟨i, j, r, hv, hr0, hr, hrank⟩ := exists_cell MAX_UNIQUE_COSTS pawn_slack
      chessmen_slack cost_boundaries fundamentalSet_indices rank hlt
    have hvl := visited_lt MAX_UNIQUE_COSTS pawn_slack chessmen_slack i j hv
    refine ⟨i, j, r, hv, hr0, hr, hrank, ?_, ?_⟩
    · exact (get_permutation_index_of_cell MAX_UNIQUE_COSTS pawn_slack chessmen_slack
        cost_boundaries fundamentalSet_indices hfs hok htot i j r rank hv hr0 hr hrank).2
    · exact cell_pair_in_rectangle cost_boundaries fundamentalSet_indices i j r
        (perm_count_range MAX_UNIQUE_COSTS cost_boundaries fundamentalSet_indices hfs hok 1 j
          hvl.2).1 hr0 hr
  refine ⟨?_, ?_, ?_⟩
  · intro rank hlt
    obtain ⟨i, j, r, hv, _, _, _, he, hin⟩ := hres rank hlt
    exact ⟨i, j, _, hv, he, hin⟩
  · intro rank₁ rank₂ h₁ h₂ he
    obtain ⟨i₁, j₁, r₁, hv₁, _, _, hrank₁, he₁, hin₁⟩ := hres rank₁ h₁
    obtain ⟨i₂, j₂, r₂, hv₂, _, _, hrank₂, he₂, hin₂⟩ := hres rank₂ h₂
    rw [he₁, he₂] at he
    have hpair : cell_pair cost_boundaries fundamentalSet_indices i₁ j₁ r₁
        = cell_pair cost_boundaries fundamentalSet_indices i₂ j₂ r₂ := by
      have := Except.ok.inj he
      exact congrArg permutation_indices.indices this
    rw [hpair] at hin₁
    have hl₁ := visited_lt MAX_UNIQUE_COSTS pawn_slack chessmen_slack i₁ j₁ hv₁
    have hl₂ := visited_lt MAX_UNIQUE_COSTS pawn_slack chessmen_slack i₂ j₂ hv₂
    have hi : i₁ = i₂ := interval_disjoint MAX_UNIQUE_COSTS cost_boundaries
      fundamentalSet_indices hfs hok 0 i₁ i₂ hl₁.1 hl₂.1 _ ⟨hin₁.1, hin₁.2.1⟩
      ⟨hin₂.1, hin₂.2.1⟩
    have hj : j₁ = j₂ := interval_disjoint MAX_UNIQUE_COSTS cost_boundaries
      fundamentalSet_indices hfs hok 1 j₁ j₂ hl₁.2 hl₂.2 _ ⟨hin₁.2.2.1, hin₁.2.2.2⟩
      ⟨hin₂.2.2.1, hin₂.2.2.2⟩
    subst hi
    subst hj
    have hr := cell_pair_inj cost_boundaries fundamentalSet_indices i₁ j₁ r₁ r₂ hpair
    omega
  · intro i j ab hv hin
    obtain ⟨r, hr0, hr, hab⟩ := cell_pair_surj cost_boundaries fundamentalSet_indices i j ab hin
    have hvl := visited_lt MAX_UNIQUE_COSTS pawn_slack chessmen_slack i j hv
    have hoc := outer_count_le MAX_UNIQUE_COSTS pawn_slack chessmen_slack
    have hic := inner_count_le MAX_UNIQUE_COSTS pawn_slack chessmen_slack i
    have h1 := rows_total_mono MAX_UNIQUE_COSTS pawn_slack chessmen_slack cost_boundaries
      fundamentalSet_indices hfs hok 0 i (Nat.zero_le _) (by omega)
    have h2 := row_total_mono MAX_UNIQUE_COSTS cost_boundaries fundamentalSet_indices hfs hok
      i hvl.1 0 j (Nat.zero_le _) (by omega)
    rw [rows_total_zero] at h1
    rw [row_total_zero] at h2
    have hnn : 0 ≤ rows_total MAX_UNIQUE_COSTS pawn_slack chessmen_slack cost_boundaries
        fundamentalSet_indices i
      + row_total cost_boundaries fundamentalSet_indices i j + r := by omega
    obtain ⟨hlt, he⟩ := get_permutation_index_of_cell MAX_UNIQUE_COSTS pawn_slack
      chessmen_slack cost_boundaries fundamentalSet_indices hfs hok htot i j r
      (rows_total MAX_UNIQUE_COSTS pawn_slack chessmen_slack cost_boundaries
          fundamentalSet_indices i
        + row_total cost_boundaries fundamentalSet_indices i j + r).toNat hv hr0 hr
      (by omega)
    exact ⟨_, hlt, by rw [he, hab]⟩

/-- C3 amended, witness: boundary arrays {2, 6, 10} (class 1, divisor 2) and {3, 9, 12}
(class 0, divisor 1), slack bounds 1: the total is 15. -/
theorem permutation_index_bijection_witness :
    (∀ rank : Nat, (rank : Int) < total 3 ![1, 1] 1
        (fun s t => if s = 0 then [2, 6, 10].getD t 0 else [3, 9, 12].getD t 0) ![1, 0] →
      ∃ i j ab, visited 3 ![1, 1] 1 i j ∧
        get_permutation_index 3 ![1, 1] 1
          (fun s t => if s = 0 then [2, 6, 10].getD t 0 else [3, 9, 12].getD t 0) ![1, 0] rank
          = .ok ⟨ab⟩ ∧
        in_rectangle (fun s t => if s = 0 then [2, 6, 10].getD t 0 else [3, 9, 12].getD t 0)
          ![1, 0] i j ab) ∧
    (∀ rank₁ rank₂ : Nat,
      (rank₁ : Int) < total 3 ![1, 1] 1
        (fun s t => if s = 0 then [2, 6, 10].getD t 0 else [3, 9, 12].getD t 0) ![1, 0] →
      (rank₂ : Int) < total 3 ![1, 1] 1
        (fun s t => if s = 0 then [2, 6, 10].getD t 0 else [3, 9, 12].getD t 0) ![1, 0] →
      get_permutation_index 3 ![1, 1] 1
          (fun s t => if s = 0 then [2, 6, 10].getD t 0 else [3, 9, 12].getD t 0) ![1, 0] rank₁
        = get_permutation_index 3 ![1, 1] 1
          (fun s t => if s = 0 then [2, 6, 10].getD t 0 else [3, 9, 12].getD t 0) ![1, 0] rank₂
        → rank₁ = rank₂) ∧
    (∀ i j ab, visited 3 ![1, 1] 1 i j →
      in_rectangle (fun s t => if s = 0 then [2, 6, 10].getD t 0 else [3, 9, 12].getD t 0)
        ![1, 0] i j ab →
      ∃ rank : Nat, (rank : Int) < total 3 ![1, 1] 1
          (fun s t => if s = 0 then [2, 6, 10].getD t 0 else [3, 9, 12].getD t 0) ![1, 0] ∧
        get_permutation_index 3 ![1, 1] 1
          (fun s t => if s = 0 then [2, 6, 10].getD t 0 else [3, 9, 12].getD t 0) ![1, 0] rank
          = .ok ⟨ab⟩) :=
  permutation_index_bijection 3 ![1, 1] 1
    (fun s t => if s = 0 then [2, 6, 10].getD t 0 else [3, 9, 12].getD t 0) ![1, 0]
    (by decide) (by decide) (by decide)

/-- C7 fails as stated: with boundary arrays whose entries are all 1 the total is 1, and the
rank 2147483649, which is not below the total, does not end in the fatal failure: it is
resolved to the pair (-2147483647, 0). -/
theorem permutation_index_fatal_counterexample :
    boundaries_ok 1 unit_boundaries ∧
    total 1 ![0, 0] 0 unit_boundaries ![0, 0] = 1 ∧
    get_permutation_index 1 ![0, 0] 0 unit_boundaries ![0, 0] 2147483649
      = .ok ⟨(-2147483647, 0)⟩ := by
  refine ⟨by decide, by decide, by decide⟩

/-- C7, amended: for classes in 0..7 and boundary arrays of non-negative, non-decreasing `int`
values whose visited cells sum to a total below 2^31, every rank with total ≤ rank < 2^31
ends in the fatal "Couldn't get permutation index" failure, and every rank below the total
returns a pair. -/
theorem permutation_index_fatal_iff (MAX_UNIQUE_COSTS : Nat) (pawn_slack : Fin 2 → Int)
    (chessmen_slack : Int) (cost_boundaries : Fin 2 → Nat → Int)
    (fundamentalSet_indices : Fin 2 → Nat)
    (hfs : ∀ s, fundamentalSet_indices s < 8)
    (hok : boundaries_ok MAX_UNIQUE_COSTS cost_boundaries)
    (htot : total MAX_UNIQUE_COSTS pawn_slack chessmen_slack cost_boundaries
      fundamentalSet_indices < 2 ^ 31) :
    (∀ rank : Nat, total MAX_UNIQUE_COSTS pawn_slack chessmen_slack cost_boundaries
        fundamentalSet_indices ≤ rank → rank < 2 ^ 31 →
      get_permutation_index MAX_UNIQUE_COSTS pawn_slack chessmen_slack cost_boundaries
        fundamentalSet_indices rank = .error .couldnt_get_permutation_index) ∧
    (∀ rank : Nat, (rank : Int) < total MAX_UNIQUE_COSTS pawn_slack chessmen_slack
        cost_boundaries fundamentalSet_indices →
      ∃ pi, get_permutation_index MAX_UNIQUE_COSTS pawn_slack chessmen_slack cost_boundaries
        fundamentalSet_indices rank = .ok pi) := by
  refine ⟨?_, ?_⟩
  · intro rank hge hlt
    have hsp := outer_spec MAX_UNIQUE_COSTS pawn_slack chessmen_slack cost_boundaries
      fundamentalSet_indices hfs hok (outer_count MAX_UNIQUE_COSTS pawn_slack chessmen_slack)
      0 rank (by omega)
      (fun i' j' _ h2 h3 => lt_of_le_of_lt
        (cell_size_le_total MAX_UNIQUE_COSTS pawn_slack chessmen_slack cost_boundaries
          fundamentalSet_indices hfs hok i' j' ⟨by omega, h3⟩) htot)
      hlt
    unfold get_permutation_index
    apply hsp.1
    rw [Nat.zero_add, rows_total_zero, sub_zero]
    exact hge
  · intro rank hlt
    obtain ⟨i, j, r, hv, hr0, hr, hrank⟩ := exists_cell MAX_UNIQUE_COSTS pawn_slack
      chessmen_slack cost_boundaries fundamentalSet_indices rank hlt
    exact ⟨_, (get_permutation_index_of_cell MAX_UNIQUE_COSTS pawn_slack chessmen_slack
      cost_boundaries fundamentalSet_indices hfs hok htot i j r rank hv hr0 hr hrank).2⟩

/-- C7 amended, witness: boundary arrays whose entries are all 1, total 1: rank 0 returns a
pair and the ranks 1 .. 2^31 - 1 are fatal. -/
theorem permutation_index_fatal_iff_witness :
    (∀ rank : Nat, total 1 ![0, 0] 0 unit_boundaries ![0, 0] ≤ rank → rank < 2 ^ 31 →
      get_permutation_index 1 ![0, 0] 0 unit_boundaries ![0, 0] rank
        = .error .couldnt_get_permutation_index) ∧
    (∀ rank : Nat, (rank : Int) < total 1 ![0, 0] 0 unit_boundaries ![0, 0] →
      ∃ pi, get_permutation_index 1 ![0, 0] 0 unit_boundaries ![0, 0] rank = .ok pi) :=
  permutation_index_fatal_iff 1 ![0, 0] 0 unit_boundaries ![0, 0]
    (by decide) (by decide) (by decide)

/-- What holds after the four placement stages of a decode. -/
theorem decode_stages_spec (h : headers) (hl : layout_ok h) (root : position_node)
    (index : Nat) (r : decode_result) (hp : decode h root index = .ok r) :
    ∃ l, decode_closing h l = .ok r ∧ invariant h l.p l.s.occupied_squares ∧
      trace_ok l.s.trace ∧ (∀ k, (l.p.sides k).pawns &&& EDGE_ROWS_MASK = 0) := by
  unfold decode at hp
  obtain ⟨l1, h1, hp⟩ := except_bind_ok _ _ _ hp
  obtain ⟨l2, h2, hp⟩ := except_bind_ok _ _ _ hp
  obtain ⟨l3, h3, hp⟩ := except_bind_ok _ _ _ hp
  obtain ⟨l4, h4, hp⟩ := except_bind_ok _ _ _ hp
  obtain ⟨a1, a2, a3⟩ := decode_pawns_spec h root index l1 h1 hl
  obtain ⟨b1, b2, b3⟩ := decode_fixed_rooks_spec h l1 l2 h2 hl a1 a2 a3
  obtain ⟨c1, c2, c3⟩ := decode_pieces_spec h hl l2 l3 h3 b1 b2
  obtain ⟨d1, d2, d3⟩ := decode_kings_spec h hl l3 l4 h4 c1 c2
  refine ⟨l4, hp, d1, d2, ?_⟩
  intro k
  rw [d3 k, c3 k, b3 k]
  exact disjoint_of_subset _ _ _ (a1.2.1 (.pawns k)) a2

/-- The closing stage leaves the pawns alone. -/
theorem decode_closing_pawns (h : headers) (l : locals) (r : decode_result)
    (hp : decode_closing h l = .ok r) (k : Fin 2) :
    (r.p.sides k).pawns = (l.p.sides k).pawns := by
  unfold decode_closing at hp
  cases hlk : lookup_permutations h l with
  | error e => rw [hlk] at hp; cases hp
  | ok permutations =>
    rw [hlk] at hp
    simp only at hp
    have hr := Except.ok.inj hp
    subst hr
    simp only [add_fixed_rooks, swap_sides, permute_sides]
    split <;> rfl

theorem retrieve_of_decode (h : headers) (root : position_node) (index : Nat)
    (r : decode_result) (hp : decode h root index = .ok r) :
    retrieve_position_from_rng h root index = .ok r.p := by
  unfold retrieve_position_from_rng
  rw [hp]

/-- C9: for every decode that returns (in-range index, navigated counts that fit the free
squares) and whose two looked-up table entries are permutations of {0,1,2,3}, under the
board-layout values of the header constants: every addition made to a bitboard or to
`occupied_squares` has disjoint operands, so that the sum is the bitwise OR, and the twelve
bitboards of the returned position are pairwise disjoint. -/
theorem decode_squares_disjoint (h : headers) (root : position_node) (index : Nat)
    (r : decode_result) (hl : layout_ok h) (hp : decode h root index = .ok r)
    (hperm : ∀ i, is_permutation (r.permutations i)) :
    retrieve_position_from_rng h root index = .ok r.p ∧
    (∀ x, x ∈ r.trace → x.1 &&& x.2 = 0 ∧ x.1 + x.2 = x.1 ||| x.2) ∧
    (∀ s t, s ≠ t → s.is_bitboard = true → t.is_bitboard = true →
      board h r.p s &&& board h r.p t = 0) := by
  obtain ⟨l, hc, hinv, htr, _⟩ := decode_stages_spec h hl root index r hp
  obtain ⟨k1, k2, _⟩ := decode_closing_spec h hl l r hc hinv htr hperm
  exact ⟨retrieve_of_decode h root index r hp,
    fun x hx => ⟨k2 x hx, add_eq_or_of_disjoint _ _ (k2 x hx)⟩, k1⟩

set_option maxRecDepth 100000 in
/-- C9, witness: the decode of index 12345 on the one-path tree with the example headers. -/
theorem decode_squares_disjoint_witness :
    returns (decode example_headers example_tree 12345) = true ∧
    retrieve_position_from_rng example_headers example_tree 12345
      = .ok (value_or decode_result.zero (decode example_headers example_tree 12345)).p ∧
    (∀ x, x ∈ (value_or decode_result.zero (decode example_headers example_tree 12345)).trace →
      x.1 &&& x.2 = 0 ∧ x.1 + x.2 = x.1 ||| x.2) ∧
    (∀ s t, s ≠ t → s.is_bitboard = true → t.is_bitboard = true →
      board example_headers
          (value_or decode_result.zero (decode example_headers example_tree 12345)).p s
        &&& board example_headers
          (value_or decode_result.zero (decode example_headers example_tree 12345)).p t = 0) :=
  ⟨by decide,
    decode_squares_disjoint example_headers example_tree 12345
      (value_or decode_result.zero (decode example_headers example_tree 12345))
      (by decide) rfl (by decide)⟩

/-- C10: for every decode that returns, under the board-layout values of the header
constants, neither side's pawn bitboard in the returned position has a square on the first or
the last row. -/
theorem pawns_off_edge_rows (h : headers) (root : position_node) (index : Nat)
    (r : decode_result) (hl : layout_ok h) (hp : decode h root index = .ok r) :
    retrieve_position_from_rng h root index = .ok r.p ∧
    ∀ i, (r.p.sides i).pawns &&& EDGE_ROWS_MASK = 0 := by
  obtain ⟨l, hc, hinv, htr, hpw⟩ := decode_stages_spec h hl root index r hp
  refine ⟨retrieve_of_decode h root index r hp, ?_⟩
  intro i
  rw [decode_closing_pawns h l r hc i]
  exact hpw i

set_option maxRecDepth 100000 in
/-- C10, witness: the decode of index 12345 on the one-path tree with the example headers;
its en-passant pawn pair is on row 3 and one more pawn of side 1 is placed. -/
theorem pawns_off_edge_rows_witness :
    returns (decode example_headers example_tree 12345) = true ∧
    retrieve_position_from_rng example_headers example_tree 12345
      = .ok (value_or decode_result.zero (decode example_headers example_tree 12345)).p ∧
    ∀ i, ((value_or decode_result.zero
      (decode example_headers example_tree 12345)).p.sides i).pawns &&& EDGE_ROWS_MASK = 0 :=
  ⟨by decide,
    pawns_off_edge_rows example_headers example_tree 12345
      (value_or decode_result.zero (decode example_headers example_tree 12345))
      (by decide) rfl⟩

/-- C11, the code at the class EdgeAndRight: with r = index mod
ENPASSANT_EDGE_AND_RIGHT_VARIATIONS, the en-passant pawn is placed at column r of the
en-passant row when r is the maximum variation, and at the board-edge column 7 of that row
when r is not the maximum: the two cases are the other way round from the claim. -/
theorem enpassant_edge_and_right_placement (h : headers) (s : decode_state) (p : position)
    (root : position_node) (index : Nat)
    (hnav : point_root_to_matching_child s.root s.index
      = .ok (root, index, h.ENPASSANT_EDGE_AND_RIGHT))
    (hv : 0 < h.ENPASSANT_EDGE_AND_RIGHT_VARIATIONS) :
    ∃ s' p' tmp, pass_enpassant h s p = .ok (s', p', tmp) ∧
      s'.index = index / h.ENPASSANT_EDGE_AND_RIGHT_VARIATIONS ∧
      p'.enpassant =
        (if index % h.ENPASSANT_EDGE_AND_RIGHT_VARIATIONS
            = h.ENPASSANT_EDGE_AND_RIGHT_VARIATIONS - 1 then
          rcb h.ENPASSANT_ROW_0INDEX (index % h.ENPASSANT_EDGE_AND_RIGHT_VARIATIONS)
        else rcb h.ENPASSANT_ROW_0INDEX (BOARD_SIDE_LENGTH - 1)) := by
  have hdv : fdiv_qr_ui index h.ENPASSANT_EDGE_AND_RIGHT_VARIATIONS
      = .ok (index / h.ENPASSANT_EDGE_AND_RIGHT_VARIATIONS,
        index % h.ENPASSANT_EDGE_AND_RIGHT_VARIATIONS) := by
    unfold fdiv_qr_ui
    rw [if_neg (by omega)]
  have hedge : (h.ENPASSANT_ROW_0INDEX + 1) * BOARD_SIDE_LENGTH - 1
      = h.ENPASSANT_ROW_0INDEX * BOARD_SIDE_LENGTH + (BOARD_SIDE_LENGTH - 1) := by
    unfold BOARD_SIDE_LENGTH
    omega
  unfold pass_enpassant
  rw [hnav]
  simp only [if_true, hdv]
  by_cases hrem : index % h.ENPASSANT_EDGE_AND_RIGHT_VARIATIONS
      = h.ENPASSANT_EDGE_AND_RIGHT_VARIATIONS - 1
  · have hrem' : ¬ index % h.ENPASSANT_EDGE_AND_RIGHT_VARIATIONS
        ≠ h.ENPASSANT_EDGE_AND_RIGHT_VARIATIONS - 1 := fun hc => hc hrem
    rw [if_neg hrem', if_pos hrem]
    by_cases hne : h.ENPASSANT_EDGE_AND_RIGHT ≠ h.NO_ENPASSANT
    · simp only [if_pos hne]
      exact ⟨_, _, _, rfl, rfl, rfl⟩
    · simp only [if_neg hne]
      exact ⟨_, _, _, rfl, rfl, rfl⟩
  · have hrem' : index % h.ENPASSANT_EDGE_AND_RIGHT_VARIATIONS
        ≠ h.ENPASSANT_EDGE_AND_RIGHT_VARIATIONS - 1 := hrem
    rw [if_pos hrem', if_neg hrem]
    by_cases hne : h.ENPASSANT_EDGE_AND_RIGHT ≠ h.NO_ENPASSANT
    · simp only [if_pos hne]
      refine ⟨_, _, _, rfl, rfl, ?_⟩
      show shl64 1 _ = rcb _ _
      rw [hedge]
      rfl
    · simp only [if_neg hne]
      refine ⟨_, _, _, rfl, rfl, ?_⟩
      show shl64 1 _ = rcb _ _
      rw [hedge]
      rfl

/-- C11, the failing input: class EdgeAndRight with 8 variations on row 3, index 10 after the
navigation. The remainder 2 is not the maximum variation 7, and the pawn is placed at column
7, the board edge, not at column 2. -/
theorem enpassant_edge_and_right_placement_witness :
    10 % example_headers.ENPASSANT_EDGE_AND_RIGHT_VARIATIONS = 2 ∧
    example_headers.ENPASSANT_EDGE_AND_RIGHT_VARIATIONS - 1 = 7 ∧
    rcb example_headers.ENPASSANT_ROW_0INDEX (BOARD_SIDE_LENGTH - 1)
      ≠ rcb example_headers.ENPASSANT_ROW_0INDEX 2 ∧
    ∃ s' p' tmp,
      pass_enpassant example_headers ⟨via 1 (.mk 1000 []), 10, 0, []⟩ position.zero
        = .ok (s', p', tmp) ∧
      s'.index = 10 / example_headers.ENPASSANT_EDGE_AND_RIGHT_VARIATIONS ∧
      p'.enpassant =
        (if 10 % example_headers.ENPASSANT_EDGE_AND_RIGHT_VARIATIONS
            = example_headers.ENPASSANT_EDGE_AND_RIGHT_VARIATIONS - 1 then
          rcb example_headers.ENPASSANT_ROW_0INDEX
            (10 % example_headers.ENPASSANT_EDGE_AND_RIGHT_VARIATIONS)
        else rcb example_headers.ENPASSANT_ROW_0INDEX (BOARD_SIDE_LENGTH - 1)) :=
  ⟨by decide, by decide, by decide,
    enpassant_edge_and_right_placement example_headers ⟨via 1 (.mk 1000 []), 10, 0, []⟩
      position.zero (.mk 1000 []) 10 rfl (by decide)⟩

/-! ## The record of the occupancy -/

/-- Dropping the record gives the stage itself. -/
theorem decode_pawns_logged_fst (h : headers) (root : position_node) (index : Nat) :
    Except.map Prod.fst (decode_pawns_logged h root index) = decode_pawns h root index := by
  unfold decode_pawns_logged decode_pawns
  cases fdiv_qr_ui index 2 with
  | error e => rfl
  | ok qr =>
    obtain ⟨q, r⟩ := qr
    simp only [bind, Except.bind]
    cases pass_enpassant h ⟨root, q, 0, []⟩
        (if r ≠ 0 then { position.zero with side0isBlack := true } else position.zero) with
    | error e => rfl
    | ok v =>
      obtain ⟨s1, p1, tmp⟩ := v
      simp only
      cases pass_generic h ⟨s1.root, s1.index, add64 s1.occupied_squares EDGE_ROWS_MASK,
          (s1.occupied_squares, EDGE_ROWS_MASK) :: s1.trace⟩ (p1.sides 1).pawns with
      | error e => rfl
      | ok v =>
        obtain ⟨s2, bb1, n1⟩ := v
        simp only
        cases pass_generic h ⟨s2.root, s2.index, sub64 s2.occupied_squares tmp, s2.trace⟩
            ((p1.set_pawns 1 bb1).sides 0).pawns with
        | error e => rfl
        | ok v =>
          obtain ⟨s3, bb2, n2⟩ := v
          simp only
          cases tie_break (((p1.set_pawns 1 bb1).set_pawns 0 bb2).enpassant = 0 ∧
              decide (_mm_popcnt_u64 (((p1.set_pawns 1 bb1).set_pawns 0 bb2).sides 0).pawns
                = _mm_popcnt_u64 (((p1.set_pawns 1 bb1).set_pawns 0 bb2).sides 1).pawns)
                = false) s3.index ((p1.set_pawns 1 bb1).set_pawns 0 bb2) with
          | error e => rfl
          | ok v => rfl

theorem decode_fixed_rooks_logged_fst (h : headers) (l : locals) :
    Except.map Prod.fst (decode_fixed_rooks_logged h l) = decode_fixed_rooks h l := by
  unfold decode_fixed_rooks_logged decode_fixed_rooks
  cases pass_fixed_rooks_and_kings h l.s l.p 0 with
  | error e => rfl
  | ok v =>
    obtain ⟨s1, p1, nfr0⟩ := v
    simp only [bind, Except.bind]
    cases pass_fixed_rooks_and_kings h s1 p1 1 with
    | error e => rfl
    | ok v =>
      obtain ⟨s2, p2, nfr1⟩ := v
      simp only
      cases tie_break (p2.enpassant = 0 ∧ l.equal_num_pawns = true ∧ nfr0 ≠ nfr1) s2.index p2 with
      | error e => rfl
      | ok v => rfl

theorem decode_pieces_of_side_logged_fst (h : headers) (i : Fin 2) :
    ∀ (todo j : Nat) (l : locals),
      Except.map Prod.fst (decode_pieces_of_side_logged h i todo j l)
        = decode_pieces_of_side h i todo j l := by
  intro todo
  induction todo with
  | zero => intro j l; rfl
  | succ todo ih =>
    intro j l
    rw [decode_pieces_of_side_logged, decode_pieces_of_side]
    cases pass_generic h l.s ((l.p.sides i).pieces j) with
    | error e => rfl
    | ok v =>
      obtain ⟨s, bb, n⟩ := v
      simp only
      by_cases hn : n = 0
      · rw [if_pos hn, if_pos hn]
        rfl
      · rw [if_neg hn, if_neg hn, ← ih]
        cases decode_pieces_of_side_logged h i todo (j + 1) _ with
        | error e => rfl
        | ok v => rfl

theorem decode_pieces_logged_fst (h : headers) (l : locals) :
    Except.map Prod.fst (decode_pieces_logged h l) = decode_pieces h l := by
  unfold decode_pieces_logged decode_pieces
  rw [← decode_pieces_of_side_logged_fst]
  cases decode_pieces_of_side_logged h 0 NUM_PIECE_TYPES_LESS_KING 0 l with
  | error e => rfl
  | ok v =>
    obtain ⟨l1, log⟩ := v
    simp only [bind, Except.bind, Except.map]
    rw [← decode_pieces_of_side_logged_fst]
    cases decode_pieces_of_side_logged h 1 NUM_PIECE_TYPES_LESS_KING 0 l1 with
    | error e => rfl
    | ok v => rfl

theorem decode_king_logged_fst (h : headers) (i : Fin 2) (l : locals) :
    Except.map Prod.fst (decode_king_logged h i l) = decode_king h i l := by
  unfold decode_king_logged decode_king
  by_cases hn : l.nfr i = h.NO_CASTLING_RIGHTS
  · rw [if_pos hn, if_pos hn]
    simp only [bind, Except.bind, pure, Except.pure]
    cases fdiv_qr_ui l.s.index (NUM_SQUARES - _mm_popcnt_u64 l.s.occupied_squares) with
    | error e => simp only [Except.map]
    | ok qr =>
      obtain ⟨q, r⟩ := qr
      simp only
      cases place_chessmen_relative_to_free_squares h.binomials 1
          (NUM_SQUARES - _mm_popcnt_u64 l.s.occupied_squares) (r % 2 ^ 64) with
      | error e => simp only [Except.map]
      | ok v => simp only [Except.map]
  · rw [if_neg hn, if_neg hn]
    rfl

theorem decode_kings_logged_fst (h : headers) (l : locals) :
    Except.map Prod.fst (decode_kings_logged h l) = decode_kings h l := by
  unfold decode_kings_logged decode_kings
  rw [← decode_king_logged_fst]
  cases decode_king_logged h 0 l with
  | error e => rfl
  | ok v =>
    obtain ⟨l1, log⟩ := v
    simp only [bind, Except.bind, Except.map]
    rw [← decode_king_logged_fst]
    cases decode_king_logged h 1 l1 with
    | error e => rfl
    | ok v => rfl

/-- Dropping the record of `decode_logged` gives `decode`. -/
theorem decode_logged_fst (h : headers) (root : position_node) (index : Nat) :
    Except.map Prod.fst (decode_logged h root index) = decode h root index := by
  unfold decode_logged decode
  rw [← decode_pawns_logged_fst]
  cases decode_pawns_logged h root index with
  | error e => rfl
  | ok v =>
    obtain ⟨l1, log1⟩ := v
    simp only [bind, Except.bind, Except.map]
    rw [← decode_fixed_rooks_logged_fst]
    cases decode_fixed_rooks_logged h l1 with
    | error e => rfl
    | ok v =>
      obtain ⟨l2, log2⟩ := v
      simp only [Except.map]
      rw [← decode_pieces_logged_fst]
      cases decode_pieces_logged h l2 with
      | error e => rfl
      | ok v =>
        obtain ⟨l3, log3⟩ := v
        simp only [Except.map]
        rw [← decode_kings_logged_fst]
        cases decode_kings_logged h l3 with
        | error e => rfl
        | ok v =>
          obtain ⟨l4, log4⟩ := v
          simp only [Except.map]
          cases decode_closing h l4 with
          | error e => rfl
          | ok v => rfl

/-! ## The shadow squares and the occupancy -/

theorem subset_of_or_disjoint (a o e : Nat) (h1 : a &&& (o ||| e) = a) (h2 : a &&& e = 0) :
    a &&& o = a := by
  rw [and_eq_left_iff_testBit] at h1 ⊢
  rw [and_eq_zero_iff_testBit] at h2
  intro i hi
  have := h1 i hi
  simp only [Nat.testBit_or, Bool.or_eq_true] at this
  rcases this with h | h
  · exact h
  · exact absurd ⟨hi, h⟩ (h2 i)

theorem subset_or_of_left (a b : Nat) : a &&& (a ||| b) = a := by
  rw [and_eq_left_iff_testBit]
  intro i hi
  simp [hi]

/-- The generic pass only adds to `occupied_squares`. -/
theorem pass_generic_grows (h : headers) (s s' : decode_state) (bb bb' n : Nat)
    (hp : pass_generic h s bb = .ok (s', bb', n)) (hocc : s.occupied_squares < 2 ^ 64) :
    s.occupied_squares &&& s'.occupied_squares = s.occupied_squares := by
  unfold pass_generic at hp
  cases hpt : point_root_to_matching_child s.root s.index with
  | error e => rw [hpt] at hp; cases hp
  | ok v =>
    obtain ⟨root, index, nc⟩ := v
    rw [hpt] at hp
    simp only at hp
    by_cases hn : nc = 0
    · simp only [hn, if_true] at hp
      have := Except.ok.inj hp
      simp only [Prod.mk.injEq] at this
      obtain ⟨rfl, _, _⟩ := this
      exact Nat.and_self _
    · simp only [hn, if_false] at hp
      cases hdv : fdiv_qr_ui index
          (h.binomials (NUM_SQUARES - _mm_popcnt_u64 s.occupied_squares) nc) with
      | error e => rw [hdv] at hp; cases hp
      | ok qr =>
        obtain ⟨q, r⟩ := qr
        rw [hdv] at hp
        simp only at hp
        cases hpl : place_chessmen_relative_to_free_squares h.binomials nc
            (NUM_SQUARES - _mm_popcnt_u64 s.occupied_squares) (r % 2 ^ 64) with
        | error e => rw [hpl] at hp; cases hp
        | ok pattern =>
          rw [hpl] at hp
          simp only at hp
          have := Except.ok.inj hp
          simp only [Prod.mk.injEq] at this
          obtain ⟨rfl, _, _⟩ := this
          obtain ⟨hdis, hlt⟩ := pdep_disjoint_occupied pattern s.occupied_squares hocc
          simp only
          rw [add64_eq_or _ _ hocc hlt (by rw [Nat.and_comm]; exact hdis)]
          exact subset_or_of_left _ _

theorem shadow_squares_zero : shadow_squares 0 = 0 := by decide

/-- The shadow of a pawn on one of the rows 3 to 6 is not empty. -/
theorem shadow_squares_ne_zero (k : Nat) (h1 : 24 ≤ k) (h2 : k ≤ 55) :
    shadow_squares (shl64 1 k) ≠ 0 := by
  interval_cases k <;> decide

/-- The occupancy that the en-passant pass leaves contains the shadow squares. -/
theorem enpassant_occupied (e pw : Nat) (hok : enpassant_squares_ok e pw) :
    shadow_squares e &&& add64 (add64 (add64 e pw) 0) (shadow_squares e) = shadow_squares e := by
  have hd := hok.2.1
  have hor := add64_eq_or _ _ (add64_lt (add64 e pw) 0)
    (add64_lt (shr64 e BOARD_SIDE_LENGTH) (shr64 e (2 * BOARD_SIDE_LENGTH))) hd
  unfold shadow_squares
  rw [hor]
  exact subset_or_right _ _

/-- After the en-passant pass the shadow squares of the en-passant pawn are occupied, and
they are two squares unless the class is the one without en passant. -/
theorem pass_enpassant_shadow (h : headers) (s s' : decode_state) (p p' : position) (tmp : Nat)
    (hp : pass_enpassant h s p = .ok (s', p', tmp)) (hl : layout_ok h)
    (he : p.enpassant = 0) :
    shadow_squares p'.enpassant &&& s'.occupied_squares = shadow_squares p'.enpassant ∧
      ∀ root index c, point_root_to_matching_child s.root s.index = .ok (root, index, c) →
        c ≠ h.NO_ENPASSANT → shadow_squares p'.enpassant ≠ 0 := by
  obtain ⟨hr1, hr2, hv1, hv2, _, _, _, hne1, hne2, _⟩ := hl
  have hB : BOARD_SIDE_LENGTH = 8 := rfl
  have key : ∀ (q : position) (e pw : Nat),
      q = ({ p with enpassant := e }).set_pawns 1 pw → enpassant_squares_ok e pw →
      shadow_squares (q.set_pawns 0 q.enpassant).enpassant
        &&& add64 (add64 (add64 ((q.set_pawns 0 q.enpassant).sides 0).pawns
            ((q.set_pawns 0 q.enpassant).sides 1).pawns) 0)
            (add64 (shr64 (q.set_pawns 0 q.enpassant).enpassant BOARD_SIDE_LENGTH)
              (shr64 (q.set_pawns 0 q.enpassant).enpassant (2 * BOARD_SIDE_LENGTH)))
        = shadow_squares (q.set_pawns 0 q.enpassant).enpassant ∧
      (q.set_pawns 0 q.enpassant).enpassant = e := by
    intro q e pw hq hok
    have hqe : q.enpassant = e := by rw [hq]; rfl
    have h0 : ((q.set_pawns 0 q.enpassant).sides 0).pawns = e := by
      rw [hqe]; simp [position.set_pawns]
    have h1 : ((q.set_pawns 0 q.enpassant).sides 1).pawns = pw := by
      rw [hq]; simp [position.set_pawns]
    have h2 : (q.set_pawns 0 q.enpassant).enpassant = e := by rw [hq]; rfl
    rw [h0, h1, h2]
    exact ⟨enpassant_occupied e pw hok, rfl⟩
  unfold pass_enpassant at hp
  cases hpt : point_root_to_matching_child s.root s.index with
  | error e => rw [hpt] at hp; cases hp
  | ok v =>
    obtain ⟨root, index, ec⟩ := v
    rw [hpt] at hp
    simp only at hp
    by_cases hc1 : ec = h.ENPASSANT_EDGE_AND_RIGHT
    · subst hc1
      simp only [if_true] at hp
      cases hdv : fdiv_qr_ui index h.ENPASSANT_EDGE_AND_RIGHT_VARIATIONS with
      | error e => rw [hdv] at hp; cases hp
      | ok qr =>
        obtain ⟨q, r⟩ := qr
        obtain ⟨hd0, _, _, hrlt⟩ := fdiv_qr_ui_ok _ _ _ _ hdv
        rw [hdv] at hp
        simp only at hp
        by_cases hrem : r ≠ h.ENPASSANT_EDGE_AND_RIGHT_VARIATIONS - 1
        · rw [if_pos hrem] at hp
          simp only [if_pos hne1] at hp
          have := Except.ok.inj hp
          simp only [Prod.mk.injEq] at this
          obtain ⟨rfl, rfl, rfl⟩ := this
          obtain ⟨k1, k2⟩ := key _ _ _ rfl (enpassant_edge_ok h.ENPASSANT_ROW_0INDEX hr1 hr2)
          refine ⟨k1, ?_⟩
          intro _ _ _ _ _
          rw [k2]
          exact shadow_squares_ne_zero _ (by rw [hB]; omega) (by rw [hB]; omega)
        · rw [if_neg hrem] at hp
          simp only [if_pos hne1] at hp
          have := Except.ok.inj hp
          simp only [Prod.mk.injEq] at this
          obtain ⟨rfl, rfl, rfl⟩ := this
          obtain ⟨k1, k2⟩ := key _ _ _ rfl
            (enpassant_right_ok h.ENPASSANT_ROW_0INDEX r hr1 hr2 (by omega))
          refine ⟨k1, ?_⟩
          intro _ _ _ _ _
          rw [k2]
          exact shadow_squares_ne_zero _ (by rw [hB]; omega) (by rw [hB]; omega)
    · simp only [hc1, if_false] at hp
      by_cases hc2 : ec = h.ENPASSANT_LEFT_LESS_EDGE
      · subst hc2
        simp only [if_true] at hp
        cases hdv : fdiv_qr_ui index h.ENPASSANT_LEFT_LESS_EDGE_VARIATIONS with
        | error e => rw [hdv] at hp; cases hp
        | ok qr =>
          obtain ⟨q, r⟩ := qr
          obtain ⟨hd0, _, _, hrlt⟩ := fdiv_qr_ui_ok _ _ _ _ hdv
          rw [hdv] at hp
          simp only [if_pos hne2] at hp
          have := Except.ok.inj hp
          simp only [Prod.mk.injEq] at this
          obtain ⟨rfl, rfl, rfl⟩ := this
          obtain ⟨k1, k2⟩ := key _ _ _ rfl
            (enpassant_left_ok h.ENPASSANT_ROW_0INDEX r hr1 hr2 (by omega))
          refine ⟨k1, ?_⟩
          intro _ _ _ _ _
          rw [k2]
          exact shadow_squares_ne_zero _ (by rw [hB]; omega) (by rw [hB]; omega)
      · simp only [hc2, if_false] at hp
        by_cases hc3 : ec ≠ h.NO_ENPASSANT
        · rw [if_pos hc3] at hp
          cases hp
        · rw [if_neg hc3] at hp
          simp only [if_neg hc3] at hp
          have := Except.ok.inj hp
          simp only [Prod.mk.injEq] at this
          obtain ⟨rfl, rfl, rfl⟩ := this
          have hz : (p.set_pawns 0 p.enpassant).enpassant = 0 := he
          rw [hz, shadow_squares_zero]
          refine ⟨Nat.zero_and _, ?_⟩
          intro root' index' c hnav hc
          have := Except.ok.inj hnav
          simp only [Prod.mk.injEq] at this
          exact absurd this.2.2.symm (fun hcc => hc3 (hcc ▸ hc))

theorem ok_of_logged {α : Type} (x : Except Fatal (α × List Nat)) (y : Except Fatal α)
    (hxy : Except.map Prod.fst x = y) (a : α) (log : List Nat) (hx : x = .ok (a, log)) :
    y = .ok a := by
  rw [← hxy, hx]
  rfl

/-- The pawn stage: the shadow squares are occupied at the calls of both pawn passes and
after the stage. -/
theorem decode_pawns_logged_spec (h : headers) (root : position_node) (index : Nat)
    (l : locals) (log : List Nat) (hp : decode_pawns_logged h root index = .ok (l, log))
    (hl : layout_ok h) :
    (∃ o₁ o₂, log = [o₁, o₂] ∧
      shadow_squares l.p.enpassant &&& o₁ = shadow_squares l.p.enpassant ∧
      shadow_squares l.p.enpassant &&& o₂ = shadow_squares l.p.enpassant) ∧
    shadow_squares l.p.enpassant &&& l.s.occupied_squares = shadow_squares l.p.enpassant ∧
    (∀ root' index' c, point_root_to_matching_child root (index / 2) = .ok (root', index', c) →
      c ≠ h.NO_ENPASSANT → shadow_squares l.p.enpassant ≠ 0) := by
  unfold decode_pawns_logged at hp
  obtain ⟨⟨q, r⟩, h1, hp⟩ := except_bind_ok _ _ _ hp
  simp only at hp
  obtain ⟨⟨s1, p1, tmp⟩, h2, hp⟩ := except_bind_ok _ _ _ hp
  simp only at hp
  obtain ⟨⟨s3, bb1, n1⟩, h3, hp⟩ := except_bind_ok _ _ _ hp
  simp only at hp
  obtain ⟨⟨s5, bb2, n2⟩, h4, hp⟩ := except_bind_ok _ _ _ hp
  simp only at hp
  obtain ⟨⟨index', p4⟩, h5, hp⟩ := except_bind_ok _ _ _ hp
  simp only at hp
  have hl' := Except.ok.inj hp
  simp only [Prod.mk.injEq] at hl'
  obtain ⟨rfl, rfl⟩ := hl'
  simp only
  have hq : q = index / 2 := (fdiv_qr_ui_ok _ _ _ _ h1).2.1
  subst hq
  have hzero : ∀ (b : Bool) , (if r ≠ 0 then { position.zero with side0isBlack := b }
      else position.zero).enpassant = 0 := by
    intro b
    by_cases hr : r ≠ 0
    · rw [if_pos hr]; rfl
    · rw [if_neg hr]; rfl
  obtain ⟨htmp, hinv1, hedge1, htr1⟩ := pass_enpassant_spec h _ s1 _ p1 tmp h2 hl
    (by
      intro t
      by_cases hr : r ≠ 0
      · rw [if_pos hr]; exact board_zero h t
      · rw [if_neg hr]; exact board_zero h t)
    (by
      by_cases hr : r ≠ 0
      · rw [if_pos hr]; rfl
      · rw [if_neg hr]; rfl)
    (hzero true) trace_ok_nil
  obtain ⟨hsh1, hcls⟩ := pass_enpassant_shadow h _ s1 _ p1 tmp h2 hl (hzero true)
  subst htmp
  have hE := edge_rows_lt
  have hSE : shadow_squares p1.enpassant &&& EDGE_ROWS_MASK = 0 :=
    disjoint_of_subset _ _ _ hsh1 hedge1
  -- the enpassant mask is not touched after the en-passant pass
  obtain ⟨_, _, _, hen4⟩ := tie_break_spec h _ _ _ index' p4 h5
  have hen : p4.enpassant = p1.enpassant := by rw [hen4]; rfl
  rw [hen]
  -- the first pawn pass
  have ho1 : add64 s1.occupied_squares EDGE_ROWS_MASK = s1.occupied_squares ||| EDGE_ROWS_MASK :=
    add64_eq_or _ _ hinv1.1 hE hedge1
  have hc1 : shadow_squares p1.enpassant &&& add64 s1.occupied_squares EDGE_ROWS_MASK
      = shadow_squares p1.enpassant := by
    rw [ho1]
    exact subset_or_left _ _ _ hsh1
  obtain ⟨o2, hinv2, hocc2, hedge2, htr2⟩ := pass_generic_slot h _ s3 bb1 n1 p1
    (p1.set_pawns 1 bb1) (.pawns 1) s1.occupied_squares EDGE_ROWS_MASK h3 hinv1
    ho1 hE hedge1 (trace_ok_cons _ _ _ hedge1 htr1) (board_set_pawns h p1 1 bb1) rfl
  have hg1 := pass_generic_grows h _ s3 _ bb1 n1 h3 (add64_lt _ _)
  simp only at hg1
  have hc2 : shadow_squares p1.enpassant &&& s3.occupied_squares
      = shadow_squares p1.enpassant := subset_trans _ _ _ hc1 hg1
  -- the second pawn pass
  have hs3lt : s3.occupied_squares < 2 ^ 64 := by
    rw [hocc2]; exact Nat.or_lt_two_pow hinv2.1 hE
  have hs3 : sub64 s3.occupied_squares 0 = s3.occupied_squares := sub64_zero _ hs3lt
  have hs3' : sub64 s3.occupied_squares 0 = o2 ||| EDGE_ROWS_MASK := by rw [hs3, hocc2]
  obtain ⟨o3, hinv3, hocc3, hedge3, htr3⟩ := pass_generic_slot h _ s5 bb2 n2
    (p1.set_pawns 1 bb1) ((p1.set_pawns 1 bb1).set_pawns 0 bb2) (.pawns 0) o2 EDGE_ROWS_MASK
    h4 hinv2 hs3' hE hedge2 htr2 (board_set_pawns h _ 0 bb2) rfl
  have hg2 := pass_generic_grows h _ s5 _ bb2 n2 h4 (by simp only; rw [hs3]; exact hs3lt)
  simp only at hg2
  rw [hs3] at hg2
  have hc3 : shadow_squares p1.enpassant &&& s5.occupied_squares
      = shadow_squares p1.enpassant := subset_trans _ _ _ hc2 hg2
  refine ⟨⟨_, _, rfl, hc1, by rw [hs3]; exact hc2⟩, ?_, hcls⟩
  rw [hocc3, sub64_or o3 EDGE_ROWS_MASK hinv3.1 hE hedge3]
  rw [hocc3] at hc3
  exact subset_of_or_disjoint _ _ _ hc3 hSE

/-- The fixed-rook stage: what was occupied before the stage is occupied at the calls of both
passes and after the stage. -/
theorem decode_fixed_rooks_logged_spec (h : headers) (l l' : locals) (log : List Nat)
    (hp : decode_fixed_rooks_logged h l = .ok (l', log)) (hl : layout_ok h)
    (hinv : invariant h l.p l.s.occupied_squares)
    (hedge : l.s.occupied_squares &&& EDGE_ROWS_MASK = 0) (htr : trace_ok l.s.trace) :
    (∀ o, o ∈ log → l.s.occupied_squares &&& o = l.s.occupied_squares) ∧
      l.s.occupied_squares &&& l'.s.occupied_squares = l.s.occupied_squares ∧
      l'.p.enpassant = l.p.enpassant := by
  unfold decode_fixed_rooks_logged at hp
  obtain ⟨⟨s1, p1, nfr0⟩, h1, hp⟩ := except_bind_ok _ _ _ hp
  simp only at hp
  obtain ⟨⟨s2, p2, nfr1⟩, h2, hp⟩ := except_bind_ok _ _ _ hp
  simp only at hp
  obtain ⟨⟨index', p3⟩, h3, hp⟩ := except_bind_ok _ _ _ hp
  simp only at hp
  have hl' := Except.ok.inj hp
  simp only [Prod.mk.injEq] at hl'
  obtain ⟨rfl, rfl⟩ := hl'
  simp only
  have hrow : ∀ side, l.s.occupied_squares &&& home_row side = 0 := by
    intro side
    rw [Nat.and_comm]
    exact disjoint_of_subset _ _ _ (home_row_subset_edge side)
      (by rw [Nat.and_comm]; exact hedge)
  obtain ⟨m0, hm0, hocc1, hinv1, htr1, _, hen1⟩ :=
    pass_fixed_rooks_spec h l.s s1 l.p p1 0 nfr0 h1 hl hinv (hrow 0) htr
  have hrow1 : s1.occupied_squares &&& home_row 1 = 0 := by
    rw [hocc1, or_and_eq_zero]
    exact ⟨hrow 1, disjoint_of_subset _ _ _ hm0 home_row_disjoint⟩
  obtain ⟨m1, hm1, hocc2, hinv2, htr2, _, hen2⟩ :=
    pass_fixed_rooks_spec h s1 s2 p1 p2 1 nfr1 h2 hl hinv1 hrow1 htr1
  obtain ⟨_, _, _, hen3⟩ := tie_break_spec h _ _ _ index' p3 h3
  have hs1 : l.s.occupied_squares &&& s1.occupied_squares = l.s.occupied_squares := by
    rw [hocc1]; exact subset_or_of_left _ _
  have hs2 : l.s.occupied_squares &&& s2.occupied_squares = l.s.occupied_squares := by
    rw [hocc2]; exact subset_or_left _ _ _ hs1
  refine ⟨?_, hs2, by rw [hen3, hen2, hen1]⟩
  intro o ho
  simp only [List.mem_cons, List.mem_singleton, List.not_mem_nil, or_false] at ho
  rcases ho with rfl | rfl
  · exact Nat.and_self _
  · exact hs1

/-- The piece passes of one side: what was occupied before them is occupied at each call and
after them. -/
theorem decode_pieces_of_side_logged_spec (h : headers) (hl : layout_ok h) (i : Fin 2)
    (a : Nat) :
    ∀ (todo j : Nat) (l l' : locals) (log : List Nat), j + todo = 4 →
      decode_pieces_of_side_logged h i todo j l = .ok (l', log) →
      invariant h l.p l.s.occupied_squares → trace_ok l.s.trace →
      a &&& l.s.occupied_squares = a →
      (∀ o, o ∈ log → a &&& o = a) ∧ a &&& l'.s.occupied_squares = a ∧
        l'.p.enpassant = l.p.enpassant := by
  have hK : 4 ≤ h.KING := hl.2.2.2.2.2.2.2.2.2.2.2.2.2
  intro todo
  induction todo with
  | zero =>
    intro j l l' log _ hp hinv htr ha
    have := Except.ok.inj hp
    simp only [Prod.mk.injEq] at this
    obtain ⟨rfl, rfl⟩ := this
    exact ⟨fun o ho => absurd ho (List.not_mem_nil o), ha, rfl⟩
  | succ todo ih =>
    intro j l l' log hj hp hinv htr ha
    have hj4 : j < 4 := by omega
    rw [decode_pieces_of_side_logged] at hp
    cases hpg : pass_generic h l.s ((l.p.sides i).pieces j) with
    | error e => rw [hpg] at hp; cases hp
    | ok v =>
      obtain ⟨s1, bb, n⟩ := v
      rw [hpg] at hp
      simp only at hp
      obtain ⟨o', hinv1, hocc1, _, htr1⟩ := pass_generic_slot h l.s s1 bb n l.p
        (l.p.set_piece i j bb) (.piece i ⟨j, hj4⟩) l.s.occupied_squares 0 hpg hinv
        (Nat.or_zero _).symm (by norm_num) (Nat.and_zero _) htr
        (board_set_piece h hK l.p i ⟨j, hj4⟩ bb) rfl
      rw [Nat.or_zero] at hocc1
      rw [← hocc1] at hinv1
      have hg := pass_generic_grows h l.s s1 _ bb n hpg hinv.1
      have ha1 : a &&& s1.occupied_squares = a := subset_trans _ _ _ ha hg
      by_cases hn : n = 0
      · rw [if_pos hn] at hp
        have := Except.ok.inj hp
        simp only [Prod.mk.injEq] at this
        obtain ⟨rfl, rfl⟩ := this
        refine ⟨?_, ha1, rfl⟩
        intro o ho
        simp only [List.mem_singleton] at ho
        rw [ho]
        exact ha
      · rw [if_neg hn] at hp
        cases hrec : decode_pieces_of_side_logged h i todo (j + 1)
            { l with
              s := s1
              p := l.p.set_piece i j bb
              num_non_fixed_pieces_less_king := set2 l.num_non_fixed_pieces_less_king i j n
              num_non_fixed_base_pieces_less_king :=
                set2 l.num_non_fixed_base_pieces_less_king i j
                  (if (n : Int) - h.BASE_PIECES (l.nfr i) j > 0 then h.BASE_PIECES (l.nfr i) j
                    else n)
              promotions :=
                if (n : Int) - h.BASE_PIECES (l.nfr i) j > 0 then
                  Function.update l.promotions i
                    (l.promotions i + ((n : Int) - h.BASE_PIECES (l.nfr i) j))
                else l.promotions } with
        | error e => rw [hrec] at hp; cases hp
        | ok v =>
          obtain ⟨l2, log2⟩ := v
          rw [hrec] at hp
          have := Except.ok.inj hp
          simp only [Prod.mk.injEq] at this
          obtain ⟨rfl, rfl⟩ := this
          obtain ⟨k1, k2, k3⟩ := ih (j + 1) _ l2 log2 (by omega) hrec hinv1 htr1 ha1
          refine ⟨?_, k2, by rw [k3]; rfl⟩
          intro o ho
          rcases List.mem_cons.1 ho with rfl | ho'
          · exact ha
          · exact k1 o ho'

theorem decode_pieces_logged_spec (h : headers) (hl : layout_ok h) (a : Nat)
    (l l' : locals) (log : List Nat) (hp : decode_pieces_logged h l = .ok (l', log))
    (hinv : invariant h l.p l.s.occupied_squares) (htr : trace_ok l.s.trace)
    (ha : a &&& l.s.occupied_squares = a) :
    (∀ o, o ∈ log → a &&& o = a) ∧ a &&& l'.s.occupied_squares = a ∧
      l'.p.enpassant = l.p.enpassant := by
  unfold decode_pieces_logged at hp
  obtain ⟨⟨l1, log1⟩, h1, hp⟩ := except_bind_ok _ _ _ hp
  simp only at hp
  obtain ⟨⟨l2, log2⟩, h2, hp⟩ := except_bind_ok _ _ _ hp
  simp only at hp
  have := Except.ok.inj hp
  simp only [Prod.mk.injEq] at this
  obtain ⟨rfl, rfl⟩ := this
  obtain ⟨a1, a2, a3⟩ := decode_pieces_of_side_logged_spec h hl 0 a _ _ l l1 log1 rfl h1
    hinv htr ha
  have h1' := ok_of_logged _ _ (decode_pieces_of_side_logged_fst h 0 _ _ l) l1 log1 h1
  obtain ⟨b1, b2, _⟩ := decode_pieces_of_side_spec h hl 0 _ _ l l1 rfl h1' hinv htr
  obtain ⟨c1, c2, c3⟩ := decode_pieces_of_side_logged_spec h hl 1 a _ _ l1 l2 log2 rfl h2
    b1 b2 a2
  refine ⟨?_, c2, by rw [c3, a3]⟩
  intro o ho
  rcases List.mem_append.1 ho with ho | ho
  · exact a1 o ho
  · exact c1 o ho

theorem decode_king_logged_spec (h : headers) (i : Fin 2) (a : Nat)
    (l l' : locals) (log : List Nat) (hp : decode_king_logged h i l = .ok (l', log))
    (hocc : l.s.occupied_squares < 2 ^ 64) (ha : a &&& l.s.occupied_squares = a) :
    (∀ o, o ∈ log → a &&& o = a) ∧ a &&& l'.s.occupied_squares = a ∧
      l'.p.enpassant = l.p.enpassant := by
  unfold decode_king_logged at hp
  by_cases hn : l.nfr i = h.NO_CASTLING_RIGHTS
  · rw [if_pos hn] at hp
    obtain ⟨⟨q, r⟩, h1, hp⟩ := except_bind_ok _ _ _ hp
    simp only at hp
    obtain ⟨pattern, h2, hp⟩ := except_bind_ok _ _ _ hp
    have := Except.ok.inj hp
    simp only [Prod.mk.injEq] at this
    obtain ⟨rfl, rfl⟩ := this
    simp only
    obtain ⟨hdis, hlt⟩ := pdep_disjoint_occupied pattern l.s.occupied_squares hocc
    rw [add64_eq_or _ _ hocc hlt (by rw [Nat.and_comm]; exact hdis)]
    refine ⟨?_, subset_or_left _ _ _ ha, rfl⟩
    intro o ho
    simp only [List.mem_singleton] at ho
    rw [ho]
    exact ha
  · rw [if_neg hn] at hp
    have := Except.ok.inj hp
    simp only [Prod.mk.injEq] at this
    obtain ⟨rfl, rfl⟩ := this
    exact ⟨fun o ho => absurd ho (List.not_mem_nil o), ha, rfl⟩

theorem decode_kings_logged_spec (h : headers) (hl : layout_ok h) (a : Nat)
    (l l' : locals) (log : List Nat) (hp : decode_kings_logged h l = .ok (l', log))
    (hinv : invariant h l.p l.s.occupied_squares) (htr : trace_ok l.s.trace)
    (ha : a &&& l.s.occupied_squares = a) :
    (∀ o, o ∈ log → a &&& o = a) ∧ a &&& l'.s.occupied_squares = a ∧
      l'.p.enpassant = l.p.enpassant := by
  unfold decode_kings_logged at hp
  obtain ⟨⟨l1, log1⟩, h1, hp⟩ := except_bind_ok _ _ _ hp
  simp only at hp
  obtain ⟨⟨l2, log2⟩, h2, hp⟩ := except_bind_ok _ _ _ hp
  simp only at hp
  have := Except.ok.inj hp
  simp only [Prod.mk.injEq] at this
  obtain ⟨rfl, rfl⟩ := this
  obtain ⟨a1, a2, a3⟩ := decode_king_logged_spec h 0 a l l1 log1 h1 hinv.1 ha
  have h1' := ok_of_logged _ _ (decode_king_logged_fst h 0 l) l1 log1 h1
  obtain ⟨b1, _, _⟩ := decode_king_spec h hl 0 l l1 h1' hinv htr
  obtain ⟨c1, c2, c3⟩ := decode_king_logged_spec h 1 a l1 l2 log2 h2 b1.1 a2
  refine ⟨?_, c2, by rw [c3, a3]⟩
  intro o ho
  rcases List.mem_append.1 ho with ho | ho
  · exact a1 o ho
  · exact c1 o ho

/-- The closing stage leaves the en-passant mask alone. -/
theorem decode_closing_enpassant (h : headers) (l : locals) (r : decode_result)
    (hp : decode_closing h l = .ok r) : r.p.enpassant = l.p.enpassant := by
  unfold decode_closing at hp
  cases hlk : lookup_permutations h l with
  | error e => rw [hlk] at hp; cases hp
  | ok permutations =>
    rw [hlk] at hp
    simp only at hp
    have hr := Except.ok.inj hp
    subst hr
    rfl

/-- The whole decode: the shadow squares of the en-passant pawn are occupied at the call of
every pass after the en-passant pass. -/
theorem decode_logged_spec (h : headers) (hl : layout_ok h) (root : position_node)
    (index : Nat) (r : decode_result) (log : List Nat)
    (hp : decode_logged h root index = .ok (r, log)) :
    (∃ o₁ o₂ later, log = o₁ :: o₂ :: later ∧
      shadow_squares r.p.enpassant &&& o₁ = shadow_squares r.p.enpassant ∧
      shadow_squares r.p.enpassant &&& o₂ = shadow_squares r.p.enpassant ∧
      ∀ o, o ∈ later → shadow_squares r.p.enpassant &&& o = shadow_squares r.p.enpassant) ∧
    (∀ root' index' c, point_root_to_matching_child root (index / 2) = .ok (root', index', c) →
      c ≠ h.NO_ENPASSANT → shadow_squares r.p.enpassant ≠ 0) := by
  unfold decode_logged at hp
  obtain ⟨⟨l1, log1⟩, h1, hp⟩ := except_bind_ok _ _ _ hp
  simp only at hp
  obtain ⟨⟨l2, log2⟩, h2, hp⟩ := except_bind_ok _ _ _ hp
  simp only at hp
  obtain ⟨⟨l3, log3⟩, h3, hp⟩ := except_bind_ok _ _ _ hp
  simp only at hp
  obtain ⟨⟨l4, log4⟩, h4, hp⟩ := except_bind_ok _ _ _ hp
  simp only at hp
  obtain ⟨r', h5, hp⟩ := except_bind_ok _ _ _ hp
  have := Except.ok.inj hp
  simp only [Prod.mk.injEq] at this
  obtain ⟨rfl, rfl⟩ := this
  have e1 := ok_of_logged _ _ (decode_pawns_logged_fst h root index) l1 log1 h1
  have e2 := ok_of_logged _ _ (decode_fixed_rooks_logged_fst h l1) l2 log2 h2
  have e3 := ok_of_logged _ _ (decode_pieces_logged_fst h l2) l3 log3 h3
  obtain ⟨a1, a2, a3⟩ := decode_pawns_spec h root index l1 e1 hl
  obtain ⟨b1, b2, _⟩ := decode_fixed_rooks_spec h l1 l2 e2 hl a1 a2 a3
  obtain ⟨c1, c2, _⟩ := decode_pieces_spec h hl l2 l3 e3 b1 b2
  obtain ⟨⟨o₁, o₂, hlog, p1, p2⟩, p3, p4⟩ := decode_pawns_logged_spec h root index l1 log1 h1 hl
  obtain ⟨q1, q2, q3⟩ := decode_fixed_rooks_logged_spec h l1 l2 log2 h2 hl a1 a2 a3
  have p3' : shadow_squares l1.p.enpassant &&& l2.s.occupied_squares
      = shadow_squares l1.p.enpassant := subset_trans _ _ _ p3 q2
  obtain ⟨r1, r2, r3⟩ := decode_pieces_logged_spec h hl (shadow_squares l1.p.enpassant) l2 l3
    log3 h3 b1 b2 p3'
  obtain ⟨s1, s2, s3⟩ := decode_kings_logged_spec h hl (shadow_squares l1.p.enpassant) l3 l4
    log4 h4 c1 c2 r2
  have hen : r'.p.enpassant = l1.p.enpassant := by
    rw [decode_closing_enpassant h l4 r' h5, s3, r3, q3]
  rw [hen]
  refine ⟨⟨o₁, o₂, log2 ++ (log3 ++ log4), by rw [hlog]; rfl, p1, p2, ?_⟩, p4⟩
  intro o ho
  rcases List.mem_append.1 ho with ho | ho
  · exact subset_trans _ _ _ p3 (q1 o ho)
  · rcases List.mem_append.1 ho with ho | ho
    · exact r1 o ho
    · exact s1 o ho

set_option maxRecDepth 100000 in
/-- C12 fails as stated: in the decode of index 1234567 on the one-path tree `shadow_tree`
(en-passant class 1, which is not the class without en passant; one more pawn placed for each
side) the two shadow squares of the en-passant pawn are in `occupied_squares` at the call of
the second pawn pass, the one for side 0: they are not absent from it. -/
theorem shadow_squares_absent_counterexample :
    returns (decode_logged example_headers shadow_tree 1234567) = true ∧
    Except.map (fun x => x.2.2) (point_root_to_matching_child shadow_tree (1234567 / 2))
      = .ok example_headers.ENPASSANT_EDGE_AND_RIGHT ∧
    example_headers.ENPASSANT_EDGE_AND_RIGHT ≠ example_headers.NO_ENPASSANT ∧
    (logged_or_zero (decode_logged example_headers shadow_tree 1234567)).1.p.enpassant
      = 2 ^ 31 ∧
    ((logged_or_zero (decode_logged example_headers shadow_tree 1234567)).1.p.sides 0).pawns
      = 2 ^ 31 + 2 ^ 46 ∧
    shadow_squares (logged_or_zero
      (decode_logged example_headers shadow_tree 1234567)).1.p.enpassant = 2 ^ 23 + 2 ^ 15 ∧
    (logged_or_zero (decode_logged example_headers shadow_tree 1234567)).2.length = 8 ∧
    (2 ^ 23 + 2 ^ 15) &&&
      (logged_or_zero (decode_logged example_headers shadow_tree 1234567)).2.getD 1 0
      = 2 ^ 23 + 2 ^ 15 := by
  refine ⟨by decide, by decide, by decide, by decide, by decide, by decide, by decide, by decide⟩

/-- C12, amended: for every decode that returns, under the board-layout values of the header
constants, the shadow squares of the en-passant pawn are in `occupied_squares` at the call of
the first pawn pass (side 1), at the call of the second pawn pass (side 0) and at the call of
every later pass; when the en-passant class is not the one without en passant, the shadow is
not empty. -/
theorem shadow_squares_stay_occupied (h : headers) (root : position_node) (index : Nat)
    (r : decode_result) (log : List Nat) (hl : layout_ok h)
    (hp : decode_logged h root index = .ok (r, log)) :
    decode h root index = .ok r ∧
    (∃ at_first_pawn_pass at_second_pawn_pass later,
      log = at_first_pawn_pass :: at_second_pawn_pass :: later ∧
      shadow_squares r.p.enpassant &&& at_first_pawn_pass = shadow_squares r.p.enpassant ∧
      shadow_squares r.p.enpassant &&& at_second_pawn_pass = shadow_squares r.p.enpassant ∧
      ∀ o, o ∈ later → shadow_squares r.p.enpassant &&& o = shadow_squares r.p.enpassant) ∧
    (∀ root' index' c, point_root_to_matching_child root (index / 2) = .ok (root', index', c) →
      c ≠ h.NO_ENPASSANT → shadow_squares r.p.enpassant ≠ 0) := by
  obtain ⟨k1, k2⟩ := decode_logged_spec h hl root index r log hp
  exact ⟨ok_of_logged _ _ (decode_logged_fst h root index) r log hp, k1, k2⟩

set_option maxRecDepth 100000 in
/-- C12 amended, witness: the decode of index 1234567 on `shadow_tree` with the example
headers. -/
theorem shadow_squares_stay_occupied_witness :
    returns (decode_logged example_headers shadow_tree 1234567) = true ∧
    (decode example_headers shadow_tree 1234567
      = .ok (logged_or_zero (decode_logged example_headers shadow_tree 1234567)).1 ∧
    (∃ at_first_pawn_pass at_second_pawn_pass later,
      (logged_or_zero (decode_logged example_headers shadow_tree 1234567)).2
        = at_first_pawn_pass :: at_second_pawn_pass :: later ∧
      shadow_squares (logged_or_zero
          (decode_logged example_headers shadow_tree 1234567)).1.p.enpassant
        &&& at_first_pawn_pass = shadow_squares (logged_or_zero
          (decode_logged example_headers shadow_tree 1234567)).1.p.enpassant ∧
      shadow_squares (logged_or_zero
          (decode_logged example_headers shadow_tree 1234567)).1.p.enpassant
        &&& at_second_pawn_pass = shadow_squares (logged_or_zero
          (decode_logged example_headers shadow_tree 1234567)).1.p.enpassant ∧
      ∀ o, o ∈ later → shadow_squares (logged_or_zero
          (decode_logged example_headers shadow_tree 1234567)).1.p.enpassant &&& o
        = shadow_squares (logged_or_zero
          (decode_logged example_headers shadow_tree 1234567)).1.p.enpassant) ∧
    (∀ root' index' c,
      point_root_to_matching_child shadow_tree (1234567 / 2) = .ok (root', index', c) →
      c ≠ example_headers.NO_ENPASSANT →
      shadow_squares (logged_or_zero
        (decode_logged example_headers shadow_tree 1234567)).1.p.enpassant ≠ 0)) :=
  ⟨by decide,
    shadow_squares_stay_occupied example_headers shadow_tree 1234567
      (logged_or_zero (decode_logged example_headers shadow_tree 1234567)).1
      (logged_or_zero (decode_logged example_headers shadow_tree 1234567)).2
      (by decide) rfl⟩

/-! ## The stages around the tie-breaks -/

/-- The pawn stage is its passes followed by the first tie-break. -/
theorem decode_pawns_factor (h : headers) (root : position_node) (index : Nat) :
    decode_pawns h root index
      = (decode_pawn_passes h root index >>= fun x => first_tie_break x.1 x.2) := by
  unfold decode_pawn_passes decode_pawns first_tie_break
  cases fdiv_qr_ui index 2 with
  | error e => rfl
  | ok qr =>
    obtain ⟨q, r⟩ := qr
    simp only [bind, Except.bind]
    cases pass_enpassant h ⟨root, q, 0, []⟩
        (if r ≠ 0 then { position.zero with side0isBlack := true } else position.zero) with
    | error e => rfl
    | ok v =>
      obtain ⟨s1, p1, tmp⟩ := v
      simp only
      cases pass_generic h ⟨s1.root, s1.index, add64 s1.occupied_squares EDGE_ROWS_MASK,
          (s1.occupied_squares, EDGE_ROWS_MASK) :: s1.trace⟩ (p1.sides 1).pawns with
      | error e => rfl
      | ok v =>
        obtain ⟨s2, bb1, n1⟩ := v
        simp only
        cases pass_generic h ⟨s2.root, s2.index, sub64 s2.occupied_squares tmp, s2.trace⟩
            ((p1.set_pawns 1 bb1).sides 0).pawns with
        | error e => rfl
        | ok v => rfl

/-- The fixed-rook stage is its passes followed by the second tie-break. -/
theorem decode_fixed_rooks_factor (h : headers) (l : locals) :
    decode_fixed_rooks h l
      = (decode_fixed_rook_passes h l
          >>= fun x => second_tie_break l x.1 x.2.1 x.2.2.1 x.2.2.2) := by
  unfold decode_fixed_rook_passes decode_fixed_rooks second_tie_break
  cases pass_fixed_rooks_and_kings h l.s l.p 0 with
  | error e => rfl
  | ok v =>
    obtain ⟨s1, p1, nfr0⟩ := v
    simp only [bind, Except.bind]
    cases pass_fixed_rooks_and_kings h s1 p1 1 with
    | error e => rfl
    | ok v => rfl

/-- The outcome of a tie-break: the halved index and the bit, when it applies. -/
theorem tie_break_eq (applies : Prop) [Decidable applies] (index : Nat) (p : position) :
    tie_break applies index p
      = .ok (if applies then index / 2 else index,
          if applies ∧ index % 2 = 1 then { p with side0toMove := true } else p) := by
  unfold tie_break fdiv_qr_ui
  by_cases ha : applies
  · simp only [ha, if_true, true_and]
    rw [if_neg (by norm_num)]
    simp only
    by_cases hr : index % 2 = 1
    · rw [if_pos (by omega), if_pos hr]
    · rw [if_neg (by omega), if_neg hr]
  · simp only [ha, if_false, false_and]

/-! ## What the passes leave alone -/

/-- The en-passant pass leaves the two flags alone. -/
theorem pass_enpassant_flags (h : headers) (s s' : decode_state) (p p' : position) (tmp : Nat)
    (hp : pass_enpassant h s p = .ok (s', p', tmp)) :
    p'.side0isBlack = p.side0isBlack ∧ p'.side0toMove = p.side0toMove := by
  unfold pass_enpassant at hp
  cases hpt : point_root_to_matching_child s.root s.index with
  | error e => rw [hpt] at hp; cases hp
  | ok v =>
    obtain ⟨root, index, ec⟩ := v
    rw [hpt] at hp
    simp only at hp
    have tail : ∀ (index : Nat) (q : position),
        q.side0isBlack = p.side0isBlack ∧ q.side0toMove = p.side0toMove →
        (if ec ≠ h.NO_ENPASSANT then
          (Except.ok (⟨root, index,
            add64 (add64 (add64 ((q.set_pawns 0 q.enpassant).sides 0).pawns
              ((q.set_pawns 0 q.enpassant).sides 1).pawns) 0)
              (add64 (shr64 (q.set_pawns 0 q.enpassant).enpassant BOARD_SIDE_LENGTH)
                (shr64 (q.set_pawns 0 q.enpassant).enpassant (2 * BOARD_SIDE_LENGTH))),
            (add64 (add64 ((q.set_pawns 0 q.enpassant).sides 0).pawns
              ((q.set_pawns 0 q.enpassant).sides 1).pawns) 0,
              add64 (shr64 (q.set_pawns 0 q.enpassant).enpassant BOARD_SIDE_LENGTH)
                (shr64 (q.set_pawns 0 q.enpassant).enpassant (2 * BOARD_SIDE_LENGTH)))
              :: s.trace⟩, q.set_pawns 0 q.enpassant, 0) :
            Except Fatal (decode_state × position × Nat))
        else
          .ok (⟨root, index,
            add64 (add64 ((q.set_pawns 0 q.enpassant).sides 0).pawns
              ((q.set_pawns 0 q.enpassant).sides 1).pawns) 0, s.trace⟩,
            q.set_pawns 0 q.enpassant, 0)) = .ok (s', p', tmp) →
        p'.side0isBlack = p.side0isBlack ∧ p'.side0toMove = p.side0toMove := by
      intro index q hq hp
      by_cases hne : ec ≠ h.NO_ENPASSANT
      · rw [if_pos hne] at hp
        have := Except.ok.inj hp
        simp only [Prod.mk.injEq] at this
        obtain ⟨_, rfl, _⟩ := this
        exact hq
      · rw [if_neg hne] at hp
        have := Except.ok.inj hp
        simp only [Prod.mk.injEq] at this
        obtain ⟨_, rfl, _⟩ := this
        exact hq
    by_cases hc1 : ec = h.ENPASSANT_EDGE_AND_RIGHT
    · rw [if_pos hc1] at hp
      cases hdv : fdiv_qr_ui index h.ENPASSANT_EDGE_AND_RIGHT_VARIATIONS with
      | error e => rw [hdv] at hp; cases hp
      | ok qr =>
        obtain ⟨q, r⟩ := qr
        rw [hdv] at hp
        simp only at hp
        by_cases hrem : r ≠ h.ENPASSANT_EDGE_AND_RIGHT_VARIATIONS - 1
        · rw [if_pos hrem] at hp
          simp only at hp
          refine tail _ _ ?_ hp
          exact ⟨rfl, rfl⟩
        · rw [if_neg hrem] at hp
          simp only at hp
          refine tail _ _ ?_ hp
          exact ⟨rfl, rfl⟩
    · rw [if_neg hc1] at hp
      by_cases hc2 : ec = h.ENPASSANT_LEFT_LESS_EDGE
      · rw [if_pos hc2] at hp
        cases hdv : fdiv_qr_ui index h.ENPASSANT_LEFT_LESS_EDGE_VARIATIONS with
        | error e => rw [hdv] at hp; cases hp
        | ok qr =>
          obtain ⟨q, r⟩ := qr
          rw [hdv] at hp
          simp only at hp
          refine tail _ _ ?_ hp
          exact ⟨rfl, rfl⟩
      · rw [if_neg hc2] at hp
        by_cases hc3 : ec ≠ h.NO_ENPASSANT
        · rw [if_pos hc3] at hp
          cases hp
        · rw [if_neg hc3] at hp
          simp only at hp
          refine tail _ _ ?_ hp
          exact ⟨rfl, rfl⟩

/-- The fixed-rook pass leaves the en-passant mask, the pawns and the two flags alone. -/
theorem pass_fixed_rooks_frame (h : headers) (s s' : decode_state) (p p' : position)
    (side : Fin 2) (n : Nat) (hp : pass_fixed_rooks_and_kings h s p side = .ok (s', p', n)) :
    p'.enpassant = p.enpassant ∧ (∀ k, (p'.sides k).pawns = (p.sides k).pawns) ∧
      p'.side0isBlack = p.side0isBlack ∧ p'.side0toMove = p.side0toMove := by
  unfold pass_fixed_rooks_and_kings at hp
  cases hpt : point_root_to_matching_child s.root s.index with
  | error e => rw [hpt] at hp; cases hp
  | ok v =>
    obtain ⟨root, index, n'⟩ := v
    rw [hpt] at hp
    simp only at hp
    cases hsw : fixed_rooks_switch h n' index with
    | error e => rw [hsw] at hp; cases hp
    | ok w =>
      obtain ⟨index', fr⟩ := w
      rw [hsw] at hp
      simp only at hp
      have := Except.ok.inj hp
      simp only [Prod.mk.injEq] at this
      obtain ⟨_, rfl, _⟩ := this
      refine ⟨rfl, ?_, rfl, rfl⟩
      intro k
      simp only [position.set_piece, position.set_fr]
      by_cases hk : k = side
      · subst hk; simp
      · simp [Function.update_noteq hk]

theorem set_piece_pawns (p : position) (i : Fin 2) (j x : Nat) (k : Fin 2) :
    ((p.set_piece i j x).sides k).pawns = (p.sides k).pawns := by
  simp only [position.set_piece]
  by_cases hk : k = i
  · subst hk; simp
  · simp [Function.update_noteq hk]

/-- The piece passes of one side leave the en-passant mask, the pawns and the flags alone. -/
theorem decode_pieces_of_side_frame (h : headers) (i : Fin 2) :
    ∀ (todo j : Nat) (l l' : locals), decode_pieces_of_side h i todo j l = .ok l' →
      l'.p.enpassant = l.p.enpassant ∧ (∀ k, (l'.p.sides k).pawns = (l.p.sides k).pawns) ∧
        l'.p.side0isBlack = l.p.side0isBlack ∧ l'.p.side0toMove = l.p.side0toMove ∧
        l'.nfr = l.nfr ∧ l'.equal_num_pawns = l.equal_num_pawns := by
  intro todo
  induction todo with
  | zero =>
    intro j l l' hp
    have := Except.ok.inj hp
    subst this
    exact ⟨rfl, fun _ => rfl, rfl, rfl, rfl, rfl⟩
  | succ todo ih =>
    intro j l l' hp
    rw [decode_pieces_of_side] at hp
    cases hpg : pass_generic h l.s ((l.p.sides i).pieces j) with
    | error e => rw [hpg] at hp; cases hp
    | ok v =>
      obtain ⟨s1, bb, n⟩ := v
      rw [hpg] at hp
      simp only at hp
      by_cases hn : n = 0
      · rw [if_pos hn] at hp
        have := Except.ok.inj hp
        subst this
        exact ⟨rfl, fun k => set_piece_pawns _ _ _ _ k, rfl, rfl, rfl, rfl⟩
      · rw [if_neg hn] at hp
        obtain ⟨k1, k2, k3, k4, k5, k6⟩ := ih (j + 1) _ l' hp
        exact ⟨by rw [k1]; rfl, fun k => by rw [k2 k]; exact set_piece_pawns _ _ _ _ k,
          by rw [k3]; rfl, by rw [k4]; rfl, by rw [k5], by rw [k6]⟩

theorem decode_pieces_frame (h : headers) (l l' : locals) (hp : decode_pieces h l = .ok l') :
    l'.p.enpassant = l.p.enpassant ∧ (∀ k, (l'.p.sides k).pawns = (l.p.sides k).pawns) ∧
      l'.p.side0isBlack = l.p.side0isBlack ∧ l'.p.side0toMove = l.p.side0toMove ∧
      l'.nfr = l.nfr ∧ l'.equal_num_pawns = l.equal_num_pawns := by
  unfold decode_pieces at hp
  obtain ⟨l1, h1, hp⟩ := except_bind_ok _ _ _ hp
  obtain ⟨a1, a2, a3, a4, a5, a6⟩ := decode_pieces_of_side_frame h 0 _ _ l l1 h1
  obtain ⟨b1, b2, b3, b4, b5, b6⟩ := decode_pieces_of_side_frame h 1 _ _ l1 l' hp
  exact ⟨by rw [b1, a1], fun k => by rw [b2 k, a2 k], by rw [b3, a3], by rw [b4, a4],
    by rw [b5, a5], by rw [b6, a6]⟩

theorem decode_king_frame (h : headers) (i : Fin 2) (l l' : locals)
    (hp : decode_king h i l = .ok l') :
    l'.p.enpassant = l.p.enpassant ∧ (∀ k, (l'.p.sides k).pawns = (l.p.sides k).pawns) ∧
      l'.p.side0isBlack = l.p.side0isBlack ∧ l'.p.side0toMove = l.p.side0toMove ∧
      l'.nfr = l.nfr ∧ l'.equal_num_pawns = l.equal_num_pawns := by
  unfold decode_king at hp
  by_cases hn : l.nfr i = h.NO_CASTLING_RIGHTS
  · rw [if_pos hn] at hp
    obtain ⟨⟨q, r⟩, h1, hp⟩ := except_bind_ok _ _ _ hp
    simp only at hp
    obtain ⟨pattern, h2, hp⟩ := except_bind_ok _ _ _ hp
    have := Except.ok.inj hp
    subst this
    exact ⟨rfl, fun k => set_piece_pawns _ _ _ _ k, rfl, rfl, rfl, rfl⟩
  · rw [if_neg hn] at hp
    have := Except.ok.inj hp
    subst this
    exact ⟨rfl, fun _ => rfl, rfl, rfl, rfl, rfl⟩

theorem decode_kings_frame (h : headers) (l l' : locals) (hp : decode_kings h l = .ok l') :
    l'.p.enpassant = l.p.enpassant ∧ (∀ k, (l'.p.sides k).pawns = (l.p.sides k).pawns) ∧
      l'.p.side0isBlack = l.p.side0isBlack ∧ l'.p.side0toMove = l.p.side0toMove ∧
      l'.nfr = l.nfr ∧ l'.equal_num_pawns = l.equal_num_pawns := by
  unfold decode_kings at hp
  obtain ⟨l1, h1, hp⟩ := except_bind_ok _ _ _ hp
  obtain ⟨a1, a2, a3, a4, a5, a6⟩ := decode_king_frame h 0 l l1 h1
  obtain ⟨b1, b2, b3, b4, b5, b6⟩ := decode_king_frame h 1 l1 l' hp
  exact ⟨by rw [b1, a1], fun k => by rw [b2 k, a2 k], by rw [b3, a3], by rw [b4, a4],
    by rw [b5, a5], by rw [b6, a6]⟩

/-- The closing stage leaves the en-passant mask, the combined fixed-rook mask and the two
flags alone. -/
theorem decode_closing_flags (h : headers) (l : locals) (r : decode_result)
    (hp : decode_closing h l = .ok r) :
    r.p.enpassant = l.p.enpassant ∧ r.p.fixed_rooks = l.p.fixed_rooks ∧
      r.p.side0isBlack = l.p.side0isBlack ∧ r.p.side0toMove = l.p.side0toMove := by
  unfold decode_closing at hp
  cases hlk : lookup_permutations h l with
  | error e => rw [hlk] at hp; cases hp
  | ok permutations =>
    rw [hlk] at hp
    simp only at hp
    have hr := Except.ok.inj hp
    subst hr
    exact ⟨rfl, rfl, rfl, rfl⟩

/-- After the pawn passes no side-to-move bit is set. -/
theorem decode_pawn_passes_flag (h : headers) (root : position_node) (index : Nat)
    (s : decode_state) (p : position) (hp : decode_pawn_passes h root index = .ok (s, p)) :
    p.side0toMove = false := by
  unfold decode_pawn_passes at hp
  obtain ⟨⟨q, r⟩, h1, hp⟩ := except_bind_ok _ _ _ hp
  simp only at hp
  obtain ⟨⟨s1, p1, tmp⟩, h2, hp⟩ := except_bind_ok _ _ _ hp
  simp only at hp
  obtain ⟨⟨s3, bb1, n1⟩, h3, hp⟩ := except_bind_ok _ _ _ hp
  simp only at hp
  obtain ⟨⟨s5, bb2, n2⟩, h4, hp⟩ := except_bind_ok _ _ _ hp
  simp only at hp
  have := Except.ok.inj hp
  simp only [Prod.mk.injEq] at this
  obtain ⟨_, rfl⟩ := this
  have hf := (pass_enpassant_flags h _ s1 _ p1 tmp h2).2
  show p1.side0toMove = false
  rw [hf]
  by_cases hr : r ≠ 0
  · rw [if_pos hr]; rfl
  · rw [if_neg hr]; rfl

/-- The fixed-rook passes leave the en-passant mask, the pawns and the flags alone. -/
theorem decode_fixed_rook_passes_frame (h : headers) (l : locals) (s : decode_state)
    (p : position) (nfr0 nfr1 : Nat)
    (hp : decode_fixed_rook_passes h l = .ok (s, p, nfr0, nfr1)) :
    p.enpassant = l.p.enpassant ∧ (∀ k, (p.sides k).pawns = (l.p.sides k).pawns) ∧
      p.side0isBlack = l.p.side0isBlack ∧ p.side0toMove = l.p.side0toMove := by
  unfold decode_fixed_rook_passes at hp
  obtain ⟨⟨s1, p1, n0⟩, h1, hp⟩ := except_bind_ok _ _ _ hp
  simp only at hp
  obtain ⟨⟨s2, p2, n1⟩, h2, hp⟩ := except_bind_ok _ _ _ hp
  simp only at hp
  have := Except.ok.inj hp
  simp only [Prod.mk.injEq] at this
  obtain ⟨_, rfl, _, _⟩ := this
  obtain ⟨a1, a2, a3, a4⟩ := pass_fixed_rooks_frame h _ _ _ _ _ _ h1
  obtain ⟨b1, b2, b3, b4⟩ := pass_fixed_rooks_frame h _ _ _ _ _ _ h2
  exact ⟨by rw [b1, a1], fun k => by rw [b2 k, a2 k], by rw [b3, a3], by rw [b4, a4]⟩

/-- The outcome of the first tie-break. -/
theorem first_tie_break_eq (s : decode_state) (p : position) :
    first_tie_break s p = .ok
      ⟨⟨s.root, if pawn_counts_break_tie p then s.index / 2 else s.index,
          sub64 s.occupied_squares EDGE_ROWS_MASK, s.trace⟩,
        if pawn_counts_break_tie p ∧ s.index % 2 = 1 then { p with side0toMove := true } else p,
        decide (_mm_popcnt_u64 (p.sides 0).pawns = _mm_popcnt_u64 (p.sides 1).pawns),
        fun _ => 0, fun _ _ => 0, fun _ _ => 0, fun _ => 0⟩ := by
  have hiff : (p.enpassant = 0 ∧
      decide (_mm_popcnt_u64 (p.sides 0).pawns = _mm_popcnt_u64 (p.sides 1).pawns) = false)
      ↔ pawn_counts_break_tie p := by
    unfold pawn_counts_break_tie
    simp
  simp only [first_tie_break, tie_break_eq, bind, Except.bind, pure, Except.pure, hiff]

/-- The outcome of the second tie-break. -/
theorem second_tie_break_eq (l : locals) (s : decode_state) (p : position) (nfr0 nfr1 : Nat)
    (hl : l.equal_num_pawns
      = decide (_mm_popcnt_u64 (p.sides 0).pawns = _mm_popcnt_u64 (p.sides 1).pawns)) :
    second_tie_break l s p nfr0 nfr1 = .ok
      { l with
        s := ⟨s.root, if fixed_rook_counts_break_tie p nfr0 nfr1 then s.index / 2 else s.index,
          s.occupied_squares, s.trace⟩
        p := if fixed_rook_counts_break_tie p nfr0 nfr1 ∧ s.index % 2 = 1 then
            { p with side0toMove := true } else p
        nfr := fun i => if i = 0 then nfr0 else nfr1 } := by
  have hiff : (p.enpassant = 0 ∧ l.equal_num_pawns = true ∧ nfr0 ≠ nfr1)
      ↔ fixed_rook_counts_break_tie p nfr0 nfr1 := by
    unfold fixed_rook_counts_break_tie
    rw [hl]
    simp
  simp only [second_tie_break, tie_break_eq, bind, Except.bind, pure, Except.pure, hiff]

/-- C13: in every decode that returns, with (s, p) the shared state and the position after
the pawn passes and (s', p', nfr0, nfr1) those after the fixed-rook passes: the en-passant
mask and the pawn bitboards that the two tie-breaks read are those of the returned position;
the first tie-break replaces the index by its half exactly when there is no en-passant pawn
and the pawn counts differ; the second does so exactly when there is no en-passant pawn, the
pawn counts are equal and the fixed-rook counts differ; the two never both apply;
`side0toMove` of the returned position is the remainder bit of the tie-break that applied,
and it is false, with no bit consumed, when neither applies, in particular when there is an
en-passant pawn. -/
theorem side_to_move_bit (h : headers) (root : position_node) (index : Nat)
    (r : decode_result) (hp : decode h root index = .ok r) :
    ∃ s p l₁ s' p' nfr0 nfr1 l₂,
      decode_pawn_passes h root index = .ok (s, p) ∧ first_tie_break s p = .ok l₁ ∧
      decode_pawns h root index = .ok l₁ ∧
      decode_fixed_rook_passes h l₁ = .ok (s', p', nfr0, nfr1) ∧
      second_tie_break l₁ s' p' nfr0 nfr1 = .ok l₂ ∧ decode_fixed_rooks h l₁ = .ok l₂ ∧
      p.enpassant = r.p.enpassant ∧ p'.enpassant = r.p.enpassant ∧
      (∀ k, (p.sides k).pawns = (r.p.sides k).pawns) ∧
      (∀ k, (p'.sides k).pawns = (r.p.sides k).pawns) ∧
      l₁.s.index = (if pawn_counts_break_tie r.p then s.index / 2 else s.index) ∧
      l₂.s.index
        = (if fixed_rook_counts_break_tie r.p nfr0 nfr1 then s'.index / 2 else s'.index) ∧
      r.p.side0toMove
        = decide ((pawn_counts_break_tie r.p ∧ s.index % 2 = 1) ∨
            (fixed_rook_counts_break_tie r.p nfr0 nfr1 ∧ s'.index % 2 = 1)) ∧
      ¬ (pawn_counts_break_tie r.p ∧ fixed_rook_counts_break_tie r.p nfr0 nfr1) ∧
      (¬ pawn_counts_break_tie r.p → ¬ fixed_rook_counts_break_tie r.p nfr0 nfr1 →
        l₁.s.index = s.index ∧ l₂.s.index = s'.index ∧ r.p.side0toMove = false) ∧
      (r.p.enpassant ≠ 0 →
        l₁.s.index = s.index ∧ l₂.s.index = s'.index ∧ r.p.side0toMove = false) := by
  have hp0 := hp
  unfold decode at hp
  obtain ⟨l1, h1, hp⟩ := except_bind_ok _ _ _ hp
  obtain ⟨l2, h2, hp⟩ := except_bind_ok _ _ _ hp
  obtain ⟨l3, h3, hp⟩ := except_bind_ok _ _ _ hp
  obtain ⟨l4, h4, hp⟩ := except_bind_ok _ _ _ hp
  have f1 := h1
  rw [decode_pawns_factor] at f1
  obtain ⟨⟨s, p⟩, g1, f1⟩ := except_bind_ok _ _ _ f1
  simp only at f1
  have f2 := h2
  rw [decode_fixed_rooks_factor] at f2
  obtain ⟨⟨s', p', nfr0, nfr1⟩, g2, f2⟩ := except_bind_ok _ _ _ f2
  simp only at f2
  have hmove0 := decode_pawn_passes_flag h root index s p g1
  -- the explicit outcomes of the two tie-breaks
  have e1 := first_tie_break_eq s p
  rw [f1] at e1
  have e1 := Except.ok.inj e1
  obtain ⟨a1, a2, a3, a4⟩ := decode_fixed_rook_passes_frame h l1 s' p' nfr0 nfr1 g2
  have hl1p : l1.p.enpassant = p.enpassant ∧ (∀ k, (l1.p.sides k).pawns = (p.sides k).pawns) ∧
      l1.p.side0toMove = decide (pawn_counts_break_tie p ∧ s.index % 2 = 1) ∧
      l1.s.index = (if pawn_counts_break_tie p then s.index / 2 else s.index) ∧
      l1.equal_num_pawns
        = decide (_mm_popcnt_u64 (p.sides 0).pawns = _mm_popcnt_u64 (p.sides 1).pawns) := by
    have hp1 : l1.p = if pawn_counts_break_tie p ∧ s.index % 2 = 1 then
        { p with side0toMove := true } else p := congrArg locals.p e1
    have hs1 : l1.s.index = if pawn_counts_break_tie p then s.index / 2 else s.index :=
      congrArg (fun l => l.s.index) e1
    have hq1 := congrArg locals.equal_num_pawns e1
    simp only at hq1
    refine ⟨?_, ?_, ?_, hs1, hq1⟩
    · rw [hp1]
      split <;> rfl
    · intro k
      rw [hp1]
      split <;> rfl
    · rw [hp1]
      by_cases hc : pawn_counts_break_tie p ∧ s.index % 2 = 1
      · rw [if_pos hc, decide_eq_true hc]
      · rw [if_neg hc, decide_eq_false hc]
        exact hmove0
  obtain ⟨b1, b2, b3, b4, b5⟩ := hl1p
  have hpw' : ∀ k, (p'.sides k).pawns = (p.sides k).pawns := fun k => by rw [a2 k, b2 k]
  have hen' : p'.enpassant = p.enpassant := by rw [a1, b1]
  have e2 := second_tie_break_eq l1 s' p' nfr0 nfr1 (by rw [b5, hpw' 0, hpw' 1])
  rw [f2] at e2
  have e2 := Except.ok.inj e2
  have hl2p : l2.p.enpassant = p.enpassant ∧ (∀ k, (l2.p.sides k).pawns = (p.sides k).pawns) ∧
      l2.p.side0toMove = decide ((pawn_counts_break_tie p ∧ s.index % 2 = 1) ∨
        (fixed_rook_counts_break_tie p' nfr0 nfr1 ∧ s'.index % 2 = 1)) ∧
      l2.s.index
        = (if fixed_rook_counts_break_tie p' nfr0 nfr1 then s'.index / 2 else s'.index) := by
    have hp2 : l2.p = if fixed_rook_counts_break_tie p' nfr0 nfr1 ∧ s'.index % 2 = 1 then
        { p' with side0toMove := true } else p' := congrArg locals.p e2
    have hs2 : l2.s.index
        = if fixed_rook_counts_break_tie p' nfr0 nfr1 then s'.index / 2 else s'.index :=
      congrArg (fun l => l.s.index) e2
    refine ⟨?_, ?_, ?_, hs2⟩
    · rw [hp2, ← hen']
      split <;> rfl
    · intro k
      rw [hp2, ← hpw' k]
      split <;> rfl
    · rw [hp2]
      by_cases hc : fixed_rook_counts_break_tie p' nfr0 nfr1 ∧ s'.index % 2 = 1
      · rw [if_pos hc, decide_eq_true (Or.inr hc)]
      · rw [if_neg hc, a4, b3]
        simp only [hc, or_false]
  obtain ⟨c1, c2, c3, c4⟩ := hl2p
  obtain ⟨d1, d2, _, d4, _, _⟩ := decode_pieces_frame h l2 l3 h3
  obtain ⟨k1, k2, _, k4, _, _⟩ := decode_kings_frame h l3 l4 h4
  obtain ⟨m1, _, _, m4⟩ := decode_closing_flags h l4 r hp
  have m2 := decode_closing_pawns h l4 r hp
  have hen : r.p.enpassant = p.enpassant := by rw [m1, k1, d1, c1]
  have hpw : ∀ k, (r.p.sides k).pawns = (p.sides k).pawns := fun k => by
    rw [m2 k, k2 k, d2 k, c2 k]
  have hmove : r.p.side0toMove = decide ((pawn_counts_break_tie p ∧ s.index % 2 = 1) ∨
      (fixed_rook_counts_break_tie p' nfr0 nfr1 ∧ s'.index % 2 = 1)) := by
    rw [m4, k4, d4, c3]
  have hP : pawn_counts_break_tie r.p ↔ pawn_counts_break_tie p := by
    unfold pawn_counts_break_tie
    rw [hen, hpw 0, hpw 1]
  have hF : fixed_rook_counts_break_tie r.p nfr0 nfr1
      ↔ fixed_rook_counts_break_tie p' nfr0 nfr1 := by
    unfold fixed_rook_counts_break_tie
    rw [hen, hpw 0, hpw 1, hen', hpw' 0, hpw' 1]
  have hnot : ¬ (pawn_counts_break_tie r.p ∧ fixed_rook_counts_break_tie r.p nfr0 nfr1) := by
    rintro ⟨⟨_, x⟩, _, y, _⟩
    exact x y
  have hneither : ¬ pawn_counts_break_tie r.p → ¬ fixed_rook_counts_break_tie r.p nfr0 nfr1 →
      l1.s.index = s.index ∧ l2.s.index = s'.index ∧ r.p.side0toMove = false := by
    intro x y
    rw [hP] at x
    rw [hF] at y
    rw [b4, c4, hmove, if_neg x, if_neg y]
    refine ⟨rfl, rfl, ?_⟩
    simp [x, y]
  refine ⟨s, p, l1, s', p', nfr0, nfr1, l2, g1, f1, h1, g2, f2, h2, hen.symm,
    by rw [hen', hen], fun k => (hpw k).symm, fun k => by rw [hpw' k, hpw k], ?_, ?_, ?_,
    hnot, hneither, ?_⟩
  · rw [b4]
    simp only [hP]
  · rw [c4]
    simp only [hF]
  · rw [hmove]
    simp only [hP, hF]
  · intro hne
    exact hneither (fun x => hne x.1) (fun y => hne y.1)

set_option maxRecDepth 100000 in
/-- C13, witness: the decode of index 12345 on the one-path tree `example_tree` with the
example headers. -/
theorem side_to_move_bit_witness :
    returns (decode example_headers example_tree 12345) = true ∧
    ∃ s p l₁ s' p' nfr0 nfr1 l₂,
      decode_pawn_passes example_headers example_tree 12345 = .ok (s, p) ∧
      first_tie_break s p = .ok l₁ ∧
      decode_pawns example_headers example_tree 12345 = .ok l₁ ∧
      decode_fixed_rook_passes example_headers l₁ = .ok (s', p', nfr0, nfr1) ∧
      second_tie_break l₁ s' p' nfr0 nfr1 = .ok l₂ ∧
      decode_fixed_rooks example_headers l₁ = .ok l₂ ∧
      p.enpassant
        = (value_or decode_result.zero (decode example_headers example_tree 12345)).p.enpassant ∧
      p'.enpassant
        = (value_or decode_result.zero (decode example_headers example_tree 12345)).p.enpassant ∧
      (∀ k, (p.sides k).pawns = ((value_or decode_result.zero
        (decode example_headers example_tree 12345)).p.sides k).pawns) ∧
      (∀ k, (p'.sides k).pawns = ((value_or decode_result.zero
        (decode example_headers example_tree 12345)).p.sides k).pawns) ∧
      l₁.s.index = (if pawn_counts_break_tie
          (value_or decode_result.zero (decode example_headers example_tree 12345)).p
        then s.index / 2 else s.index) ∧
      l₂.s.index = (if fixed_rook_counts_break_tie
          (value_or decode_result.zero (decode example_headers example_tree 12345)).p nfr0 nfr1
        then s'.index / 2 else s'.index) ∧
      (value_or decode_result.zero (decode example_headers example_tree 12345)).p.side0toMove
        = decide ((pawn_counts_break_tie
            (value_or decode_result.zero (decode example_headers example_tree 12345)).p
              ∧ s.index % 2 = 1) ∨
          (fixed_rook_counts_break_tie
            (value_or decode_result.zero (decode example_headers example_tree 12345)).p nfr0 nfr1
              ∧ s'.index % 2 = 1)) ∧
      ¬ (pawn_counts_break_tie
          (value_or decode_result.zero (decode example_headers example_tree 12345)).p ∧
        fixed_rook_counts_break_tie
          (value_or decode_result.zero (decode example_headers example_tree 12345)).p
          nfr0 nfr1) ∧
      (¬ pawn_counts_break_tie
          (value_or decode_result.zero (decode example_headers example_tree 12345)).p →
        ¬ fixed_rook_counts_break_tie
          (value_or decode_result.zero (decode example_headers example_tree 12345)).p
          nfr0 nfr1 →
        l₁.s.index = s.index ∧ l₂.s.index = s'.index ∧
          (value_or decode_result.zero
            (decode example_headers example_tree 12345)).p.side0toMove = false) ∧
      ((value_or decode_result.zero
          (decode example_headers example_tree 12345)).p.enpassant ≠ 0 →
        l₁.s.index = s.index ∧ l₂.s.index = s'.index ∧
          (value_or decode_result.zero
            (decode example_headers example_tree 12345)).p.side0toMove = false) :=
  ⟨by decide,
    side_to_move_bit example_headers example_tree 12345
      (value_or decode_result.zero (decode example_headers example_tree 12345)) rfl⟩

/-! ## The counts of the piece passes -/

theorem set2_same (a : Fin 2 → Nat → Int) (i : Fin 2) (j : Nat) (x : Int) :
    set2 a i j x i j = x := by
  simp [set2]

theorem set2_other (a : Fin 2 → Nat → Int) (i : Fin 2) (j k : Nat) (x : Int) (hk : k ≠ j) :
    set2 a i j x i k = a i k := by
  simp [set2, Function.update_noteq hk]

theorem set2_side (a : Fin 2 → Nat → Int) (i i' : Fin 2) (j : Nat) (x : Int) (hi : i' ≠ i) :
    set2 a i j x i' = a i' := by
  simp [set2, Function.update_noteq hi]

theorem decode_pieces_of_side_succ (h : headers) (i : Fin 2) (todo j : Nat) (l : locals) :
    decode_pieces_of_side h i (todo + 1) j l =
      match pass_generic h l.s ((l.p.sides i).pieces j) with
      | .error e => .error e
      | .ok (s, bitboard, n) =>
        if n = 0 then .ok (piece_turn h i j l s bitboard n)
        else decode_pieces_of_side h i todo (j + 1) (piece_turn h i j l s bitboard n) := by
  rw [decode_pieces_of_side]
  rfl

/-- What one turn of the loop records. -/
theorem piece_turn_fields (h : headers) (i : Fin 2) (j : Nat) (l : locals) (s : decode_state)
    (bitboard n : Nat) :
    (piece_turn h i j l s bitboard n).nfr = l.nfr ∧
    (∀ i', i' ≠ i →
      (piece_turn h i j l s bitboard n).num_non_fixed_pieces_less_king i'
        = l.num_non_fixed_pieces_less_king i' ∧
      (piece_turn h i j l s bitboard n).num_non_fixed_base_pieces_less_king i'
        = l.num_non_fixed_base_pieces_less_king i' ∧
      (piece_turn h i j l s bitboard n).promotions i' = l.promotions i') ∧
    (∀ k, k ≠ j →
      (piece_turn h i j l s bitboard n).num_non_fixed_pieces_less_king i k
        = l.num_non_fixed_pieces_less_king i k ∧
      (piece_turn h i j l s bitboard n).num_non_fixed_base_pieces_less_king i k
        = l.num_non_fixed_base_pieces_less_king i k) ∧
    (piece_turn h i j l s bitboard n).num_non_fixed_pieces_less_king i j = n ∧
    (piece_turn h i j l s bitboard n).num_non_fixed_base_pieces_less_king i j
      = min (n : Int) (h.BASE_PIECES (l.nfr i) j) ∧
    (piece_turn h i j l s bitboard n).promotions i
      = l.promotions i + max 0 ((n : Int) - h.BASE_PIECES (l.nfr i) j) := by
  refine ⟨rfl, ?_, ?_, ?_, ?_, ?_⟩
  · intro i' hi
    refine ⟨set2_side _ _ _ _ _ hi, set2_side _ _ _ _ _ hi, ?_⟩
    show (if (n : Int) - h.BASE_PIECES (l.nfr i) j > 0 then
      Function.update l.promotions i (l.promotions i + ((n : Int) - h.BASE_PIECES (l.nfr i) j))
      else l.promotions) i' = l.promotions i'
    split
    · exact Function.update_noteq hi _ _
    · rfl
  · intro k hk
    exact ⟨set2_other _ _ _ _ _ hk, set2_other _ _ _ _ _ hk⟩
  · exact set2_same _ _ _ _
  · show set2 l.num_non_fixed_base_pieces_less_king i j
      (if (n : Int) - h.BASE_PIECES (l.nfr i) j > 0 then h.BASE_PIECES (l.nfr i) j else n) i j = _
    rw [set2_same]
    split
    · rw [min_eq_right (by omega)]
    · rw [min_eq_left (by omega)]
  · show (if (n : Int) - h.BASE_PIECES (l.nfr i) j > 0 then
      Function.update l.promotions i (l.promotions i + ((n : Int) - h.BASE_PIECES (l.nfr i) j))
      else l.promotions) i = _
    split
    · rw [Function.update_same, max_eq_right (by omega)]
    · rw [max_eq_left (by omega), add_zero]

/-- The loop of lines 367-382 from piece type `j` on, when the counts from `j` on are still
zero: what it records for the types `j .. 3`, and where it stops. -/
theorem piece_loop_spec (h : headers) (hbase : ∀ s j, 0 ≤ h.BASE_PIECES s j) (i : Fin 2) :
    ∀ (todo j : Nat) (l l' : locals), j + todo = 4 →
      decode_pieces_of_side h i todo j l = .ok l' →
      (∀ k, j ≤ k → l.num_non_fixed_pieces_less_king i k = 0 ∧
        l.num_non_fixed_base_pieces_less_king i k = 0) →
      l'.nfr = l.nfr ∧
      (∀ i', i' ≠ i →
        l'.num_non_fixed_pieces_less_king i' = l.num_non_fixed_pieces_less_king i' ∧
        l'.num_non_fixed_base_pieces_less_king i' = l.num_non_fixed_base_pieces_less_king i' ∧
        l'.promotions i' = l.promotions i') ∧
      (∀ k, k < j →
        l'.num_non_fixed_pieces_less_king i k = l.num_non_fixed_pieces_less_king i k ∧
        l'.num_non_fixed_base_pieces_less_king i k
          = l.num_non_fixed_base_pieces_less_king i k) ∧
      (∀ k, j ≤ k → k < 4 →
        l'.num_non_fixed_base_pieces_less_king i k
          = min (l'.num_non_fixed_pieces_less_king i k) (h.BASE_PIECES (l.nfr i) k)) ∧
      l'.promotions i = l.promotions i
        + ∑ k in Finset.Ico j 4,
            max 0 (l'.num_non_fixed_pieces_less_king i k - h.BASE_PIECES (l.nfr i) k) ∧
      (∀ k, j ≤ k → k < 4 → l'.num_non_fixed_pieces_less_king i k = 0 →
        (∀ m, k < m → l'.num_non_fixed_pieces_less_king i m = 0 ∧
          l'.num_non_fixed_base_pieces_less_king i m = 0) ∧
        decode_pieces_of_side h i (k + 1 - j) j l = .ok l') := by
  intro todo
  induction todo with
  | zero =>
    intro j l l' hj hp _
    have := Except.ok.inj hp
    subst this
    have hj4 : j = 4 := by omega
    subst hj4
    refine ⟨rfl, fun _ _ => ⟨rfl, rfl, rfl⟩, fun _ _ => ⟨rfl, rfl⟩, ?_, ?_, ?_⟩
    · intro k h1 h2; omega
    · simp
    · intro k h1 h2; omega
  | succ todo ih =>
    intro j l l' hj hp hz
    have hj4 : j < 4 := by omega
    rw [decode_pieces_of_side_succ] at hp
    cases hpg : pass_generic h l.s ((l.p.sides i).pieces j) with
    | error e => rw [hpg] at hp; cases hp
    | ok v =>
      obtain ⟨s1, bb, n⟩ := v
      rw [hpg] at hp
      simp only at hp
      obtain ⟨t1, t2, t3, t4, t5, t6⟩ := piece_turn_fields h i j l s1 bb n
      by_cases hn : n = 0
      · rw [if_pos hn] at hp
        have := Except.ok.inj hp
        subst this
        have hcz : ∀ k, j ≤ k →
            (piece_turn h i j l s1 bb n).num_non_fixed_pieces_less_king i k = 0 ∧
            (piece_turn h i j l s1 bb n).num_non_fixed_base_pieces_less_king i k = 0 := by
          intro k hk
          by_cases hkj : k = j
          · subst hkj
            rw [t4, t5, hn]
            have := hbase (l.nfr i) k
            exact ⟨rfl, by simp [this]⟩
          · rw [(t3 k hkj).1, (t3 k hkj).2]
            exact hz k hk
        refine ⟨t1, t2, fun k hk => t3 k (by omega), ?_, ?_, ?_⟩
        · intro k h1 _
          rw [(hcz k h1).1, (hcz k h1).2]
          have := hbase (l.nfr i) k
          simp [this]
        · rw [t6, hn]
          have h0 := hbase (l.nfr i) j
          have hsum : ∑ k in Finset.Ico j 4,
              max 0 ((piece_turn h i j l s1 bb 0).num_non_fixed_pieces_less_king i k
                - h.BASE_PIECES (l.nfr i) k) = 0 := by
            apply Finset.sum_eq_zero
            intro k hk
            rw [Finset.mem_Ico] at hk
            have := (hcz k hk.1).1
            rw [hn] at this
            rw [this]
            have := hbase (l.nfr i) k
            simp [this]
          rw [hsum]
          simp [h0]
        · intro k h1 h2 _
          refine ⟨fun m hm => hcz m (by omega), ?_⟩
          have : k + 1 - j = (k - j) + 1 := by omega
          rw [this, decode_pieces_of_side_succ, hpg]
          simp only
          rw [if_pos hn]
      · rw [if_neg hn] at hp
        have hz1 : ∀ k, j + 1 ≤ k →
            (piece_turn h i j l s1 bb n).num_non_fixed_pieces_less_king i k = 0 ∧
            (piece_turn h i j l s1 bb n).num_non_fixed_base_pieces_less_king i k = 0 := by
          intro k hk
          rw [(t3 k (by omega)).1, (t3 k (by omega)).2]
          exact hz k (by omega)
        obtain ⟨k1, k2, k3, k4, k5, k6⟩ := ih (j + 1) _ l' (by omega) hp hz1
        have hcj : l'.num_non_fixed_pieces_less_king i j = n := by
          rw [(k3 j (by omega)).1, t4]
        refine ⟨by rw [k1, t1], ?_, ?_, ?_, ?_, ?_⟩
        · intro i' hi
          obtain ⟨a, b, c⟩ := k2 i' hi
          obtain ⟨a', b', c'⟩ := t2 i' hi
          exact ⟨by rw [a, a'], by rw [b, b'], by rw [c, c']⟩
        · intro k hk
          obtain ⟨a, b⟩ := k3 k (by omega)
          obtain ⟨a', b'⟩ := t3 k (by omega)
          exact ⟨by rw [a, a'], by rw [b, b']⟩
        · intro k h1 h2
          by_cases hkj : k = j
          · subst hkj
            rw [(k3 k (by omega)).2, t5, hcj]
          · have := k4 k (by omega) h2
            rw [t1] at this
            exact this
        · rw [k5, t6, Finset.sum_eq_sum_Ico_succ_bot hj4, hcj, t1]
          ring
        · intro k h1 h2 hck
          have hkj : k ≠ j := by
            intro hc
            subst hc
            rw [hcj] at hck
            exact hn (by exact_mod_cast hck)
          obtain ⟨a, b⟩ := k6 k (by omega) h2 hck
          refine ⟨a, ?_⟩
          have : k + 1 - j = (k - j) + 1 := by omega
          rw [this, decode_pieces_of_side_succ, hpg]
          simp only
          rw [if_neg hn]
          have : k - j = k + 1 - (j + 1) := by omega
          rw [this]
          exact b

/-- The pawn stage leaves the count arrays and the promotions at zero. -/
theorem decode_pawns_counts (h : headers) (root : position_node) (index : Nat) (l : locals)
    (hp : decode_pawns h root index = .ok l) :
    (∀ i k, l.num_non_fixed_pieces_less_king i k = 0) ∧
      (∀ i k, l.num_non_fixed_base_pieces_less_king i k = 0) ∧ (∀ i, l.promotions i = 0) := by
  rw [decode_pawns_factor] at hp
  obtain ⟨⟨s, p⟩, _, hp⟩ := except_bind_ok _ _ _ hp
  simp only at hp
  rw [first_tie_break_eq] at hp
  have := Except.ok.inj hp
  subst this
  exact ⟨fun _ _ => rfl, fun _ _ => rfl, fun _ => rfl⟩

/-- The fixed-rook stage leaves the count arrays and the promotions alone. -/
theorem decode_fixed_rooks_counts (h : headers) (l l' : locals)
    (hp : decode_fixed_rooks h l = .ok l') :
    l'.num_non_fixed_pieces_less_king = l.num_non_fixed_pieces_less_king ∧
      l'.num_non_fixed_base_pieces_less_king = l.num_non_fixed_base_pieces_less_king ∧
      l'.promotions = l.promotions := by
  unfold decode_fixed_rooks at hp
  obtain ⟨⟨s1, p1, nfr0⟩, h1, hp⟩ := except_bind_ok _ _ _ hp
  simp only at hp
  obtain ⟨⟨s2, p2, nfr1⟩, h2, hp⟩ := except_bind_ok _ _ _ hp
  simp only at hp
  obtain ⟨⟨index', p3⟩, h3, hp⟩ := except_bind_ok _ _ _ hp
  simp only at hp
  have hl' := Except.ok.inj hp
  subst hl'
  exact ⟨rfl, rfl, rfl⟩

/-- C14: in every decode, with a table `BASE_PIECES` of non-negative entries: after the piece
passes, for each side i with fixed-rook count s = nfr[i] and counts c[j] =
num_non_fixed_pieces_less_king[i][j], promotions[i] is the sum over the four piece types of
max(0, c[j] - BASE_PIECES[s][j]) and the base count of type j is min(c[j],
BASE_PIECES[s][j]); once a count is zero, the counts and base counts of the later types are
zero, and the loop run for the types up to that one only gives the same outcome as the whole
loop: the later types are not navigated. -/
theorem promotions_are_excess_over_base (h : headers) (root : position_node) (index : Nat)
    (l₁ l₂ l₃ : locals) (hbase : ∀ s j, 0 ≤ h.BASE_PIECES s j)
    (h1 : decode_pawns h root index = .ok l₁) (h2 : decode_fixed_rooks h l₁ = .ok l₂)
    (h3 : decode_pieces h l₂ = .ok l₃) :
    ∃ l₀, decode_pieces_of_side h 0 NUM_PIECE_TYPES_LESS_KING 0 l₂ = .ok l₀ ∧
      decode_pieces_of_side h 1 NUM_PIECE_TYPES_LESS_KING 0 l₀ = .ok l₃ ∧
      (∀ j, j < 4 → l₃.num_non_fixed_pieces_less_king 0 j = 0 →
        decode_pieces_of_side h 0 (j + 1) 0 l₂ = .ok l₀) ∧
      (∀ j, j < 4 → l₃.num_non_fixed_pieces_less_king 1 j = 0 →
        decode_pieces_of_side h 1 (j + 1) 0 l₀ = .ok l₃) ∧
      ∀ i : Fin 2,
        l₃.promotions i
          = ∑ j in Finset.range 4,
              max 0 (l₃.num_non_fixed_pieces_less_king i j - h.BASE_PIECES (l₂.nfr i) j) ∧
        (∀ j, j < 4 →
          l₃.num_non_fixed_base_pieces_less_king i j
            = min (l₃.num_non_fixed_pieces_less_king i j) (h.BASE_PIECES (l₂.nfr i) j)) ∧
        (∀ j, j < 4 → l₃.num_non_fixed_pieces_less_king i j = 0 →
          ∀ k, j < k → l₃.num_non_fixed_pieces_less_king i k = 0 ∧
            l₃.num_non_fixed_base_pieces_less_king i k = 0) := by
  obtain ⟨z1, z2, z3⟩ := decode_pawns_counts h root index l₁ h1
  obtain ⟨y1, y2, y3⟩ := decode_fixed_rooks_counts h l₁ l₂ h2
  unfold decode_pieces at h3
  obtain ⟨l₀, g0, g1⟩ := except_bind_ok _ _ _ h3
  have hz0 : ∀ (i : Fin 2) k, l₂.num_non_fixed_pieces_less_king i k = 0 ∧
      l₂.num_non_fixed_base_pieces_less_king i k = 0 := by
    intro i k
    rw [y1, y2]
    exact ⟨z1 i k, z2 i k⟩
  obtain ⟨a1, a2, a3, a4, a5, a6⟩ := piece_loop_spec h hbase 0 _ 0 l₂ l₀ rfl g0
    (fun k _ => hz0 0 k)
  obtain ⟨o1, o2, o3⟩ := a2 1 (by decide)
  have hz1 : ∀ k, l₀.num_non_fixed_pieces_less_king 1 k = 0 ∧
      l₀.num_non_fixed_base_pieces_less_king 1 k = 0 := by
    intro k
    rw [o1, o2]
    exact hz0 1 k
  obtain ⟨b1, b2, b3, b4, b5, b6⟩ := piece_loop_spec h hbase 1 _ 0 l₀ l₃ rfl g1
    (fun k _ => hz1 k)
  obtain ⟨q1, q2, q3⟩ := b2 0 (by decide)
  refine ⟨l₀, g0, g1, ?_, ?_, ?_⟩
  · intro j hj hc
    rw [q1] at hc
    have := (a6 j (Nat.zero_le _) hj hc).2
    simpa using this
  · intro j hj hc
    have := (b6 j (Nat.zero_le _) hj hc).2
    simpa using this
  · have key0 : l₃.promotions 0
          = ∑ j in Finset.range 4,
              max 0 (l₃.num_non_fixed_pieces_less_king 0 j - h.BASE_PIECES (l₂.nfr 0) j) ∧
        (∀ j, j < 4 →
          l₃.num_non_fixed_base_pieces_less_king 0 j
            = min (l₃.num_non_fixed_pieces_less_king 0 j) (h.BASE_PIECES (l₂.nfr 0) j)) ∧
        (∀ j, j < 4 → l₃.num_non_fixed_pieces_less_king 0 j = 0 →
          ∀ k, j < k → l₃.num_non_fixed_pieces_less_king 0 k = 0 ∧
            l₃.num_non_fixed_base_pieces_less_king 0 k = 0) := by
      refine ⟨?_, ?_, ?_⟩
      · rw [q3, a5, y3, z3, zero_add, Finset.range_eq_Ico, q1]
      · intro j hj
        rw [q2, q1]
        exact a4 j (Nat.zero_le _) hj
      · intro j hj hc k hk
        rw [q1] at hc
        rw [q1, q2]
        exact (a6 j (Nat.zero_le _) hj hc).1 k hk
    have key1 : l₃.promotions 1
          = ∑ j in Finset.range 4,
              max 0 (l₃.num_non_fixed_pieces_less_king 1 j - h.BASE_PIECES (l₂.nfr 1) j) ∧
        (∀ j, j < 4 →
          l₃.num_non_fixed_base_pieces_less_king 1 j
            = min (l₃.num_non_fixed_pieces_less_king 1 j) (h.BASE_PIECES (l₂.nfr 1) j)) ∧
        (∀ j, j < 4 → l₃.num_non_fixed_pieces_less_king 1 j = 0 →
          ∀ k, j < k → l₃.num_non_fixed_pieces_less_king 1 k = 0 ∧
            l₃.num_non_fixed_base_pieces_less_king 1 k = 0) := by
      refine ⟨?_, ?_, ?_⟩
      · rw [b5, o3, y3, z3, zero_add, Finset.range_eq_Ico, a1]
      · intro j hj
        rw [← a1]
        exact b4 j (Nat.zero_le _) hj
      · intro j hj hc k hk
        exact (b6 j (Nat.zero_le _) hj hc).1 k hk
    intro i
    fin_cases i
    · exact key0
    · exact key1

set_option maxRecDepth 100000 in
/-- C14, witness: the decode of index 123456789 on the one-path tree `promotion_tree` with the
example headers, whose table `BASE_PIECES` holds 2 everywhere: side 0 has the counts 3, 1, 0,
0, one promotion and the base counts 2, 1, 0, 0. -/
theorem promotions_are_excess_over_base_witness :
    (value_or locals.zero (decode_pawns example_headers promotion_tree 123456789
        >>= decode_fixed_rooks example_headers
        >>= decode_pieces example_headers)).promotions 0 = 1 ∧
    ∃ l₀,
      decode_pieces_of_side example_headers 0 NUM_PIECE_TYPES_LESS_KING 0
        (value_or locals.zero (decode_pawns example_headers promotion_tree 123456789
          >>= decode_fixed_rooks example_headers)) = .ok l₀ ∧
      decode_pieces_of_side example_headers 1 NUM_PIECE_TYPES_LESS_KING 0 l₀
        = .ok (value_or locals.zero (decode_pawns example_headers promotion_tree 123456789
          >>= decode_fixed_rooks example_headers >>= decode_pieces example_headers)) ∧
      (∀ j, j < 4 →
        (value_or locals.zero (decode_pawns example_headers promotion_tree 123456789
          >>= decode_fixed_rooks example_headers
          >>= decode_pieces example_headers)).num_non_fixed_pieces_less_king 0 j = 0 →
        decode_pieces_of_side example_headers 0 (j + 1) 0
          (value_or locals.zero (decode_pawns example_headers promotion_tree 123456789
            >>= decode_fixed_rooks example_headers)) = .ok l₀) ∧
      (∀ j, j < 4 →
        (value_or locals.zero (decode_pawns example_headers promotion_tree 123456789
          >>= decode_fixed_rooks example_headers
          >>= decode_pieces example_headers)).num_non_fixed_pieces_less_king 1 j = 0 →
        decode_pieces_of_side example_headers 1 (j + 1) 0 l₀
          = .ok (value_or locals.zero (decode_pawns example_headers promotion_tree 123456789
            >>= decode_fixed_rooks example_headers >>= decode_pieces example_headers))) ∧
      ∀ i : Fin 2,
        (value_or locals.zero (decode_pawns example_headers promotion_tree 123456789
          >>= decode_fixed_rooks example_headers
          >>= decode_pieces example_headers)).promotions i
          = ∑ j in Finset.range 4,
              max 0 ((value_or locals.zero
                  (decode_pawns example_headers promotion_tree 123456789
                    >>= decode_fixed_rooks example_headers
                    >>= decode_pieces example_headers)).num_non_fixed_pieces_less_king i j
                - example_headers.BASE_PIECES
                  ((value_or locals.zero (decode_pawns example_headers promotion_tree 123456789
                    >>= decode_fixed_rooks example_headers)).nfr i) j) ∧
        (∀ j, j < 4 →
          (value_or locals.zero (decode_pawns example_headers promotion_tree 123456789
            >>= decode_fixed_rooks example_headers
            >>= decode_pieces example_headers)).num_non_fixed_base_pieces_less_king i j
            = min ((value_or locals.zero
                  (decode_pawns example_headers promotion_tree 123456789
                    >>= decode_fixed_rooks example_headers
                    >>= decode_pieces example_headers)).num_non_fixed_pieces_less_king i j)
                (example_headers.BASE_PIECES
                  ((value_or locals.zero (decode_pawns example_headers promotion_tree 123456789
                    >>= decode_fixed_rooks example_headers)).nfr i) j)) ∧
        (∀ j, j < 4 →
          (value_or locals.zero (decode_pawns example_headers promotion_tree 123456789
            >>= decode_fixed_rooks example_headers
            >>= decode_pieces example_headers)).num_non_fixed_pieces_less_king i j = 0 →
          ∀ k, j < k →
            (value_or locals.zero (decode_pawns example_headers promotion_tree 123456789
              >>= decode_fixed_rooks example_headers
              >>= decode_pieces example_headers)).num_non_fixed_pieces_less_king i k = 0 ∧
            (value_or locals.zero (decode_pawns example_headers promotion_tree 123456789
              >>= decode_fixed_rooks example_headers
              >>= decode_pieces example_headers)).num_non_fixed_base_pieces_less_king i k
              = 0) :=
  ⟨by decide,
    promotions_are_excess_over_base example_headers promotion_tree 123456789
      (value_or locals.zero (decode_pawns example_headers promotion_tree 123456789))
      (value_or locals.zero (decode_pawns example_headers promotion_tree 123456789
        >>= decode_fixed_rooks example_headers))
      (value_or locals.zero (decode_pawns example_headers promotion_tree 123456789
        >>= decode_fixed_rooks example_headers >>= decode_pieces example_headers))
      (fun _ _ => show (0 : Int) ≤ 2 by decide) rfl rfl rfl⟩

/-- C15 fails as stated: the vector (1, 2, 1, 3) of non-negative entries is given class 0,
the class of four distinct entries with divisor 1, although its entries 0 and 2 are equal;
two permutations of the positions leave it unchanged. -/
theorem fundamentalSet_index_counterexample :
    (∀ i, 0 ≤ (![1, 2, 1, 3] : Fin 4 → Int) i) ∧
    get_fundamentalSet_index ![1, 2, 1, 3] = 0 ∧
    FUNDAMENTAL_SET_DIVISORS[get_fundamentalSet_index ![1, 2, 1, 3]]? = some 1 ∧
    (![1, 2, 1, 3] : Fin 4 → Int) 0 = (![1, 2, 1, 3] : Fin 4 → Int) 2 ∧
    ¬ Function.Injective (![1, 2, 1, 3] : Fin 4 → Int) ∧
    stabilizer_size ![1, 2, 1, 3] = 2 := by
  refine ⟨by decide, by decide, by decide, by decide, ?_, by decide⟩
  intro hinj
  have : (0 : Fin 4) = 2 := hinj (by decide)
  exact absurd this (by decide)

/-- C15, amended: for every vector of four integers `get_fundamentalSet_index` returns a class
in 0..7 (the `exit(1)` after the comparisons is never reached); it compares neighbouring
entries only, and returns class 0 exactly when the three pairs of neighbours differ; pairwise
distinct entries are given class 0; and for a non-increasing vector class 0 is returned
exactly when the four entries are pairwise distinct. -/
theorem fundamentalSet_index_total (v : Fin 4 → Int) :
    get_fundamentalSet_index v < 8 ∧
    (get_fundamentalSet_index v = 0 ↔ (v 1 ≠ v 0 ∧ v 2 ≠ v 1 ∧ v 3 ≠ v 2)) ∧
    (Function.Injective v → get_fundamentalSet_index v = 0) ∧
    (v 0 ≥ v 1 ∧ v 1 ≥ v 2 ∧ v 2 ≥ v 3 →
      (get_fundamentalSet_index v = 0 ↔ Function.Injective v)) := by
  have hiff : get_fundamentalSet_index v = 0 ↔ (v 1 ≠ v 0 ∧ v 2 ≠ v 1 ∧ v 3 ≠ v 2) := by
    unfold get_fundamentalSet_index
    split_ifs <;> simp_all
  have hinj : Function.Injective v → get_fundamentalSet_index v = 0 := by
    intro hv
    rw [hiff]
    refine ⟨fun hc => ?_, fun hc => ?_, fun hc => ?_⟩
    · exact absurd (hv hc) (by decide)
    · exact absurd (hv hc) (by decide)
    · exact absurd (hv hc) (by decide)
  refine ⟨?_, hiff, hinj, ?_⟩
  · unfold get_fundamentalSet_index
    split_ifs <;> decide
  · intro hmono
    refine ⟨fun hc => ?_, hinj⟩
    obtain ⟨h1, h2, h3⟩ := hiff.1 hc
    obtain ⟨m1, m2, m3⟩ := hmono
    intro i j hij
    fin_cases i <;> fin_cases j <;> simp at hij ⊢ <;> omega

/-- C15 amended, witness: the vector (4, 3, 2, 1). -/
theorem fundamentalSet_index_total_witness :
    get_fundamentalSet_index ![4, 3, 2, 1] < 8 ∧
    (get_fundamentalSet_index ![4, 3, 2, 1] = 0 ↔
      ((![4, 3, 2, 1] : Fin 4 → Int) 1 ≠ (![4, 3, 2, 1] : Fin 4 → Int) 0 ∧
        (![4, 3, 2, 1] : Fin 4 → Int) 2 ≠ (![4, 3, 2, 1] : Fin 4 → Int) 1 ∧
        (![4, 3, 2, 1] : Fin 4 → Int) 3 ≠ (![4, 3, 2, 1] : Fin 4 → Int) 2)) ∧
    (Function.Injective (![4, 3, 2, 1] : Fin 4 → Int) →
      get_fundamentalSet_index ![4, 3, 2, 1] = 0) ∧
    ((![4, 3, 2, 1] : Fin 4 → Int) 0 ≥ (![4, 3, 2, 1] : Fin 4 → Int) 1 ∧
      (![4, 3, 2, 1] : Fin 4 → Int) 1 ≥ (![4, 3, 2, 1] : Fin 4 → Int) 2 ∧
      (![4, 3, 2, 1] : Fin 4 → Int) 2 ≥ (![4, 3, 2, 1] : Fin 4 → Int) 3 →
      (get_fundamentalSet_index ![4, 3, 2, 1] = 0 ↔
        Function.Injective (![4, 3, 2, 1] : Fin 4 → Int))) :=
  fundamentalSet_index_total ![4, 3, 2, 1]

/-- C16 fails as stated: with the boundary arrays {1, 2147483647} on both sides (class 0,
divisor 1, slack bounds 1) the rank 2147483650 is below the total 4294967293, and the first
cost pair whose cumulative sum exceeds it is (1, 0), for which the claim gives the pair
(4, 0); the function returns (-2147483646, 0): the signed 32-bit difference `d` is negative
already at the cost pair (0, 0). -/
theorem permutation_index_first_cell_counterexample :
    boundaries_ok 2 wide_boundaries ∧
    ((2147483650 : Nat) : Int) < total 2 ![1, 1] 1 wide_boundaries ![0, 0] ∧
    visited 2 ![1, 1] 1 1 0 ∧
    rows_total 2 ![1, 1] 1 wide_boundaries ![0, 0] 1 + row_total wide_boundaries ![0, 0] 1 0
      ≤ ((2147483650 : Nat) : Int) ∧
    ((2147483650 : Nat) : Int)
      < rows_total 2 ![1, 1] 1 wide_boundaries ![0, 0] 1
        + row_total wide_boundaries ![0, 0] 1 1 ∧
    cell_pair wide_boundaries ![0, 0] 1 0
      (((2147483650 : Nat) : Int) - (rows_total 2 ![1, 1] 1 wide_boundaries ![0, 0] 1
        + row_total wide_boundaries ![0, 0] 1 0)) = (4, 0) ∧
    get_permutation_index 2 ![1, 1] 1 wide_boundaries ![0, 0] 2147483650
      = .ok ⟨(-2147483646, 0)⟩ := by
  refine ⟨by decide, by decide, by decide, by decide, by decide, by decide, by decide⟩

/-- C16, amended: for classes in 0..7 and boundary arrays of non-negative, non-decreasing
`int` values whose visited cells sum to a total below 2^31, every rank below the total is
resolved in the first visited cost pair (i, j), in the order of the loops, whose cumulative
sum of p0*p1 exceeds the rank; i and j are within the slack bounds; with r' the rank minus
the sum over the earlier pairs the result is (B0(i-1) + r' div p1(j), B1(j-1) + r' mod p1(j)),
which lies in the rectangle of the pair; and p1(j) is positive, so that the division is not
one by zero. -/
theorem permutation_index_first_cell (MAX_UNIQUE_COSTS : Nat) (pawn_slack : Fin 2 → Int)
    (chessmen_slack : Int) (cost_boundaries : Fin 2 → Nat → Int)
    (fundamentalSet_indices : Fin 2 → Nat)
    (hfs : ∀ s, fundamentalSet_indices s < 8)
    (hok : boundaries_ok MAX_UNIQUE_COSTS cost_boundaries)
    (htot : total MAX_UNIQUE_COSTS pawn_slack chessmen_slack cost_boundaries
      fundamentalSet_indices < 2 ^ 31)
    (rank : Nat)
    (hlt : (rank : Int) < total MAX_UNIQUE_COSTS pawn_slack chessmen_slack cost_boundaries
      fundamentalSet_indices) :
    ∃ i j, visited MAX_UNIQUE_COSTS pawn_slack chessmen_slack i j ∧
      (rank : Int) < rows_total MAX_UNIQUE_COSTS pawn_slack chessmen_slack cost_boundaries
          fundamentalSet_indices i
        + row_total cost_boundaries fundamentalSet_indices i (j + 1) ∧
      (∀ i' j', visited MAX_UNIQUE_COSTS pawn_slack chessmen_slack i' j' →
        (i' < i ∨ (i' = i ∧ j' < j)) →
        rows_total MAX_UNIQUE_COSTS pawn_slack chessmen_slack cost_boundaries
            fundamentalSet_indices i'
          + row_total cost_boundaries fundamentalSet_indices i' (j' + 1) ≤ (rank : Int)) ∧
      (i : Int) ≤ min (pawn_slack 0) ((MAX_UNIQUE_COSTS : Int) - 1) ∧
      (j : Int) ≤ min (pawn_slack 1) ((MAX_UNIQUE_COSTS : Int) - 1) ∧
      (i : Int) + j ≤ chessmen_slack ∧
      get_permutation_index MAX_UNIQUE_COSTS pawn_slack chessmen_slack cost_boundaries
          fundamentalSet_indices rank
        = .ok ⟨(boundary_before cost_boundaries fundamentalSet_indices 0 i
            + ((rank : Int) - (rows_total MAX_UNIQUE_COSTS pawn_slack chessmen_slack
                cost_boundaries fundamentalSet_indices i
              + row_total cost_boundaries fundamentalSet_indices i j))
              / perm_count cost_boundaries fundamentalSet_indices 1 j,
          boundary_before cost_boundaries fundamentalSet_indices 1 j
            + ((rank : Int) - (rows_total MAX_UNIQUE_COSTS pawn_slack chessmen_slack
                cost_boundaries fundamentalSet_indices i
              + row_total cost_boundaries fundamentalSet_indices i j))
              % perm_count cost_boundaries fundamentalSet_indices 1 j)⟩ ∧
      in_rectangle cost_boundaries fundamentalSet_indices i j
        (boundary_before cost_boundaries fundamentalSet_indices 0 i
            + ((rank : Int) - (rows_total MAX_UNIQUE_COSTS pawn_slack chessmen_slack
                cost_boundaries fundamentalSet_indices i
              + row_total cost_boundaries fundamentalSet_indices i j))
              / perm_count cost_boundaries fundamentalSet_indices 1 j,
          boundary_before cost_boundaries fundamentalSet_indices 1 j
            + ((rank : Int) - (rows_total MAX_UNIQUE_COSTS pawn_slack chessmen_slack
                cost_boundaries fundamentalSet_indices i
              + row_total cost_boundaries fundamentalSet_indices i j))
              % perm_count cost_boundaries fundamentalSet_indices 1 j) ∧
      0 < perm_count cost_boundaries fundamentalSet_indices 1 j := by
  obtain ⟨i, j, r, hv, hr0, hr, hrank⟩ := exists_cell MAX_UNIQUE_COSTS pawn_slack
    chessmen_slack cost_boundaries fundamentalSet_indices rank hlt
  obtain ⟨hiM, hjM⟩ := visited_lt MAX_UNIQUE_COSTS pawn_slack chessmen_slack i j hv
  have hr' : (rank : Int) - (rows_total MAX_UNIQUE_COSTS pawn_slack chessmen_slack
      cost_boundaries fundamentalSet_indices i
    + row_total cost_boundaries fundamentalSet_indices i j) = r := by omega
  have hp1 := (perm_count_range MAX_UNIQUE_COSTS cost_boundaries fundamentalSet_indices hfs hok
    1 j hjM).1
  have hp1pos : 0 < perm_count cost_boundaries fundamentalSet_indices 1 j := by
    rcases lt_or_eq_of_le hp1 with h | h
    · exact h
    · exfalso
      unfold cell_size at hr
      rw [← h, mul_zero] at hr
      omega
  have hcell := (get_permutation_index_of_cell MAX_UNIQUE_COSTS pawn_slack chessmen_slack
    cost_boundaries fundamentalSet_indices hfs hok htot i j r rank hv hr0 hr hrank).2
  have hrect := cell_pair_in_rectangle cost_boundaries fundamentalSet_indices i j r hp1 hr0 hr
  have hpair : cell_pair cost_boundaries fundamentalSet_indices i j r
      = (boundary_before cost_boundaries fundamentalSet_indices 0 i
          + r / perm_count cost_boundaries fundamentalSet_indices 1 j,
        boundary_before cost_boundaries fundamentalSet_indices 1 j
          + r % perm_count cost_boundaries fundamentalSet_indices 1 j) := by
    unfold cell_pair
    rw [add_comm, add_comm (r % _)]
  rw [hpair] at hcell hrect
  have hrow0 : 0 ≤ row_total cost_boundaries fundamentalSet_indices i j := by
    have := row_total_mono MAX_UNIQUE_COSTS cost_boundaries fundamentalSet_indices hfs hok i hiM
      0 j (Nat.zero_le _) (by omega)
    rw [row_total_zero] at this
    exact this
  refine ⟨i, j, hv, ?_, ?_, ?_, ?_, ?_, ?_, ?_, hp1pos⟩
  · rw [row_total_succ]
    omega
  · intro i' j' hv' hlex
    obtain ⟨hi'M, hj'M⟩ := visited_lt MAX_UNIQUE_COSTS pawn_slack chessmen_slack i' j' hv'
    rcases hlex with hlt' | ⟨rfl, hlt'⟩
    · have h1 := row_total_mono MAX_UNIQUE_COSTS cost_boundaries fundamentalSet_indices hfs hok
        i' hi'M (j' + 1) (inner_count MAX_UNIQUE_COSTS pawn_slack chessmen_slack i')
        (by have := hv'.2; omega) (inner_count_le MAX_UNIQUE_COSTS pawn_slack chessmen_slack i')
      have h2 := rows_total_succ MAX_UNIQUE_COSTS pawn_slack chessmen_slack cost_boundaries
        fundamentalSet_indices i'
      have h3 := rows_total_mono MAX_UNIQUE_COSTS pawn_slack chessmen_slack cost_boundaries
        fundamentalSet_indices hfs hok (i' + 1) i (by omega) (by omega)
      omega
    · have h1 := row_total_mono MAX_UNIQUE_COSTS cost_boundaries fundamentalSet_indices hfs hok
        i' hiM (j' + 1) j (by omega) (by omega)
      omega
  · have h1 := hv.1
    unfold outer_count min3 at h1
    omega
  · have h1 := hv.2
    unfold inner_count min3 at h1
    omega
  · have h1 := hv.2
    unfold inner_count min3 at h1
    omega
  · rw [hr']
    exact hcell
  · rw [hr']
    exact hrect

/-- C16 amended, witness: boundary arrays {2, 6, 10} (class 1, divisor 2) and {3, 9, 12}
(class 0, divisor 1), slack bounds 1, total 15, rank 7. -/
theorem permutation_index_first_cell_witness :
    ∃ i j, visited 3 ![1, 1] 1 i j ∧
      ((7 : Nat) : Int) < rows_total 3 ![1, 1] 1 example_boundaries
          ![1, 0] i
        + row_total example_boundaries ![1, 0] i (j + 1) ∧
      (∀ i' j', visited 3 ![1, 1] 1 i' j' →
        (i' < i ∨ (i' = i ∧ j' < j)) →
        rows_total 3 ![1, 1] 1 example_boundaries
            ![1, 0] i'
          + row_total example_boundaries ![1, 0] i' (j' + 1) ≤ ((7 : Nat) : Int)) ∧
      (i : Int) ≤ min ((![1, 1] : Fin 2 → Int) 0) (((3 : Nat) : Int) - 1) ∧
      (j : Int) ≤ min ((![1, 1] : Fin 2 → Int) 1) (((3 : Nat) : Int) - 1) ∧
      (i : Int) + j ≤ 1 ∧
      get_permutation_index 3 ![1, 1] 1 example_boundaries
          ![1, 0] 7
        = .ok ⟨(boundary_before example_boundaries ![1, 0] 0 i
            + (((7 : Nat) : Int) - (rows_total 3 ![1, 1] 1
                example_boundaries ![1, 0] i
              + row_total example_boundaries ![1, 0] i j))
              / perm_count example_boundaries ![1, 0] 1 j,
          boundary_before example_boundaries ![1, 0] 1 j
            + (((7 : Nat) : Int) - (rows_total 3 ![1, 1] 1
                example_boundaries ![1, 0] i
              + row_total example_boundaries ![1, 0] i j))
              % perm_count example_boundaries ![1, 0] 1 j)⟩ ∧
      in_rectangle example_boundaries ![1, 0] i j
        (boundary_before example_boundaries ![1, 0] 0 i
            + (((7 : Nat) : Int) - (rows_total 3 ![1, 1] 1
                example_boundaries ![1, 0] i
              + row_total example_boundaries ![1, 0] i j))
              / perm_count example_boundaries ![1, 0] 1 j,
          boundary_before example_boundaries ![1, 0] 1 j
            + (((7 : Nat) : Int) - (rows_total 3 ![1, 1] 1
                example_boundaries ![1, 0] i
              + row_total example_boundaries ![1, 0] i j))
              % perm_count example_boundaries ![1, 0] 1 j) ∧
      0 < perm_count example_boundaries ![1, 0] 1 j :=
  permutation_index_first_cell 3 ![1, 1] 1 example_boundaries ![1, 0]
    (by decide) (by decide) (by decide) 7 (by decide)

/-! ## The deposit into the free squares -/

/-- The bits of the deposit: bit `q` is set exactly when `q` is the place of the `i`-th set bit
of the mask for a set bit `i` of the source. -/
theorem pdep_bits_testBit : ∀ (w src mask q : Nat),
    (pdep_bits w src mask).testBit q = true ↔
      ∃ i, src.testBit i = true ∧ nth_set_bit w mask i = some q := by
  intro w
  induction w with
  | zero =>
    intro src mask q
    simp [pdep_bits, nth_set_bit]
  | succ w ih =>
    intro src mask q
    simp only [pdep_bits, nth_set_bit]
    by_cases hm : mask % 2 = 1
    · simp only [hm, if_true]
      have hdiv : (src % 2 + 2 * pdep_bits w (src / 2) (mask / 2)) / 2
          = pdep_bits w (src / 2) (mask / 2) := by omega
      have hmod : (src % 2 + 2 * pdep_bits w (src / 2) (mask / 2)) % 2 = src % 2 := by omega
      cases q with
      | zero =>
        rw [Nat.testBit_zero, hmod]
        constructor
        · intro hs
          exact ⟨0, by rw [Nat.testBit_zero]; exact hs, rfl⟩
        · rintro ⟨i, hi, hq⟩
          cases i with
          | zero => rw [Nat.testBit_zero] at hi; exact hi
          | succ i =>
            simp only at hq
            cases hn : nth_set_bit w (mask / 2) i with
            | none => rw [hn] at hq; cases hq
            | some x =>
              rw [hn] at hq
              simp only [Option.map_some', Option.some.injEq] at hq
              omega
      | succ q =>
        rw [Nat.testBit_succ, hdiv, ih]
        constructor
        · rintro ⟨i, hi, hq⟩
          refine ⟨i + 1, by rw [Nat.testBit_succ]; exact hi, ?_⟩
          simp only [hq, Option.map_some']
        · rintro ⟨i, hi, hq⟩
          cases i with
          | zero => simp only [Option.some.injEq] at hq; omega
          | succ i =>
            simp only at hq
            cases hn : nth_set_bit w (mask / 2) i with
            | none => rw [hn] at hq; cases hq
            | some x =>
              rw [hn] at hq
              simp only [Option.map_some', Option.some.injEq] at hq
              rw [Nat.testBit_succ] at hi
              exact ⟨i, hi, by rw [hn]; congr 1; omega⟩
    · simp only [hm, if_false]
      have hdiv : (2 * pdep_bits w src (mask / 2)) / 2 = pdep_bits w src (mask / 2) := by omega
      have hmod : (2 * pdep_bits w src (mask / 2)) % 2 = 0 := by omega
      cases q with
      | zero =>
        rw [Nat.testBit_zero, hmod]
        constructor
        · intro hs
          simp at hs
        · rintro ⟨i, hi, hq⟩
          cases hn : nth_set_bit w (mask / 2) i with
          | none => rw [hn] at hq; cases hq
          | some x =>
            rw [hn] at hq
            simp only [Option.map_some', Option.some.injEq] at hq
            omega
      | succ q =>
        rw [Nat.testBit_succ, hdiv, ih]
        constructor
        · rintro ⟨i, hi, hq⟩
          exact ⟨i, hi, by simp only [hq, Option.map_some']⟩
        · rintro ⟨i, hi, hq⟩
          cases hn : nth_set_bit w (mask / 2) i with
          | none => rw [hn] at hq; cases hq
          | some x =>
            rw [hn] at hq
            simp only [Option.map_some', Option.some.injEq] at hq
            exact ⟨i, hi, by rw [hn]; congr 1; omega⟩

/-- The deposit has as many set bits as the source has among its low bits, one for each set
bit of the mask. -/
theorem popcnt_pdep_bits : ∀ (w src mask : Nat),
    popcnt_bits w (pdep_bits w src mask) = popcnt_bits (popcnt_bits w mask) src := by
  intro w
  induction w with
  | zero => intro src mask; rfl
  | succ w ih =>
    intro src mask
    simp only [pdep_bits]
    by_cases hm : mask % 2 = 1
    · simp only [hm, if_true]
      have hdiv : (src % 2 + 2 * pdep_bits w (src / 2) (mask / 2)) / 2
          = pdep_bits w (src / 2) (mask / 2) := by omega
      have hmod : (src % 2 + 2 * pdep_bits w (src / 2) (mask / 2)) % 2 = src % 2 := by omega
      have hc : popcnt_bits (w + 1) mask = popcnt_bits w (mask / 2) + 1 := by
        simp only [popcnt_bits, hm]
        omega
      rw [hc]
      simp only [popcnt_bits, hdiv, hmod, ih]
    · simp only [hm, if_false]
      have hdiv : (2 * pdep_bits w src (mask / 2)) / 2 = pdep_bits w src (mask / 2) := by omega
      have hmod : (2 * pdep_bits w src (mask / 2)) % 2 = 0 := by omega
      have hm0 : mask % 2 = 0 := by omega
      have hc : popcnt_bits (w + 1) mask = popcnt_bits w (mask / 2) := by
        simp only [popcnt_bits, hm0]
        omega
      rw [hc]
      simp only [popcnt_bits, hdiv, hmod, ih]
      omega

/-- The set bits of a word and of its complement make up the width. -/
theorem popcnt_bits_complement : ∀ (w x : Nat), x < 2 ^ w →
    popcnt_bits w (2 ^ w - 1 - x) + popcnt_bits w x = w := by
  intro w
  induction w with
  | zero => intro x _; rfl
  | succ w ih =>
    intro x hx
    have hp : (2 : Nat) ^ (w + 1) = 2 * 2 ^ w := by rw [pow_succ]; ring
    have hpos : 0 < (2 : Nat) ^ w := by positivity
    have hdiv : (2 ^ (w + 1) - 1 - x) / 2 = 2 ^ w - 1 - x / 2 := by omega
    have hmod : (2 ^ (w + 1) - 1 - x) % 2 = 1 - x % 2 := by omega
    have := ih (x / 2) (by omega)
    simp only [popcnt_bits, hdiv, hmod]
    omega

/-- The number of free squares: 64 less the number of occupied ones. -/
theorem popcnt_not64 (occ : Nat) (hocc : occ < 2 ^ 64) :
    _mm_popcnt_u64 (not64 occ) = 64 - _mm_popcnt_u64 occ := by
  unfold _mm_popcnt_u64 not64
  rw [Nat.mod_eq_of_lt hocc]
  have := popcnt_bits_complement 64 occ hocc
  omega

/-- Disjoint words: the set bits of the sum are those of the two words. -/
theorem popcnt_bits_add : ∀ (w a b : Nat), a &&& b = 0 →
    popcnt_bits w (a + b) = popcnt_bits w a + popcnt_bits w b := by
  intro w
  induction w with
  | zero => intro a b _; rfl
  | succ w ih =>
    intro a b hab
    rw [and_step] at hab
    have hmod : (a + b) % 2 = a % 2 + b % 2 := by omega
    have hdiv : (a + b) / 2 = a / 2 + b / 2 := by omega
    simp only [popcnt_bits, hmod, hdiv, ih _ _ hab.2]
    omega

/-- The `i`-th set bit of a mask exists when the mask has more than `i` set bits. -/
theorem nth_set_bit_some : ∀ (w mask i : Nat), i < popcnt_bits w mask →
    ∃ q, nth_set_bit w mask i = some q ∧ q < w := by
  intro w
  induction w with
  | zero => intro mask i hi; simp [popcnt_bits] at hi
  | succ w ih =>
    intro mask i hi
    simp only [popcnt_bits] at hi
    simp only [nth_set_bit]
    by_cases hm : mask % 2 = 1
    · simp only [hm, if_true]
      cases i with
      | zero => exact ⟨0, rfl, by omega⟩
      | succ i =>
        obtain ⟨q, hq, hlt⟩ := ih (mask / 2) i (by omega)
        exact ⟨q + 1, by simp only [hq, Option.map_some'], by omega⟩
    · simp only [hm, if_false]
      obtain ⟨q, hq, hlt⟩ := ih (mask / 2) i (by omega)
      exact ⟨q + 1, by simp only [hq, Option.map_some'], by omega⟩

/-- Different ordinals of set bits have different places. -/
theorem nth_set_bit_inj : ∀ (w mask i j q : Nat), nth_set_bit w mask i = some q →
    nth_set_bit w mask j = some q → i = j := by
  intro w
  induction w with
  | zero => intro mask i j q hi; simp [nth_set_bit] at hi
  | succ w ih =>
    intro mask i j q hi hj
    simp only [nth_set_bit] at hi hj
    by_cases hm : mask % 2 = 1
    · simp only [hm, if_true] at hi hj
      cases i with
      | zero =>
        cases j with
        | zero => rfl
        | succ j =>
          simp only [Option.some.injEq] at hi
          subst hi
          simp only at hj
          cases hn : nth_set_bit w (mask / 2) j with
          | none => rw [hn] at hj; cases hj
          | some x =>
            rw [hn] at hj
            simp only [Option.map_some', Option.some.injEq] at hj
            omega
      | succ i =>
        simp only at hi
        cases hn : nth_set_bit w (mask / 2) i with
        | none => rw [hn] at hi; cases hi
        | some x =>
          rw [hn] at hi
          simp only [Option.map_some', Option.some.injEq] at hi
          cases j with
          | zero =>
            simp only [Option.some.injEq] at hj
            omega
          | succ j =>
            simp only at hj
            cases hn' : nth_set_bit w (mask / 2) j with
            | none => rw [hn'] at hj; cases hj
            | some y =>
              rw [hn'] at hj
              simp only [Option.map_some', Option.some.injEq] at hj
              have := ih (mask / 2) i j x hn (by rw [hn']; congr 1; omega)
              omega
    · simp only [hm, if_false] at hi hj
      cases hn : nth_set_bit w (mask / 2) i with
      | none => rw [hn] at hi; cases hi
      | some x =>
        rw [hn] at hi
        simp only [Option.map_some', Option.some.injEq] at hi
        cases hn' : nth_set_bit w (mask / 2) j with
        | none => rw [hn'] at hj; cases hj
        | some y =>
          rw [hn'] at hj
          simp only [Option.map_some', Option.some.injEq] at hj
          exact ih (mask / 2) i j x hn (by rw [hn']; congr 1; omega)

/-- One chessman: the pattern of rank `r` is the single bit `r`. -/
theorem unrank_one : ∀ (m r : Nat), r < m → unrank 1 m r = some (2 ^ r) := by
  intro m
  induction m with
  | zero => intro r hr; omega
  | succ m ih =>
    intro r hr
    have h00 : ∀ x, unrank 0 m x = some 0 := by intro x; cases m <;> rfl
    by_cases h0 : r = 0
    · subst h0
      simp [unrank, h00]
    · have hne : ¬ r < Nat.choose m 0 := by simp; omega
      have := ih (r - 1) (by omega)
      simp only [unrank, hne, if_false, Nat.choose_zero_right, this, Option.map_some']
      have : r = (r - 1) + 1 := by omega
      rw [this, pow_succ]
      simp
      ring

theorem choose_lt_two_pow_64 (n k : Nat) (hn : n ≤ 64) : Nat.choose n k < 2 ^ 64 := by
  have key : ∀ m j : Nat, Nat.choose m j ≤ 2 ^ m ∧ (0 < m → Nat.choose m j < 2 ^ m) := by
    intro m
    induction m with
    | zero =>
      intro j
      cases j with
      | zero => simp
      | succ j => simp
    | succ m ih =>
      intro j
      have hp : (2 : Nat) ^ (m + 1) = 2 ^ m + 2 ^ m := by rw [pow_succ]; ring
      have hpos : 0 < (2 : Nat) ^ m := by positivity
      cases j with
      | zero => simp only [Nat.choose_zero_right]; omega
      | succ j =>
        rw [Nat.choose_succ_succ', hp]
        have h1 := ih j
        have h2 := ih (j + 1)
        by_cases hm : 0 < m
        · have := h1.2 hm
          have := h2.2 hm
          omega
        · have hm0 : m = 0 := by omega
          subst hm0
          have h3 : Nat.choose 0 (j + 1) = 0 := rfl
          have h4 := h1.1
          rw [h3]
          simp only [pow_zero] at h4 ⊢
          omega
  have h64 : (2 : Nat) ^ n ≤ 2 ^ 64 := Nat.pow_le_pow_right (by norm_num) hn
  by_cases h0 : 0 < n
  · have := (key n k).2 h0
    omega
  · have hn0 : n = 0 := by omega
    subst hn0
    have := (key 0 k).1
    have : (2 : Nat) ^ 0 < 2 ^ 64 := by norm_num
    omega

/-- The single chessman of rank `r` goes to the `r`-th free square. -/
theorem deposit_one (occ r : Nat) (hocc : occ < 2 ^ 64)
    (hr : r < 64 - _mm_popcnt_u64 occ) :
    ∃ q, nth_free_square occ r = some q ∧ q < 64 ∧ _pdep_u64 (2 ^ r) (not64 occ) = 2 ^ q := by
  have hf := popcnt_not64 occ hocc
  obtain ⟨q, hq, hlt⟩ := nth_set_bit_some 64 (not64 occ) r (by
    have : popcnt_bits 64 (not64 occ) = _mm_popcnt_u64 (not64 occ) := rfl
    omega)
  refine ⟨q, hq, hlt, ?_⟩
  apply Nat.eq_of_testBit_eq
  intro x
  rw [Nat.testBit_two_pow]
  by_cases hx : q = x
  · subst hx
    rw [decide_eq_true rfl]
    unfold _pdep_u64
    rw [pdep_bits_testBit]
    exact ⟨r, Nat.testBit_two_pow_self, hq⟩
  · rw [decide_eq_false hx]
    cases hb : (_pdep_u64 (2 ^ r) (not64 occ)).testBit x with
    | false => rfl
    | true =>
      exfalso
      unfold _pdep_u64 at hb
      rw [pdep_bits_testBit] at hb
      obtain ⟨i, hi, hn⟩ := hb
      rw [Nat.testBit_two_pow] at hi
      have hri : r = i := of_decide_eq_true hi
      subst hri
      have : nth_set_bit 64 (not64 occ) r = some q := hq
      rw [hn] at this
      exact hx (Option.some.inj this).symm

/-- The generic pass for a count `k` between 1 and the number `f` of free squares: it
deposits the pattern of rank `index mod C(f,k)`. -/
theorem pass_generic_placing (h : headers) (s : decode_state) (bitboard : Nat)
    (root : position_node) (index k : Nat)
    (hb : ∀ m j, m ≤ 64 → j ≤ 64 → h.binomials m j = Nat.choose m j)
    (hnav : point_root_to_matching_child s.root s.index = .ok (root, index, k))
    (hk1 : 1 ≤ k) (hkf : k ≤ 64 - _mm_popcnt_u64 s.occupied_squares) :
    ∃ pattern,
      unrank k (64 - _mm_popcnt_u64 s.occupied_squares)
        (index % Nat.choose (64 - _mm_popcnt_u64 s.occupied_squares) k) = some pattern ∧
      pattern < 2 ^ (64 - _mm_popcnt_u64 s.occupied_squares) ∧
      popcnt_bits (64 - _mm_popcnt_u64 s.occupied_squares) pattern = k ∧
      place_chessmen_relative_to_free_squares h.binomials k
        (64 - _mm_popcnt_u64 s.occupied_squares)
        (index % Nat.choose (64 - _mm_popcnt_u64 s.occupied_squares) k) = .ok pattern ∧
      pass_generic h s bitboard
        = .ok (⟨root, index / Nat.choose (64 - _mm_popcnt_u64 s.occupied_squares) k,
            add64 s.occupied_squares (_pdep_u64 pattern (not64 s.occupied_squares)),
            (s.occupied_squares, _pdep_u64 pattern (not64 s.occupied_squares))
              :: (bitboard, _pdep_u64 pattern (not64 s.occupied_squares)) :: s.trace⟩,
          add64 bitboard (_pdep_u64 pattern (not64 s.occupied_squares)), k) := by
  have hf64 : 64 - _mm_popcnt_u64 s.occupied_squares ≤ 64 := by omega
  have hk64 : k ≤ 64 := by omega
  have hcpos : 0 < Nat.choose (64 - _mm_popcnt_u64 s.occupied_squares) k :=
    Nat.choose_pos hkf
  have hrlt : index % Nat.choose (64 - _mm_popcnt_u64 s.occupied_squares) k
      < Nat.choose (64 - _mm_popcnt_u64 s.occupied_squares) k := Nat.mod_lt _ hcpos
  have hr64 : index % Nat.choose (64 - _mm_popcnt_u64 s.occupied_squares) k < 2 ^ 64 :=
    lt_trans hrlt (choose_lt_two_pow_64 _ _ hf64)
  obtain ⟨pattern, hu, hplt, hpc⟩ := unrank_some_of_lt k _ _ hrlt
  have hplace := place_eq_unrank h.binomials k (64 - _mm_popcnt_u64 s.occupied_squares) hf64
    (fun m j hm hj => hb m j (by omega) (by omega))
    (index % Nat.choose (64 - _mm_popcnt_u64 s.occupied_squares) k)
  rw [hu] at hplace
  refine ⟨pattern, hu, hplt, hpc, hplace, ?_⟩
  unfold pass_generic
  rw [hnav]
  simp only
  rw [if_neg (by omega)]
  have hN : NUM_SQUARES = 64 := rfl
  rw [hN, hb _ _ hf64 hk64]
  unfold fdiv_qr_ui
  rw [if_neg (by omega)]
  simp only
  rw [Nat.mod_eq_of_lt hr64, hplace]
  rfl

/-- C17: with the binomial coefficients in the table and an occupancy mask of 64 bits, for a
call of `pass_generic` whose navigation gives the count k and leaves the index `index`, with
f = 64 - popcount(occupied_squares). For k = 0 the bitboard and the occupancy are unchanged
and the index is not divided. For 1 ≤ k ≤ f the placed mask is the deposit of the pattern of
`place_chessmen_relative_to_free_squares(k, f, index mod C(f,k))`: square q is placed exactly
when q is the i-th free square for a set bit i of the pattern; it has k bits, is disjoint from
the occupancy, is added to the bitboard and to the occupancy, whose popcount grows by k; the
index becomes index div C(f,k) and k is returned; for k = 1 the placed mask is the single
square that is the (index mod f)-th free square. The king placement of lines 389-394 places
the single bit on the (index mod f)-th free square in the same way. -/
theorem pass_generic_places_on_free_squares (h : headers) (s : decode_state) (bitboard : Nat)
    (root : position_node) (index k : Nat)
    (hb : ∀ m j, m ≤ 64 → j ≤ 64 → h.binomials m j = Nat.choose m j)
    (hocc : s.occupied_squares < 2 ^ 64)
    (hnav : point_root_to_matching_child s.root s.index = .ok (root, index, k)) :
    (k = 0 → pass_generic h s bitboard
      = .ok (⟨root, index, s.occupied_squares, s.trace⟩, bitboard, 0)) ∧
    (1 ≤ k → k ≤ 64 - _mm_popcnt_u64 s.occupied_squares →
      ∃ pattern chessmen s',
        place_chessmen_relative_to_free_squares h.binomials k
          (64 - _mm_popcnt_u64 s.occupied_squares)
          (index % Nat.choose (64 - _mm_popcnt_u64 s.occupied_squares) k) = .ok pattern ∧
        pass_generic h s bitboard = .ok (s', add64 bitboard chessmen, k) ∧
        s'.root = root ∧
        s'.index = index / Nat.choose (64 - _mm_popcnt_u64 s.occupied_squares) k ∧
        s'.occupied_squares = add64 s.occupied_squares chessmen ∧
        chessmen = _pdep_u64 pattern (not64 s.occupied_squares) ∧
        (∀ q, chessmen.testBit q = true ↔
          ∃ i, pattern.testBit i = true ∧ nth_free_square s.occupied_squares i = some q) ∧
        _mm_popcnt_u64 chessmen = k ∧
        chessmen &&& s.occupied_squares = 0 ∧
        add64 s.occupied_squares chessmen = s.occupied_squares ||| chessmen ∧
        (bitboard &&& s.occupied_squares = bitboard →
          add64 bitboard chessmen = bitboard ||| chessmen) ∧
        _mm_popcnt_u64 s'.occupied_squares = _mm_popcnt_u64 s.occupied_squares + k ∧
        (k = 1 → ∃ q,
          nth_free_square s.occupied_squares
            (index % (64 - _mm_popcnt_u64 s.occupied_squares)) = some q ∧
          chessmen = 2 ^ q)) ∧
    (∀ (l : locals) (i : Fin 2), l.nfr i = h.NO_CASTLING_RIGHTS →
      l.s.occupied_squares < 2 ^ 64 → 1 ≤ 64 - _mm_popcnt_u64 l.s.occupied_squares →
      ∃ q,
        nth_free_square l.s.occupied_squares
          (l.s.index % (64 - _mm_popcnt_u64 l.s.occupied_squares)) = some q ∧
        2 ^ q &&& l.s.occupied_squares = 0 ∧
        decode_king h i l = .ok
          { l with
            p := l.p.set_piece i h.KING (2 ^ q)
            s := ⟨l.s.root, l.s.index / (64 - _mm_popcnt_u64 l.s.occupied_squares),
              add64 l.s.occupied_squares (2 ^ q),
              (l.s.occupied_squares, 2 ^ q) :: l.s.trace⟩ }) := by
  refine ⟨?_, ?_, ?_⟩
  · intro hk
    subst hk
    unfold pass_generic
    rw [hnav]
    rfl
  · intro hk1 hkf
    obtain ⟨pattern, hu, hplt, hpc, hplace, hpass⟩ :=
      pass_generic_placing h s bitboard root index k hb hnav hk1 hkf
    obtain ⟨hdis, hlt⟩ := pdep_disjoint_occupied pattern s.occupied_squares hocc
    have hdis' : s.occupied_squares &&& _pdep_u64 pattern (not64 s.occupied_squares) = 0 := by
      rw [Nat.and_comm]; exact hdis
    have hor := add64_eq_or _ _ hocc hlt hdis'
    have hpop : _mm_popcnt_u64 (_pdep_u64 pattern (not64 s.occupied_squares)) = k := by
      have h1 := popcnt_pdep_bits 64 pattern (not64 s.occupied_squares)
      have h2 := popcnt_not64 s.occupied_squares hocc
      unfold _mm_popcnt_u64 _pdep_u64 at *
      rw [h1, h2]
      exact hpc
    refine ⟨pattern, _pdep_u64 pattern (not64 s.occupied_squares), _, hplace, hpass, rfl, rfl,
      rfl, rfl, ?_, hpop, hdis, hor, ?_, ?_, ?_⟩
    · intro q
      unfold _pdep_u64 nth_free_square
      exact pdep_bits_testBit 64 pattern (not64 s.occupied_squares) q
    · intro hbb
      exact add64_eq_or _ _ (lt_of_and_eq_left _ _ hbb hocc) hlt
        (disjoint_of_subset _ _ _ hbb hdis')
    · show _mm_popcnt_u64 (add64 s.occupied_squares
        (_pdep_u64 pattern (not64 s.occupied_squares))) = _
      rw [← hpop]
      have hsum : add64 s.occupied_squares (_pdep_u64 pattern (not64 s.occupied_squares))
          = s.occupied_squares + _pdep_u64 pattern (not64 s.occupied_squares) := by
        rw [hor, add_eq_or_of_disjoint _ _ hdis']
      rw [hsum]
      exact popcnt_bits_add 64 _ _ hdis'
    · intro hk
      subst hk
      have hc1 : Nat.choose (64 - _mm_popcnt_u64 s.occupied_squares) 1
          = 64 - _mm_popcnt_u64 s.occupied_squares := Nat.choose_one_right _
      rw [hc1] at hu
      have hr : index % (64 - _mm_popcnt_u64 s.occupied_squares)
          < 64 - _mm_popcnt_u64 s.occupied_squares := Nat.mod_lt _ (by omega)
      rw [unrank_one _ _ hr] at hu
      have hpat := Option.some.inj hu
      obtain ⟨q, hq, _, hdep⟩ := deposit_one s.occupied_squares _ hocc hr
      exact ⟨q, hq, by rw [← hpat, hdep]⟩
  · intro l i hn hlocc hf
    have hr : l.s.index % (64 - _mm_popcnt_u64 l.s.occupied_squares)
        < 64 - _mm_popcnt_u64 l.s.occupied_squares := Nat.mod_lt _ (by omega)
    obtain ⟨q, hq, hq64, hdep⟩ := deposit_one l.s.occupied_squares _ hlocc hr
    have hdis := (pdep_disjoint_occupied
      (2 ^ (l.s.index % (64 - _mm_popcnt_u64 l.s.occupied_squares))) l.s.occupied_squares
      hlocc).1
    rw [hdep] at hdis
    refine ⟨q, hq, hdis, ?_⟩
    have hf64 : 64 - _mm_popcnt_u64 l.s.occupied_squares ≤ 64 := by omega
    have hplace := place_eq_unrank h.binomials 1 (64 - _mm_popcnt_u64 l.s.occupied_squares)
      hf64 (fun m j hm hj => hb m j (by omega) (by omega))
      (l.s.index % (64 - _mm_popcnt_u64 l.s.occupied_squares))
    rw [unrank_one _ _ hr] at hplace
    have hr64 : l.s.index % (64 - _mm_popcnt_u64 l.s.occupied_squares) < 2 ^ 64 := by
      have : (64 : Nat) < 2 ^ 64 := by norm_num
      omega
    unfold decode_king
    rw [if_pos hn]
    have hN : NUM_SQUARES = 64 := rfl
    rw [hN]
    unfold fdiv_qr_ui
    have hne : ¬ (64 - _mm_popcnt_u64 l.s.occupied_squares = 0) := by omega
    simp only [hne, if_false, bind, Except.bind, pure, Except.pure, Nat.mod_eq_of_lt hr64,
      hplace, placed_or_fatal, hdep]

set_option maxRecDepth 100000 in
/-- C17, witness: three occupied squares (bits 0, 1 and 3), a node whose child number 2 holds
the index 17, so that two chessmen are placed among 61 free squares. -/
theorem pass_generic_places_on_free_squares_witness :
    pass_generic example_headers ⟨via 2 (.mk 1000000 []), 17, 11, []⟩ 0
      = .ok (⟨.mk 1000000 [], 0, 11 + 2 ^ 2 + 2 ^ 21, [(11, 2 ^ 2 + 2 ^ 21), (0, 2 ^ 2 + 2 ^ 21)]⟩,
        2 ^ 2 + 2 ^ 21, 2) ∧
    ((2 = 0 → pass_generic example_headers ⟨via 2 (.mk 1000000 []), 17, 11, []⟩ 0
      = .ok (⟨.mk 1000000 [], 17, 11, []⟩, 0, 0)) ∧
    (1 ≤ 2 → 2 ≤ 64 - _mm_popcnt_u64 11 →
      ∃ pattern chessmen s',
        place_chessmen_relative_to_free_squares example_headers.binomials 2
          (64 - _mm_popcnt_u64 11) (17 % Nat.choose (64 - _mm_popcnt_u64 11) 2) = .ok pattern ∧
        pass_generic example_headers ⟨via 2 (.mk 1000000 []), 17, 11, []⟩ 0
          = .ok (s', add64 0 chessmen, 2) ∧
        s'.root = .mk 1000000 [] ∧
        s'.index = 17 / Nat.choose (64 - _mm_popcnt_u64 11) 2 ∧
        s'.occupied_squares = add64 11 chessmen ∧
        chessmen = _pdep_u64 pattern (not64 11) ∧
        (∀ q, chessmen.testBit q = true ↔
          ∃ i, pattern.testBit i = true ∧ nth_free_square 11 i = some q) ∧
        _mm_popcnt_u64 chessmen = 2 ∧
        chessmen &&& 11 = 0 ∧
        add64 11 chessmen = 11 ||| chessmen ∧
        (0 &&& 11 = 0 → add64 0 chessmen = 0 ||| chessmen) ∧
        _mm_popcnt_u64 s'.occupied_squares = _mm_popcnt_u64 11 + 2 ∧
        (2 = 1 → ∃ q,
          nth_free_square 11 (17 % (64 - _mm_popcnt_u64 11)) = some q ∧ chessmen = 2 ^ q)) ∧
    (∀ (l : locals) (i : Fin 2), l.nfr i = example_headers.NO_CASTLING_RIGHTS →
      l.s.occupied_squares < 2 ^ 64 → 1 ≤ 64 - _mm_popcnt_u64 l.s.occupied_squares →
      ∃ q,
        nth_free_square l.s.occupied_squares
          (l.s.index % (64 - _mm_popcnt_u64 l.s.occupied_squares)) = some q ∧
        2 ^ q &&& l.s.occupied_squares = 0 ∧
        decode_king example_headers i l = .ok
          { l with
            p := l.p.set_piece i example_headers.KING (2 ^ q)
            s := ⟨l.s.root, l.s.index / (64 - _mm_popcnt_u64 l.s.occupied_squares),
              add64 l.s.occupied_squares (2 ^ q),
              (l.s.occupied_squares, 2 ^ q) :: l.s.trace⟩ })) :=
  ⟨rfl,
    pass_generic_places_on_free_squares example_headers ⟨via 2 (.mk 1000000 []), 17, 11, []⟩ 0
      (.mk 1000000 []) 17 2 (fun _ _ _ _ => rfl) (by decide) rfl⟩

/-! ## The order of the patterns -/

theorem bit_positions_succ (w x : Nat) :
    bit_positions (w + 1) x
      = (if x % 2 = 1 then [0] else []) ++ (bit_positions w (x / 2)).map (fun i => i + 1) := by
  unfold bit_positions
  rw [List.range_succ_eq_map, List.filter_cons, List.filter_map]
  have hf : ((fun i => x.testBit i) ∘ Nat.succ) = (fun i => (x / 2).testBit i) := by
    funext i
    simp only [Function.comp]
    exact Nat.testBit_succ x i
  rw [hf]
  have hs : (Nat.succ : Nat → Nat) = (fun i => i + 1) := rfl
  rw [hs]
  by_cases h : x % 2 = 1
  · simp [Nat.testBit_zero, h]
  · simp [Nat.testBit_zero, h]

theorem bit_positions_double (w q : Nat) :
    bit_positions (w + 1) (2 * q) = (bit_positions w q).map (fun i => i + 1) := by
  rw [bit_positions_succ]
  have h1 : 2 * q % 2 = 0 := by omega
  have h2 : 2 * q / 2 = q := by omega
  simp [h1, h2]

theorem bit_positions_double_succ (w q : Nat) :
    bit_positions (w + 1) (2 * q + 1) = 0 :: (bit_positions w q).map (fun i => i + 1) := by
  rw [bit_positions_succ]
  have h1 : (2 * q + 1) % 2 = 1 := by omega
  have h2 : (2 * q + 1) / 2 = q := by omega
  simp [h1, h2]

theorem bit_positions_zero (w : Nat) : bit_positions w 0 = [] := by
  unfold bit_positions
  simp

/-- There is one position for each set bit. -/
theorem bit_positions_length : ∀ (w x : Nat), (bit_positions w x).length = popcnt_bits w x := by
  intro w
  induction w with
  | zero => intro x; rfl
  | succ w ih =>
    intro x
    rw [bit_positions_succ]
    simp only [popcnt_bits, List.length_append, List.length_map, ih]
    rcases Nat.mod_two_eq_zero_or_one x with h | h <;> simp [h]

/-- Bits above the value's width hold no position. -/
theorem bit_positions_of_lt (m : Nat) : ∀ (w p : Nat), p < 2 ^ m → m ≤ w →
    bit_positions w p = bit_positions m p := by
  induction m with
  | zero =>
    intro w p hp _
    have : p = 0 := by simpa using hp
    subst this
    rw [bit_positions_zero, bit_positions_zero]
  | succ m ih =>
    intro w p hp hw
    obtain ⟨w, rfl⟩ : ∃ v, w = v + 1 := ⟨w - 1, by omega⟩
    have hp2 : p / 2 < 2 ^ m := by
      rw [pow_succ] at hp
      omega
    rw [bit_positions_succ, bit_positions_succ, ih w (p / 2) hp2 (by omega)]

theorem lex_map_succ (l₁ l₂ : List Nat) (h : List.Lex (· < ·) l₁ l₂) :
    List.Lex (· < ·) (l₁.map (fun i => i + 1)) (l₂.map (fun i => i + 1)) := by
  induction h with
  | nil => exact List.Lex.nil
  | cons _ ih => exact List.Lex.cons ih
  | rel hab => exact List.Lex.rel (Nat.add_lt_add_right hab 1)

/-- A smaller rank gives a lexicographically smaller list of positions. -/
theorem unrank_lex : ∀ (m k r r' : Nat), r < r' → r' < Nat.choose m k →
    ∃ p p', unrank k m r = some p ∧ unrank k m r' = some p' ∧
      List.Lex (· < ·) (bit_positions m p) (bit_positions m p') := by
  intro m
  induction m with
  | zero =>
    intro k r r' hr hr'
    cases k with
    | zero => simp at hr'; omega
    | succ k => simp at hr'
  | succ m ih =>
    intro k r r' hr hr'
    cases k with
    | zero => simp at hr'; omega
    | succ k =>
      rw [Nat.choose_succ_succ'] at hr'
      by_cases c' : r' < Nat.choose m k
      · have c : r < Nat.choose m k := by omega
        obtain ⟨q, q', hq, hq', hlex⟩ := ih k r r' hr c'
        refine ⟨2 * q + 1, 2 * q' + 1, by simp [unrank, c, hq], by simp [unrank, c', hq'], ?_⟩
        rw [bit_positions_double_succ, bit_positions_double_succ]
        exact List.Lex.cons (lex_map_succ _ _ hlex)
      · by_cases c : r < Nat.choose m k
        · obtain ⟨q, hq, _, _⟩ := unrank_some_of_lt k m r c
          obtain ⟨q', hq', _, hpc⟩ := unrank_some_of_lt (k + 1) m (r' - Nat.choose m k)
            (by omega)
          refine ⟨2 * q + 1, 2 * q', by simp [unrank, c, hq], by simp [unrank, c', hq'], ?_⟩
          rw [bit_positions_double_succ, bit_positions_double]
          have hlen := bit_positions_length m q'
          rw [hpc] at hlen
          cases hbp : bit_positions m q' with
          | nil => rw [hbp] at hlen; simp at hlen
          | cons a l =>
            simp only [List.map_cons]
            exact List.Lex.rel (by omega)
        · obtain ⟨q, q', hq, hq', hlex⟩ := ih (k + 1) (r - Nat.choose m k)
            (r' - Nat.choose m k) (by omega) (by omega)
          refine ⟨2 * q, 2 * q', by simp [unrank, c, hq], by simp [unrank, c', hq'], ?_⟩
          rw [bit_positions_double, bit_positions_double]
          exact lex_map_succ _ _ hlex

/-- Rank 0 gives the `k` lowest positions. -/
theorem unrank_first : ∀ (m k : Nat), k ≤ m →
    ∃ p, unrank k m 0 = some p ∧ bit_positions m p = List.range k := by
  intro m
  induction m with
  | zero =>
    intro k hk
    have : k = 0 := by omega
    subst this
    exact ⟨0, rfl, rfl⟩
  | succ m ih =>
    intro k hk
    cases k with
    | zero => exact ⟨0, rfl, by rw [bit_positions_zero]; rfl⟩
    | succ k =>
      obtain ⟨q, hq, hbp⟩ := ih k (by omega)
      have hc : 0 < Nat.choose m k := Nat.choose_pos (by omega)
      refine ⟨2 * q + 1, by simp [unrank, hc, hq], ?_⟩
      rw [bit_positions_double_succ, hbp, List.range_succ_eq_map]

/-- The last rank gives the `k` highest positions. -/
theorem unrank_last : ∀ (m k : Nat), k ≤ m →
    ∃ p, unrank k m (Nat.choose m k - 1) = some p ∧
      bit_positions m p = (List.range k).map (fun i => i + (m - k)) := by
  intro m
  induction m with
  | zero =>
    intro k hk
    have : k = 0 := by omega
    subst this
    exact ⟨0, rfl, rfl⟩
  | succ m ih =>
    intro k hk
    cases k with
    | zero => exact ⟨0, rfl, by rw [bit_positions_zero]; rfl⟩
    | succ k =>
      rw [Nat.choose_succ_succ']
      by_cases hkm : k = m
      · subst hkm
        obtain ⟨q, hq, hbp⟩ := unrank_first k k (le_refl _)
        have h1 : Nat.choose k k = 1 := Nat.choose_self k
        have h2 : Nat.choose k (k + 1) = 0 := Nat.choose_succ_self k
        refine ⟨2 * q + 1, by simp [unrank, h1, h2, hq], ?_⟩
        rw [bit_positions_double_succ, hbp, List.range_succ_eq_map]
        simp [Function.comp]
      · obtain ⟨q, hq, hbp⟩ := ih (k + 1) (by omega)
        have hc : 0 < Nat.choose m (k + 1) := Nat.choose_pos (by omega)
        have hne : ¬ Nat.choose m k + Nat.choose m (k + 1) - 1 < Nat.choose m k := by omega
        have hsub : Nat.choose m k + Nat.choose m (k + 1) - 1 - Nat.choose m k
            = Nat.choose m (k + 1) - 1 := by omega
        refine ⟨2 * q, by simp [unrank, hne, hsub, hq], ?_⟩
        rw [bit_positions_double, hbp, List.map_map]
        apply List.map_congr_left
        intro i _
        simp only [Function.comp]
        omega

theorem bit_positions_two_pow : ∀ (w r : Nat), r < w → bit_positions w (2 ^ r) = [r] := by
  intro w
  induction w with
  | zero => intro r hr; omega
  | succ w ih =>
    intro r hr
    cases r with
    | zero =>
      have : (2 : Nat) ^ 0 = 2 * 0 + 1 := rfl
      rw [this, bit_positions_double_succ, bit_positions_zero]
      rfl
    | succ r =>
      have : (2 : Nat) ^ (r + 1) = 2 * 2 ^ r := by rw [pow_succ]; ring
      rw [this, bit_positions_double, ih r (by omega)]
      rfl

/-- C18: with the binomial coefficients in the table and 0 ≤ k ≤ n ≤ 64: for ranks
r < r' < C(n,k) the increasing list of the set-bit positions of the pattern of r is
lexicographically smaller than that of the pattern of r'; rank 0 gives the positions
0 .. k-1; rank C(n,k) - 1 gives the positions n-k .. n-1; and with one chessman rank r gives
the single position r. -/
theorem place_chessmen_lexicographic (binomials : Nat → Nat → Nat) (k n : Nat)
    (hkn : k ≤ n) (hn : n ≤ 64)
    (hb : ∀ m j, m ≤ 64 → j ≤ 64 → binomials m j = Nat.choose m j) :
    (∀ r r', r < r' → r' < Nat.choose n k →
      ∃ p p', place_chessmen_relative_to_free_squares binomials k n r = .ok p ∧
        place_chessmen_relative_to_free_squares binomials k n r' = .ok p' ∧
        List.Lex (· < ·) (bit_positions 64 p) (bit_positions 64 p')) ∧
    (∃ p, place_chessmen_relative_to_free_squares binomials k n 0 = .ok p ∧
      bit_positions 64 p = List.range k) ∧
    (∃ p, place_chessmen_relative_to_free_squares binomials k n (Nat.choose n k - 1) = .ok p ∧
      bit_positions 64 p = (List.range k).map (fun i => i + (n - k))) ∧
    (∀ r, r < n → place_chessmen_relative_to_free_squares binomials 1 n r = .ok (2 ^ r) ∧
      bit_positions 64 (2 ^ r) = [r]) := by
  have heq := place_eq_unrank binomials k n hn
    (fun m j hm hj => hb m j (by omega) (by omega))
  have heq1 := place_eq_unrank binomials 1 n hn
    (fun m j hm hj => hb m j (by omega) (by omega))
  refine ⟨?_, ?_, ?_, ?_⟩
  · intro r r' hr hr'
    obtain ⟨p, p', hp, hp', hlex⟩ := unrank_lex n k r r' hr hr'
    have h1 := unrank_lt_of_some k n r p hp
    have h2 := unrank_lt_of_some k n r' p' hp'
    refine ⟨p, p', by rw [heq, hp]; rfl, by rw [heq, hp']; rfl, ?_⟩
    rw [bit_positions_of_lt n 64 p h1 hn, bit_positions_of_lt n 64 p' h2 hn]
    exact hlex
  · obtain ⟨p, hp, hbp⟩ := unrank_first n k hkn
    have h1 := unrank_lt_of_some k n 0 p hp
    refine ⟨p, by rw [heq, hp]; rfl, ?_⟩
    rw [bit_positions_of_lt n 64 p h1 hn]
    exact hbp
  · obtain ⟨p, hp, hbp⟩ := unrank_last n k hkn
    have h1 := unrank_lt_of_some k n _ p hp
    refine ⟨p, by rw [heq, hp]; rfl, ?_⟩
    rw [bit_positions_of_lt n 64 p h1 hn]
    exact hbp
  · intro r hr
    refine ⟨by rw [heq1, unrank_one n r hr]; rfl, bit_positions_two_pow 64 r (by omega)⟩

/-- C18, witness: k = 2, n = 5 with the table of binomial coefficients: the ten ranks give
the position lists [0,1], [0,2], [0,3], [0,4], [1,2], [1,3], [1,4], [2,3], [2,4], [3,4]. -/
theorem place_chessmen_lexicographic_witness :
    (List.range 10).map (fun r => (place_chessmen_relative_to_free_squares Nat.choose 2 5 r).map
        (bit_positions 64))
      = [.ok [0, 1], .ok [0, 2], .ok [0, 3], .ok [0, 4], .ok [1, 2], .ok [1, 3], .ok [1, 4],
        .ok [2, 3], .ok [2, 4], .ok [3, 4]] ∧
    ((∀ r r', r < r' → r' < Nat.choose 5 2 →
      ∃ p p', place_chessmen_relative_to_free_squares Nat.choose 2 5 r = .ok p ∧
        place_chessmen_relative_to_free_squares Nat.choose 2 5 r' = .ok p' ∧
        List.Lex (· < ·) (bit_positions 64 p) (bit_positions 64 p')) ∧
    (∃ p, place_chessmen_relative_to_free_squares Nat.choose 2 5 0 = .ok p ∧
      bit_positions 64 p = List.range 2) ∧
    (∃ p, place_chessmen_relative_to_free_squares Nat.choose 2 5 (Nat.choose 5 2 - 1) = .ok p ∧
      bit_positions 64 p = (List.range 2).map (fun i => i + (5 - 2))) ∧
    (∀ r, r < 5 → place_chessmen_relative_to_free_squares Nat.choose 1 5 r = .ok (2 ^ r) ∧
      bit_positions 64 (2 ^ r) = [r])) :=
  ⟨by decide,
    place_chessmen_lexicographic Nat.choose 2 5 (by decide) (by decide) (fun _ _ _ _ => rfl)⟩

/-- The fixed-rook pass writes `_fr` and `pieces[KING]` of the side and adds to the combined
mask; every other field of the position is as before. -/
theorem fixed_rooks_assignments (h : headers) (p : position) (side : Fin 2) (m kg : Nat) :
    (((({ p.set_fr side m with
          fixed_rooks := add64 (p.set_fr side m).fixed_rooks m }).set_piece side h.KING
        kg).sides side)._fr = m) ∧
    (((({ p.set_fr side m with
          fixed_rooks := add64 (p.set_fr side m).fixed_rooks m }).set_piece side h.KING
        kg).sides side).pieces h.KING = kg) ∧
    (∀ i, ((({ p.set_fr side m with
          fixed_rooks := add64 (p.set_fr side m).fixed_rooks m }).set_piece side h.KING
        kg).sides i).pawns = (p.sides i).pawns) ∧
    (∀ i j, (i ≠ side ∨ j ≠ h.KING) →
      ((({ p.set_fr side m with
          fixed_rooks := add64 (p.set_fr side m).fixed_rooks m }).set_piece side h.KING
        kg).sides i).pieces j = (p.sides i).pieces j) ∧
    (∀ i, i ≠ side →
      ((({ p.set_fr side m with
          fixed_rooks := add64 (p.set_fr side m).fixed_rooks m }).set_piece side h.KING
        kg).sides i)._fr = (p.sides i)._fr) := by
  refine ⟨?_, ?_, ?_, ?_, ?_⟩
  · simp [position.set_piece, position.set_fr]
  · simp [position.set_piece, position.set_fr]
  · intro i
    simp only [position.set_piece, position.set_fr]
    by_cases hi : i = side
    · subst hi; simp
    · simp [Function.update_noteq hi]
  · intro i j hij
    simp only [position.set_piece, position.set_fr]
    by_cases hi : i = side
    · subst hi
      have hj : j ≠ h.KING := by
        rcases hij with h1 | h1
        · exact absurd rfl h1
        · exact h1
      simp [Function.update_noteq hj]
    · simp [Function.update_noteq hi]
  · intro i hi
    simp only [position.set_piece, position.set_fr]
    simp [Function.update_noteq hi]

/-- C19: with the header constants NO_CASTLING_RIGHTS = 0, CASTLING_RIGHTS_ONE_SIDE = 1,
CASTLING_RIGHTS_BOTH_SIDES = 2 and ONE_FIXED_ROOK_VARIATIONS = 2, for a call of
`pass_fixed_rooks_and_kings` whose navigation gives the count n ≤ 2 and leaves the index
`index`: for side 0 the side-local mask is empty for n = 0, bit 0 or bit 7 for n = 1 as
index mod 2 is 0 or 1, and bits 0 and 7 for n = 2, so that it has n set bits; the king is on
the home square for n ≥ 1 and absent for n = 0; for side 1 both are mirrored across the
central rows; the index is halved for n = 1 only; the mask is added to the combined
fixed-rook mask, the mask and the king to the occupancy; n is returned; and no other field of
the position is changed. -/
theorem fixed_rook_pass_masks (h : headers) (s : decode_state) (p : position) (side : Fin 2)
    (root : position_node) (index n : Nat)
    (hc0 : h.NO_CASTLING_RIGHTS = 0) (hc1 : h.CASTLING_RIGHTS_ONE_SIDE = 1)
    (hc2 : h.CASTLING_RIGHTS_BOTH_SIDES = 2) (hv : h.ONE_FIXED_ROOK_VARIATIONS = 2)
    (hnav : point_root_to_matching_child s.root s.index = .ok (root, index, n))
    (hn : n ≤ 2) :
    ∃ mask king m kg p',
      mask = (if n = 0 then 0
        else if n = 1 then (if index % 2 = 0 then 2 ^ 0 else 2 ^ 7) else 2 ^ 0 + 2 ^ 7) ∧
      king = (if 1 ≤ n then rcb 0 h.KING_HOME_COLUMN_0INDEX else 0) ∧
      m = (if side = 1 then rotate_bitboard_across_central_rows mask else mask) ∧
      kg = (if side = 1 then rotate_bitboard_across_central_rows king else king) ∧
      _mm_popcnt_u64 mask = n ∧ _mm_popcnt_u64 m = n ∧
      pass_fixed_rooks_and_kings h s p side
        = .ok (⟨root, if n = 1 then index / 2 else index,
            add64 s.occupied_squares (add64 m kg),
            (s.occupied_squares, add64 m kg) :: (p.fixed_rooks, m) :: s.trace⟩, p', n) ∧
      (p'.sides side)._fr = m ∧ (p'.sides side).pieces h.KING = kg ∧
      p'.fixed_rooks = add64 p.fixed_rooks m ∧
      p'.enpassant = p.enpassant ∧ p'.side0isBlack = p.side0isBlack ∧
      p'.side0toMove = p.side0toMove ∧
      (∀ i, (p'.sides i).pawns = (p.sides i).pawns) ∧
      (∀ i j, (i ≠ side ∨ j ≠ h.KING) → (p'.sides i).pieces j = (p.sides i).pieces j) ∧
      (∀ i, i ≠ side → (p'.sides i)._fr = (p.sides i)._fr) := by
  have hrot0 : rotate_bitboard_across_central_rows 0 = 0 := by decide
  -- the switch
  have hsw : fixed_rooks_switch h n index
      = .ok (if n = 1 then index / 2 else index,
          if n = 0 then 0
          else if n = 1 then (if index % 2 = 0 then 2 ^ 0 else 2 ^ 7) else 2 ^ 0 + 2 ^ 7) := by
    unfold fixed_rooks_switch fdiv_qr_ui
    rw [hc0, hc1, hc2, hv]
    interval_cases n
    · rfl
    · simp only [show ¬ (1 = 0) by decide, if_false, if_true]
      rcases Nat.mod_two_eq_zero_or_one index with h0 | h0
      · rw [h0]; rfl
      · rw [h0]; rfl
    · rfl
  have hpop : ∀ side : Fin 2,
      _mm_popcnt_u64 (if n = 0 then 0
        else if n = 1 then (if index % 2 = 0 then 2 ^ 0 else 2 ^ 7) else 2 ^ 0 + 2 ^ 7) = n ∧
      _mm_popcnt_u64 (if side = 1 then rotate_bitboard_across_central_rows
          (if n = 0 then 0
            else if n = 1 then (if index % 2 = 0 then 2 ^ 0 else 2 ^ 7) else 2 ^ 0 + 2 ^ 7)
        else (if n = 0 then 0
          else if n = 1 then (if index % 2 = 0 then 2 ^ 0 else 2 ^ 7) else 2 ^ 0 + 2 ^ 7))
        = n := by
    intro side
    interval_cases n
    · simp only [eq_self_iff_true, if_true]
      fin_cases side <;> exact ⟨by decide, by decide⟩
    · simp only [show ¬ ((1 : Nat) = 0) by decide, eq_self_iff_true, if_true, if_false]
      rcases Nat.mod_two_eq_zero_or_one index with h0 | h0
      · rw [h0]
        fin_cases side <;> exact ⟨by decide, by decide⟩
      · rw [h0]
        fin_cases side <;> exact ⟨by decide, by decide⟩
    · simp only [show ¬ ((2 : Nat) = 0) by decide, show ¬ ((2 : Nat) = 1) by decide, if_false]
      fin_cases side <;> exact ⟨by decide, by decide⟩
  obtain ⟨a1, a2, a3, a4, a5⟩ := fixed_rooks_assignments h p side
    (if side = 1 then rotate_bitboard_across_central_rows
        (if n = 0 then 0
          else if n = 1 then (if index % 2 = 0 then 2 ^ 0 else 2 ^ 7) else 2 ^ 0 + 2 ^ 7)
      else (if n = 0 then 0
        else if n = 1 then (if index % 2 = 0 then 2 ^ 0 else 2 ^ 7) else 2 ^ 0 + 2 ^ 7))
    (if side = 1 then rotate_bitboard_across_central_rows
        (if 1 ≤ n then rcb 0 h.KING_HOME_COLUMN_0INDEX else 0)
      else (if 1 ≤ n then rcb 0 h.KING_HOME_COLUMN_0INDEX else 0))
  refine ⟨_, _, _, _, _, rfl, rfl, rfl, rfl, (hpop side).1, (hpop side).2, ?_, a1, a2, rfl, rfl,
    rfl, rfl, a3, a4, a5⟩
  unfold pass_fixed_rooks_and_kings
  rw [hnav]
  simp only
  rw [hsw]
  simp only
  by_cases hpos : n > 0
  · have h1n : 1 ≤ n := hpos
    by_cases hside : side = 1
    · simp only [hpos, hside, h1n, true_and, if_true]
    · simp only [hpos, hside, h1n, and_false, if_true, if_false]
  · have hn0 : n = 0 := by omega
    subst hn0
    by_cases hside : side = 1
    · simp only [hside, if_true]
      simp only [show ¬ (0 > 0) by decide, show ¬ (1 ≤ 0) by decide, false_and, if_false,
        hrot0, show ¬ ((0 : Nat) = 1) by decide]
    · simp only [hside, if_false]
      simp only [show ¬ (0 > 0) by decide, show ¬ (1 ≤ 0) by decide, false_and, if_false,
        show ¬ ((0 : Nat) = 1) by decide]

/-- C19, witness: side 1, a node whose child number 1 holds the index 7, with the example
headers: one fixed rook, index mod 2 = 1, so bit 7 mirrored to bit 63, and the king on column
4 mirrored to bit 60; the index becomes 3. -/
theorem fixed_rook_pass_masks_witness :
    rotate_bitboard_across_central_rows (2 ^ 7) = 2 ^ 63 ∧
    rotate_bitboard_across_central_rows (rcb 0 example_headers.KING_HOME_COLUMN_0INDEX)
      = 2 ^ 60 ∧
    ∃ mask king m kg p',
      mask = (if (1 : Nat) = 0 then 0
        else if (1 : Nat) = 1 then (if 7 % 2 = 0 then 2 ^ 0 else 2 ^ 7) else 2 ^ 0 + 2 ^ 7) ∧
      king = (if 1 ≤ (1 : Nat) then rcb 0 example_headers.KING_HOME_COLUMN_0INDEX else 0) ∧
      m = (if (1 : Fin 2) = 1 then rotate_bitboard_across_central_rows mask else mask) ∧
      kg = (if (1 : Fin 2) = 1 then rotate_bitboard_across_central_rows king else king) ∧
      _mm_popcnt_u64 mask = 1 ∧ _mm_popcnt_u64 m = 1 ∧
      pass_fixed_rooks_and_kings example_headers
          ⟨via 1 (.mk 1000 []), 7, 0, []⟩ position.zero 1
        = .ok (⟨.mk 1000 [], if (1 : Nat) = 1 then 7 / 2 else 7,
            add64 0 (add64 m kg),
            (0, add64 m kg) :: (position.zero.fixed_rooks, m) :: []⟩, p', 1) ∧
      (p'.sides 1)._fr = m ∧ (p'.sides 1).pieces example_headers.KING = kg ∧
      p'.fixed_rooks = add64 position.zero.fixed_rooks m ∧
      p'.enpassant = position.zero.enpassant ∧ p'.side0isBlack = position.zero.side0isBlack ∧
      p'.side0toMove = position.zero.side0toMove ∧
      (∀ i, (p'.sides i).pawns = (position.zero.sides i).pawns) ∧
      (∀ i j, (i ≠ 1 ∨ j ≠ example_headers.KING) → (p'.sides i).pieces j = (position.zero.sides i).pieces j) ∧
      (∀ i, i ≠ 1 → (p'.sides i)._fr = (position.zero.sides i)._fr) :=
  ⟨by decide, by decide,
    fixed_rook_pass_masks example_headers ⟨via 1 (.mk 1000 []), 7, 0, []⟩ position.zero 1
      (.mk 1000 []) 7 1 rfl rfl rfl rfl rfl (by decide)⟩

/-! ## The closing stages -/

/-- The decode is its placement stages followed by the closing stages. -/
theorem decode_factor (h : headers) (root : position_node) (index : Nat) :
    decode h root index = (decode_placement h root index >>= decode_closing h) := by
  unfold decode decode_placement
  cases decode_pawns h root index with
  | error e => rfl
  | ok l1 =>
    simp only [bind, Except.bind]
    cases decode_fixed_rooks h l1 with
    | error e => rfl
    | ok l2 =>
      simp only
      cases decode_pieces h l2 with
      | error e => rfl
      | ok l3 => simp only

/-- After the placement stages the invariant holds. -/
theorem decode_placement_spec (h : headers) (hl : layout_ok h) (root : position_node)
    (index : Nat) (l : locals) (hp : decode_placement h root index = .ok l) :
    invariant h l.p l.s.occupied_squares ∧ trace_ok l.s.trace := by
  unfold decode_placement at hp
  obtain ⟨l1, h1, hp⟩ := except_bind_ok _ _ _ hp
  obtain ⟨l2, h2, hp⟩ := except_bind_ok _ _ _ hp
  obtain ⟨l3, h3, hp⟩ := except_bind_ok _ _ _ hp
  obtain ⟨a1, a2, a3⟩ := decode_pawns_spec h root index l1 h1 hl
  obtain ⟨b1, b2, _⟩ := decode_fixed_rooks_spec h l1 l2 h2 hl a1 a2 a3
  obtain ⟨c1, c2, _⟩ := decode_pieces_spec h hl l2 l3 h3 b1 b2
  obtain ⟨d1, d2, _⟩ := decode_kings_spec h hl l3 l hp c1 c2
  exact ⟨d1, d2⟩

/-- The non-king bitboards of one side after the permutation recovery and the exchange of
rook and queen. -/
theorem relabelled_pieces (h : headers) (hR : h.ROOK < 4) (hQ : h.QUEEN < 4)
    (sides : Fin 2 → side) (nfr : Fin 2 → Nat) (permutations : Fin 2 → Nat → Int) (i : Fin 2)
    (hperm : is_permutation (permutations i)) (j : Nat) (hj : j < 4) :
    (swap_sides h nfr (permute_sides permutations sides) i).pieces j
      = (sides i).pieces
          (permutations i (swapped h (nfr i = h.CASTLING_RIGHTS_BOTH_SIDES) j)).toNat := by
  have hperm4 : ∀ (j : Nat), j < 4 →
      (permute_side (sides i) (permutations i)).pieces j
        = (sides i).pieces (permutations i j).toNat := by
    intro j hj
    have := hperm.1 j hj
    have h4 : (permutations i j).toNat < NUM_PIECE_TYPES_LESS_KING := by
      unfold NUM_PIECE_TYPES_LESS_KING; omega
    have hj4 : j < NUM_PIECE_TYPES_LESS_KING := hj
    simp only [permute_side, hj4, h4, if_true]
  simp only [swap_sides, permute_sides]
  by_cases hn : nfr i = h.CASTLING_RIGHTS_BOTH_SIDES
  · simp only [hn, if_true, swap_rook_queen, swapped, Function.update_apply]
    by_cases hjQ : j = h.QUEEN
    · simp only [hjQ, if_true]
      exact hperm4 h.ROOK hR
    · simp only [hjQ, if_false]
      by_cases hjR : j = h.ROOK
      · simp only [hjR, if_true]
        exact hperm4 h.QUEEN hQ
      · simp only [hjR, if_false]
        exact hperm4 j hj
  · simp only [hn, if_false, swapped]
    exact hperm4 j hj

/-- The king, the pawns and the side-local fixed-rook mask after the permutation recovery and
the exchange of rook and queen. -/
theorem relabelled_frame (h : headers) (hR : h.ROOK < 4) (hQ : h.QUEEN < 4) (hK : 4 ≤ h.KING)
    (sides : Fin 2 → side) (nfr : Fin 2 → Nat) (permutations : Fin 2 → Nat → Int) (i : Fin 2) :
    (swap_sides h nfr (permute_sides permutations sides) i).pieces h.KING
        = (sides i).pieces h.KING ∧
      (swap_sides h nfr (permute_sides permutations sides) i).pawns = (sides i).pawns ∧
      (swap_sides h nfr (permute_sides permutations sides) i)._fr = (sides i)._fr := by
  have hK4 : ¬ h.KING < NUM_PIECE_TYPES_LESS_KING := by
    unfold NUM_PIECE_TYPES_LESS_KING; omega
  have hKR : h.KING ≠ h.ROOK := by omega
  have hKQ : h.KING ≠ h.QUEEN := by omega
  simp only [swap_sides, permute_sides]
  by_cases hn : nfr i = h.CASTLING_RIGHTS_BOTH_SIDES
  · simp only [hn, if_true, swap_rook_queen, Function.update_noteq hKQ,
      Function.update_noteq hKR, permute_side, hK4, if_false]
    exact ⟨trivial, trivial, trivial⟩
  · simp only [hn, if_false, permute_side, hK4]
    exact ⟨trivial, trivial, trivial⟩

/-- A map of {0, 1, 2, 3} into itself that takes no value twice takes every value. -/
theorem surjective_of_injective_four (σ : Nat → Nat) (hlt : ∀ j, j < 4 → σ j < 4)
    (hinj : ∀ j, j < 4 → ∀ k, k < 4 → σ j = σ k → j = k) :
    ∀ k, k < 4 → ∃ j, j < 4 ∧ σ j = k := by
  let g : Fin 4 → Fin 4 := fun j => ⟨σ j, hlt j j.isLt⟩
  have hg : Function.Injective g := by
    intro a b hab
    have := congrArg Fin.val hab
    exact Fin.ext (hinj a a.isLt b b.isLt this)
  have hs : Function.Surjective g := Finite.injective_iff_surjective.1 hg
  intro k hk
  obtain ⟨j, hj⟩ := hs ⟨k, hk⟩
  exact ⟨j, j.isLt, congrArg Fin.val hj⟩

/-- A square is in the union of four bitboards when it is in one of them. -/
theorem or_four_testBit (f : Nat → Nat) (q : Nat) :
    (f 0 ||| f 1 ||| f 2 ||| f 3).testBit q = true ↔ ∃ j, j < 4 ∧ (f j).testBit q = true := by
  simp only [Nat.testBit_or, Bool.or_eq_true]
  constructor
  · rintro (((h | h) | h) | h)
    · exact ⟨0, by norm_num, h⟩
    · exact ⟨1, by norm_num, h⟩
    · exact ⟨2, by norm_num, h⟩
    · exact ⟨3, by norm_num, h⟩
  · rintro ⟨j, hj, h⟩
    interval_cases j
    · exact Or.inl (Or.inl (Or.inl h))
    · exact Or.inl (Or.inl (Or.inr h))
    · exact Or.inl (Or.inr h)
    · exact Or.inr h

/-- The union of four bitboards taken in another order, one of them with a mask added, is the
union of the four bitboards together with the mask. -/
theorem or_four_rearranged (a : Nat → Nat) (σ : Nat → Nat) (hlt : ∀ j, j < 4 → σ j < 4)
    (hinj : ∀ j, j < 4 → ∀ k, k < 4 → σ j = σ k → j = k) (fr R : Nat) (hR : R < 4)
    (f : Nat → Nat) (hf : ∀ j, j < 4 → f j = a (σ j) ||| (if j = R then fr else 0)) :
    f 0 ||| f 1 ||| f 2 ||| f 3 = (a 0 ||| a 1 ||| a 2 ||| a 3) ||| fr := by
  apply Nat.eq_of_testBit_eq
  intro q
  rw [Bool.eq_iff_iff, or_four_testBit f q, Nat.testBit_or, Bool.or_eq_true,
    or_four_testBit a q]
  constructor
  · rintro ⟨j, hj, hq⟩
    rw [hf j hj, Nat.testBit_or, Bool.or_eq_true] at hq
    rcases hq with hq | hq
    · exact Or.inl ⟨σ j, hlt j hj, hq⟩
    · by_cases hjR : j = R
      · rw [if_pos hjR] at hq
        exact Or.inr hq
      · rw [if_neg hjR, Nat.zero_testBit] at hq
        cases hq
  · rintro (⟨k, hk, hq⟩ | hq)
    · obtain ⟨j, hj, hjk⟩ := surjective_of_injective_four σ hlt hinj k hk
      refine ⟨j, hj, ?_⟩
      rw [hf j hj, Nat.testBit_or, Bool.or_eq_true, hjk]
      exact Or.inl hq
    · refine ⟨R, hR, ?_⟩
      rw [hf R hR, Nat.testBit_or, Bool.or_eq_true, if_pos rfl]
      exact Or.inr hq

/-- What the closing stages return: the looked-up permutations, and the sides after the
permutation recovery, the exchange of rook and queen and the addition of the fixed rooks. -/
theorem decode_closing_eq (h : headers) (l : locals) (r : decode_result)
    (hc : decode_closing h l = .ok r) :
    lookup_permutations h l = .ok r.permutations ∧
      r.p.sides
        = add_fixed_rooks h (swap_sides h l.nfr (permute_sides r.permutations l.p.sides)) := by
  unfold decode_closing at hc
  cases hlk : lookup_permutations h l with
  | error e => rw [hlk] at hc; cases hc
  | ok permutations =>
    rw [hlk] at hc
    simp only at hc
    injection hc with hc
    subst hc
    exact ⟨rfl, rfl⟩

/-- A bitboard of a position that satisfies the invariant is a 64-bit value. -/
theorem board_lt_of_invariant (h : headers) (p : position) (occupied_squares : Nat)
    (hinv : invariant h p occupied_squares) (s : slot) : board h p s < 2 ^ 64 := by
  have h1 := hinv.2.1 s
  have h2 : board h p s &&& occupied_squares ≤ occupied_squares := Nat.and_le_right
  rw [h1] at h2
  exact lt_of_le_of_lt h2 hinv.1

/-! ## C20: the closing stages rearrange the non-king bitboards -/

/-- C20: let the placement stages of a decode leave the locals `l` (their bitboards are the
provisional ones) and the closing stages (permutation recovery, exchange of rook and queen,
addition of the fixed rooks) turn them into the result `r`, and let the looked-up table entry
of side `i` be a permutation of {0, 1, 2, 3}. Then the decode returns `r`; after the recovery
board `j` of the side is the provisional board `perm[j]`; rook and queen are then exchanged
exactly when the side has both rooks fixed (`swapped`); the final board `j` is the provisional
board `perm[swapped j]`, with the fixed-rook mask of the side joined to the rook board only;
the map `j ↦ perm[swapped j]` takes every value of {0, 1, 2, 3} once, so the final boards
are a rearrangement of the provisional ones; the union of the final non-king boards is the
union of the provisional ones together with the fixed-rook mask; and, on both sides, the pawns,
the king and the side-local fixed-rook mask, and the en-passant mask, the combined fixed-rook
mask and the two flags of the position are unchanged. -/
theorem closing_stages_rearrange (h : headers) (root : position_node) (index : Nat)
    (l : locals) (r : decode_result) (hl : layout_ok h)
    (hp : decode_placement h root index = .ok l) (hc : decode_closing h l = .ok r)
    (i : Fin 2) (hperm : is_permutation (r.permutations i)) :
    decode h root index = .ok r ∧
      lookup_permutations h l = .ok r.permutations ∧
      (∀ j, j < 4 →
        (permute_side (l.p.sides i) (r.permutations i)).pieces j
          = (l.p.sides i).pieces (r.permutations i j).toNat) ∧
      (∀ j, j < 4 →
        (swap_sides h l.nfr (permute_sides r.permutations l.p.sides) i).pieces j
          = (permute_side (l.p.sides i) (r.permutations i)).pieces
              (swapped h (l.nfr i = h.CASTLING_RIGHTS_BOTH_SIDES) j)) ∧
      (∀ j, j < 4 →
        (r.p.sides i).pieces j
          = (l.p.sides i).pieces
              (r.permutations i (swapped h (l.nfr i = h.CASTLING_RIGHTS_BOTH_SIDES) j)).toNat
            ||| (if j = h.ROOK then (l.p.sides i)._fr else 0)) ∧
      (∀ k, k < 4 → ∃ j, j < 4 ∧
        (r.permutations i (swapped h (l.nfr i = h.CASTLING_RIGHTS_BOTH_SIDES) j)).toNat = k) ∧
      (∀ j, j < 4 → ∀ k, k < 4 →
        (r.permutations i (swapped h (l.nfr i = h.CASTLING_RIGHTS_BOTH_SIDES) j)).toNat
          = (r.permutations i (swapped h (l.nfr i = h.CASTLING_RIGHTS_BOTH_SIDES) k)).toNat →
        j = k) ∧
      non_king_squares (r.p.sides i)
        = non_king_squares (l.p.sides i) ||| (l.p.sides i)._fr ∧
      (∀ k, (r.p.sides k).pawns = (l.p.sides k).pawns ∧
        (r.p.sides k).pieces h.KING = (l.p.sides k).pieces h.KING ∧
        (r.p.sides k)._fr = (l.p.sides k)._fr) ∧
      r.p.enpassant = l.p.enpassant ∧ r.p.fixed_rooks = l.p.fixed_rooks ∧
      r.p.side0isBlack = l.p.side0isBlack ∧ r.p.side0toMove = l.p.side0toMove := by
  have hR : h.ROOK < 4 := hl.2.2.2.2.2.2.2.2.2.2.2.1
  have hQ : h.QUEEN < 4 := hl.2.2.2.2.2.2.2.2.2.2.2.2.1
  have hK : 4 ≤ h.KING := hl.2.2.2.2.2.2.2.2.2.2.2.2.2
  obtain ⟨hinv, _⟩ := decode_placement_spec h hl root index l hp
  obtain ⟨hlk, hsides⟩ := decode_closing_eq h l r hc
  have hdec : decode h root index = .ok r := by
    rw [decode_factor, hp]
    exact hc
  -- the source of a final board
  have hlt : ∀ j, j < 4 →
      (r.permutations i (swapped h (l.nfr i = h.CASTLING_RIGHTS_BOTH_SIDES) j)).toNat < 4 := by
    intro j hj
    have := hperm.1 _ (swapped_lt h hR hQ (l.nfr i = h.CASTLING_RIGHTS_BOTH_SIDES) j hj)
    omega
  have hinj : ∀ j, j < 4 → ∀ k, k < 4 →
      (r.permutations i (swapped h (l.nfr i = h.CASTLING_RIGHTS_BOTH_SIDES) j)).toNat
        = (r.permutations i (swapped h (l.nfr i = h.CASTLING_RIGHTS_BOTH_SIDES) k)).toNat →
      j = k := by
    intro j hj k hk hjk
    have hsj := swapped_lt h hR hQ (l.nfr i = h.CASTLING_RIGHTS_BOTH_SIDES) j hj
    have hsk := swapped_lt h hR hQ (l.nfr i = h.CASTLING_RIGHTS_BOTH_SIDES) k hk
    have h1 := hperm.1 _ hsj
    have h2 := hperm.1 _ hsk
    have h3 : r.permutations i (swapped h (l.nfr i = h.CASTLING_RIGHTS_BOTH_SIDES) j)
        = r.permutations i (swapped h (l.nfr i = h.CASTLING_RIGHTS_BOTH_SIDES) k) := by
      omega
    exact swapped_inj h _ j k (hperm.2 _ hsj _ hsk h3)
  -- after the recovery
  have hrec : ∀ j, j < 4 →
      (permute_side (l.p.sides i) (r.permutations i)).pieces j
        = (l.p.sides i).pieces (r.permutations i j).toNat := by
    intro j hj
    have := hperm.1 j hj
    have h4 : (r.permutations i j).toNat < NUM_PIECE_TYPES_LESS_KING := by
      unfold NUM_PIECE_TYPES_LESS_KING; omega
    have hj4 : j < NUM_PIECE_TYPES_LESS_KING := hj
    simp only [permute_side, hj4, h4, if_true]
  have hrel := relabelled_pieces h hR hQ l.p.sides l.nfr r.permutations i hperm
  have hswap : ∀ j, j < 4 →
      (swap_sides h l.nfr (permute_sides r.permutations l.p.sides) i).pieces j
        = (permute_side (l.p.sides i) (r.permutations i)).pieces
            (swapped h (l.nfr i = h.CASTLING_RIGHTS_BOTH_SIDES) j) := by
    intro j hj
    rw [hrel j hj,
      hrec _ (swapped_lt h hR hQ (l.nfr i = h.CASTLING_RIGHTS_BOTH_SIDES) j hj)]
  have hframe := relabelled_frame h hR hQ hK l.p.sides l.nfr r.permutations
  -- the final boards
  have hfinal : ∀ j, j < 4 →
      (r.p.sides i).pieces j
        = (l.p.sides i).pieces
            (r.permutations i (swapped h (l.nfr i = h.CASTLING_RIGHTS_BOTH_SIDES) j)).toNat
          ||| (if j = h.ROOK then (l.p.sides i)._fr else 0) := by
    intro j hj
    rw [hsides]
    simp only [add_fixed_rooks, Function.update_apply]
    by_cases hjR : j = h.ROOK
    · simp only [hjR, if_true]
      rw [hrel h.ROOK hR, (hframe i).2.2]
      have hd := hinv.2.2.1
        (.piece i ⟨_, hlt h.ROOK hR⟩) (.fr i) (by intro hne; cases hne)
      exact add64_eq_or _ _
        (board_lt_of_invariant h l.p _ hinv (.piece i ⟨_, hlt h.ROOK hR⟩))
        (board_lt_of_invariant h l.p _ hinv (.fr i)) hd
    · simp only [hjR, if_false]
      rw [hrel j hj, Nat.or_zero]
  have hking : ∀ k, (r.p.sides k).pawns = (l.p.sides k).pawns ∧
      (r.p.sides k).pieces h.KING = (l.p.sides k).pieces h.KING ∧
      (r.p.sides k)._fr = (l.p.sides k)._fr := by
    intro k
    have hKR : h.KING ≠ h.ROOK := by omega
    rw [hsides]
    simp only [add_fixed_rooks, Function.update_noteq hKR]
    exact ⟨(hframe k).2.1, (hframe k).1, (hframe k).2.2⟩
  refine ⟨hdec, hlk, hrec, hswap, hfinal,
    surjective_of_injective_four _ hlt hinj, hinj, ?_, hking, decode_closing_flags h l r hc⟩
  exact or_four_rearranged (l.p.sides i).pieces _ hlt hinj (l.p.sides i)._fr h.ROOK hR
    (r.p.sides i).pieces hfinal

set_option maxRecDepth 100000 in
/-- The closing stages on the decode of index 12345 in the example tree, with the rotated
permutation table: the one piece of side 0, placed on provisional board 0, ends on the rook
board. -/
theorem closing_stages_rearrange_witness :
    ((value_or locals.zero
        (decode_placement rotated_headers example_tree 12345)).p.sides 0).pieces 0 = 2 ^ 18 ∧
      ((value_or decode_result.zero
        (decode rotated_headers example_tree 12345)).p.sides 0).pieces 3 = 2 ^ 18 ∧
      non_king_squares ((value_or decode_result.zero
        (decode rotated_headers example_tree 12345)).p.sides 0)
        = non_king_squares ((value_or locals.zero
            (decode_placement rotated_headers example_tree 12345)).p.sides 0)
          ||| ((value_or locals.zero
            (decode_placement rotated_headers example_tree 12345)).p.sides 0)._fr :=
  ⟨by decide, by decide,
    (closing_stages_rearrange rotated_headers example_tree 12345
      (value_or locals.zero (decode_placement rotated_headers example_tree 12345))
      (value_or decode_result.zero (decode rotated_headers example_tree 12345))
      (by decide) rfl rfl 0 (by decide)).2.2.2.2.2.2.2.1⟩

end TreeSearch
